import Mathlib

/-!
Verification of the hadrix-flow analysis core against its specification.

The TypeScript sources are shallowly embedded as executable Lean definitions.
Modelling conventions, used consistently below:

* Branded identifier strings (`FuncId`, `StmtId`, `CallsiteId`, `VarId`,
  `HeapId`) are, by construction in `ids.ts`, always in canonical form, so the
  canonical string and its parsed parts are in bijection.  Pipeline code is
  therefore modelled over the structural parts (`FuncIdP`, `StmtIdP`, ...);
  the string level (URI encoding, canonical integers) is modelled separately
  for the identifier-algebra claims.
* JavaScript numbers are modelled as `Nat`/`Int` with explicit
  `Number.MAX_SAFE_INTEGER` bounds where the source checks them.  Only
  integral values occur in the modelled code paths.
* JavaScript strings are sequences of Unicode scalar values (Lean `String`);
  relational operators on JS strings compare UTF-16 code units, which
  `cmpString` below reproduces.
* `Map`/`Set` objects are modelled as insertion-ordered association lists
  with the same get/set semantics (`alistGet`, `alistSet`).
* A thrown exception is modelled as `Option.none` (or a dedicated error
  value where the distinction between error kinds matters).
* `stableSort` (comparator plus original-index tiebreak) is modelled by
  `List.insertionSort` with the non-strict relation `cmp a b ≠ .gt`, which is
  a stable sort and hence produces the identical list.
-/

/-- `Number.MAX_SAFE_INTEGER`. -/
def MAX_SAFE_INTEGER : Nat := 9007199254740991

/-- UTF-16 code units of a Unicode scalar value (JS strings are UTF-16). -/
def charUtf16 (c : Char) : List Nat :=
  let v := c.toNat
  if v < 0x10000 then [v]
  else [0xD800 + (v - 0x10000) / 0x400, 0xDC00 + (v - 0x10000) % 0x400]

/-- The UTF-16 code-unit sequence of a string. -/
def utf16Units (s : String) : List Nat := s.data.flatMap charUtf16

/-- Lexicographic comparison of code-unit sequences. -/
def cmpNatList : List Nat → List Nat → Ordering
  | [], [] => .eq
  | [], _ :: _ => .lt
  | _ :: _, [] => .gt
  | a :: as, b :: bs => (compare a b).then (cmpNatList as bs)

/-- `cmpString` from determinism.ts: JS `<`/`>` on strings, i.e. lexicographic
comparison of UTF-16 code units. -/
def cmpString (a b : String) : Ordering := cmpNatList (utf16Units a) (utf16Units b)

/-- `cmpNumber` from determinism.ts, restricted to the `Nat`-valued fields it
is applied to in the modelled code (the finiteness guard cannot fire). -/
def cmpNumber (a b : Nat) : Ordering := compare a b

/-- JS `Map.prototype.get` on an insertion-ordered association list (keys are
unique by construction, so first-match lookup is exact). -/
def alistGet {α β : Type} [DecidableEq α] : List (α × β) → α → Option β
  | [], _ => none
  | (k, v) :: rest, key => if k = key then some v else alistGet rest key

/-- JS `Map.prototype.set`: replace in place if the key is present, else
append. -/
def alistSet {α β : Type} [DecidableEq α] : List (α × β) → α → β → List (α × β)
  | [], key, val => [(key, val)]
  | (k, v) :: rest, key, val =>
      if k = key then (k, val) :: rest else (k, v) :: alistSet rest key val

/-- JS `Set` de-duplication keeping first occurrences (insertion order). -/
def dedupKeepFirst {α : Type} [DecidableEq α] (l : List α) : List α :=
  l.foldl (fun acc x => if x ∈ acc then acc else acc ++ [x]) []

/-- `stableSort` from determinism.ts (comparator + original-index tiebreak),
realized as an insertion sort with the non-strict relation. -/
def stableSortBy {α : Type} (cmp : α → α → Ordering) (l : List α) : List α :=
  List.insertionSort (fun a b => cmp a b ≠ Ordering.gt) l

/-! ## Identifier parts (ids.ts)

Structural forms of the canonical identifier strings.  `FuncIdParts`,
`StmtIdParts`, `VarIdParts` and `HeapIdParts` in ids.ts. -/

/-- Parts of a `FuncId`: `(filePath, startOffset, endOffset)`. -/
structure FuncIdP where
  filePath : String
  startOffset : Nat
  endOffset : Nat
deriving DecidableEq, Repr

/-- Parts of a `StmtId`: a `FuncId` plus `statementIndex`. -/
structure StmtIdP where
  filePath : String
  startOffset : Nat
  endOffset : Nat
  statementIndex : Nat
deriving DecidableEq, Repr

/-- Callsite IDs are statement IDs (ids.ts). -/
abbrev CallsiteIdP := StmtIdP

/-- The p/v tag of a `VarId`. -/
inductive VarKindP where
  | p
  | v
deriving DecidableEq, Repr

/-- Parts of a `VarId`: tag and index. -/
structure VarIdP where
  kind : VarKindP
  index : Nat
deriving DecidableEq, Repr

/-- Parts of a `HeapId`: allocation-site `StmtId` plus property name. -/
structure HeapIdP where
  site : StmtIdP
  propertyName : String
deriving DecidableEq, Repr

/-- The `FuncId` a statement ID belongs to (its file/span triple). -/
def StmtIdP.toFuncId (s : StmtIdP) : FuncIdP := ⟨s.filePath, s.startOffset, s.endOffset⟩

/-- `createStmtId` on parts: attach a statement index to a function's span. -/
def mkStmtIdP (f : FuncIdP) (statementIndex : Nat) : StmtIdP :=
  ⟨f.filePath, f.startOffset, f.endOffset, statementIndex⟩

/-- `cmpFuncId` from ids.ts: lexicographic on `(filePath, startOffset, endOffset)`. -/
def cmpFuncId (a b : FuncIdP) : Ordering :=
  (cmpString a.filePath b.filePath).then
    ((cmpNumber a.startOffset b.startOffset).then (cmpNumber a.endOffset b.endOffset))

/-- `cmpStmtId` from ids.ts. -/
def cmpStmtId (a b : StmtIdP) : Ordering :=
  (cmpString a.filePath b.filePath).then
    ((cmpNumber a.startOffset b.startOffset).then
      ((cmpNumber a.endOffset b.endOffset).then
        (cmpNumber a.statementIndex b.statementIndex)))

/-- `cmpCallsiteId` from ids.ts. -/
def cmpCallsiteId (a b : CallsiteIdP) : Ordering := cmpStmtId a b

/-- `cmpVarId` from ids.ts: all `p*` before all `v*`, then by index. -/
def cmpVarId (a b : VarIdP) : Ordering :=
  match a.kind, b.kind with
  | .p, .v => .lt
  | .v, .p => .gt
  | _, _ => cmpNumber a.index b.index

/-- `cmpHeapId` from ids.ts. -/
def cmpHeapId (a b : HeapIdP) : Ordering :=
  (cmpStmtId a.site b.site).then (cmpString a.propertyName b.propertyName)

/-! ## Normalized IR (ir.ts), structural form -/

/-- Literal payload of an IR `lit` rvalue. -/
inductive IrLitP where
  | str (s : String)
  | num (v : Int)
  | bool (b : Bool)
  | null
deriving DecidableEq, Repr

/-- `IrRValue` from ir.ts. -/
inductive IrRValueP where
  | var (id : VarIdP)
  | lit (value : IrLitP)
  | undef
  | unknown
deriving DecidableEq, Repr

/-- `IrPropertyKey` from ir.ts. -/
inductive IrPropertyKeyP where
  | named (name : String)
  | dynamic
deriving DecidableEq, Repr

/-- Allocation kind of an `alloc` statement. -/
inductive AllocKindP where
  | objNew
  | obj
  | array
deriving DecidableEq, Repr

/-- `IrStmt` from ir.ts (`return` is spelled `ret`, a Lean keyword clash). -/
inductive IrStmtP where
  | assign (stmtId : StmtIdP) (dst : VarIdP) (src : IrRValueP)
  | ret (stmtId : StmtIdP) (value : Option IrRValueP)
  | call (callsiteId : CallsiteIdP) (dst : Option VarIdP) (callee : IrRValueP)
      (args : List IrRValueP)
  | await (stmtId : StmtIdP) (dst : VarIdP) (src : IrRValueP)
  | alloc (stmtId : StmtIdP) (dst : VarIdP) (allocKind : AllocKindP)
      (ctor : Option IrRValueP) (args : List IrRValueP)
  | member_read (stmtId : StmtIdP) (dst : VarIdP) (object : VarIdP)
      (property : IrPropertyKeyP) (optional : Bool)
  | member_write (stmtId : StmtIdP) (object : VarIdP) (property : IrPropertyKeyP)
      (value : IrRValueP) (optional : Bool)
  | select (stmtId : StmtIdP) (dst : VarIdP) (cond : IrRValueP)
      (thenValue : IrRValueP) (elseValue : IrRValueP)
  | short_circuit (stmtId : StmtIdP) (dst : VarIdP) (op : Nat)
      (lhs : IrRValueP) (rhs : IrRValueP)
deriving DecidableEq, Repr

/-- `NormalizedFuncIR` from ir.ts (the constant `schemaVersion: 1` field is
omitted). -/
structure NormalizedFuncIRP where
  funcId : FuncIdP
  params : List VarIdP
  locals : List VarIdP
  stmts : List IrStmtP
deriving DecidableEq, Repr

/-! ## Cheap static pass (cheap_static_pass.ts) -/

/-- `CheapDepNode` from cheap_static_pass.ts. -/
inductive CheapDepNodeP where
  | var (id : VarIdP)
  | call_arg (callsiteId : CallsiteIdP) (index : Nat)
  | heap_read (id : HeapIdP)
  | heap_write (id : HeapIdP)
  | ret
deriving DecidableEq, Repr

/-- `CheapDepEdge` from cheap_static_pass.ts (`from` is a Lean keyword, so the
fields are `from'`/`to'`). -/
structure CheapDepEdgeP where
  from' : CheapDepNodeP
  to' : CheapDepNodeP
deriving DecidableEq, Repr

/-- `NODE_KIND_ORDER` from cheap_static_pass.ts. -/
def cheapNodeKindRank : CheapDepNodeP → Nat
  | .var _ => 0
  | .call_arg _ _ => 1
  | .heap_read _ => 2
  | .heap_write _ => 3
  | .ret => 4

/-- `cmpCheapDepNode` from cheap_static_pass.ts. -/
def cmpCheapDepNode (a b : CheapDepNodeP) : Ordering :=
  match a, b with
  | .var x, .var y => cmpVarId x y
  | .call_arg c i, .call_arg d j => (cmpCallsiteId c d).then (cmpNumber i j)
  | .heap_read x, .heap_read y => cmpHeapId x y
  | .heap_write x, .heap_write y => cmpHeapId x y
  | .ret, .ret => .eq
  | x, y => cmpNumber (cheapNodeKindRank x) (cheapNodeKindRank y)

/-- `cmpCheapDepEdge` from cheap_static_pass.ts. -/
def cmpCheapDepEdge (a b : CheapDepEdgeP) : Ordering :=
  (cmpCheapDepNode a.from' b.from').then (cmpCheapDepNode a.to' b.to')

/-- `SYNTHETIC_HEAP_ANCHOR_BASE` (cheap_static_pass.ts / interproc_propagation.ts). -/
def SYNTHETIC_HEAP_ANCHOR_BASE : Nat := 1000000000

/-- `SYNTHETIC_HEAP_ANCHOR_LOCAL_OFFSET`. -/
def SYNTHETIC_HEAP_ANCHOR_LOCAL_OFFSET : Nat := 500000000

/-- `syntheticHeapAnchorId`: params anchor at `BASE + i`, locals at
`BASE + LOCAL_OFFSET + i`.  (`createStmtId`'s safe-integer assertion cannot
fire for the index ranges of normalized IR.) -/
def syntheticHeapAnchorId (funcId : FuncIdP) (id : VarIdP) : StmtIdP :=
  let offset :=
    match id.kind with
    | .p => id.index
    | .v => SYNTHETIC_HEAP_ANCHOR_LOCAL_OFFSET + id.index
  mkStmtIdP funcId (SYNTHETIC_HEAP_ANCHOR_BASE + offset)

/-- `heapAnchorForVar`: the recorded anchor, defaulting to the synthetic one. -/
def heapAnchorForVar (anchorByVar : List (VarIdP × StmtIdP)) (funcId : FuncIdP)
    (id : VarIdP) : StmtIdP :=
  (alistGet anchorByVar id).getD (syntheticHeapAnchorId funcId id)

/-- `rvalueToVarId`. -/
def rvalueToVarId : IrRValueP → Option VarIdP
  | .var id => some id
  | _ => none

/-- `propertyKeyToBucketName`: dynamic keys bucket as `"*"`. -/
def propertyKeyToBucketName : IrPropertyKeyP → String
  | .named n => n
  | .dynamic => "*"

/-- `createHeapId` on parts.  (The source asserts a non-empty property name,
which holds for every bucket name arising from normalized IR.) -/
def createHeapIdP (site : StmtIdP) (propertyName : String) : HeapIdP :=
  ⟨site, propertyName⟩

/-- The initial heap-anchor map of `runCheapStaticPassV2`: every param and
local is pre-anchored to its synthetic allocation site. -/
def cheapAnchorInit (ir : NormalizedFuncIRP) : List (VarIdP × StmtIdP) :=
  (ir.params ++ ir.locals).foldl
    (fun m id => alistSet m id (syntheticHeapAnchorId ir.funcId id)) []

/-- The heap-anchor update performed by one loop iteration of
`runCheapStaticPassV2` (the anchor map evolves independently of the emitted
edges). -/
def cheapAnchorStep (funcId : FuncIdP) (m : List (VarIdP × StmtIdP)) :
    IrStmtP → List (VarIdP × StmtIdP)
  | .assign stmtId dst src =>
      match rvalueToVarId src with
      | some srcV => alistSet m dst (heapAnchorForVar m funcId srcV)
      | none => alistSet m dst stmtId
  | .ret _ _ => m
  | .call callsiteId dst _ _ =>
      match dst with
      | some d => alistSet m d callsiteId
      | none => m
  | .await stmtId dst _ => alistSet m dst stmtId
  | .alloc stmtId dst _ _ _ => alistSet m dst stmtId
  | .member_read stmtId dst _ _ _ => alistSet m dst stmtId
  | .member_write _ _ _ _ _ => m
  | .select stmtId dst _ _ _ => alistSet m dst stmtId
  | .short_circuit stmtId dst _ _ _ => alistSet m dst stmtId

/-- The dependency edges emitted by one loop iteration of
`runCheapStaticPassV2`, given the anchor map before the statement. -/
def cheapEdgesOf (funcId : FuncIdP) (m : List (VarIdP × StmtIdP)) :
    IrStmtP → List CheapDepEdgeP
  | .assign _ dst src =>
      match rvalueToVarId src with
      | some s => [⟨.var s, .var dst⟩]
      | none => []
  | .ret _ value =>
      match value with
      | some v =>
          match rvalueToVarId v with
          | some s => [⟨.var s, .ret⟩]
          | none => []
      | none => []
  | .call callsiteId _ _ args =>
      (args.enum).filterMap fun p =>
        (rvalueToVarId p.2).map fun s => ⟨.var s, .call_arg callsiteId p.1⟩
  | .await _ _ _ => []
  | .alloc _ _ _ _ _ => []
  | .member_read _ dst object property _ =>
      [⟨.heap_read (createHeapIdP (heapAnchorForVar m funcId object)
          (propertyKeyToBucketName property)), .var dst⟩]
  | .member_write _ object property value _ =>
      match rvalueToVarId value with
      | some s =>
          [⟨.var s, .heap_write (createHeapIdP (heapAnchorForVar m funcId object)
              (propertyKeyToBucketName property))⟩]
      | none => []
  | .select _ _ _ _ _ => []
  | .short_circuit _ _ _ _ _ => []

/-- One loop iteration of `runCheapStaticPassV2` (edges accumulated, anchor
map updated). -/
def cheapPassFold (funcId : FuncIdP)
    (acc : List CheapDepEdgeP × List (VarIdP × StmtIdP)) (st : IrStmtP) :
    List CheapDepEdgeP × List (VarIdP × StmtIdP) :=
  (acc.1 ++ cheapEdgesOf funcId acc.2 st, cheapAnchorStep funcId acc.2 st)

/-- Result of the cheap static pass. -/
structure CheapStaticPassV2ResultP where
  funcId : FuncIdP
  edges : List CheapDepEdgeP
deriving DecidableEq, Repr

/-- `runCheapStaticPassV2` from cheap_static_pass.ts: baseline edges plus heap
edges via anchors, de-duplicated (set semantics on structural edge keys) and
stably sorted. -/
def runCheapStaticPassV2 (ir : NormalizedFuncIRP) : CheapStaticPassV2ResultP :=
  let acc := ir.stmts.foldl (cheapPassFold ir.funcId) ([], cheapAnchorInit ir)
  ⟨ir.funcId, stableSortBy cmpCheapDepEdge (dedupKeepFirst acc.1)⟩

/-- The heap-anchor map after processing the first `k` statements of `ir`. -/
def cheapAnchorsAfter (ir : NormalizedFuncIRP) (k : Nat) : List (VarIdP × StmtIdP) :=
  (ir.stmts.take k).foldl (cheapAnchorStep ir.funcId) (cheapAnchorInit ir)

/-! ## Mapped call graph (mapped_callgraph.ts) -/

/-- `MappedCallEdge`: `(callerFuncId, calleeFuncId, callsiteId)`. -/
structure MappedCallEdgeP where
  callerFuncId : FuncIdP
  calleeFuncId : FuncIdP
  callsiteId : CallsiteIdP
deriving DecidableEq, Repr

/-- `cmpMappedCallEdge`. -/
def cmpMappedCallEdge (a b : MappedCallEdgeP) : Ordering :=
  (cmpFuncId a.callerFuncId b.callerFuncId).then
    ((cmpFuncId a.calleeFuncId b.calleeFuncId).then
      (cmpCallsiteId a.callsiteId b.callsiteId))

/-- `cmpMappedCallEdgeByCallee`. -/
def cmpMappedCallEdgeByCallee (a b : MappedCallEdgeP) : Ordering :=
  (cmpFuncId a.calleeFuncId b.calleeFuncId).then
    ((cmpFuncId a.callerFuncId b.callerFuncId).then
      (cmpCallsiteId a.callsiteId b.callsiteId))

/-- `MappedCallGraph`. -/
structure MappedCallGraphP where
  nodes : List FuncIdP
  edges : List MappedCallEdgeP
  outgoingByCaller : List (FuncIdP × List MappedCallEdgeP)
  incomingByCallee : List (FuncIdP × List MappedCallEdgeP)
  calleesByCaller : List (FuncIdP × List FuncIdP)
  callersByCallee : List (FuncIdP × List FuncIdP)
deriving DecidableEq, Repr

/-- Append a value to the list stored under `k` (JS pattern: `arr.push(v)` on
the existing entry, else `map.set(k, [v])`). -/
def alistAppend {α β : Type} [DecidableEq α] (m : List (α × List β)) (k : α) (v : β) :
    List (α × List β) :=
  match alistGet m k with
  | some arr => alistSet m k (arr ++ [v])
  | none => alistSet m k [v]

/-- `normalizeMappedCallGraph` from mapped_callgraph.ts.  `none` models the
thrown error when a callsite does not belong to its caller's span. -/
def normalizeMappedCallGraph (nodesOpt : Option (List FuncIdP))
    (edgesIn : List MappedCallEdgeP) : Option MappedCallGraphP :=
  if edgesIn.all (fun e => decide (e.callsiteId.toFuncId = e.callerFuncId)) then
    let nodeList := dedupKeepFirst
      ((nodesOpt.getD []) ++ edgesIn.flatMap (fun e => [e.callerFuncId, e.calleeFuncId]))
    let nodes := stableSortBy cmpFuncId nodeList
    let edges := dedupKeepFirst (stableSortBy cmpMappedCallEdge edgesIn)
    let outgoingByCaller := edges.foldl (fun m e => alistAppend m e.callerFuncId e) []
    let edgesByCallee := stableSortBy cmpMappedCallEdgeByCallee edges
    let incomingByCallee := edgesByCallee.foldl (fun m e => alistAppend m e.calleeFuncId e) []
    let calleesByCaller := outgoingByCaller.foldl
      (fun m p => alistSet m p.1
        (stableSortBy cmpFuncId (dedupKeepFirst (p.2.map (·.calleeFuncId))))) []
    let callersByCallee := incomingByCallee.foldl
      (fun m p => alistSet m p.1
        (stableSortBy cmpFuncId (dedupKeepFirst (p.2.map (·.callerFuncId))))) []
    some ⟨nodes, edges, outgoingByCaller, incomingByCallee, calleesByCaller, callersByCallee⟩
  else none

/-! ## Deterministic fixpoint driver (fixpoint.ts)

The source's `while` loop over an array-with-head-pointer worklist is modelled
as fuel-indexed structural recursion over the un-popped queue suffix; `none`
means the fuel ran out before the loop finished (the loop's terminating
executions are exactly the `some` results at sufficient fuel). -/

/-- `FixpointResult`. -/
structure FixpointResultP where
  steps : Nat
  changedSteps : Nat
deriving DecidableEq, Repr

/-- The errors `runDeterministicFixpoint` can throw. -/
inductive FixpointErr where
  | invalidMaxSteps
  | initialNotInGraph
  | maxStepsExceeded
  | dependentNotInGraph
  | stepFailed
deriving DecidableEq, Repr

/-- `FixpointOptions`.  The `step` callback's state is made explicit (the
source uses a mutating closure); a `none` result models a throw inside
`step`. -/
structure FixpointOptsP (σ : Type) where
  initial : Option (List FuncIdP)
  step : σ → FuncIdP → Option (σ × Bool)
  dependents : Option (FuncIdP → List FuncIdP)
  maxSteps : Option Nat

/-- Loop state of the driver: remaining queue suffix, the `inQueue` set,
and the two counters. -/
structure FixpointLoopState (σ : Type) where
  st : σ
  queue : List FuncIdP
  inQueue : List FuncIdP
  steps : Nat
  changedSteps : Nat

/-- Dependents to reschedule: the option, defaulting to
`graph.callersByCallee`. -/
def fixpointDependents {σ : Type} (graph : MappedCallGraphP) (opts : FixpointOptsP σ)
    (n : FuncIdP) : List FuncIdP :=
  match opts.dependents with
  | some f => f n
  | none => (alistGet graph.callersByCallee n).getD []

/-- The dependent-enqueueing loop: graph-membership check, skip when already
queued, else append to both the `inQueue` set and the queue. -/
def enqueueDeps (nodes : List FuncIdP) :
    List FuncIdP → List FuncIdP → List FuncIdP → Option (List FuncIdP × List FuncIdP)
  | [], inQ, q => some (inQ, q)
  | d :: ds, inQ, q =>
      if d ∈ nodes then
        if d ∈ inQ then enqueueDeps nodes ds inQ q
        else enqueueDeps nodes ds (inQ ++ [d]) (q ++ [d])
      else none

/-- The `while (head < queue.length)` loop of `runDeterministicFixpoint`. -/
def runFixpointLoop {σ : Type} (graph : MappedCallGraphP) (opts : FixpointOptsP σ) :
    Nat → FixpointLoopState σ → Option (Except FixpointErr (σ × FixpointResultP))
  | _, ⟨st, [], _, steps, changedSteps⟩ => some (.ok (st, ⟨steps, changedSteps⟩))
  | 0, _ => none
  | fuel + 1, ⟨st, n :: rest, inQueue, steps, changedSteps⟩ =>
      let inQ := inQueue.erase n
      let steps' := steps + 1
      let over : Bool :=
        match opts.maxSteps with
        | some m => decide (steps' > m)
        | none => false
      if over then some (.error .maxStepsExceeded)
      else
        match opts.step st n with
        | none => some (.error .stepFailed)
        | some (st', changed) =>
            if changed then
              let deps := stableSortBy cmpFuncId (fixpointDependents graph opts n)
              match enqueueDeps graph.nodes deps inQ rest with
              | none => some (.error .dependentNotInGraph)
              | some (inQ', q') =>
                  runFixpointLoop graph opts fuel ⟨st', q', inQ', steps', changedSteps + 1⟩
            else runFixpointLoop graph opts fuel ⟨st', rest, inQ, steps', changedSteps⟩

/-- Initial worklist: the de-duplicated, canonically sorted `opts.initial`, or
`graph.nodes` (already canonically sorted). -/
def fixpointInitialQueue {σ : Type} (graph : MappedCallGraphP) (opts : FixpointOptsP σ) :
    List FuncIdP :=
  match opts.initial with
  | some l => stableSortBy cmpFuncId (dedupKeepFirst l)
  | none => graph.nodes

/-- `runDeterministicFixpoint` from fixpoint.ts. -/
def runDeterministicFixpoint {σ : Type} (graph : MappedCallGraphP)
    (opts : FixpointOptsP σ) (st0 : σ) (fuel : Nat) :
    Option (Except FixpointErr (σ × FixpointResultP)) :=
  let badMax : Bool :=
    match opts.maxSteps with
    | some m => decide (m = 0 ∨ m > MAX_SAFE_INTEGER)
    | none => false
  if badMax then some (.error .invalidMaxSteps)
  else
    let init := fixpointInitialQueue graph opts
    if init.all (fun n => decide (n ∈ graph.nodes)) then
      runFixpointLoop graph opts fuel ⟨st0, init, init, 0, 0⟩
    else some (.error .initialNotInGraph)

/-! ## Identifier strings (ids.ts): URI encoding, canonical ints, parsers

JS `encodeURIComponent` percent-encodes, with uppercase hex, every UTF-8 byte
of every character outside the unreserved set `A-Z a-z 0-9 - _ . ! ~ * ' ( )`;
`decodeURIComponent` decodes `%XX` sequences (accepting either hex case) and
requires each multi-byte UTF-8 sequence to be complete, well-formed, minimal,
and not a surrogate.  Lone surrogates (on which the JS functions throw) do
not exist in this model's strings, which are sequences of Unicode scalar
values. -/

/-- The characters `encodeURIComponent` leaves unescaped. -/
def isUriUnreserved (c : Char) : Bool :=
  let v := c.toNat
  decide ((65 ≤ v ∧ v ≤ 90) ∨ (97 ≤ v ∧ v ≤ 122) ∨ (48 ≤ v ∧ v ≤ 57) ∨
    v = 45 ∨ v = 95 ∨ v = 46 ∨ v = 33 ∨ v = 126 ∨ v = 42 ∨ v = 39 ∨ v = 40 ∨ v = 41)

/-- UTF-8 bytes of a Unicode scalar value. -/
def utf8Bytes (c : Char) : List Nat :=
  let v := c.toNat
  if v < 0x80 then [v]
  else if v < 0x800 then [0xC0 + v / 64, 0x80 + v % 64]
  else if v < 0x10000 then [0xE0 + v / 4096, 0x80 + (v / 64) % 64, 0x80 + v % 64]
  else [0xF0 + v / 262144, 0x80 + (v / 4096) % 64, 0x80 + (v / 64) % 64, 0x80 + v % 64]

/-- Uppercase hex digit. -/
def hexUpperDigit (n : Nat) : Char :=
  Char.ofNat (if n < 10 then 48 + n else 55 + n)

/-- `%XX` with uppercase hex. -/
def percentByte (b : Nat) : List Char :=
  ['%', hexUpperDigit (b / 16), hexUpperDigit (b % 16)]

/-- One character's contribution to `encodeURIComponent`. -/
def encodeChar (c : Char) : List Char :=
  if isUriUnreserved c then [c] else (utf8Bytes c).flatMap percentByte

/-- `encodeURIComponent` over a character list. -/
def encodeURIComponentChars (cs : List Char) : List Char := cs.flatMap encodeChar

/-- JS `encodeURIComponent`. -/
def encodeURIComponent (s : String) : String := String.mk (encodeURIComponentChars s.data)

/-- Value of a hex digit (both cases, as `decodeURIComponent` accepts). -/
def hexDigitVal (c : Char) : Option Nat :=
  let v := c.toNat
  if 48 ≤ v ∧ v ≤ 57 then some (v - 48)
  else if 65 ≤ v ∧ v ≤ 70 then some (v - 55)
  else if 97 ≤ v ∧ v ≤ 102 then some (v - 87)
  else none

/-- Read one `%XX` escape. -/
def readPercentByte : List Char → Option (Nat × List Char)
  | '%' :: h :: l :: rest =>
      match hexDigitVal h, hexDigitVal l with
      | some a, some b => some (16 * a + b, rest)
      | _, _ => none
  | _ => none

/-- Read one `%XX` escape that must be a UTF-8 continuation byte. -/
def readContByte (l : List Char) : Option (Nat × List Char) :=
  match readPercentByte l with
  | some (b, r) => if 0x80 ≤ b ∧ b < 0xC0 then some (b, r) else none
  | none => none

/-- Decode one maximal percent-escape sequence into a scalar value, enforcing
the UTF-8 well-formedness rules of the ECMAScript `Decode` operation
(complete sequences, no overlong forms, no surrogates, at most U+10FFFF). -/
def decodePercentSeq (l : List Char) : Option (Char × List Char) :=
  match readPercentByte l with
  | none => none
  | some (b0, r0) =>
      if b0 < 0x80 then some (Char.ofNat b0, r0)
      else if b0 < 0xC2 then none
      else if b0 < 0xE0 then
        match readContByte r0 with
        | none => none
        | some (b1, r1) => some (Char.ofNat ((b0 - 0xC0) * 64 + (b1 - 0x80)), r1)
      else if b0 < 0xF0 then
        match readContByte r0 with
        | none => none
        | some (b1, r1) =>
            match readContByte r1 with
            | none => none
            | some (b2, r2) =>
                if (b0 - 0xE0) * 4096 + (b1 - 0x80) * 64 + (b2 - 0x80) < 0x800 then none
                else if 0xD800 ≤ (b0 - 0xE0) * 4096 + (b1 - 0x80) * 64 + (b2 - 0x80) ∧
                    (b0 - 0xE0) * 4096 + (b1 - 0x80) * 64 + (b2 - 0x80) < 0xE000 then none
                else some (Char.ofNat ((b0 - 0xE0) * 4096 + (b1 - 0x80) * 64 + (b2 - 0x80)), r2)
      else if b0 < 0xF5 then
        match readContByte r0 with
        | none => none
        | some (b1, r1) =>
            match readContByte r1 with
            | none => none
            | some (b2, r2) =>
                match readContByte r2 with
                | none => none
                | some (b3, r3) =>
                    if (b0 - 0xF0) * 262144 + (b1 - 0x80) * 4096 +
                        (b2 - 0x80) * 64 + (b3 - 0x80) < 0x10000 ∨
                        0x10FFFF < (b0 - 0xF0) * 262144 + (b1 - 0x80) * 4096 +
                        (b2 - 0x80) * 64 + (b3 - 0x80) then none
                    else some (Char.ofNat ((b0 - 0xF0) * 262144 + (b1 - 0x80) * 4096 +
                      (b2 - 0x80) * 64 + (b3 - 0x80)), r3)
      else none

/-- The decode loop; every iteration consumes at least one character, so a
fuel of the input length is always enough. -/
def decodeAux : Nat → List Char → Option (List Char)
  | _, [] => some []
  | 0, _ :: _ => none
  | fuel + 1, c :: cs =>
      if c = '%' then
        match decodePercentSeq (c :: cs) with
        | none => none
        | some (ch, rest) => (decodeAux fuel rest).map (ch :: ·)
      else (decodeAux fuel cs).map (c :: ·)

/-- JS `decodeURIComponent` over a character list. -/
def decodeURIComponentChars (cs : List Char) : Option (List Char) :=
  decodeAux cs.length cs

/-- JS `decodeURIComponent`; `none` models the thrown `URIError`. -/
def decodeURIComponent (s : String) : Option String :=
  (decodeURIComponentChars s.data).map String.mk

/-- `decodeCanonicalUriComponent` from ids.ts: decode, then reject unless
re-encoding reproduces the input byte-for-byte. -/
def decodeCanonicalUriComponent (s : String) : Option String :=
  match decodeURIComponent s with
  | none => none
  | some d => if encodeURIComponent d = s then some d else none

/-- The decimal digit character for `d`. -/
def digitChar (d : Nat) : Char := Char.ofNat (48 + d)

/-- Decimal digits of `n`, least significant first (`fuel ≥ n` suffices). -/
def natToDigitsRev : Nat → Nat → List Nat
  | 0, _ => []
  | fuel + 1, n => if n = 0 then [] else n % 10 :: natToDigitsRev fuel (n / 10)

/-- JS number-to-string for a non-negative safe integer: plain decimal
digits, no leading zeros. -/
def natCanonString (n : Nat) : String :=
  if n = 0 then "0" else String.mk (((natToDigitsRev n n).reverse).map digitChar)

/-- ASCII digit test. -/
def isAsciiDigit (c : Char) : Bool := decide (48 ≤ c.toNat ∧ c.toNat ≤ 57)

/-- The regex `^(0|[1-9][0-9]*)$` from `parseCanonicalNonNegativeInt`. -/
def isCanonicalIntChars : List Char → Bool
  | [] => false
  | c :: rest =>
      if c = '0' then decide (rest = [])
      else decide (49 ≤ c.toNat ∧ c.toNat ≤ 57) && rest.all isAsciiDigit

/-- Numeric value of a digit string. -/
def digitsToNat (cs : List Char) : Nat :=
  cs.foldl (fun acc c => acc * 10 + (c.toNat - 48)) 0

/-- `parseCanonicalNonNegativeInt` from ids.ts.  (The source computes
`Number(text)` and then checks `Number.isSafeInteger`; a digit string whose
value exceeds `2^53 - 1` rounds to a double of at least `2^53`, which is
never a safe integer, so the model's exact value check is equivalent.) -/
def parseCanonicalNonNegativeInt (s : String) : Option Nat :=
  if isCanonicalIntChars s.data then
    if digitsToNat s.data ≤ MAX_SAFE_INTEGER then some (digitsToNat s.data) else none
  else none

/-- JS `String.prototype.split(":")`. -/
def splitOnColon : List Char → List (List Char)
  | [] => [[]]
  | c :: rest =>
      if c = ':' then [] :: splitOnColon rest
      else
        match splitOnColon rest with
        | [] => [[c]]
        | g :: gs => (c :: g) :: gs

/-- `text.split(":")` as strings. -/
def splitParts (text : String) : List String := (splitOnColon text.data).map String.mk

/-- `createFuncId` from ids.ts (string level); `none` models a thrown
assertion (empty path, unsafe offset, reversed span). -/
def createFuncId (filePath : String) (startOffset endOffset : Nat) : Option String :=
  if filePath = "" then none
  else if startOffset > MAX_SAFE_INTEGER then none
  else if endOffset > MAX_SAFE_INTEGER then none
  else if endOffset < startOffset then none
  else some ("f:" ++ encodeURIComponent filePath ++ ":" ++ natCanonString startOffset ++
    ":" ++ natCanonString endOffset)

/-- `parseFuncIdParts` from ids.ts. -/
def parseFuncIdParts (text : String) : Option FuncIdP :=
  match splitParts text with
  | [k, p1, p2, p3] =>
      if k = "f" then
        match decodeCanonicalUriComponent p1 with
        | none => none
        | some filePath =>
            if filePath = "" then none
            else
              match parseCanonicalNonNegativeInt p2, parseCanonicalNonNegativeInt p3 with
              | some s, some e => if e < s then none else some ⟨filePath, s, e⟩
              | _, _ => none
      else none
  | _ => none

/-- `parseFuncId` from ids.ts: parse the parts, rebuild the canonical string,
and reject unless it is byte-identical to the input. -/
def parseFuncId (text : String) : Option String :=
  match parseFuncIdParts text with
  | none => none
  | some p =>
      match createFuncId p.filePath p.startOffset p.endOffset with
      | none => none
      | some canonical => if canonical = text then some text else none

/-- `createStmtId` from ids.ts: re-parse the function ID's parts and attach a
statement index. -/
def createStmtId (funcId : String) (statementIndex : Nat) : Option String :=
  match parseFuncIdParts funcId with
  | none => none
  | some fp =>
      if statementIndex > MAX_SAFE_INTEGER then none
      else some ("s:" ++ encodeURIComponent fp.filePath ++ ":" ++
        natCanonString fp.startOffset ++ ":" ++ natCanonString fp.endOffset ++ ":" ++
        natCanonString statementIndex)

/-- `parseStmtIdParts` from ids.ts. -/
def parseStmtIdParts (text : String) : Option StmtIdP :=
  match splitParts text with
  | [k, p1, p2, p3, p4] =>
      if k = "s" then
        match decodeCanonicalUriComponent p1 with
        | none => none
        | some filePath =>
            if filePath = "" then none
            else
              match parseCanonicalNonNegativeInt p2, parseCanonicalNonNegativeInt p3,
                  parseCanonicalNonNegativeInt p4 with
              | some s, some e, some i =>
                  if e < s then none else some ⟨filePath, s, e, i⟩
              | _, _, _ => none
      else none
  | _ => none

/-- `parseStmtId` from ids.ts. -/
def parseStmtId (text : String) : Option String :=
  match parseStmtIdParts text with
  | none => none
  | some p =>
      match createFuncId p.filePath p.startOffset p.endOffset with
      | none => none
      | some f =>
          match createStmtId f p.statementIndex with
          | none => none
          | some canonical => if canonical = text then some text else none

/-- `parseCallsiteId` is `parseStmtId`. -/
def parseCallsiteId (text : String) : Option String := parseStmtId text

/-- `createHeapId` from ids.ts. -/
def createHeapId (allocationSiteId : String) (propertyName : String) : Option String :=
  match parseStmtIdParts allocationSiteId with
  | none => none
  | some sp =>
      if propertyName = "" then none
      else some ("h:" ++ encodeURIComponent sp.filePath ++ ":" ++
        natCanonString sp.startOffset ++ ":" ++ natCanonString sp.endOffset ++ ":" ++
        natCanonString sp.statementIndex ++ ":" ++ encodeURIComponent propertyName)

/-- `parseHeapIdParts` from ids.ts. -/
def parseHeapIdParts (text : String) : Option HeapIdP :=
  match splitParts text with
  | [k, p1, p2, p3, p4, p5] =>
      if k = "h" then
        match decodeCanonicalUriComponent p1 with
        | none => none
        | some filePath =>
            if filePath = "" then none
            else
              match parseCanonicalNonNegativeInt p2, parseCanonicalNonNegativeInt p3,
                  parseCanonicalNonNegativeInt p4 with
              | some s, some e, some i =>
                  if e < s then none
                  else
                    match decodeCanonicalUriComponent p5 with
                    | none => none
                    | some propertyName =>
                        if propertyName = "" then none
                        else some ⟨⟨filePath, s, e, i⟩, propertyName⟩
              | _, _, _ => none
      else none
  | _ => none

/-- `parseHeapId` from ids.ts. -/
def parseHeapId (text : String) : Option String :=
  match parseHeapIdParts text with
  | none => none
  | some p =>
      match createFuncId p.site.filePath p.site.startOffset p.site.endOffset with
      | none => none
      | some f =>
          match createStmtId f p.site.statementIndex with
          | none => none
          | some s =>
              match createHeapId s p.propertyName with
              | none => none
              | some canonical => if canonical = text then some text else none

/-- `createParamVarId`. -/
def createParamVarId (index : Nat) : Option String :=
  if index > MAX_SAFE_INTEGER then none else some ("p" ++ natCanonString index)

/-- `createLocalVarId`. -/
def createLocalVarId (index : Nat) : Option String :=
  if index > MAX_SAFE_INTEGER then none else some ("v" ++ natCanonString index)

/-- `parseVarId` from ids.ts: the regex `^(p|v)(0|[1-9][0-9]*)$` plus the
safe-integer range check. -/
def parseVarId (text : String) : Option String :=
  match text.data with
  | c :: rest =>
      if (c = 'p' ∨ c = 'v') ∧ isCanonicalIntChars rest = true then
        if digitsToNat rest ≤ MAX_SAFE_INTEGER then some text else none
      else none
  | [] => none

/-- Laws making a three-way comparator a decidable linear order: `eq` means
equality, `swap` antisymmetry of the result, and `lt` transitivity.  All
comparators in determinism.ts/ids.ts decompose identifiers into parts and
compare lexicographically, so they satisfy these laws. -/
structure LawfulCmp {α : Type} (cmp : α → α → Ordering) : Prop where
  eq_iff : ∀ a b, cmp a b = .eq ↔ a = b
  swap : ∀ a b, (cmp a b).swap = cmp b a
  lt_trans : ∀ {a b c}, cmp a b = .lt → cmp b c = .lt → cmp a c = .lt

/-! ## Canonical JSON (determinism.ts)

A model of the JS runtime values that reach `canonicalJsonStringify`.
Numbers are split into integer-valued finite doubles (`num`, the only
numbers this pipeline produces) and `nonFinite` (NaN/±Infinity); `big`,
`fn`, `sym` stand for bigint, function and symbol values; `exotic` is an
object that is not a plain record (class instance, `Map`, …).  `obj` lists
a plain object's own enumerable string-keyed properties in insertion order
(a real JS object's keys are distinct).  Values form a tree, so the
source's cycle check (the `stack` set) cannot fire on representable
inputs. -/

inductive Js where
  | null
  | undef
  | bool (b : Bool)
  | num (n : Int)
  | nonFinite
  | str (s : String)
  | big
  | fn
  | sym
  | exotic
  | arr (elems : List Js)
  | obj (fields : List (String × Js))

/-- Lowercase hex digit, for `JSON.stringify`'s `\u00XX` escapes. -/
def hexLowerDigit (n : Nat) : Char :=
  if n < 10 then Char.ofNat (48 + n) else Char.ofNat (87 + n)

/-- One character of `JSON.stringify`'s string quoting. -/
def jsonEscapeChar (c : Char) : List Char :=
  if c = '"' then ['\\', '"']
  else if c = '\\' then ['\\', '\\']
  else if c.toNat = 8 then ['\\', 'b']
  else if c.toNat = 9 then ['\\', 't']
  else if c.toNat = 10 then ['\\', 'n']
  else if c.toNat = 12 then ['\\', 'f']
  else if c.toNat = 13 then ['\\', 'r']
  else if c.toNat < 32 then
    ['\\', 'u', '0', '0', hexLowerDigit (c.toNat / 16), hexLowerDigit (c.toNat % 16)]
  else [c]

/-- `JSON.stringify` of a string value. -/
def jsonQuote (s : String) : String :=
  String.mk ('"' :: s.data.flatMap jsonEscapeChar ++ ['"'])

/-- `JSON.stringify` / `String()` of an integer-valued finite double. -/
def intCanonString (n : Int) : String :=
  if n < 0 then "-" ++ natCanonString n.natAbs else natCanonString n.natAbs

/-- `parts.join(",")`. -/
def joinComma : List String → String
  | [] => ""
  | [s] => s
  | s :: rest => s ++ "," ++ joinComma rest

/-- Array elements and object property values that `canonicalJsonStringify`
special-cases before recursing: `undefined`, functions and symbols. -/
def jsElided : Js → Bool
  | .undef => true
  | .fn => true
  | .sym => true
  | _ => false

/-- Rendered object fields compared by key, as `keys.sort(cmpString)`. -/
def cmpFieldKey (a b : String × String) : Ordering := cmpString a.1 b.1

mutual

/-- `stringifyInner` from `canonicalJsonStringify` (determinism.ts).  The
source sorts an object's keys and then renders each kept value in sorted
key order; a JS object's keys are distinct, so rendering the kept fields in
insertion order and stable-sorting the rendered `(key, text)` pairs by key
produces the same output and the same error behaviour, and keeps the
recursion structural. -/
def jsStringify : Js → Option String
  | .null => some "null"
  | .str s => some (jsonQuote s)
  | .num n => some (intCanonString n)
  | .nonFinite => none
  | .bool b => some (cond b "true" "false")
  | .big => none
  | .undef => none
  | .fn => none
  | .sym => none
  | .exotic => none
  | .arr elems =>
      match jsStringifyElems elems with
      | none => none
      | some parts => some ("[" ++ joinComma parts ++ "]")
  | .obj fields =>
      match jsStringifyFields fields with
      | none => none
      | some ps =>
          some ("\x7b" ++ joinComma ((stableSortBy cmpFieldKey ps).map
            (fun p => jsonQuote p.1 ++ ":" ++ p.2)) ++ "\x7d")

/-- The array-element loop: `undefined`, function and symbol elements
become `"null"`; every other element recurses. -/
def jsStringifyElems : List Js → Option (List String)
  | [] => some []
  | Js.undef :: rest => (jsStringifyElems rest).map (fun parts => "null" :: parts)
  | Js.fn :: rest => (jsStringifyElems rest).map (fun parts => "null" :: parts)
  | Js.sym :: rest => (jsStringifyElems rest).map (fun parts => "null" :: parts)
  | e :: rest =>
      match jsStringify e, jsStringifyElems rest with
      | some s, some parts => some (s :: parts)
      | _, _ => none

/-- The object-field loop: `undefined`-, function- and symbol-valued
properties are skipped; every other value recurses, keeping its key. -/
def jsStringifyFields : List (String × Js) → Option (List (String × String))
  | [] => some []
  | (_, Js.undef) :: rest => jsStringifyFields rest
  | (_, Js.fn) :: rest => jsStringifyFields rest
  | (_, Js.sym) :: rest => jsStringifyFields rest
  | (k, v) :: rest =>
      match jsStringify v, jsStringifyFields rest with
      | some s, some ps => some ((k, s) :: ps)
      | _, _ => none

end

/-- `canonicalJsonStringify` (determinism.ts); `none` models a thrown
error. -/
def canonicalJsonStringify (v : Js) : Option String := jsStringify v

/-- `mapM` over `Option`, written out for proof-friendly equations. -/
def optMapM {α β : Type} (g : α → Option β) : List α → Option (List β)
  | [] => some []
  | x :: rest =>
      match g x, optMapM g rest with
      | some y, some ys => some (y :: ys)
      | _, _ => none

/-! ## Flow-fact normalization (flow_fact.ts part of cli.ts)

`normalizeFlowNode` / `normalizeFlowFact` over the `Js` value model.  JS
property access `obj.k` is `jsGet` (missing key → `undefined`); `none`
models a thrown error.  As in the canonical-JSON model, only
integer-valued finite doubles are representable, which covers every value
this pipeline produces. -/

/-- JS property access on a plain object: a missing key reads as
`undefined`. -/
def jsGet (fields : List (String × Js)) (k : String) : Js :=
  match alistGet fields k with
  | some v => v
  | none => Js.undef

/-- A normalized flow node; identifier fields hold canonical id strings
(`return` is a Lean keyword, so that kind is `ret`). -/
inductive FlowNodeS where
  | var (funcId : String) (id : String)
  | call_arg (callsiteId : String) (index : Nat)
  | heap_read (id : String)
  | heap_write (id : String)
  | ret (funcId : String)
deriving DecidableEq, Repr

/-- A normalized flow fact (`from`/`to` are Lean keywords). -/
structure FlowFactS where
  schemaVersion : Nat
  from' : FlowNodeS
  to' : FlowNodeS
deriving DecidableEq, Repr

/-- `normalizeFlowNode` from flow_fact.ts: shape checks (plain object,
string `kind`, no extra keys) plus per-field identifier parsing — it takes
no context, so nothing is cross-checked against any IR or callsite. -/
def normalizeFlowNode : Js → Option FlowNodeS
  | Js.obj fields =>
      match jsGet fields "kind" with
      | Js.str kind =>
          if kind = "var" then
            if fields.all (fun p => decide (p.1 ∈ ["kind", "funcId", "id"])) then
              match jsGet fields "funcId" with
              | Js.str fs =>
                  match parseFuncId fs with
                  | some funcId =>
                      match jsGet fields "id" with
                      | Js.str vs =>
                          match parseVarId vs with
                          | some vid => some (FlowNodeS.var funcId vid)
                          | none => none
                      | _ => none
                  | none => none
              | _ => none
            else none
          else if kind = "call_arg" then
            if fields.all (fun p => decide (p.1 ∈ ["kind", "callsiteId", "index"])) then
              match jsGet fields "callsiteId" with
              | Js.str cs =>
                  match parseCallsiteId cs with
                  | some cid =>
                      match jsGet fields "index" with
                      | Js.num n =>
                          if 0 ≤ n ∧ n.natAbs ≤ MAX_SAFE_INTEGER then
                            some (FlowNodeS.call_arg cid n.toNat)
                          else none
                      | _ => none
                  | none => none
              | _ => none
            else none
          else if kind = "heap_read" then
            if fields.all (fun p => decide (p.1 ∈ ["kind", "id"])) then
              match jsGet fields "id" with
              | Js.str hs =>
                  match parseHeapId hs with
                  | some hid => some (FlowNodeS.heap_read hid)
                  | none => none
              | _ => none
            else none
          else if kind = "heap_write" then
            if fields.all (fun p => decide (p.1 ∈ ["kind", "id"])) then
              match jsGet fields "id" with
              | Js.str hs =>
                  match parseHeapId hs with
                  | some hid => some (FlowNodeS.heap_write hid)
                  | none => none
              | _ => none
            else none
          else if kind = "return" then
            if fields.all (fun p => decide (p.1 ∈ ["kind", "funcId"])) then
              match jsGet fields "funcId" with
              | Js.str fs =>
                  match parseFuncId fs with
                  | some fid => some (FlowNodeS.ret fid)
                  | none => none
              | _ => none
            else none
          else none
      | _ => none
  | _ => none

/-- `normalizeFlowFact` from flow_fact.ts. -/
def normalizeFlowFact : Js → Option FlowFactS
  | Js.obj fields =>
      if fields.all (fun p => decide (p.1 ∈ ["schemaVersion", "from", "to"])) then
        match jsGet fields "schemaVersion" with
        | Js.num n =>
            if n = 1 then
              match normalizeFlowNode (jsGet fields "from"),
                  normalizeFlowNode (jsGet fields "to") with
              | some f, some t => some ⟨1, f, t⟩
              | _, _ => none
            else none
        | _ => none
      else none
  | _ => none

/-- Spec-side wording of a well-shaped flow node (claim C10): a plain
object with a known kind, no extra keys, parseable identifier strings of
the right id kind, and (for `call_arg`) a non-negative safe-integer index.
Deliberately defined from the spec's words, independently of
`normalizeFlowNode`, to be compared with it. -/
inductive FlowNodeWellShaped : Js → Prop where
  | varNode (fields : List (String × Js)) (fs vs : String) :
      (∀ k ∈ fields.map Prod.fst, k ∈ ["kind", "funcId", "id"]) →
      jsGet fields "kind" = Js.str "var" →
      jsGet fields "funcId" = Js.str fs → (parseFuncId fs).isSome = true →
      jsGet fields "id" = Js.str vs → (parseVarId vs).isSome = true →
      FlowNodeWellShaped (Js.obj fields)
  | callArgNode (fields : List (String × Js)) (cs : String) (n : Int) :
      (∀ k ∈ fields.map Prod.fst, k ∈ ["kind", "callsiteId", "index"]) →
      jsGet fields "kind" = Js.str "call_arg" →
      jsGet fields "callsiteId" = Js.str cs → (parseCallsiteId cs).isSome = true →
      jsGet fields "index" = Js.num n → 0 ≤ n → n.natAbs ≤ MAX_SAFE_INTEGER →
      FlowNodeWellShaped (Js.obj fields)
  | heapReadNode (fields : List (String × Js)) (hs : String) :
      (∀ k ∈ fields.map Prod.fst, k ∈ ["kind", "id"]) →
      jsGet fields "kind" = Js.str "heap_read" →
      jsGet fields "id" = Js.str hs → (parseHeapId hs).isSome = true →
      FlowNodeWellShaped (Js.obj fields)
  | heapWriteNode (fields : List (String × Js)) (hs : String) :
      (∀ k ∈ fields.map Prod.fst, k ∈ ["kind", "id"]) →
      jsGet fields "kind" = Js.str "heap_write" →
      jsGet fields "id" = Js.str hs → (parseHeapId hs).isSome = true →
      FlowNodeWellShaped (Js.obj fields)
  | returnNode (fields : List (String × Js)) (fs : String) :
      (∀ k ∈ fields.map Prod.fst, k ∈ ["kind", "funcId"]) →
      jsGet fields "kind" = Js.str "return" →
      jsGet fields "funcId" = Js.str fs → (parseFuncId fs).isSome = true →
      FlowNodeWellShaped (Js.obj fields)

/-- Spec-side wording of a well-shaped flow fact: a plain object with
exactly the three known keys, schema version the number `1`, and two
well-shaped nodes — nothing else is constrained. -/
inductive FlowFactWellShaped : Js → Prop where
  | mk (fields : List (String × Js)) :
      (∀ k ∈ fields.map Prod.fst, k ∈ ["schemaVersion", "from", "to"]) →
      jsGet fields "schemaVersion" = Js.num 1 →
      FlowNodeWellShaped (jsGet fields "from") →
      FlowNodeWellShaped (jsGet fields "to") →
      FlowFactWellShaped (Js.obj fields)

/-! ## Function-summary normalization (func_summary.ts part of cli.ts)

`normalizeFuncSummary` over the `Js` value model.  The IR argument is the
projection of `NormalizedFuncIR` that the normalizer reads: its canonical
`funcId`, the declared parameter/local `VarId`s, and for each `call`
statement its `callsiteId` and argument count. -/

/-- A normalized function-summary node (`return` is a Lean keyword, so
that kind is `ret`). -/
inductive FuncSummaryNodeS where
  | var (id : String)
  | call_arg (callsiteId : String) (index : Nat)
  | heap_read (id : String)
  | heap_write (id : String)
  | ret
deriving DecidableEq, Repr

/-- A normalized function-summary edge (`from`/`to` are Lean keywords). -/
structure FuncSummaryEdgeS where
  from' : FuncSummaryNodeS
  to' : FuncSummaryNodeS
deriving DecidableEq, Repr

/-- `nodeKey` from func_summary.ts. -/
def nodeKey : FuncSummaryNodeS → String
  | .var id => "v:" ++ id
  | .call_arg cs i => "a:" ++ cs ++ ":" ++ natCanonString i
  | .heap_read id => "hr:" ++ id
  | .heap_write id => "hw:" ++ id
  | .ret => "r"

/-- `edgeKey` from func_summary.ts. -/
def edgeKey (e : FuncSummaryEdgeS) : String := nodeKey e.from' ++ "->" ++ nodeKey e.to'

/-- `varIdToParts`: kind (`true` = `p`) and index of a canonical VarId. -/
def varIdParts (s : String) : Option (Bool × Nat) :=
  match s.data with
  | c :: rest =>
      if (c = 'p' ∨ c = 'v') ∧ isCanonicalIntChars rest = true then
        if digitsToNat rest ≤ MAX_SAFE_INTEGER then some (c = 'p', digitsToNat rest)
        else none
      else none
  | [] => none

/-- `cmpVarId` from ids.ts at the string level.  The source throws on an
unparseable id; every id this comparator sees is a parser output, so the
fallback arm is unreachable and modelled as `eq`. -/
def cmpVarIdS (a b : String) : Ordering :=
  match varIdParts a, varIdParts b with
  | some ap, some bp =>
      if ap.1 ≠ bp.1 then (if ap.1 then Ordering.lt else Ordering.gt)
      else compare ap.2 bp.2
  | _, _ => Ordering.eq

/-- `cmpStmtId`/`cmpCallsiteId` from ids.ts at the string level (same
unreachable-fallback convention). -/
def cmpStmtIdS (a b : String) : Ordering :=
  match parseStmtIdParts a, parseStmtIdParts b with
  | some ap, some bp =>
      (cmpString ap.filePath bp.filePath).then
        ((compare ap.startOffset bp.startOffset).then
          ((compare ap.endOffset bp.endOffset).then
            (compare ap.statementIndex bp.statementIndex)))
  | _, _ => Ordering.eq

/-- `cmpHeapId` from ids.ts at the string level. -/
def cmpHeapIdS (a b : String) : Ordering :=
  match parseHeapIdParts a, parseHeapIdParts b with
  | some ap, some bp =>
      (cmpString ap.site.filePath bp.site.filePath).then
        ((compare ap.site.startOffset bp.site.startOffset).then
          ((compare ap.site.endOffset bp.site.endOffset).then
            ((compare ap.site.statementIndex bp.site.statementIndex).then
              (cmpString ap.propertyName bp.propertyName))))
  | _, _ => Ordering.eq

/-- `NODE_KIND_ORDER` from func_summary.ts. -/
def summaryNodeRank : FuncSummaryNodeS → Nat
  | .var _ => 0
  | .call_arg _ _ => 1
  | .heap_read _ => 2
  | .heap_write _ => 3
  | .ret => 4

/-- `cmpFuncSummaryNode` from func_summary.ts. -/
def cmpFuncSummaryNodeS (a b : FuncSummaryNodeS) : Ordering :=
  (compare (summaryNodeRank a) (summaryNodeRank b)).then
    (match a, b with
      | .var x, .var y => cmpVarIdS x y
      | .call_arg c1 i1, .call_arg c2 i2 => (cmpStmtIdS c1 c2).then (compare i1 i2)
      | .heap_read x, .heap_read y => cmpHeapIdS x y
      | .heap_write x, .heap_write y => cmpHeapIdS x y
      | _, _ => Ordering.eq)

/-- `cmpFuncSummaryEdge` from func_summary.ts. -/
def cmpFuncSummaryEdgeS (a b : FuncSummaryEdgeS) : Ordering :=
  (cmpFuncSummaryNodeS a.from' b.from').then (cmpFuncSummaryNodeS a.to' b.to')

/-- The slice of a `NormalizedFuncIR` statement that the summary
normalizer reads: call statements contribute their callsite and argument
list; all other statement kinds are skipped. -/
inductive SummaryIrStmtS where
  | call (callsiteId : String) (args : List String)
  | other

/-- The fields of `NormalizedFuncIR` that `normalizeFuncSummary` reads. -/
structure FuncSummaryIrS where
  funcId : String
  params : List String
  locals : List String
  stmts : List SummaryIrStmtS

/-- The `callsiteArgCount` map built from the IR's call statements. -/
def callsiteArgCountOf (stmts : List SummaryIrStmtS) : List (String × Nat) :=
  stmts.foldl
    (fun m st =>
      match st with
      | .call cs args => alistSet m cs args.length
      | .other => m) []

/-- `collectDeclaredHeapIds` from func_summary.ts: the heap ids named by
`heap_read`/`heap_write` nodes of the baseline edges. -/
def heapIdsOfNode (out : List String) : FuncSummaryNodeS → List String
  | .heap_read id => if id ∈ out then out else out ++ [id]
  | .heap_write id => if id ∈ out then out else out ++ [id]
  | _ => out

def collectDeclaredHeapIds (edges : List FuncSummaryEdgeS) : List String :=
  edges.foldl (fun out e => heapIdsOfNode (heapIdsOfNode out e.from') e.to') []

/-- `assertPositiveSafeInt`: `none` models the thrown error. -/
def assertPositiveSafeInt (n : Int) : Option Nat :=
  if 0 < n ∧ n.natAbs ≤ MAX_SAFE_INTEGER then some n.toNat else none

/-- `normalizeFuncSummaryNode` from func_summary.ts.  `isFrom` is the
`position` argument; the context fields are passed individually. -/
def normalizeFuncSummaryNode (v : Js) (isFrom : Bool) (funcId : String)
    (declaredVars : List String) (callsiteArgCount : List (String × Nat))
    (declaredHeapIds : List String) : Option FuncSummaryNodeS :=
  match v with
  | Js.obj fields =>
      match jsGet fields "kind" with
      | Js.str kind =>
          if isFrom = true ∧ (kind = "return" ∨ kind = "call_arg" ∨ kind = "heap_write") then
            none
          else if isFrom = false ∧ kind = "heap_read" then none
          else if kind = "var" then
            if fields.all (fun p => decide (p.1 ∈ ["kind", "id"])) then
              match jsGet fields "id" with
              | Js.str vs =>
                  match parseVarId vs with
                  | some vid =>
                      if vid ∈ declaredVars then some (FuncSummaryNodeS.var vid) else none
                  | none => none
              | _ => none
            else none
          else if kind = "call_arg" then
            if fields.all (fun p => decide (p.1 ∈ ["kind", "callsiteId", "index"])) then
              match jsGet fields "callsiteId" with
              | Js.str cs =>
                  match parseCallsiteId cs with
                  | some cid =>
                      match alistGet callsiteArgCount cid with
                      | some argCount =>
                          match jsGet fields "index" with
                          | Js.num n =>
                              if 0 ≤ n ∧ n.natAbs ≤ MAX_SAFE_INTEGER then
                                if n.toNat ≥ argCount then none
                                else some (FuncSummaryNodeS.call_arg cid n.toNat)
                              else none
                          | _ => none
                      | none => none
                  | none => none
              | _ => none
            else none
          else if kind = "heap_read" ∨ kind = "heap_write" then
            if fields.all (fun p => decide (p.1 ∈ ["kind", "id"])) then
              match jsGet fields "id" with
              | Js.str hstr =>
                  match parseHeapId hstr with
                  | some hid =>
                      if hid ∈ declaredHeapIds then
                        match parseHeapIdParts hid, parseFuncIdParts funcId with
                        | some hp, some fp =>
                            if hp.site.filePath = fp.filePath ∧
                                hp.site.startOffset = fp.startOffset ∧
                                hp.site.endOffset = fp.endOffset then
                              if kind = "heap_read" then
                                some (FuncSummaryNodeS.heap_read hid)
                              else some (FuncSummaryNodeS.heap_write hid)
                            else none
                        | _, _ => none
                      else none
                  | none => none
              | _ => none
            else none
          else if kind = "return" then
            if fields.all (fun p => decide (p.1 ∈ ["kind"])) then
              some FuncSummaryNodeS.ret
            else none
          else none
      | _ => none
  | _ => none

/-- `normalizeFuncSummaryEdge` from func_summary.ts, with the context
rebuilt from the IR and baseline edges it derives from. -/
def normalizeFuncSummaryEdge (v : Js) (ir : FuncSummaryIrS)
    (baselineEdges : List FuncSummaryEdgeS) : Option FuncSummaryEdgeS :=
  match v with
  | Js.obj fields =>
      if fields.all (fun p => decide (p.1 ∈ ["from", "to"])) then
        match
          normalizeFuncSummaryNode (jsGet fields "from") true ir.funcId
            (ir.params ++ ir.locals) (callsiteArgCountOf ir.stmts)
            (collectDeclaredHeapIds baselineEdges),
          normalizeFuncSummaryNode (jsGet fields "to") false ir.funcId
            (ir.params ++ ir.locals) (callsiteArgCountOf ir.stmts)
            (collectDeclaredHeapIds baselineEdges) with
        | some f, some t => some ⟨f, t⟩
        | _, _ => none
      else none
  | _ => none

/-- A normalized function summary. -/
structure NormalizedFuncSummaryS where
  schemaVersion : Nat
  funcId : String
  edges : List FuncSummaryEdgeS
deriving DecidableEq, Repr

/-- The de-duplicated (`Map.set` by edge key: first position, last value)
and canonically sorted edge list of `normalizeFuncSummary`. -/
def summaryEdgesOf (es : List FuncSummaryEdgeS) : List FuncSummaryEdgeS :=
  stableSortBy cmpFuncSummaryEdgeS
    ((es.foldl (fun m e => alistSet m (edgeKey e) e) []).map Prod.snd)

/-- The `fanoutByFrom` loop of `normalizeFuncSummary`. -/
def fanoutFold (maxFanout : Nat) : List (String × Nat) → List FuncSummaryEdgeS → Bool
  | _, [] => true
  | m, e :: rest =>
      match (match alistGet m (nodeKey e.from') with | some c => c | none => 0) + 1 with
      | next =>
          if next > maxFanout then false
          else fanoutFold maxFanout (alistSet m (nodeKey e.from') next) rest

/-- The tail of `normalizeFuncSummary` after the edges are normalized:
the maxEdges bound, the fanout bound, and the baseline-coverage check. -/
def finishSummary (funcId : String) (es : List FuncSummaryEdgeS)
    (baselineEdges : List FuncSummaryEdgeS) (maxEdges maxFanout : Nat) :
    Option NormalizedFuncSummaryS :=
  if (summaryEdgesOf es).length > maxEdges then none
  else if fanoutFold maxFanout [] (summaryEdgesOf es) then
    if (baselineEdges.filter (fun be =>
        !(decide (edgeKey be ∈ (summaryEdgesOf es).map edgeKey)))).isEmpty then
      some ⟨1, funcId, summaryEdgesOf es⟩
    else none
  else none

/-- `normalizeFuncSummary` from func_summary.ts; `none` models a thrown
error. -/
def normalizeFuncSummary (v : Js) (ir : FuncSummaryIrS)
    (baselineEdges : List FuncSummaryEdgeS)
    (boundsMaxEdges boundsMaxFanout : Option Int) : Option NormalizedFuncSummaryS :=
  match assertPositiveSafeInt (boundsMaxEdges.getD 25000),
      assertPositiveSafeInt (boundsMaxFanout.getD 5000) with
  | some maxEdges, some maxFanout =>
      match v with
      | Js.obj fields =>
          if fields.all (fun p => decide (p.1 ∈ ["schemaVersion", "funcId", "edges"])) then
            match jsGet fields "schemaVersion" with
            | Js.num sv =>
                if sv = 1 then
                  match jsGet fields "funcId" with
                  | Js.str fstr =>
                      match parseFuncId fstr with
                      | some funcId =>
                          if funcId = ir.funcId then
                            match jsGet fields "edges" with
                            | Js.arr rawEdges =>
                                match optMapM
                                    (fun re => normalizeFuncSummaryEdge re ir baselineEdges)
                                    rawEdges with
                                | some es =>
                                    finishSummary funcId es baselineEdges maxEdges maxFanout
                                | none => none
                            | _ => none
                          else none
                      | none => none
                  | _ => none
                else none
            | _ => none
          else none
      | _ => none
  | _, _ => none

/-! ## Interprocedural propagation (interproc_propagation.ts)

Structural embedding.  The source's `LocalNodeKey` strings
(`"r"`, `` `v\0${id}` ``, `` `a\0${cs}\0${i}` ``, `` `hr\0${id}` ``,
`` `hw\0${id}` ``) are injective encodings of the structural node forms
(canonical ids contain no NUL), so they are modelled as an inductive type;
key maps keyed by such encodings or by `flowFactKey` are insertion-ordered
sets (re-setting an existing key stores an identical value).  Likewise the
`factKeys` comparison in the driver step equals structural fact-list
equality.  `createStmtId`'s safe-integer assertion inside
`syntheticHeapAnchorId` and the `IR.params must contain only p* VarIds`
throw cannot fire on normalizer-produced inputs and are not modelled. -/

/-- `FlowNode` from flow_fact.ts, structural (`return` is spelled `ret`). -/
inductive FlowNodeP where
  | var (funcId : FuncIdP) (id : VarIdP)
  | call_arg (callsiteId : CallsiteIdP) (index : Nat)
  | heap_read (id : HeapIdP)
  | heap_write (id : HeapIdP)
  | ret (funcId : FuncIdP)
deriving DecidableEq, Repr

/-- `NormalizedFlowFact` (the constant `schemaVersion: 1` is omitted;
`from`/`to` are Lean keywords). -/
structure FlowFactP where
  from' : FlowNodeP
  to' : FlowNodeP
deriving DecidableEq, Repr

/-- `NODE_KIND_ORDER` from flow_fact.ts. -/
def flowNodeRank : FlowNodeP → Nat
  | .var _ _ => 0
  | .call_arg _ _ => 1
  | .heap_read _ => 2
  | .heap_write _ => 3
  | .ret _ => 4

/-- `cmpFlowNode` from flow_fact.ts. -/
def cmpFlowNode (a b : FlowNodeP) : Ordering :=
  match a, b with
  | .var f1 i1, .var f2 i2 => (cmpFuncId f1 f2).then (cmpVarId i1 i2)
  | .call_arg c1 i1, .call_arg c2 i2 => (cmpCallsiteId c1 c2).then (cmpNumber i1 i2)
  | .heap_read x, .heap_read y => cmpHeapId x y
  | .heap_write x, .heap_write y => cmpHeapId x y
  | .ret f1, .ret f2 => cmpFuncId f1 f2
  | x, y => cmpNumber (flowNodeRank x) (flowNodeRank y)

/-- `cmpFlowFact` from flow_fact.ts. -/
def cmpFlowFact (a b : FlowFactP) : Ordering :=
  (cmpFlowNode a.from' b.from').then (cmpFlowNode a.to' b.to')

/-- `LocalNodeKey`, structural. -/
inductive LNodeP where
  | ret
  | var (id : VarIdP)
  | callArg (callsiteId : CallsiteIdP) (index : Nat)
  | heapRead (id : HeapIdP)
  | heapWrite (id : HeapIdP)
deriving DecidableEq, Repr

/-- Canonical string of a structural `FuncIdP`. -/
def funcIdString (f : FuncIdP) : String :=
  "f:" ++ encodeURIComponent f.filePath ++ ":" ++ natCanonString f.startOffset ++
    ":" ++ natCanonString f.endOffset

/-- Canonical string of a structural `StmtIdP`. -/
def stmtIdString (s : StmtIdP) : String :=
  "s:" ++ encodeURIComponent s.filePath ++ ":" ++ natCanonString s.startOffset ++
    ":" ++ natCanonString s.endOffset ++ ":" ++ natCanonString s.statementIndex

/-- Canonical string of a structural `HeapIdP`. -/
def heapIdString (h : HeapIdP) : String :=
  "h:" ++ encodeURIComponent h.site.filePath ++ ":" ++
    natCanonString h.site.startOffset ++ ":" ++ natCanonString h.site.endOffset ++
    ":" ++ natCanonString h.site.statementIndex ++ ":" ++
    encodeURIComponent h.propertyName

/-- Canonical string of a structural `VarIdP`. -/
def varIdString (v : VarIdP) : String :=
  (match v.kind with | .p => "p" | .v => "v") ++ natCanonString v.index

/-- The source's `LocalNodeKey` string of a structural node (used only for
the `cmpString` ordering of heap-read BFS sources). -/
def lnodeKeyString : LNodeP → String
  | .ret => "r"
  | .var id => "v\x00" ++ varIdString id
  | .callArg c i => "a\x00" ++ stmtIdString c ++ "\x00" ++ natCanonString i
  | .heapRead id => "hr\x00" ++ heapIdString id
  | .heapWrite id => "hw\x00" ++ heapIdString id

/-- `isHeapReadNode`. -/
def isHeapReadNode : LNodeP → Bool
  | .heapRead _ => true
  | _ => false

/-- Insert into an insertion-ordered set (JS `Set.add` / keyed `Map.set`
with an injective key). -/
def setInsert {α : Type} [DecidableEq α] (l : List α) (x : α) : List α :=
  if x ∈ l then l else l ++ [x]

/-- `buildBaseAdj` (v1): only `var` sources, and only `var`/`call_arg`/
`return` targets. -/
def buildBaseAdj (edges : List CheapDepEdgeP) : List (LNodeP × List LNodeP) :=
  edges.foldl
    (fun out e =>
      match e.from' with
      | .var vid =>
          match
            (match e.to' with
              | .var d => some (LNodeP.var d)
              | .call_arg c i => some (LNodeP.callArg c i)
              | .ret => some LNodeP.ret
              | _ => none) with
          | some toN => alistAppend out (LNodeP.var vid) toN
          | none => out
      | _ => out) []

/-- `buildBaseAdjV2`: also `heap_read` sources and `heap_write` targets. -/
def buildBaseAdjV2 (edges : List CheapDepEdgeP) : List (LNodeP × List LNodeP) :=
  edges.foldl
    (fun out e =>
      match
        (match e.from' with
          | .var vid => some (LNodeP.var vid)
          | .heap_read h => some (LNodeP.heapRead h)
          | _ => none) with
      | some fromN =>
          match
            (match e.to' with
              | .var d => some (LNodeP.var d)
              | .call_arg c i => some (LNodeP.callArg c i)
              | .ret => some LNodeP.ret
              | .heap_write h => some (LNodeP.heapWrite h)
              | _ => none) with
          | some toN => alistAppend out fromN toN
          | none => out
      | none => out) []

/-- `CallsiteInfo` (v1). -/
structure CallsiteInfoP where
  dst : Option VarIdP
  argCount : Nat
deriving DecidableEq, Repr

/-- `CallsiteInfoV2`. -/
structure CallsiteInfoV2P where
  dst : Option VarIdP
  argCount : Nat
  argVars : List (Option VarIdP)
deriving DecidableEq, Repr

/-- The per-function callsite map built from the IR's call statements. -/
def callsitesOfIr (stmts : List IrStmtP) : List (CallsiteIdP × CallsiteInfoP) :=
  stmts.foldl
    (fun m st =>
      match st with
      | .call cs dst _ args => alistSet m cs ⟨dst, args.length⟩
      | _ => m) []

/-- The per-function callsite map of v2 (also records which arguments are
plain variables). -/
def callsitesOfIrV2 (stmts : List IrStmtP) : List (CallsiteIdP × CallsiteInfoV2P) :=
  stmts.foldl
    (fun m st =>
      match st with
      | .call cs dst _ args => alistSet m cs ⟨dst, args.length, args.map rvalueToVarId⟩
      | _ => m) []

/-- `computeHeapAnchorByVar` from interproc_propagation.ts — textually the
same anchor algorithm as the cheap pass: params/locals pre-anchored to
their synthetic sites, then the statement loop. -/
def computeHeapAnchorByVar (ir : NormalizedFuncIRP) : List (VarIdP × StmtIdP) :=
  ir.stmts.foldl (cheapAnchorStep ir.funcId) (cheapAnchorInit ir)

/-- `FuncInput` (v1). -/
structure FuncInputP where
  funcId : FuncIdP
  ir : NormalizedFuncIRP
  baseAdj : List (LNodeP × List LNodeP)
  callsites : List (CallsiteIdP × CallsiteInfoP)
deriving DecidableEq, Repr

/-- `FuncInputV2`. -/
structure FuncInputV2P where
  funcId : FuncIdP
  ir : NormalizedFuncIRP
  baseAdj : List (LNodeP × List LNodeP)
  callsites : List (CallsiteIdP × CallsiteInfoV2P)
  heapAnchorByVar : List (VarIdP × StmtIdP)
deriving DecidableEq, Repr

/-- `FuncState` (v1); `factKeys` is omitted (it is `facts.map flowFactKey`
with `flowFactKey` injective, so the driver's key comparison is fact-list
equality). -/
structure FuncStateP where
  facts : List FlowFactP
  paramReturnIndices : List Nat
deriving DecidableEq, Repr

/-- `LiftableParamHeapWriteEffect`. -/
structure ParamHeapWriteEff where
  valueParamIndex : Nat
  objectParamIndex : Nat
  propertyName : String
deriving DecidableEq, Repr

/-- `LiftableHeapReadReturnEffect`. -/
structure HeapReadReturnEff where
  objectParamIndex : Nat
  propertyName : String
deriving DecidableEq, Repr

/-- `LiftableHeapReadHeapWriteEffect`. -/
structure HeapReadHeapWriteEff where
  readObjectParamIndex : Nat
  readPropertyName : String
  writeObjectParamIndex : Nat
  writePropertyName : String
deriving DecidableEq, Repr

/-- `cmpLiftableParamHeapWriteEffect`. -/
def cmpParamHeapWriteEff (a b : ParamHeapWriteEff) : Ordering :=
  (cmpNumber a.valueParamIndex b.valueParamIndex).then
    ((cmpNumber a.objectParamIndex b.objectParamIndex).then
      (cmpString a.propertyName b.propertyName))

/-- `cmpLiftableHeapReadReturnEffect`. -/
def cmpHeapReadReturnEff (a b : HeapReadReturnEff) : Ordering :=
  (cmpNumber a.objectParamIndex b.objectParamIndex).then
    (cmpString a.propertyName b.propertyName)

/-- `cmpLiftableHeapReadHeapWriteEffect`. -/
def cmpHeapReadHeapWriteEff (a b : HeapReadHeapWriteEff) : Ordering :=
  (cmpNumber a.readObjectParamIndex b.readObjectParamIndex).then
    ((cmpString a.readPropertyName b.readPropertyName).then
      ((cmpNumber a.writeObjectParamIndex b.writeObjectParamIndex).then
        (cmpString a.writePropertyName b.writePropertyName)))

/-- `FuncStateV2`. -/
structure FuncStateV2P where
  facts : List FlowFactP
  paramReturnIndices : List Nat
  paramHeapWriteEffects : List ParamHeapWriteEff
  heapReadReturnEffects : List HeapReadReturnEff
  heapReadHeapWriteEffects : List HeapReadHeapWriteEff
deriving DecidableEq, Repr

/-- `mapHeapBucketToCaller` from interproc_propagation.ts. -/
def mapHeapBucketToCaller (func : FuncInputV2P) (callsite : CallsiteInfoV2P)
    (argIndex : Nat) (propertyName : String) : Option HeapIdP :=
  if argIndex ≥ callsite.argCount then none
  else
    match callsite.argVars.getD argIndex none with
    | none => none
    | some argVar =>
        some (createHeapIdP
          (heapAnchorForVar func.heapAnchorByVar func.funcId argVar) propertyName)

/-- `heapIdToSyntheticParamIndex`. -/
def heapIdToSyntheticParamIndex (h : HeapIdP) : Option Nat :=
  if SYNTHETIC_HEAP_ANCHOR_BASE ≤ h.site.statementIndex ∧
      h.site.statementIndex <
        SYNTHETIC_HEAP_ANCHOR_BASE + SYNTHETIC_HEAP_ANCHOR_LOCAL_OFFSET then
    some (h.site.statementIndex - SYNTHETIC_HEAP_ANCHOR_BASE)
  else none

/-- `getNeighbors`: base neighbours then extra neighbours. -/
def getNeighbors (base extra : List (LNodeP × List LNodeP)) (n : LNodeP) :
    List LNodeP :=
  match alistGet base n, alistGet extra n with
  | none, b => b.getD []
  | some a, none => a
  | some a, some b => a ++ b

/-- The BFS loop over local node keys, as fuel-indexed recursion; it
returns the final `visited` set (in insertion order), which is exactly the
set of nodes the source's loop pops. -/
def bfsEnqueue (p : List LNodeP × List LNodeP) (nxt : LNodeP) :
    List LNodeP × List LNodeP :=
  if nxt ∈ p.2 then p else (p.1 ++ [nxt], p.2 ++ [nxt])

def bfsReach (adj : LNodeP → List LNodeP) :
    Nat → List LNodeP → List LNodeP → List LNodeP
  | 0, _, visited => visited
  | _ + 1, [], visited => visited
  | fuel + 1, cur :: rest, visited =>
      let st := (adj cur).foldl bfsEnqueue (rest, visited)
      bfsReach adj fuel st.1 st.2

/-- Fuel that always suffices for `bfsReach` from a single start node: every
iteration either pops the queue or marks an adjacency-listed node
visited. -/
def adjWeight (m : List (LNodeP × List LNodeP)) : Nat :=
  m.foldl (fun n p => n + 1 + p.2.length) 0

def bfsFuel (base extra : List (LNodeP × List LNodeP)) : Nat :=
  2 + adjWeight base + adjWeight extra

/-- The per-callsite set of in-range callee param-return indices (JS
`Set<number>` in insertion order). -/
def calleeIdxSet {σ : Type} (proj : σ → List Nat) (argCount : Nat)
    (callees : List FuncIdP) (stateByFuncId : List (FuncIdP × σ)) : List Nat :=
  callees.foldl
    (fun s calleeId =>
      match alistGet stateByFuncId calleeId with
      | none => s
      | some st => (proj st).foldl
          (fun s idx => if idx ≥ argCount then s else setInsert s idx) s) []

/-- The per-callsite set of in-range callee liftable effects (JS keyed
`Set`, modelled structurally — effect keys are injective for NUL-free
property names). -/
def calleeEffects {σ ε : Type} [DecidableEq ε] (proj : σ → List ε) (keep : ε → Bool)
    (callees : List FuncIdP) (stateByFuncId : List (FuncIdP × σ)) : List ε :=
  callees.foldl
    (fun es calleeId =>
      match alistGet stateByFuncId calleeId with
      | none => es
      | some st => (proj st).foldl
          (fun es e => if keep e then setInsert es e else es) es) []

/-- One callsite's contribution to the v1 `extraAdj`: for a callsite with a
destination, the callees' in-range `paramReturnIndices` (sorted) each add
`call_arg(c, idx) → var(dst)`. -/
def extraV1ForCallsite (calleesByCallsite : List (CallsiteIdP × List FuncIdP))
    (stateByFuncId : List (FuncIdP × FuncStateP))
    (extra : List (LNodeP × List LNodeP)) (p : CallsiteIdP × CallsiteInfoP) :
    List (LNodeP × List LNodeP) :=
  match p.2.dst with
  | none => extra
  | some dst =>
      let idxSet := calleeIdxSet (fun st => st.paramReturnIndices) p.2.argCount
        ((alistGet calleesByCallsite p.1).getD []) stateByFuncId
      if idxSet.isEmpty then extra
      else
        (stableSortBy cmpNumber idxSet).foldl
          (fun extra idx =>
            alistAppend extra (LNodeP.callArg p.1 idx) (LNodeP.var dst)) extra

/-- The v1 call-return `extraAdj` of `computeFuncState`. -/
def buildExtraAdj (func : FuncInputP)
    (calleesByCallsite : List (CallsiteIdP × List FuncIdP))
    (stateByFuncId : List (FuncIdP × FuncStateP)) : List (LNodeP × List LNodeP) :=
  func.callsites.foldl (extraV1ForCallsite calleesByCallsite stateByFuncId) []

/-- One callsite's contribution to the v2 `extraAdj`: the v1 return
lifting plus the three heap liftings (param→heap_write, heap_read→return,
heap_read→heap_write), each with set-deduplication, canonical sorting and
`mapHeapBucketToCaller`. -/
def extraV2ForCallsite (func : FuncInputV2P)
    (calleesByCallsite : List (CallsiteIdP × List FuncIdP))
    (stateByFuncId : List (FuncIdP × FuncStateV2P))
    (extra : List (LNodeP × List LNodeP)) (p : CallsiteIdP × CallsiteInfoV2P) :
    List (LNodeP × List LNodeP) :=
  let callees := (alistGet calleesByCallsite p.1).getD []
  let extra :=
    match p.2.dst with
    | none => extra
    | some dst =>
        (stableSortBy cmpNumber (calleeIdxSet (fun st => st.paramReturnIndices)
            p.2.argCount callees stateByFuncId)).foldl
          (fun extra idx =>
            alistAppend extra (LNodeP.callArg p.1 idx) (LNodeP.var dst)) extra
  let extra :=
    (stableSortBy cmpParamHeapWriteEff (calleeEffects
        (fun st => st.paramHeapWriteEffects)
        (fun e => decide (e.valueParamIndex < p.2.argCount) &&
          decide (e.objectParamIndex < p.2.argCount)) callees stateByFuncId)).foldl
      (fun extra e =>
        match mapHeapBucketToCaller func p.2 e.objectParamIndex e.propertyName with
        | none => extra
        | some heapId =>
            alistAppend extra (LNodeP.callArg p.1 e.valueParamIndex)
              (LNodeP.heapWrite heapId)) extra
  let extra :=
    match p.2.dst with
    | none => extra
    | some dst =>
        (stableSortBy cmpHeapReadReturnEff (calleeEffects
            (fun st => st.heapReadReturnEffects)
            (fun e => decide (e.objectParamIndex < p.2.argCount))
            callees stateByFuncId)).foldl
          (fun extra e =>
            match mapHeapBucketToCaller func p.2 e.objectParamIndex e.propertyName with
            | none => extra
            | some heapId =>
                alistAppend extra (LNodeP.heapRead heapId) (LNodeP.var dst)) extra
  (stableSortBy cmpHeapReadHeapWriteEff (calleeEffects
      (fun st => st.heapReadHeapWriteEffects)
      (fun e => decide (e.readObjectParamIndex < p.2.argCount) &&
        decide (e.writeObjectParamIndex < p.2.argCount)) callees stateByFuncId)).foldl
    (fun extra e =>
      match mapHeapBucketToCaller func p.2 e.readObjectParamIndex e.readPropertyName,
          mapHeapBucketToCaller func p.2 e.writeObjectParamIndex e.writePropertyName with
      | some rh, some wh =>
          alistAppend extra (LNodeP.heapRead rh) (LNodeP.heapWrite wh)
      | _, _ => extra) extra

/-- The v2 `extraAdj` of `computeFuncStateV2`. -/
def buildExtraAdjV2 (func : FuncInputV2P)
    (calleesByCallsite : List (CallsiteIdP × List FuncIdP))
    (stateByFuncId : List (FuncIdP × FuncStateV2P)) : List (LNodeP × List LNodeP) :=
  func.callsites.foldl (extraV2ForCallsite func calleesByCallsite stateByFuncId) []

/-- The v1 per-parameter BFS fold step of `computeFuncState`: walk from the
parameter's `var` node and emit `param → return` / `param → call_arg`
facts, collecting the param-return index. -/
def presStepV1 (funcId : FuncIdP) (adj : LNodeP → List LNodeP) (fuel : Nat)
    (acc : List FlowFactP × List Nat) (paramId : VarIdP) : List FlowFactP × List Nat :=
  (bfsReach adj fuel [LNodeP.var paramId] [LNodeP.var paramId]).foldl
    (fun (acc : List FlowFactP × List Nat) cur =>
      match cur with
      | .ret =>
          (setInsert acc.1 ⟨.var funcId paramId, .ret funcId⟩,
           setInsert acc.2 paramId.index)
      | .callArg c i =>
          (setInsert acc.1 ⟨.var funcId paramId, .call_arg c i⟩, acc.2)
      | _ => acc) acc

/-- The v2 per-parameter BFS fold step: v1's plus `param → heap_write`. -/
def presStepV2 (funcId : FuncIdP) (adj : LNodeP → List LNodeP) (fuel : Nat)
    (acc : List FlowFactP × List Nat) (paramId : VarIdP) : List FlowFactP × List Nat :=
  (bfsReach adj fuel [LNodeP.var paramId] [LNodeP.var paramId]).foldl
    (fun (acc : List FlowFactP × List Nat) cur =>
      match cur with
      | .ret =>
          (setInsert acc.1 ⟨.var funcId paramId, .ret funcId⟩,
           setInsert acc.2 paramId.index)
      | .callArg c i =>
          (setInsert acc.1 ⟨.var funcId paramId, .call_arg c i⟩, acc.2)
      | .heapWrite h =>
          (setInsert acc.1 ⟨.var funcId paramId, .heap_write h⟩, acc.2)
      | _ => acc) acc

/-- The v2 per-heap-read-source BFS fold step, emitting `heap_read → …`
facts. -/
def heapFactsStep (funcId : FuncIdP) (adj : LNodeP → List LNodeP) (fuel : Nat)
    (fs : List FlowFactP) (src : LNodeP) : List FlowFactP :=
  match src with
  | .heapRead heapId =>
      (bfsReach adj fuel [src] [src]).foldl
        (fun fs cur =>
          match cur with
          | .ret => setInsert fs ⟨.heap_read heapId, .ret funcId⟩
          | .callArg c i => setInsert fs ⟨.heap_read heapId, .call_arg c i⟩
          | .heapWrite h => setInsert fs ⟨.heap_read heapId, .heap_write h⟩
          | _ => fs) fs
  | _ => fs

/-- The v2 liftable-effect extraction step over the sorted fact list. -/
def effsStep (paramCount : Nat)
    (acc : List ParamHeapWriteEff × List HeapReadReturnEff ×
      List HeapReadHeapWriteEff) (f : FlowFactP) :
    List ParamHeapWriteEff × List HeapReadReturnEff × List HeapReadHeapWriteEff :=
  match f.from', f.to' with
  | .var _ vid, .heap_write h =>
      (match vid.kind with
        | .p =>
            match heapIdToSyntheticParamIndex h with
            | some oi =>
                if oi ≥ paramCount then acc
                else (setInsert acc.1 ⟨vid.index, oi, h.propertyName⟩,
                  acc.2.1, acc.2.2)
            | none => acc
        | .v => acc)
  | .heap_read h, .ret _ =>
      (match heapIdToSyntheticParamIndex h with
        | some oi =>
            if oi ≥ paramCount then acc
            else (acc.1, setInsert acc.2.1 ⟨oi, h.propertyName⟩, acc.2.2)
        | none => acc)
  | .heap_read hr, .heap_write hw =>
      (match heapIdToSyntheticParamIndex hr, heapIdToSyntheticParamIndex hw with
        | some ri, some wi =>
            if ri ≥ paramCount then acc
            else if wi ≥ paramCount then acc
            else (acc.1, acc.2.1,
              setInsert acc.2.2 ⟨ri, hr.propertyName, wi, hw.propertyName⟩)
        | _, _ => acc)
  | _, _ => acc

/-- `computeFuncState` (v1): per-parameter BFS over `baseAdj ∪ extraAdj`,
emitting `param → return` and `param → call_arg` facts and collecting
param-return indices; facts and indices are set-deduplicated and
canonically sorted. -/
def computeFuncState (func : FuncInputP)
    (calleesByCallsite : List (CallsiteIdP × List FuncIdP))
    (stateByFuncId : List (FuncIdP × FuncStateP)) : FuncStateP :=
  let extra := buildExtraAdj func calleesByCallsite stateByFuncId
  let adj := getNeighbors func.baseAdj extra
  let fuel := bfsFuel func.baseAdj extra
  let pres := func.ir.params.foldl (presStepV1 func.funcId adj fuel) ([], [])
  ⟨stableSortBy cmpFlowFact pres.1, stableSortBy cmpNumber pres.2⟩

/-- `computeFuncStateV2`: the v1 per-parameter BFS also emits
`param → heap_write` facts; additionally every `heap_read` source of the
combined adjacency runs a BFS emitting `heap_read → …` facts; finally the
three liftable effect lists are extracted from the sorted facts. -/
def computeFuncStateV2 (func : FuncInputV2P)
    (calleesByCallsite : List (CallsiteIdP × List FuncIdP))
    (stateByFuncId : List (FuncIdP × FuncStateV2P)) : FuncStateV2P :=
  let extra := buildExtraAdjV2 func calleesByCallsite stateByFuncId
  let adj := getNeighbors func.baseAdj extra
  let fuel := bfsFuel func.baseAdj extra
  let pres := func.ir.params.foldl (presStepV2 func.funcId adj fuel) ([], [])
  let heapReadSources := stableSortBy
    (fun a b => cmpString (lnodeKeyString a) (lnodeKeyString b))
    (dedupKeepFirst (((func.baseAdj.map Prod.fst).filter isHeapReadNode) ++
      ((extra.map Prod.fst).filter isHeapReadNode)))
  let hfacts := heapReadSources.foldl (heapFactsStep func.funcId adj fuel) pres.1
  let facts := stableSortBy cmpFlowFact hfacts
  let effs := facts.foldl (effsStep func.ir.params.length) ([], [], [])
  ⟨facts, stableSortBy cmpNumber pres.2,
    stableSortBy cmpParamHeapWriteEff effs.1,
    stableSortBy cmpHeapReadReturnEff effs.2.1,
    stableSortBy cmpHeapReadHeapWriteEff effs.2.2⟩

/-- Per-caller `calleesByCallsite` map from the graph's outgoing edges,
with per-callsite callee sets sorted canonically. -/
def calleesByCallsiteFor (graph : MappedCallGraphP) (callerFuncId : FuncIdP) :
    List (CallsiteIdP × List FuncIdP) :=
  let byCallsite := ((alistGet graph.outgoingByCaller callerFuncId).getD []).foldl
    (fun m e => alistAppend m e.callsiteId e.calleeFuncId) []
  byCallsite.foldl
    (fun st p => alistSet st p.1 (stableSortBy cmpFuncId (dedupKeepFirst p.2))) []

/-- The errors the interproc runners can throw. -/
inductive InterprocErr where
  | missingInput
  | fixpoint (e : FixpointErr)
deriving DecidableEq, Repr

/-- `InterprocPropagationV1Result` (and V2's, which is the same type). -/
structure InterprocResultP where
  fixpoint : FixpointResultP
  facts : List FlowFactP
  factsByFuncId : List (FuncIdP × List FlowFactP)
deriving DecidableEq, Repr

/-- The v1 `FuncInput` map: every graph node must have an IR and a summary
(modelled by its edge list). -/
def funcInputsOf (graph : MappedCallGraphP)
    (irByFuncId : List (FuncIdP × NormalizedFuncIRP))
    (summaryByFuncId : List (FuncIdP × List CheapDepEdgeP)) :
    Option (List (FuncIdP × FuncInputP)) :=
  optMapM
    (fun funcId =>
      match alistGet irByFuncId funcId, alistGet summaryByFuncId funcId with
      | some ir, some summaryEdges =>
          some (funcId, ⟨funcId, ir, buildBaseAdj summaryEdges, callsitesOfIr ir.stmts⟩)
      | _, _ => none)
    graph.nodes

/-- The v2 `FuncInput` map. -/
def funcInputsOfV2 (graph : MappedCallGraphP)
    (irByFuncId : List (FuncIdP × NormalizedFuncIRP))
    (summaryByFuncId : List (FuncIdP × List CheapDepEdgeP)) :
    Option (List (FuncIdP × FuncInputV2P)) :=
  optMapM
    (fun funcId =>
      match alistGet irByFuncId funcId, alistGet summaryByFuncId funcId with
      | some ir, some summaryEdges =>
          some (funcId, ⟨funcId, ir, buildBaseAdjV2 summaryEdges,
            callsitesOfIrV2 ir.stmts, computeHeapAnchorByVar ir⟩)
      | _, _ => none)
    graph.nodes

/-- The store-on-change tail shared by both driver `step` callbacks:
compare the previous state's fact keys with the recomputed state's and
store only on change. -/
def storeIfChanged {σ : Type} (facts : σ → List FlowFactP)
    (stateByFuncId : List (FuncIdP × σ)) (funcId : FuncIdP) (next : σ) :
    Option (List (FuncIdP × σ) × Bool) :=
  match alistGet stateByFuncId funcId with
  | some prev =>
      if facts prev = facts next then some (stateByFuncId, false)
      else some (alistSet stateByFuncId funcId next, true)
  | none => some (alistSet stateByFuncId funcId next, true)

/-- The v1 driver `step` callback: recompute, compare fact keys, store on
change.  (`none` models the internal-error throw for a missing input.) -/
def interprocStepV1 (graph : MappedCallGraphP)
    (funcInputs : List (FuncIdP × FuncInputP))
    (stateByFuncId : List (FuncIdP × FuncStateP)) (funcId : FuncIdP) :
    Option (List (FuncIdP × FuncStateP) × Bool) :=
  match alistGet funcInputs funcId with
  | none => none
  | some func =>
      storeIfChanged (fun st => st.facts) stateByFuncId funcId
        (computeFuncState func (calleesByCallsiteFor graph funcId) stateByFuncId)

/-- The v2 driver `step` callback. -/
def interprocStepV2 (graph : MappedCallGraphP)
    (funcInputs : List (FuncIdP × FuncInputV2P))
    (stateByFuncId : List (FuncIdP × FuncStateV2P)) (funcId : FuncIdP) :
    Option (List (FuncIdP × FuncStateV2P) × Bool) :=
  match alistGet funcInputs funcId with
  | none => none
  | some func =>
      storeIfChanged (fun st => st.facts) stateByFuncId funcId
        (computeFuncStateV2 func (calleesByCallsiteFor graph funcId) stateByFuncId)


/-- The shared result assembly: per-function facts in node order, then the
global de-duplicated canonical fact list. -/
def interprocAssemble (graph : MappedCallGraphP)
    (factsOf : FuncIdP → List FlowFactP) (fixpoint : FixpointResultP) :
    InterprocResultP :=
  let factsByFuncId := graph.nodes.map (fun funcId => (funcId, factsOf funcId))
  let facts := stableSortBy cmpFlowFact (dedupKeepFirst (factsByFuncId.flatMap Prod.snd))
  ⟨fixpoint, facts, factsByFuncId⟩

/-- The shared tail of both runners: dispatch on the driver's result and
assemble. -/
def interprocFinish {σ : Type} (graph : MappedCallGraphP) (defaultSt : σ)
    (factsOf : σ → List FlowFactP)
    (r : Option (Except FixpointErr (List (FuncIdP × σ) × FixpointResultP))) :
    Option (Except InterprocErr InterprocResultP) :=
  match r with
  | none => none
  | some (.error e) => some (.error (.fixpoint e))
  | some (.ok (stateByFuncId, fixpoint)) =>
      some (.ok (interprocAssemble graph
        (fun funcId => factsOf ((alistGet stateByFuncId funcId).getD defaultSt))
        fixpoint))

/-- `runInterprocPropagationV1`; the outer `none` is fuel exhaustion of the
fuel-indexed driver loop (the source's loop simply runs on). -/
def runInterprocPropagationV1 (graph : MappedCallGraphP)
    (irByFuncId : List (FuncIdP × NormalizedFuncIRP))
    (summaryByFuncId : List (FuncIdP × List CheapDepEdgeP))
    (maxSteps : Option Nat) (fuel : Nat) : Option (Except InterprocErr InterprocResultP) :=
  match funcInputsOf graph irByFuncId summaryByFuncId with
  | none => some (.error .missingInput)
  | some funcInputs =>
      interprocFinish graph ⟨[], []⟩ (fun st => st.facts)
        (runDeterministicFixpoint graph
          ⟨none, interprocStepV1 graph funcInputs, none, maxSteps⟩ [] fuel)

/-- `runInterprocPropagationV2`. -/
def runInterprocPropagationV2 (graph : MappedCallGraphP)
    (irByFuncId : List (FuncIdP × NormalizedFuncIRP))
    (summaryByFuncId : List (FuncIdP × List CheapDepEdgeP))
    (maxSteps : Option Nat) (fuel : Nat) : Option (Except InterprocErr InterprocResultP) :=
  match funcInputsOfV2 graph irByFuncId summaryByFuncId with
  | none => some (.error .missingInput)
  | some funcInputs =>
      interprocFinish graph ⟨[], [], [], [], []⟩ (fun st => st.facts)
        (runDeterministicFixpoint graph
          ⟨none, interprocStepV2 graph funcInputs, none, maxSteps⟩ [] fuel)


/-- A summary edge free of heap nodes (claim C9's hypothesis). -/
def lnodeNoHeapSummary : CheapDepNodeP → Bool
  | .heap_read _ => false
  | .heap_write _ => false
  | _ => true

def heapFreeEdge (e : CheapDepEdgeP) : Bool :=
  lnodeNoHeapSummary e.from' && lnodeNoHeapSummary e.to'

/-- A local node that is neither a heap read nor a heap write. -/
def lnodeNoHeap : LNodeP → Bool
  | .heapRead _ => false
  | .heapWrite _ => false
  | _ => true

/-- A `var` local node. -/
def isVarNode : LNodeP → Bool
  | .var _ => true
  | _ => false

/-- A `call_arg` local node. -/
def isCallArgNodeP : LNodeP → Bool
  | .callArg _ _ => true
  | _ => false

/-- A v1 state viewed as a v2 state (no liftable heap effects). -/
def liftStateV2 (s : FuncStateP) : FuncStateV2P :=
  ⟨s.facts, s.paramReturnIndices, [], [], []⟩

/-- A v1 state map viewed as a v2 state map. -/
def liftMapV2 (m : List (FuncIdP × FuncStateP)) : List (FuncIdP × FuncStateV2P) :=
  m.map (fun p => (p.1, liftStateV2 p.2))

/-- The v1 view of a v2 callsite record. -/
def callsiteProj (i : CallsiteInfoV2P) : CallsiteInfoP := ⟨i.dst, i.argCount⟩

/-- A flow-fact node that is a `var` node. -/
def flowNodeIsVar : FlowNodeP → Bool
  | .var _ _ => true
  | _ => false

/-- A flow-fact node that is a `heap_write` node. -/
def flowNodeIsHeapWrite : FlowNodeP → Bool
  | .heap_write _ => true
  | _ => false

/-- The v2 `FuncInput` induced by a v1 input (the extra v2 components are
determined by its IR). -/
def inputV2OfV1 (i : FuncInputP) : FuncInputV2P :=
  ⟨i.funcId, i.ir, i.baseAdj, callsitesOfIrV2 i.ir.stmts, computeHeapAnchorByVar i.ir⟩

/-- The pointwise growth order on v2 states (all five set-like components
grow). -/
def stateLeV2 (a b : FuncStateV2P) : Prop :=
  a.facts ⊆ b.facts ∧ a.paramReturnIndices ⊆ b.paramReturnIndices ∧
  a.paramHeapWriteEffects ⊆ b.paramHeapWriteEffects ∧
  a.heapReadReturnEffects ⊆ b.heapReadReturnEffects ∧
  a.heapReadHeapWriteEffects ⊆ b.heapReadHeapWriteEffects

/-- The pointwise growth order on state maps: every stored state stays
stored and grows. -/
def mapLeV2 (m m' : List (FuncIdP × FuncStateV2P)) : Prop :=
  ∀ G st, alistGet m G = some st → ∃ st', alistGet m' G = some st' ∧ stateLeV2 st st'

/-- The driver invariant: every stored state was computed by
`computeFuncStateV2` from an earlier (pointwise smaller) state map. -/
def InvV2 (graph : MappedCallGraphP) (funcInputs : List (FuncIdP × FuncInputV2P))
    (m : List (FuncIdP × FuncStateV2P)) : Prop :=
  ∀ G st, alistGet m G = some st → ∃ func mp, alistGet funcInputs G = some func ∧
    mapLeV2 mp m ∧ st = computeFuncStateV2 func (calleesByCallsiteFor graph G) mp

/-- Pointwise value-containment between adjacency maps. -/
def adjMapLe (e e' : List (LNodeP × List LNodeP)) : Prop :=
  ∀ k x, x ∈ (alistGet e k).getD [] → x ∈ (alistGet e' k).getD []

/-- The fact the per-parameter BFS emits for a visited node. -/
def presFactOf (funcId : FuncIdP) (p : VarIdP) : LNodeP → Option FlowFactP
  | .ret => some ⟨.var funcId p, .ret funcId⟩
  | .callArg c i => some ⟨.var funcId p, .call_arg c i⟩
  | .heapWrite h => some ⟨.var funcId p, .heap_write h⟩
  | _ => none

/-- The fact the per-heap-read-source BFS emits for a visited node. -/
def heapFactOf (funcId : FuncIdP) (hid : HeapIdP) : LNodeP → Option FlowFactP
  | .ret => some ⟨.heap_read hid, .ret funcId⟩
  | .callArg c i => some ⟨.heap_read hid, .call_arg c i⟩
  | .heapWrite h => some ⟨.heap_read hid, .heap_write h⟩
  | _ => none

/-- Property names carried by a local node's heap id. -/
def lnodeProps : LNodeP → List String
  | .heapRead h => [h.propertyName]
  | .heapWrite h => [h.propertyName]
  | _ => []

/-- Property names carried by a flow node's heap id. -/
def flowNodeProps : FlowNodeP → List String
  | .heap_read h => [h.propertyName]
  | .heap_write h => [h.propertyName]
  | _ => []

/-- All property names occurring in an adjacency map. -/
def adjProps (adj : List (LNodeP × List LNodeP)) : List String :=
  adj.flatMap (fun pr => lnodeProps pr.1 ++ pr.2.flatMap lnodeProps)

/-- All property names occurring in any function's base adjacency. -/
def allBaseProps (funcInputs : List (FuncIdP × FuncInputV2P)) : List String :=
  funcInputs.flatMap (fun p => adjProps p.2.baseAdj)

/-- Every heap id `mapHeapBucketToCaller` can produce for `func` with a
property name drawn from `props`. -/
def mappedHeapIds (func : FuncInputV2P) (props : List String) : List HeapIdP :=
  func.callsites.flatMap (fun p => p.2.argVars.flatMap (fun av =>
    match av with
    | some v => props.map (fun prop =>
        createHeapIdP (heapAnchorForVar func.heapAnchorByVar func.funcId v) prop)
    | none => []))

/-- The `heap_write` ids stored as base-adjacency values. -/
def baseHeapWriteIds (base : List (LNodeP × List LNodeP)) : List HeapIdP :=
  (base.flatMap Prod.snd).filterMap (fun n =>
    match n with | .heapWrite h => some h | _ => none)

/-- The `call_arg` flow nodes stored as base-adjacency values. -/
def baseCallArgNodes (base : List (LNodeP × List LNodeP)) : List FlowNodeP :=
  (base.flatMap Prod.snd).filterMap (fun n =>
    match n with | .callArg c i => some (FlowNodeP.call_arg c i) | _ => none)

/-- The `heap_read` ids stored as base-adjacency keys. -/
def baseHeapReadIds (base : List (LNodeP × List LNodeP)) : List HeapIdP :=
  (base.map Prod.fst).filterMap (fun n =>
    match n with | .heapRead h => some h | _ => none)

/-- A finite universe containing every flow fact `computeFuncStateV2` can
emit for `func` when all effect property names come from `props`. -/
def factUniverseV2 (func : FuncInputV2P) (props : List String) : List FlowFactP :=
  (func.ir.params.map (fun p => FlowNodeP.var func.funcId p) ++
      (baseHeapReadIds func.baseAdj ++ mappedHeapIds func props).map
        FlowNodeP.heap_read).flatMap
    (fun a =>
      (FlowNodeP.ret func.funcId :: baseCallArgNodes func.baseAdj ++
          (baseHeapWriteIds func.baseAdj ++ mappedHeapIds func props).map
            FlowNodeP.heap_write).map
        (fun b => ⟨a, b⟩))

/-- All effect property names of a state come from `props`. -/
def statePropsOK (props : List String) (st : FuncStateV2P) : Prop :=
  (∀ e ∈ st.paramHeapWriteEffects, e.propertyName ∈ props) ∧
  (∀ e ∈ st.heapReadReturnEffects, e.propertyName ∈ props) ∧
  (∀ e ∈ st.heapReadHeapWriteEffects,
    e.readPropertyName ∈ props ∧ e.writePropertyName ∈ props)

def mapPropsOK (props : List String) (m : List (FuncIdP × FuncStateV2P)) : Prop :=
  ∀ G st, alistGet m G = some st → statePropsOK props st

/-- The size-bound invariant of the driver: every stored state has nodup
facts inside its function's finite fact universe, with effect property
names from the global base-property set. -/
def BndV2 (funcInputs : List (FuncIdP × FuncInputV2P))
    (m : List (FuncIdP × FuncStateV2P)) : Prop :=
  ∀ G st, alistGet m G = some st → ∃ func, alistGet funcInputs G = some func ∧
    st.facts.Nodup ∧ st.facts ⊆ factUniverseV2 func (allBaseProps funcInputs) ∧
    statePropsOK (allBaseProps funcInputs) st

/-- Shape of a v2 extra adjacency: `call_arg`/mapped-`heap_read` keys and
`var`/mapped-`heap_write` values. -/
def extraShapeOK (func : FuncInputV2P) (props : List String)
    (e : List (LNodeP × List LNodeP)) : Prop :=
  ∀ pr ∈ e,
    (isCallArgNodeP pr.1 = true ∨
      ∃ h ∈ mappedHeapIds func props, pr.1 = LNodeP.heapRead h) ∧
    ∀ x ∈ pr.2, (isVarNode x = true ∨
      ∃ h ∈ mappedHeapIds func props, x = LNodeP.heapWrite h)

/-- Termination slack of one function: how much its stored fact set can
still grow (plus one for the pending first store). -/
def slackOfV2 (funcInputs : List (FuncIdP × FuncInputV2P))
    (m : List (FuncIdP × FuncStateV2P)) (G : FuncIdP) : Nat :=
  match alistGet funcInputs G with
  | none => 0
  | some func =>
      match alistGet m G with
      | none => 2 + (factUniverseV2 func (allBaseProps funcInputs)).length
      | some st =>
          1 + (factUniverseV2 func (allBaseProps funcInputs)).length -
            st.facts.length

/-- Total slack over a node list. -/
def totalSlackV2 (funcInputs : List (FuncIdP × FuncInputV2P))
    (m : List (FuncIdP × FuncStateV2P)) (nodes : List FuncIdP) : Nat :=
  ((dedupKeepFirst nodes).map (slackOfV2 funcInputs m)).sum

/-- A bound on how many dependents any single changed step can enqueue. -/
def callersBound (graph : MappedCallGraphP) : Nat :=
  (graph.callersByCallee.map (fun p => p.2.length)).sum

/-- The decreasing measure of the v2 fixpoint loop. -/
def measureV2 (graph : MappedCallGraphP)
    (funcInputs : List (FuncIdP × FuncInputV2P))
    (m : List (FuncIdP × FuncStateV2P)) (queue : List FuncIdP) : Nat :=
  totalSlackV2 funcInputs m graph.nodes * (callersBound graph + 1) +
    queue.length

/-! # Theorems -/

/-! ## Association-list lemmas -/

theorem alistGet_alistSet_self {α β : Type} [DecidableEq α]
    (m : List (α × β)) (k : α) (v : β) : alistGet (alistSet m k v) k = some v := by
  induction m with
  | nil => simp [alistSet, alistGet]
  | cons hd tl ih =>
      obtain ⟨k', v'⟩ := hd
      by_cases h : k' = k
      · subst h
        simp [alistSet, alistGet]
      · simp [alistSet, alistGet, h, ih]

theorem alistGet_alistSet_ne {α β : Type} [DecidableEq α]
    (m : List (α × β)) (k x : α) (v : β) (hne : x ≠ k) :
    alistGet (alistSet m k v) x = alistGet m x := by
  have hkx : ¬k = x := fun h => hne h.symm
  induction m with
  | nil => simp [alistSet, alistGet, hkx]
  | cons hd tl ih =>
      obtain ⟨k', v'⟩ := hd
      by_cases h : k' = k
      · subst h
        simp only [alistSet, if_pos rfl, alistGet]
        rw [if_neg hkx, if_neg hkx]
      · simp only [alistSet, if_neg h, alistGet]
        by_cases h2 : k' = x
        · simp [h2]
        · simp [h2, ih]

/-- The anchor map built by a fold of `alistSet`s assigning `f id` to each
`id` of `l`. -/
theorem alistGet_foldl_set {α β : Type} [DecidableEq α]
    (f : α → β) (l : List α) (m0 : List (α × β)) (x : α) :
    alistGet (l.foldl (fun m id => alistSet m id (f id)) m0) x =
      (if x ∈ l then some (f x) else alistGet m0 x) := by
  induction l generalizing m0 with
  | nil => simp
  | cons hd tl ih =>
      simp only [List.foldl_cons]
      rw [ih]
      by_cases hmem : x ∈ tl
      · simp [hmem]
      · by_cases hx : x = hd
        · subst hx
          simp [hmem, alistGet_alistSet_self]
        · simp [hmem, hx, alistGet_alistSet_ne _ _ _ _ hx]

/-! ## Cheap-pass helper lemmas (C5) -/

theorem cheapAnchorsAfter_zero (ir : NormalizedFuncIRP) :
    cheapAnchorsAfter ir 0 = cheapAnchorInit ir := rfl

theorem cheapAnchorsAfter_succ (ir : NormalizedFuncIRP) (k : Nat) (st : IrStmtP)
    (h : ir.stmts[k]? = some st) :
    cheapAnchorsAfter ir (k + 1) =
      cheapAnchorStep ir.funcId (cheapAnchorsAfter ir k) st := by
  unfold cheapAnchorsAfter
  rw [List.take_succ, h]
  simp

/-- The anchor-map component of the real pass agrees with the standalone
anchor fold: the statement loop of `runCheapStaticPassV2` updates anchors
independently of the edges it accumulates. -/
theorem cheapPassFold_snd (funcId : FuncIdP) (stmts : List IrStmtP)
    (e : List CheapDepEdgeP) (m : List (VarIdP × StmtIdP)) :
    (stmts.foldl (cheapPassFold funcId) (e, m)).2 =
      stmts.foldl (cheapAnchorStep funcId) m := by
  induction stmts generalizing e m with
  | nil => rfl
  | cons hd tl ih => simp [cheapPassFold, ih]

theorem heapAnchorForVar_set_self (m : List (VarIdP × StmtIdP)) (funcId : FuncIdP)
    (dst : VarIdP) (v : StmtIdP) :
    heapAnchorForVar (alistSet m dst v) funcId dst = v := by
  simp [heapAnchorForVar, alistGet_alistSet_self]

theorem heapAnchorForVar_init (ir : NormalizedFuncIRP) (x : VarIdP)
    (hx : x ∈ ir.params ∨ x ∈ ir.locals) :
    heapAnchorForVar (cheapAnchorInit ir) ir.funcId x = syntheticHeapAnchorId ir.funcId x := by
  have hmem : x ∈ ir.params ++ ir.locals := by
    rcases hx with h | h
    · exact List.mem_append_left _ h
    · exact List.mem_append_right _ h
  rw [heapAnchorForVar, cheapAnchorInit,
    alistGet_foldl_set (syntheticHeapAnchorId ir.funcId) (ir.params ++ ir.locals) [] x,
    if_pos hmem]
  rfl

/-- Claim C5 (cheap static pass heap anchors): processing statements in order,
an assign from a variable propagates the source's anchor to the destination;
a call with a destination anchors it at the callsite; an assign from a
non-variable rvalue, an await, alloc, member_read, select or short_circuit
anchors the destination at the statement's own ID; and initially parameters
`p i` are anchored at synthetic statement index `10^9 + i` and locals `v i`
at `10^9 + 5*10^8 + i`. -/
theorem cheap_pass_anchor_rules (ir : NormalizedFuncIRP) :
    (∀ i, (⟨.p, i⟩ : VarIdP) ∈ ir.params →
        heapAnchorForVar (cheapAnchorsAfter ir 0) ir.funcId ⟨.p, i⟩ =
          mkStmtIdP ir.funcId (1000000000 + i)) ∧
    (∀ i, (⟨.v, i⟩ : VarIdP) ∈ ir.locals →
        heapAnchorForVar (cheapAnchorsAfter ir 0) ir.funcId ⟨.v, i⟩ =
          mkStmtIdP ir.funcId (1000000000 + (500000000 + i))) ∧
    (∀ k stmtId dst src, ir.stmts[k]? = some (.assign stmtId dst (.var src)) →
        heapAnchorForVar (cheapAnchorsAfter ir (k + 1)) ir.funcId dst =
          heapAnchorForVar (cheapAnchorsAfter ir k) ir.funcId src) ∧
    (∀ k cs dst callee args, ir.stmts[k]? = some (.call cs (some dst) callee args) →
        heapAnchorForVar (cheapAnchorsAfter ir (k + 1)) ir.funcId dst = cs) ∧
    (∀ k stmtId dst src, ir.stmts[k]? = some (.assign stmtId dst src) →
        rvalueToVarId src = none →
        heapAnchorForVar (cheapAnchorsAfter ir (k + 1)) ir.funcId dst = stmtId) ∧
    (∀ k stmtId dst src, ir.stmts[k]? = some (.await stmtId dst src) →
        heapAnchorForVar (cheapAnchorsAfter ir (k + 1)) ir.funcId dst = stmtId) ∧
    (∀ k stmtId dst ak ctor args, ir.stmts[k]? = some (.alloc stmtId dst ak ctor args) →
        heapAnchorForVar (cheapAnchorsAfter ir (k + 1)) ir.funcId dst = stmtId) ∧
    (∀ k stmtId dst object property opt,
        ir.stmts[k]? = some (.member_read stmtId dst object property opt) →
        heapAnchorForVar (cheapAnchorsAfter ir (k + 1)) ir.funcId dst = stmtId) ∧
    (∀ k stmtId dst c t e, ir.stmts[k]? = some (.select stmtId dst c t e) →
        heapAnchorForVar (cheapAnchorsAfter ir (k + 1)) ir.funcId dst = stmtId) ∧
    (∀ k stmtId dst op l r, ir.stmts[k]? = some (.short_circuit stmtId dst op l r) →
        heapAnchorForVar (cheapAnchorsAfter ir (k + 1)) ir.funcId dst = stmtId) := by
  refine ⟨?_, ?_, ?_, ?_, ?_, ?_, ?_, ?_, ?_, ?_⟩
  · intro i hmem
    rw [cheapAnchorsAfter_zero, heapAnchorForVar_init ir _ (Or.inl hmem)]
    rfl
  · intro i hmem
    rw [cheapAnchorsAfter_zero, heapAnchorForVar_init ir _ (Or.inr hmem)]
    rfl
  · intro k stmtId dst src h
    rw [cheapAnchorsAfter_succ ir k _ h]
    simp [cheapAnchorStep, rvalueToVarId, heapAnchorForVar_set_self]
  · intro k cs dst callee args h
    rw [cheapAnchorsAfter_succ ir k _ h]
    simp [cheapAnchorStep, heapAnchorForVar_set_self]
  · intro k stmtId dst src h hsrc
    rw [cheapAnchorsAfter_succ ir k _ h]
    simp [cheapAnchorStep, hsrc, heapAnchorForVar_set_self]
  · intro k stmtId dst src h
    rw [cheapAnchorsAfter_succ ir k _ h]
    simp [cheapAnchorStep, heapAnchorForVar_set_self]
  · intro k stmtId dst ak ctor args h
    rw [cheapAnchorsAfter_succ ir k _ h]
    simp [cheapAnchorStep, heapAnchorForVar_set_self]
  · intro k stmtId dst object property opt h
    rw [cheapAnchorsAfter_succ ir k _ h]
    simp [cheapAnchorStep, heapAnchorForVar_set_self]
  · intro k stmtId dst c t e h
    rw [cheapAnchorsAfter_succ ir k _ h]
    simp [cheapAnchorStep, heapAnchorForVar_set_self]
  · intro k stmtId dst op l r h
    rw [cheapAnchorsAfter_succ ir k _ h]
    simp [cheapAnchorStep, heapAnchorForVar_set_self]

/-- Witness for `cheap_pass_anchor_rules` at a concrete two-statement IR
(`v0 = p0; v1 = f(v0)`). -/
theorem cheap_pass_anchor_rules_witness :
    heapAnchorForVar
        (cheapAnchorsAfter
          ⟨⟨"src/a.ts", 0, 10⟩, [⟨.p, 0⟩], [⟨.v, 0⟩, ⟨.v, 1⟩],
            [.assign ⟨"src/a.ts", 0, 10, 0⟩ ⟨.v, 0⟩ (.var ⟨.p, 0⟩),
             .call ⟨"src/a.ts", 0, 10, 1⟩ (some ⟨.v, 1⟩) .unknown [.var ⟨.v, 0⟩]]⟩ 2)
        ⟨"src/a.ts", 0, 10⟩ ⟨.v, 1⟩ = ⟨"src/a.ts", 0, 10, 1⟩ := by
  exact (cheap_pass_anchor_rules _).2.2.2.1 1 ⟨"src/a.ts", 0, 10, 1⟩ ⟨.v, 1⟩ .unknown
    [.var ⟨.v, 0⟩] (by decide)

/-! ## Ordering and comparator laws -/

theorem thenEqIff (o1 o2 : Ordering) : o1.then o2 = .eq ↔ o1 = .eq ∧ o2 = .eq := by
  cases o1 <;> simp [Ordering.then]

theorem thenLtIff (o1 o2 : Ordering) : o1.then o2 = .lt ↔ o1 = .lt ∨ (o1 = .eq ∧ o2 = .lt) := by
  cases o1 <;> simp [Ordering.then]

theorem thenSwap (o1 o2 : Ordering) : (o1.then o2).swap = o1.swap.then o2.swap := by
  cases o1 <;> cases o2 <;> rfl

theorem ordSwap_fix {o : Ordering} (h : o.swap = o) : o = .eq := by
  cases o <;> simp_all [Ordering.swap]

theorem LawfulCmp.refl {α : Type} {cmp : α → α → Ordering} (h : LawfulCmp cmp) (a : α) :
    cmp a a = .eq := (h.eq_iff a a).2 rfl

theorem LawfulCmp.gt_iff_lt {α : Type} {cmp : α → α → Ordering} (h : LawfulCmp cmp)
    (a b : α) : cmp a b = .gt ↔ cmp b a = .lt := by
  rw [← h.swap a b]
  cases cmp a b <;> simp [Ordering.swap]

theorem LawfulCmp.le_trans {α : Type} {cmp : α → α → Ordering} (h : LawfulCmp cmp)
    {a b c : α} (hab : cmp a b ≠ .gt) (hbc : cmp b c ≠ .gt) : cmp a c ≠ .gt := by
  cases hab' : cmp a b with
  | gt => exact absurd hab' hab
  | eq =>
      have := (h.eq_iff _ _).1 hab'
      subst this
      exact hbc
  | lt =>
      cases hbc' : cmp b c with
      | gt => exact absurd hbc' hbc
      | eq =>
          have := (h.eq_iff _ _).1 hbc'
          subst this
          simp [hab']
      | lt => simp [h.lt_trans hab' hbc']

theorem LawfulCmp.total {α : Type} {cmp : α → α → Ordering} (h : LawfulCmp cmp)
    (a b : α) : cmp a b ≠ .gt ∨ cmp b a ≠ .gt := by
  cases h' : cmp a b with
  | lt => simp [h']
  | eq => simp [h']
  | gt =>
      right
      have := (h.gt_iff_lt a b).1 h'
      simp [this]

theorem LawfulCmp.antisymm {α : Type} {cmp : α → α → Ordering} (h : LawfulCmp cmp)
    {a b : α} (hab : cmp a b ≠ .gt) (hba : cmp b a ≠ .gt) : a = b := by
  cases h' : cmp a b with
  | eq => exact (h.eq_iff _ _).1 h'
  | lt =>
      exfalso
      apply hba
      exact (h.gt_iff_lt b a).2 h'
  | gt => exact absurd h' hab

/-- Lexicographic combination: a lawful comparator on a projection, refined by
a tie-breaking comparator, is lawful provided the tie-breaker is symmetric,
transitive, and decides equality within each projection fiber. -/
theorem lawful_lexOn {α β : Type} (f : α → β) (cβ : β → β → Ordering)
    (hβ : LawfulCmp cβ) (rest : α → α → Ordering)
    (hswap : ∀ a b, (rest a b).swap = rest b a)
    (hlt : ∀ a b c, rest a b = .lt → rest b c = .lt → rest a c = .lt)
    (heq : ∀ a b, f a = f b → rest a b = .eq → a = b) :
    LawfulCmp (fun a b => (cβ (f a) (f b)).then (rest a b)) := by
  constructor
  · intro a b
    rw [thenEqIff]
    constructor
    · rintro ⟨h1, h2⟩
      exact heq a b ((hβ.eq_iff _ _).1 h1) h2
    · rintro rfl
      exact ⟨hβ.refl _, ordSwap_fix (hswap a a)⟩
  · intro a b
    rw [thenSwap, hβ.swap, hswap]
  · intro a b c hab hbc
    rw [thenLtIff] at hab hbc ⊢
    rcases hab with h1 | ⟨h1, h1'⟩ <;> rcases hbc with h2 | ⟨h2, h2'⟩
    · exact Or.inl (hβ.lt_trans h1 h2)
    · left
      have e : f b = f c := (hβ.eq_iff _ _).1 h2
      rw [← e]
      exact h1
    · left
      have e : f a = f b := (hβ.eq_iff _ _).1 h1
      rw [e]
      exact h2
    · right
      have e1 : f a = f b := (hβ.eq_iff _ _).1 h1
      have e2 : f b = f c := (hβ.eq_iff _ _).1 h2
      exact ⟨(hβ.eq_iff _ _).2 (e1.trans e2), hlt a b c h1' h2'⟩

theorem lawful_cmpNumber : LawfulCmp cmpNumber := by
  constructor
  · intro a b
    exact compare_eq_iff_eq
  · intro a b
    show (compare a b).swap = compare b a
    rcases lt_trichotomy a b with h | h | h
    · rw [compare_lt_iff_lt.mpr h, compare_gt_iff_gt.mpr h]
      rfl
    · subst h
      rw [compare_eq_iff_eq.mpr rfl]
      rfl
    · rw [compare_gt_iff_gt.mpr h, compare_lt_iff_lt.mpr h]
      rfl
  · intro a b c hab hbc
    rw [cmpNumber, compare_lt_iff_lt] at *
    omega

theorem lawful_cmpNatList : LawfulCmp cmpNatList := by
  constructor
  · intro a
    induction a with
    | nil => intro b; cases b <;> simp [cmpNatList]
    | cons x as ih =>
        intro b
        cases b with
        | nil => simp [cmpNatList]
        | cons y bs =>
            simp only [cmpNatList, thenEqIff, compare_eq_iff_eq, ih bs, List.cons.injEq]
  · intro a
    induction a with
    | nil => intro b; cases b <;> rfl
    | cons x as ih =>
        intro b
        cases b with
        | nil => rfl
        | cons y bs =>
            simp only [cmpNatList, thenSwap, ih bs]
            congr 1
            exact lawful_cmpNumber.swap x y
  · intro a b c hab hbc
    induction a generalizing b c with
    | nil =>
        cases b with
        | nil => simp [cmpNatList] at hab
        | cons y bs => cases c with
            | nil => simp [cmpNatList] at hbc
            | cons z cs => simp [cmpNatList]
    | cons x as ih =>
        cases b with
        | nil => simp [cmpNatList] at hab
        | cons y bs =>
            cases c with
            | nil => simp [cmpNatList] at hbc
            | cons z cs =>
                simp only [cmpNatList, thenLtIff, compare_lt_iff_lt, compare_eq_iff_eq]
                  at hab hbc ⊢
                rcases hab with h1 | ⟨h1, h1'⟩ <;> rcases hbc with h2 | ⟨h2, h2'⟩
                · exact Or.inl (lt_trans h1 h2)
                · subst h2; exact Or.inl h1
                · subst h1; exact Or.inl h2
                · subst h1; subst h2
                  exact Or.inr ⟨rfl, ih h1' h2'⟩

theorem char_eq_of_toNat_eq {c1 c2 : Char} (h : c1.toNat = c2.toNat) : c1 = c2 := by
  have h1 := Char.ofNat_toNat c1
  rw [h] at h1
  rw [← h1, Char.ofNat_toNat]

theorem char_valid_nat (c : Char) :
    c.toNat < 55296 ∨ (57343 < c.toNat ∧ c.toNat < 1114112) := c.valid

theorem charUtf16_append_inj {c1 c2 : Char} {r1 r2 : List Nat}
    (h : charUtf16 c1 ++ r1 = charUtf16 c2 ++ r2) : c1 = c2 ∧ r1 = r2 := by
  have hv1 := char_valid_nat c1
  have hv2 := char_valid_nat c2
  by_cases h1 : c1.toNat < 0x10000 <;> by_cases h2 : c2.toNat < 0x10000 <;>
    simp only [charUtf16, h1, h2, if_true, if_false, List.cons_append, List.nil_append,
      List.cons.injEq, if_pos, if_neg, not_false_iff] at h
  · exact ⟨char_eq_of_toNat_eq h.1, h.2⟩
  · exfalso
    omega
  · exfalso
    omega
  · obtain ⟨hhead, hsnd, hrest⟩ := h
    refine ⟨char_eq_of_toNat_eq ?_, hrest⟩
    omega

theorem flatMap_charUtf16_inj : ∀ {s1 s2 : List Char},
    s1.flatMap charUtf16 = s2.flatMap charUtf16 → s1 = s2 := by
  intro s1
  induction s1 with
  | nil =>
      intro s2 h
      cases s2 with
      | nil => rfl
      | cons c cs =>
          exfalso
          simp only [List.flatMap_nil, List.flatMap_cons] at h
          have : charUtf16 c ≠ [] := by
            unfold charUtf16
            by_cases hb : c.toNat < 0x10000 <;> simp [hb]
          cases hq : charUtf16 c with
          | nil => exact this hq
          | cons a as => rw [hq] at h; simp at h
  | cons c cs ih =>
      intro s2 h
      cases s2 with
      | nil =>
          exfalso
          simp only [List.flatMap_cons, List.flatMap_nil] at h
          have : charUtf16 c ≠ [] := by
            unfold charUtf16
            by_cases hb : c.toNat < 0x10000 <;> simp [hb]
          cases hq : charUtf16 c with
          | nil => exact this hq
          | cons a as => rw [hq] at h; simp at h
      | cons d ds =>
          simp only [List.flatMap_cons] at h
          obtain ⟨hc, hr⟩ := charUtf16_append_inj h
          rw [hc, ih hr]

theorem utf16Units_inj {s1 s2 : String} (h : utf16Units s1 = utf16Units s2) : s1 = s2 := by
  have hd : s1.data = s2.data := flatMap_charUtf16_inj h
  cases s1
  cases s2
  exact congrArg String.mk hd

theorem lawful_cmpString : LawfulCmp cmpString := by
  constructor
  · intro a b
    constructor
    · intro h
      exact utf16Units_inj ((lawful_cmpNatList.eq_iff _ _).1 h)
    · rintro rfl
      exact lawful_cmpNatList.refl _
  · intro a b
    exact lawful_cmpNatList.swap _ _
  · intro a b c hab hbc
    exact lawful_cmpNatList.lt_trans hab hbc

theorem lawful_cmpFuncId : LawfulCmp cmpFuncId := by
  have h := lawful_lexOn FuncIdP.filePath cmpString lawful_cmpString
    (fun a b => (cmpNumber a.startOffset b.startOffset).then (cmpNumber a.endOffset b.endOffset))
    (by
      intro a b
      rw [thenSwap, lawful_cmpNumber.swap, lawful_cmpNumber.swap])
    (by
      intro a b c h1 h2
      rw [thenLtIff] at h1 h2 ⊢
      simp only [cmpNumber, compare_lt_iff_lt, compare_eq_iff_eq] at h1 h2 ⊢
      omega)
    (by
      intro a b hf h
      rw [thenEqIff] at h
      simp only [cmpNumber, compare_eq_iff_eq] at h
      cases a
      cases b
      simp_all)
  exact h

theorem lawful_cmpStmtId : LawfulCmp cmpStmtId := by
  have h := lawful_lexOn StmtIdP.filePath cmpString lawful_cmpString
    (fun a b => (cmpNumber a.startOffset b.startOffset).then
      ((cmpNumber a.endOffset b.endOffset).then
        (cmpNumber a.statementIndex b.statementIndex)))
    (by
      intro a b
      rw [thenSwap, thenSwap, lawful_cmpNumber.swap, lawful_cmpNumber.swap,
        lawful_cmpNumber.swap])
    (by
      intro a b c h1 h2
      rw [thenLtIff, thenLtIff] at h1 h2 ⊢
      simp only [thenEqIff, cmpNumber, compare_lt_iff_lt, compare_eq_iff_eq] at h1 h2 ⊢
      omega)
    (by
      intro a b hf h
      rw [thenEqIff, thenEqIff] at h
      simp only [cmpNumber, compare_eq_iff_eq] at h
      cases a
      cases b
      simp_all)
  exact h

theorem lawful_cmpVarId : LawfulCmp cmpVarId := by
  constructor
  · intro a b
    obtain ⟨ka, ia⟩ := a
    obtain ⟨kb, ib⟩ := b
    cases ka <;> cases kb <;>
      simp [cmpVarId, cmpNumber, compare_eq_iff_eq]
  · intro a b
    obtain ⟨ka, ia⟩ := a
    obtain ⟨kb, ib⟩ := b
    cases ka <;> cases kb <;>
      simp [cmpVarId, lawful_cmpNumber.swap ia ib] <;> rfl
  · intro a b c hab hbc
    obtain ⟨ka, ia⟩ := a
    obtain ⟨kb, ib⟩ := b
    obtain ⟨kc, ic⟩ := c
    cases ka <;> cases kb <;> cases kc <;>
      simp_all [cmpVarId, cmpNumber, compare_lt_iff_lt] <;> omega

theorem lawful_cmpHeapId : LawfulCmp cmpHeapId := by
  have h := lawful_lexOn HeapIdP.site cmpStmtId lawful_cmpStmtId
    (fun a b => cmpString a.propertyName b.propertyName)
    (fun a b => lawful_cmpString.swap _ _)
    (fun a b c h1 h2 => lawful_cmpString.lt_trans h1 h2)
    (by
      intro a b hf h
      have := (lawful_cmpString.eq_iff _ _).1 h
      cases a
      cases b
      simp_all)
  exact h

theorem lawful_cmpCallsiteId : LawfulCmp cmpCallsiteId := lawful_cmpStmtId

/-! ## Stable-sort lemmas -/

theorem stableSortBy_perm {α : Type} (cmp : α → α → Ordering) (l : List α) :
    (stableSortBy cmp l).Perm l := List.perm_insertionSort _ l

theorem stableSortBy_mem {α : Type} (cmp : α → α → Ordering) (l : List α) (x : α) :
    x ∈ stableSortBy cmp l ↔ x ∈ l := (stableSortBy_perm cmp l).mem_iff

theorem stableSortBy_sorted {α : Type} {cmp : α → α → Ordering} (h : LawfulCmp cmp)
    (l : List α) :
    List.Sorted (fun a b => cmp a b ≠ Ordering.gt) (stableSortBy cmp l) := by
  haveI : IsTotal α (fun a b => cmp a b ≠ Ordering.gt) := ⟨h.total⟩
  haveI : IsTrans α (fun a b => cmp a b ≠ Ordering.gt) := ⟨fun a b c => h.le_trans⟩
  exact List.sorted_insertionSort _ l

theorem sorted_eq_of_perm {α : Type} {cmp : α → α → Ordering} (h : LawfulCmp cmp)
    {l1 l2 : List α} (hp : l1.Perm l2)
    (h1 : List.Sorted (fun a b => cmp a b ≠ Ordering.gt) l1)
    (h2 : List.Sorted (fun a b => cmp a b ≠ Ordering.gt) l2) : l1 = l2 := by
  haveI : IsAntisymm α (fun a b => cmp a b ≠ Ordering.gt) := ⟨fun a b => h.antisymm⟩
  exact List.eq_of_perm_of_sorted hp h1 h2

theorem stableSortBy_congr_perm {α : Type} {cmp : α → α → Ordering} (h : LawfulCmp cmp)
    {l1 l2 : List α} (hp : l1.Perm l2) :
    stableSortBy cmp l1 = stableSortBy cmp l2 :=
  sorted_eq_of_perm h
    ((stableSortBy_perm cmp l1).trans (hp.trans (stableSortBy_perm cmp l2).symm))
    (stableSortBy_sorted h l1) (stableSortBy_sorted h l2)

/-! ## List/association-list lemmas for the driver -/

theorem mem_foldl_pushIfAbsent {α : Type} [DecidableEq α] (l : List α) :
    ∀ (acc : List α) (x : α),
      x ∈ l.foldl (fun acc x => if x ∈ acc then acc else acc ++ [x]) acc ↔
        x ∈ acc ∨ x ∈ l := by
  induction l with
  | nil => simp
  | cons hd tl ih =>
      intro acc x
      simp only [List.foldl_cons]
      rw [ih]
      by_cases h : hd ∈ acc <;> by_cases hx : x = hd <;>
        simp [h, hx, List.mem_append]

theorem mem_dedupKeepFirst {α : Type} [DecidableEq α] (l : List α) (x : α) :
    x ∈ dedupKeepFirst l ↔ x ∈ l := by
  rw [dedupKeepFirst, mem_foldl_pushIfAbsent]
  simp

theorem nodup_foldl_pushIfAbsent {α : Type} [DecidableEq α] (l : List α) :
    ∀ (acc : List α), acc.Nodup →
      (l.foldl (fun acc x => if x ∈ acc then acc else acc ++ [x]) acc).Nodup := by
  induction l with
  | nil => intro acc h; simpa using h
  | cons hd tl ih =>
      intro acc hacc
      simp only [List.foldl_cons]
      by_cases h : hd ∈ acc
      · simpa [h] using ih acc hacc
      · refine ih _ ?_
        simp only [h, if_false]
        rw [List.nodup_append]
        refine ⟨hacc, List.nodup_singleton hd, ?_⟩
        intro a ha hb
        rw [List.mem_singleton] at hb
        subst hb
        exact h ha

theorem nodup_dedupKeepFirst {α : Type} [DecidableEq α] (l : List α) :
    (dedupKeepFirst l).Nodup := nodup_foldl_pushIfAbsent l [] List.nodup_nil

theorem nodup_stableSortBy {α : Type} (cmp : α → α → Ordering) (l : List α)
    (h : l.Nodup) : (stableSortBy cmp l).Nodup :=
  ((stableSortBy_perm cmp l).nodup_iff).2 h

theorem alistSet_mem {α β : Type} [DecidableEq α] (m : List (α × β)) (k : α) (v : β)
    (pr : α × β) (h : pr ∈ alistSet m k v) : pr ∈ m ∨ pr = (k, v) := by
  induction m with
  | nil =>
      simp only [alistSet, List.mem_singleton] at h
      exact Or.inr h
  | cons hd tl ih =>
      obtain ⟨k', v'⟩ := hd
      by_cases hk : k' = k
      · subst hk
        simp only [alistSet, if_true, eq_self_iff_true, List.mem_cons] at h
        rcases h with h | h
        · exact Or.inr h
        · exact Or.inl (List.mem_cons_of_mem _ h)
      · simp only [alistSet, if_neg hk, List.mem_cons] at h
        rcases h with h | h
        · exact Or.inl (by simp [h])
        · rcases ih h with h' | h'
          · exact Or.inl (List.mem_cons_of_mem _ h')
          · exact Or.inr h'

theorem alistGet_mem {α β : Type} [DecidableEq α] (m : List (α × β)) (k : α) (v : β)
    (h : alistGet m k = some v) : (k, v) ∈ m := by
  induction m with
  | nil => simp [alistGet] at h
  | cons hd tl ih =>
      obtain ⟨k', v'⟩ := hd
      by_cases hk : k' = k
      · subst hk
        simp [alistGet] at h
        subst h
        exact List.mem_cons_self _ _
      · simp only [alistGet, if_neg hk] at h
        exact List.mem_cons_of_mem _ (ih h)

theorem foldl_alistAppend_pairs_prop {α γ : Type} [DecidableEq α]
    (Q : γ → Prop) (key : γ → α) (l : List γ) :
    ∀ (m0 : List (α × List γ)),
      (∀ pr ∈ m0, ∀ x ∈ pr.2, Q x) → (∀ x ∈ l, Q x) →
      ∀ pr ∈ l.foldl (fun m p => alistAppend m (key p) p) m0, ∀ x ∈ pr.2, Q x := by
  induction l with
  | nil => intro m0 hm0 _ pr hpr; exact hm0 pr hpr
  | cons hd tl ih =>
      intro m0 hm0 hl pr hpr
      simp only [List.foldl_cons] at hpr
      refine ih _ ?_ (fun x hx => hl x (List.mem_cons_of_mem _ hx)) pr hpr
      intro pr' hpr' x hx
      rw [alistAppend] at hpr'
      rcases hget : alistGet m0 (key hd) with _ | arr
      · rw [hget] at hpr'
        rcases alistSet_mem _ _ _ _ hpr' with h | h
        · exact hm0 pr' h x hx
        · rw [h] at hx
          simp only [List.mem_singleton] at hx
          exact hx ▸ hl hd (List.mem_cons_self _ _)
      · rw [hget] at hpr'
        rcases alistSet_mem _ _ _ _ hpr' with h | h
        · exact hm0 pr' h x hx
        · rw [h] at hx
          simp only [List.mem_append, List.mem_singleton] at hx
          rcases hx with hx | hx
          · exact hm0 (key hd, arr) (alistGet_mem _ _ _ hget) x hx
          · exact hx ▸ hl hd (List.mem_cons_self _ _)

theorem alistGet_foldl_setWith {α β γ : Type} [DecidableEq α]
    (key : γ → α) (g : γ → β) (l : List γ) :
    ∀ (m0 : List (α × β)) (k : α) (v : β),
      alistGet (l.foldl (fun m p => alistSet m (key p) (g p)) m0) k = some v →
      (∃ p ∈ l, key p = k ∧ v = g p) ∨ alistGet m0 k = some v := by
  induction l with
  | nil => intro m0 k v h; exact Or.inr h
  | cons hd tl ih =>
      intro m0 k v h
      simp only [List.foldl_cons] at h
      rcases ih _ _ _ h with h' | h'
      · obtain ⟨p, hp, hk, hv⟩ := h'
        exact Or.inl ⟨p, List.mem_cons_of_mem _ hp, hk, hv⟩
      · by_cases hk : key hd = k
        · subst hk
          rw [alistGet_alistSet_self] at h'
          exact Or.inl ⟨hd, List.mem_cons_self _ _, rfl, (Option.some.inj h').symm⟩
        · rw [alistGet_alistSet_ne _ _ _ _ (fun he => hk he.symm)] at h'
          exact Or.inr h'

theorem enqueueDeps_spec (nodes : List FuncIdP) (deps : List FuncIdP)
    (hnd : deps.Nodup) (hsub : ∀ d ∈ deps, d ∈ nodes) :
    ∀ (inQ q : List FuncIdP),
      enqueueDeps nodes deps inQ q =
        some (inQ ++ deps.filter (fun d => decide (d ∉ inQ)),
              q ++ deps.filter (fun d => decide (d ∉ inQ))) := by
  induction deps with
  | nil => intro inQ q; simp [enqueueDeps]
  | cons d ds ih =>
      intro inQ q
      have hd : d ∈ nodes := hsub d (List.mem_cons_self _ _)
      have hnd' : ds.Nodup := hnd.of_cons
      have hdd : d ∉ ds := (List.nodup_cons.1 hnd).1
      by_cases hq : d ∈ inQ
      · rw [enqueueDeps, if_pos hd, if_pos hq,
          ih hnd' (fun x hx => hsub x (List.mem_cons_of_mem _ hx)) inQ q]
        simp [hq]
      · rw [enqueueDeps, if_pos hd, if_neg hq,
          ih hnd' (fun x hx => hsub x (List.mem_cons_of_mem _ hx)) (inQ ++ [d]) (q ++ [d])]
        have hfeq : ds.filter (fun x => decide (x ∉ inQ ++ [d])) =
            ds.filter (fun x => decide (x ∉ inQ)) := by
          apply List.filter_congr
          intro x hx
          have : x ≠ d := fun he => hdd (he ▸ hx)
          simp [List.mem_append, this]
        rw [hfeq]
        simp [hq, List.append_assoc]

/-! ## Normalized-call-graph structure lemmas -/

theorem normMCG_fields {nodesOpt : Option (List FuncIdP)} {edgesIn : List MappedCallEdgeP}
    {graph : MappedCallGraphP}
    (hg : normalizeMappedCallGraph nodesOpt edgesIn = some graph) :
    graph.nodes = stableSortBy cmpFuncId (dedupKeepFirst
      ((nodesOpt.getD []) ++ edgesIn.flatMap (fun e => [e.callerFuncId, e.calleeFuncId]))) ∧
    graph.edges = dedupKeepFirst (stableSortBy cmpMappedCallEdge edgesIn) ∧
    graph.callersByCallee =
      ((stableSortBy cmpMappedCallEdgeByCallee
          (dedupKeepFirst (stableSortBy cmpMappedCallEdge edgesIn))).foldl
        (fun m e => alistAppend m e.calleeFuncId e) []).foldl
        (fun m p => alistSet m p.1
          (stableSortBy cmpFuncId (dedupKeepFirst (p.2.map (·.callerFuncId))))) [] := by
  rw [normalizeMappedCallGraph] at hg
  split at hg
  · obtain rfl : _ = graph := Option.some.inj hg
    exact ⟨rfl, rfl, rfl⟩
  · exact absurd hg (by simp)

theorem normMCG_nodes_sorted {nodesOpt edgesIn} {graph : MappedCallGraphP}
    (hg : normalizeMappedCallGraph nodesOpt edgesIn = some graph) :
    List.Sorted (fun a b => cmpFuncId a b ≠ Ordering.gt) graph.nodes := by
  rw [(normMCG_fields hg).1]
  exact stableSortBy_sorted lawful_cmpFuncId _

theorem normMCG_edge_mem {nodesOpt edgesIn} {graph : MappedCallGraphP}
    (hg : normalizeMappedCallGraph nodesOpt edgesIn = some graph)
    {e : MappedCallEdgeP} (he : e ∈ graph.edges) : e ∈ edgesIn := by
  rw [(normMCG_fields hg).2.1] at he
  rw [mem_dedupKeepFirst, stableSortBy_mem] at he
  exact he

theorem normMCG_caller_mem_nodes {nodesOpt edgesIn} {graph : MappedCallGraphP}
    (hg : normalizeMappedCallGraph nodesOpt edgesIn = some graph)
    {e : MappedCallEdgeP} (he : e ∈ graph.edges) : e.callerFuncId ∈ graph.nodes := by
  have hin := normMCG_edge_mem hg he
  rw [(normMCG_fields hg).1, stableSortBy_mem, mem_dedupKeepFirst, List.mem_append]
  right
  rw [List.mem_flatMap]
  exact ⟨e, hin, by simp⟩

theorem normMCG_callers_spec {nodesOpt edgesIn} {graph : MappedCallGraphP}
    (hg : normalizeMappedCallGraph nodesOpt edgesIn = some graph)
    {k : FuncIdP} {l : List FuncIdP} (hget : alistGet graph.callersByCallee k = some l) :
    l.Nodup ∧ ∀ d ∈ l, d ∈ graph.nodes := by
  rw [(normMCG_fields hg).2.2] at hget
  rcases alistGet_foldl_setWith Prod.fst
      (fun p : FuncIdP × List MappedCallEdgeP =>
        stableSortBy cmpFuncId (dedupKeepFirst (p.2.map (·.callerFuncId)))) _ _ _ _
      hget with h | h
  · obtain ⟨p, hp, _, hv⟩ := h
    subst hv
    constructor
    · exact nodup_stableSortBy _ _ (nodup_dedupKeepFirst _)
    · intro d hd
      rw [stableSortBy_mem, mem_dedupKeepFirst, List.mem_map] at hd
      obtain ⟨e, he, hde⟩ := hd
      have hedge : e ∈ graph.edges := by
        have := foldl_alistAppend_pairs_prop (fun x => x ∈ graph.edges)
          MappedCallEdgeP.calleeFuncId
          (stableSortBy cmpMappedCallEdgeByCallee
            (dedupKeepFirst (stableSortBy cmpMappedCallEdge edgesIn))) [] (by simp)
          (fun x hx => by
            rw [stableSortBy_mem] at hx
            rw [(normMCG_fields hg).2.1]
            exact hx)
          p hp e he
        exact this
      exact hde ▸ normMCG_caller_mem_nodes hg hedge
  · simp [alistGet] at h

/-! ## Fixpoint driver lemmas -/

theorem runFixpointLoop_cons_eq {σ : Type} (graph : MappedCallGraphP)
    (opts : FixpointOptsP σ) (fuel : Nat) (st : σ) (n : FuncIdP) (rest inQ : List FuncIdP)
    (steps ch : Nat) :
    runFixpointLoop graph opts (fuel + 1) ⟨st, n :: rest, inQ, steps, ch⟩ =
      (let inQ' := inQ.erase n
       let steps' := steps + 1
       let over : Bool :=
         match opts.maxSteps with
         | some m => decide (steps' > m)
         | none => false
       if over then some (.error .maxStepsExceeded)
       else
         match opts.step st n with
         | none => some (.error .stepFailed)
         | some (st', changed) =>
             if changed then
               match enqueueDeps graph.nodes
                   (stableSortBy cmpFuncId (fixpointDependents graph opts n)) inQ' rest with
               | none => some (.error .dependentNotInGraph)
               | some (inQ2, q2) =>
                   runFixpointLoop graph opts fuel ⟨st', q2, inQ2, steps', ch + 1⟩
             else runFixpointLoop graph opts fuel ⟨st', rest, inQ', steps', ch⟩) := rfl

theorem runFixpointLoop_nil_eq {σ : Type} (graph : MappedCallGraphP)
    (opts : FixpointOptsP σ) (fuel : Nat) (st : σ) (inQ : List FuncIdP) (steps ch : Nat) :
    runFixpointLoop graph opts fuel ⟨st, [], inQ, steps, ch⟩ =
      some (.ok (st, ⟨steps, ch⟩)) := by
  cases fuel <;> rfl

theorem runFixpointLoop_steps_le {σ : Type} (graph : MappedCallGraphP)
    (opts : FixpointOptsP σ) :
    ∀ (fuel : Nat) (s : FixpointLoopState σ) (stF : σ) (res : FixpointResultP),
      runFixpointLoop graph opts fuel s = some (.ok (stF, res)) → s.steps ≤ res.steps := by
  intro fuel
  induction fuel with
  | zero =>
      intro s stF res h
      obtain ⟨st, queue, inQ, steps, ch⟩ := s
      cases queue with
      | nil =>
          rw [runFixpointLoop_nil_eq] at h
          obtain ⟨rfl, rfl⟩ : stF = st ∧ res = ⟨steps, ch⟩ := by
            have h' := Option.some.inj h
            cases h'
            exact ⟨rfl, rfl⟩
          exact le_refl _
      | cons n rest => exact absurd h (by rw [show runFixpointLoop graph opts 0
          ⟨st, n :: rest, inQ, steps, ch⟩ = none from rfl]; simp)
  | succ fuel ih =>
      intro s stF res h
      obtain ⟨st, queue, inQ, steps, ch⟩ := s
      cases queue with
      | nil =>
          rw [runFixpointLoop_nil_eq] at h
          have h' := Option.some.inj h
          cases h'
          exact le_refl _
      | cons n rest =>
          rw [runFixpointLoop_cons_eq] at h
          simp only at h
          split at h
          · exact absurd h (by simp)
          · split at h
            · exact absurd h (by simp)
            · rename_i st' changed heq
              split at h
              · split at h
                · exact absurd h (by simp)
                · have h2 : steps + 1 ≤ res.steps := ih _ _ _ h
                  show steps ≤ res.steps
                  omega
              · have h2 : steps + 1 ≤ res.steps := ih _ _ _ h
                show steps ≤ res.steps
                omega

theorem runFixpointLoop_cons_steps {σ : Type} (graph : MappedCallGraphP)
    (opts : FixpointOptsP σ) (fuel : Nat) (st : σ) (n : FuncIdP)
    (rest inQ : List FuncIdP) (steps ch : Nat) (stF : σ) (res : FixpointResultP)
    (h : runFixpointLoop graph opts (fuel + 1) ⟨st, n :: rest, inQ, steps, ch⟩ =
      some (.ok (stF, res))) : steps + 1 ≤ res.steps := by
  rw [runFixpointLoop_cons_eq] at h
  simp only at h
  split at h
  · exact absurd h (by simp)
  · split at h
    · exact absurd h (by simp)
    · split at h
      · split at h
        · exact absurd h (by simp)
        · exact runFixpointLoop_steps_le graph opts _ _ _ _ h
      · exact runFixpointLoop_steps_le graph opts _ _ _ _ h

theorem runFixpointLoop_maxSteps {σ : Type} (graph : MappedCallGraphP)
    (opts : FixpointOptsP σ) (hms : opts.maxSteps = none) (m : Nat) :
    ∀ (fuel : Nat) (s : FixpointLoopState σ) (stF : σ) (res : FixpointResultP),
      s.steps ≤ m →
      runFixpointLoop graph opts fuel s = some (.ok (stF, res)) →
      (res.steps ≤ m →
        runFixpointLoop graph ⟨opts.initial, opts.step, opts.dependents, some m⟩ fuel s =
          some (.ok (stF, res))) ∧
      (m < res.steps →
        runFixpointLoop graph ⟨opts.initial, opts.step, opts.dependents, some m⟩ fuel s =
          some (.error .maxStepsExceeded)) := by
  intro fuel
  induction fuel with
  | zero =>
      intro s stF res hsm h
      obtain ⟨st, queue, inQ, steps, ch⟩ := s
      cases queue with
      | nil =>
          rw [runFixpointLoop_nil_eq] at h
          have h' := Option.some.inj h
          cases h'
          refine ⟨fun _ => ?_, fun hlt => ?_⟩
          · rw [runFixpointLoop_nil_eq]
          · exact absurd hlt (by simp only at hsm ⊢; omega)
      | cons n rest => exact absurd h (by rw [show runFixpointLoop graph opts 0
          ⟨st, n :: rest, inQ, steps, ch⟩ = none from rfl]; simp)
  | succ fuel ih =>
      intro s stF res hsm h
      obtain ⟨st, queue, inQ, steps, ch⟩ := s
      cases queue with
      | nil =>
          rw [runFixpointLoop_nil_eq] at h
          have h' := Option.some.inj h
          cases h'
          refine ⟨fun _ => ?_, fun hlt => ?_⟩
          · rw [runFixpointLoop_nil_eq]
          · exact absurd hlt (by simp only at hsm ⊢; omega)
      | cons n rest =>
          have hstep := runFixpointLoop_cons_steps graph opts fuel st n rest inQ steps ch
            stF res h
          rw [runFixpointLoop_cons_eq] at h
          simp only [hms] at h
          rw [runFixpointLoop_cons_eq]
          simp only at h ⊢
          have hsm' : steps ≤ m := hsm
          by_cases hover : steps + 1 > m
          · rw [if_pos (by simpa using hover)]
            refine ⟨fun hle => absurd hle (by omega), fun _ => rfl⟩
          · rw [if_neg (by simpa using hover)]
            rcases hstepv : opts.step st n with _ | ⟨st', changed⟩
            · rw [hstepv] at h
              exact absurd h (by simp)
            · rw [hstepv] at h
              simp only at h ⊢
              by_cases hch : changed = true
              · subst hch
                simp only [if_true] at h ⊢
                have hdepeq : fixpointDependents graph
                    (⟨opts.initial, opts.step, opts.dependents, some m⟩ : FixpointOptsP σ) n =
                    fixpointDependents graph opts n := rfl
                rw [hdepeq]
                rcases henq : enqueueDeps graph.nodes
                    (stableSortBy cmpFuncId (fixpointDependents graph opts n))
                    (inQ.erase n) rest with _ | ⟨inQ2, q2⟩
                · rw [henq] at h
                  exact absurd h (by simp)
                · rw [henq] at h
                  exact ih ⟨st', q2, inQ2, steps + 1, ch + 1⟩ stF res (by simpa using hover) h
              · rw [if_neg hch] at h ⊢
                exact ih ⟨st', rest, inQ.erase n, steps + 1, ch⟩ stF res (by simpa using hover) h

/-- Claim C3 (deterministic fixpoint worklist): the driver seeds a FIFO
worklist with every graph node in canonical FuncId order; it stops when the
queue is empty; popping the head recomputes that function, and only when the
state changed does it append the function's callers (via `callersByCallee`),
canonically sorted, skipping any function already queued; and relative to the
unbounded run, a `maxSteps` option either leaves the result unchanged (when
the run finishes within the bound) or raises the overflow error. -/
theorem fixpoint_driver_worklist {σ : Type} (nodesOpt : Option (List FuncIdP))
    (edgesIn : List MappedCallEdgeP) (graph : MappedCallGraphP)
    (hg : normalizeMappedCallGraph nodesOpt edgesIn = some graph)
    (opts : FixpointOptsP σ) (hinit : opts.initial = none)
    (hdeps : opts.dependents = none) :
    List.Sorted (fun a b => cmpFuncId a b ≠ Ordering.gt) graph.nodes ∧
    (opts.maxSteps = none → ∀ st0 fuel,
      runDeterministicFixpoint graph opts st0 fuel =
        runFixpointLoop graph opts fuel ⟨st0, graph.nodes, graph.nodes, 0, 0⟩) ∧
    (∀ fuel st inQ steps ch,
      runFixpointLoop graph opts fuel ⟨st, [], inQ, steps, ch⟩ =
        some (.ok (st, ⟨steps, ch⟩))) ∧
    (∀ fuel st st' n rest inQ steps ch, opts.maxSteps = none →
      opts.step st n = some (st', false) →
      runFixpointLoop graph opts (fuel + 1) ⟨st, n :: rest, inQ, steps, ch⟩ =
        runFixpointLoop graph opts fuel ⟨st', rest, inQ.erase n, steps + 1, ch⟩) ∧
    (∀ fuel st st' n rest inQ steps ch, opts.maxSteps = none →
      opts.step st n = some (st', true) →
      runFixpointLoop graph opts (fuel + 1) ⟨st, n :: rest, inQ, steps, ch⟩ =
        runFixpointLoop graph opts fuel
          ⟨st',
           rest ++ (stableSortBy cmpFuncId
             ((alistGet graph.callersByCallee n).getD [])).filter
               (fun d => decide (d ∉ inQ.erase n)),
           inQ.erase n ++ (stableSortBy cmpFuncId
             ((alistGet graph.callersByCallee n).getD [])).filter
               (fun d => decide (d ∉ inQ.erase n)),
           steps + 1, ch + 1⟩) ∧
    (∀ m st0 fuel stF res, 1 ≤ m → m ≤ MAX_SAFE_INTEGER → opts.maxSteps = none →
      runDeterministicFixpoint graph opts st0 fuel = some (.ok (stF, res)) →
      (res.steps ≤ m →
        runDeterministicFixpoint graph
          ⟨opts.initial, opts.step, opts.dependents, some m⟩ st0 fuel =
            some (.ok (stF, res))) ∧
      (m < res.steps →
        runDeterministicFixpoint graph
          ⟨opts.initial, opts.step, opts.dependents, some m⟩ st0 fuel =
            some (.error .maxStepsExceeded))) := by
  have hwrap : ∀ (opts' : FixpointOptsP σ), opts'.initial = none →
      (match opts'.maxSteps with
        | some m => decide (m = 0 ∨ m > MAX_SAFE_INTEGER)
        | none => false) = false →
      ∀ st0 fuel, runDeterministicFixpoint graph opts' st0 fuel =
        runFixpointLoop graph opts' fuel ⟨st0, graph.nodes, graph.nodes, 0, 0⟩ := by
    intro opts' hinit' hbad st0 fuel
    rw [runDeterministicFixpoint]
    simp only [hbad, Bool.false_eq_true, if_false, fixpointInitialQueue, hinit']
    rw [if_pos]
    rw [List.all_eq_true]
    intro n hn
    simpa using hn
  refine ⟨normMCG_nodes_sorted hg, ?_, ?_, ?_, ?_, ?_⟩
  · intro hms st0 fuel
    exact hwrap opts hinit (by rw [hms]) st0 fuel
  · intro fuel st inQ steps ch
    exact runFixpointLoop_nil_eq graph opts fuel st inQ steps ch
  · intro fuel st st' n rest inQ steps ch hms hstep
    rw [runFixpointLoop_cons_eq]
    simp [hms, hstep]
  · intro fuel st st' n rest inQ steps ch hms hstep
    rw [runFixpointLoop_cons_eq]
    simp only [hms, hstep, if_true, Bool.false_eq_true, if_false]
    have hdep : fixpointDependents graph opts n =
        (alistGet graph.callersByCallee n).getD [] := by
      rw [fixpointDependents, hdeps]
    rw [hdep]
    have hnd : (stableSortBy cmpFuncId
        ((alistGet graph.callersByCallee n).getD [])).Nodup := by
      rcases hget : alistGet graph.callersByCallee n with _ | l
      · exact List.nodup_nil
      · exact nodup_stableSortBy _ _ (normMCG_callers_spec hg hget).1
    have hsub : ∀ d ∈ stableSortBy cmpFuncId
        ((alistGet graph.callersByCallee n).getD []), d ∈ graph.nodes := by
      rcases hget : alistGet graph.callersByCallee n with _ | l
      · intro d hd
        exact absurd ((stableSortBy_mem _ _ _).1 hd) (List.not_mem_nil d)
      · intro d hd
        exact (normMCG_callers_spec hg hget).2 d ((stableSortBy_mem _ _ _).1 hd)
    rw [enqueueDeps_spec graph.nodes _ hnd hsub]
  · intro m st0 fuel stF res hm1 hm2 hms hrun
    have hbad2 : (match (some m : Option Nat) with
        | some m => decide (m = 0 ∨ m > MAX_SAFE_INTEGER)
        | none => false) = false := by
      simp only [decide_eq_false_iff_not]
      omega
    have hrun' := hrun
    rw [hwrap opts hinit (by rw [hms]) st0 fuel] at hrun'
    have hcmp := runFixpointLoop_maxSteps graph opts hms m fuel
      ⟨st0, graph.nodes, graph.nodes, 0, 0⟩ stF res (Nat.zero_le m) hrun'
    have hwrap2 := hwrap ⟨opts.initial, opts.step, opts.dependents, some m⟩ hinit hbad2 st0 fuel
    exact ⟨fun hle => by rw [hwrap2]; exact hcmp.1 hle,
           fun hlt => by rw [hwrap2]; exact hcmp.2 hlt⟩

/-- Witness for `fixpoint_driver_worklist` at a concrete one-edge call graph:
the normalized node list is canonically sorted. -/
theorem fixpoint_driver_worklist_witness :
    List.Sorted (fun a b => cmpFuncId a b ≠ Ordering.gt)
      [(⟨"a.ts", 0, 1⟩ : FuncIdP), ⟨"b.ts", 0, 1⟩] := by
  have h := (fixpoint_driver_worklist (σ := Unit) none
    [⟨⟨"b.ts", 0, 1⟩, ⟨"a.ts", 0, 1⟩, ⟨"b.ts", 0, 1, 0⟩⟩]
    ⟨[⟨"a.ts", 0, 1⟩, ⟨"b.ts", 0, 1⟩],
     [⟨⟨"b.ts", 0, 1⟩, ⟨"a.ts", 0, 1⟩, ⟨"b.ts", 0, 1, 0⟩⟩],
     [(⟨"b.ts", 0, 1⟩, [⟨⟨"b.ts", 0, 1⟩, ⟨"a.ts", 0, 1⟩, ⟨"b.ts", 0, 1, 0⟩⟩])],
     [(⟨"a.ts", 0, 1⟩, [⟨⟨"b.ts", 0, 1⟩, ⟨"a.ts", 0, 1⟩, ⟨"b.ts", 0, 1, 0⟩⟩])],
     [(⟨"b.ts", 0, 1⟩, [⟨"a.ts", 0, 1⟩])],
     [(⟨"a.ts", 0, 1⟩, [⟨"b.ts", 0, 1⟩])]⟩
    (by decide) ⟨none, fun s _ => some (s, false), none, none⟩ rfl rfl).1
  exact h

/-! ## URI component encoding round-trip -/

theorem char_toNat_ofNat {n : Nat} (h : n.isValidChar) : (Char.ofNat n).toNat = n := by
  unfold Char.ofNat
  rw [dif_pos h]
  rfl

theorem hexDigitVal_hexUpperDigit : ∀ n, n < 16 → hexDigitVal (hexUpperDigit n) = some n := by
  decide

theorem readPercentByte_percentByte (b : Nat) (hb : b < 256) (r : List Char) :
    readPercentByte (percentByte b ++ r) = some (b, r) := by
  show readPercentByte ('%' :: hexUpperDigit (b / 16) :: hexUpperDigit (b % 16) :: r) = _
  rw [readPercentByte]
  rw [hexDigitVal_hexUpperDigit (b / 16) (by omega), hexDigitVal_hexUpperDigit (b % 16) (by omega)]
  simp only
  have : 16 * (b / 16) + b % 16 = b := by omega
  rw [this]

theorem readContByte_percentByte (b : Nat) (hb1 : 0x80 ≤ b) (hb2 : b < 0xC0)
    (r : List Char) : readContByte (percentByte b ++ r) = some (b, r) := by
  rw [readContByte, readPercentByte_percentByte b (by omega) r]
  simp only
  rw [if_pos ⟨hb1, hb2⟩]

theorem decodePercentSeq_utf8 (c : Char) (r : List Char) :
    decodePercentSeq ((utf8Bytes c).flatMap percentByte ++ r) = some (c, r) := by
  have hv := char_valid_nat c
  have hvalid : c.toNat.isValidChar := c.valid
  by_cases h1 : c.toNat < 0x80
  · have hb : (utf8Bytes c).flatMap percentByte ++ r = percentByte c.toNat ++ r := by
      simp [utf8Bytes, h1]
    rw [hb, decodePercentSeq, readPercentByte_percentByte c.toNat (by omega) r]
    simp only
    rw [if_pos h1, Char.ofNat_toNat]
  · by_cases h2 : c.toNat < 0x800
    · have hb : (utf8Bytes c).flatMap percentByte ++ r =
          percentByte (0xC0 + c.toNat / 64) ++ (percentByte (0x80 + c.toNat % 64) ++ r) := by
        simp [utf8Bytes, h1, h2]
      rw [hb, decodePercentSeq, readPercentByte_percentByte _ (by omega) _]
      simp only
      rw [if_neg (by omega), if_neg (by omega), if_pos (by omega),
        readContByte_percentByte _ (by omega) (by omega) _]
      simp only
      have he : (0xC0 + c.toNat / 64 - 0xC0) * 64 + (0x80 + c.toNat % 64 - 0x80) = c.toNat := by
        omega
      rw [he, Char.ofNat_toNat]
    · by_cases h3 : c.toNat < 0x10000
      · have hb : (utf8Bytes c).flatMap percentByte ++ r =
            percentByte (0xE0 + c.toNat / 4096) ++ (percentByte (0x80 + (c.toNat / 64) % 64) ++
              (percentByte (0x80 + c.toNat % 64) ++ r)) := by
          simp [utf8Bytes, h1, h2, h3]
        rw [hb, decodePercentSeq, readPercentByte_percentByte _ (by omega) _]
        simp only
        rw [if_neg (by omega), if_neg (by omega), if_neg (by omega), if_pos (by omega),
          readContByte_percentByte _ (by omega) (by omega) _]
        simp only
        rw [readContByte_percentByte _ (by omega) (by omega) _]
        simp only
        rw [if_neg (by omega), if_neg (by omega)]
        have he : (0xE0 + c.toNat / 4096 - 0xE0) * 4096 +
            (0x80 + (c.toNat / 64) % 64 - 0x80) * 64 + (0x80 + c.toNat % 64 - 0x80) =
              c.toNat := by omega
        rw [he, Char.ofNat_toNat]
      · have hb : (utf8Bytes c).flatMap percentByte ++ r =
            percentByte (0xF0 + c.toNat / 262144) ++
              (percentByte (0x80 + (c.toNat / 4096) % 64) ++
                (percentByte (0x80 + (c.toNat / 64) % 64) ++
                  (percentByte (0x80 + c.toNat % 64) ++ r))) := by
          simp [utf8Bytes, h1, h2, h3]
        rw [hb, decodePercentSeq, readPercentByte_percentByte _ (by omega) _]
        simp only
        rw [if_neg (by omega), if_neg (by omega), if_neg (by omega), if_neg (by omega),
          if_pos (by omega), readContByte_percentByte _ (by omega) (by omega) _]
        simp only
        rw [readContByte_percentByte _ (by omega) (by omega) _]
        simp only
        rw [readContByte_percentByte _ (by omega) (by omega) _]
        simp only
        rw [if_neg (by omega)]
        have he : (0xF0 + c.toNat / 262144 - 0xF0) * 262144 +
            (0x80 + (c.toNat / 4096) % 64 - 0x80) * 4096 +
            (0x80 + (c.toNat / 64) % 64 - 0x80) * 64 + (0x80 + c.toNat % 64 - 0x80) =
              c.toNat := by omega
        rw [he, Char.ofNat_toNat]

theorem readPercentByte_length {l : List Char} {b : Nat} {r : List Char}
    (h : readPercentByte l = some (b, r)) : r.length + 3 = l.length := by
  unfold readPercentByte at h
  split at h
  · rename_i c h1 h2 rest
    split at h
    · rename_i a b' _ _
      have := (Option.some.inj h)
      obtain ⟨rfl, rfl⟩ : b = 16 * a + b' ∧ r = rest := by
        cases this
        exact ⟨rfl, rfl⟩
      simp
    · exact absurd h (by simp)
  · exact absurd h (by simp)

theorem readContByte_length {l : List Char} {b : Nat} {r : List Char}
    (h : readContByte l = some (b, r)) : r.length + 3 = l.length := by
  unfold readContByte at h
  split at h
  · rename_i b' r' heq
    split at h
    · have := Option.some.inj h
      cases this
      exact readPercentByte_length heq
    · exact absurd h (by simp)
  · exact absurd h (by simp)

set_option maxRecDepth 16384

theorem decodePercentSeq_shrink {l : List Char} {c : Char} {r : List Char}
    (h : decodePercentSeq l = some (c, r)) : r.length + 3 ≤ l.length := by
  unfold decodePercentSeq at h
  rcases h0 : readPercentByte l with _ | ⟨b0, r0⟩ <;> rw [h0] at h
  · exact absurd h (by simp)
  · simp only at h
    have hl0 := readPercentByte_length h0
    by_cases hb1 : b0 < 128
    · rw [if_pos hb1] at h
      cases Option.some.inj h
      omega
    · rw [if_neg hb1] at h
      by_cases hb2 : b0 < 194
      · rw [if_pos hb2] at h
        exact absurd h (by simp)
      · rw [if_neg hb2] at h
        by_cases hb3 : b0 < 224
        · rw [if_pos hb3] at h
          rcases h1 : readContByte r0 with _ | ⟨b1, r1⟩ <;> rw [h1] at h
          · exact absurd h (by simp)
          · simp only at h
            have hl1 := readContByte_length h1
            cases Option.some.inj h
            omega
        · rw [if_neg hb3] at h
          by_cases hb4 : b0 < 240
          · rw [if_pos hb4] at h
            rcases h1 : readContByte r0 with _ | ⟨b1, r1⟩ <;> rw [h1] at h
            · exact absurd h (by simp)
            · simp only at h
              rcases h2 : readContByte r1 with _ | ⟨b2, r2⟩ <;> rw [h2] at h
              · exact absurd h (by simp)
              · simp only at h
                have hl1 := readContByte_length h1
                have hl2 := readContByte_length h2
                split at h
                · exact absurd h (by simp)
                · split at h
                  · exact absurd h (by simp)
                  · cases Option.some.inj h
                    omega
          · rw [if_neg hb4] at h
            by_cases hb5 : b0 < 245
            · rw [if_pos hb5] at h
              rcases h1 : readContByte r0 with _ | ⟨b1, r1⟩ <;> rw [h1] at h
              · exact absurd h (by simp)
              · simp only at h
                rcases h2 : readContByte r1 with _ | ⟨b2, r2⟩ <;> rw [h2] at h
                · exact absurd h (by simp)
                · simp only at h
                  rcases h3 : readContByte r2 with _ | ⟨b3, r3⟩ <;> rw [h3] at h
                  · exact absurd h (by simp)
                  · simp only at h
                    have hl1 := readContByte_length h1
                    have hl2 := readContByte_length h2
                    have hl3 := readContByte_length h3
                    split at h
                    · exact absurd h (by simp)
                    · cases Option.some.inj h
                      omega
            · rw [if_neg hb5] at h
              exact absurd h (by simp)

theorem decodeAux_mono :
    ∀ (k : Nat) (cs : List Char), cs.length = k →
      ∀ fuel, k ≤ fuel → decodeAux fuel cs = decodeAux k cs := by
  intro k
  induction k using Nat.strong_induction_on with
  | _ k ih =>
      intro cs hlen fuel hfuel
      cases cs with
      | nil =>
          have hk : k = 0 := by simpa using hlen.symm
          subst hk
          cases fuel <;> rfl
      | cons c cs' =>
          simp only [List.length_cons] at hlen
          subst hlen
          cases fuel with
          | zero => omega
          | succ f =>
              show decodeAux (f + 1) (c :: cs') = decodeAux (cs'.length + 1) (c :: cs')
              rw [decodeAux, decodeAux]
              by_cases hc : c = '%'
              · rw [if_pos hc, if_pos hc]
                rcases hseq : decodePercentSeq (c :: cs') with _ | ⟨ch, rest⟩
                · rfl
                · simp only
                  have hrl := decodePercentSeq_shrink hseq
                  simp only [List.length_cons] at hrl
                  have h1 : decodeAux f rest = decodeAux rest.length rest :=
                    ih rest.length (by omega) rest rfl f (by omega)
                  have h2 : decodeAux cs'.length rest = decodeAux rest.length rest :=
                    ih rest.length (by omega) rest rfl cs'.length (by omega)
                  rw [h1, h2]
              · rw [if_neg hc, if_neg hc]
                have h1 : decodeAux f cs' = decodeAux cs'.length cs' :=
                  ih cs'.length (by omega) cs' rfl f (by omega)
                rw [h1]

theorem encodeChar_not_percent {c : Char} (h : isUriUnreserved c = true) : c ≠ '%' := by
  intro hc
  subst hc
  exact absurd h (by decide)

theorem utf8Bytes_cons (c : Char) : ∃ b bs, utf8Bytes c = b :: bs := by
  simp only [utf8Bytes]
  by_cases h1 : c.toNat < 0x80
  · rw [if_pos h1]
    exact ⟨_, _, rfl⟩
  · rw [if_neg h1]
    by_cases h2 : c.toNat < 0x800
    · rw [if_pos h2]
      exact ⟨_, _, rfl⟩
    · rw [if_neg h2]
      by_cases h3 : c.toNat < 0x10000
      · rw [if_pos h3]
        exact ⟨_, _, rfl⟩
      · rw [if_neg h3]
        exact ⟨_, _, rfl⟩

theorem utf8_flatMap_head (c : Char) (r : List Char) :
    ∃ t, (utf8Bytes c).flatMap percentByte ++ r = '%' :: t := by
  obtain ⟨b, bs, hb⟩ := utf8Bytes_cons c
  refine ⟨hexUpperDigit (b / 16) :: hexUpperDigit (b % 16) :: (bs.flatMap percentByte ++ r), ?_⟩
  rw [hb]
  simp [percentByte]

theorem decodeChars_encodeChar (c : Char) (r : List Char) :
    decodeURIComponentChars (encodeChar c ++ r) =
      (decodeURIComponentChars r).map (c :: ·) := by
  by_cases hu : isUriUnreserved c = true
  · have hb : encodeChar c ++ r = c :: r := by simp [encodeChar, hu]
    rw [hb]
    show decodeAux (c :: r).length (c :: r) = _
    rw [List.length_cons, decodeAux, if_neg (encodeChar_not_percent hu)]
    rfl
  · have hb : encodeChar c ++ r = (utf8Bytes c).flatMap percentByte ++ r := by
      simp [encodeChar, hu]
    rw [hb]
    obtain ⟨t, ht⟩ := utf8_flatMap_head c r
    rw [ht]
    show decodeAux ('%' :: t).length ('%' :: t) = _
    rw [List.length_cons, decodeAux, if_pos rfl, ← ht, decodePercentSeq_utf8 c r]
    simp only
    have hrl : r.length ≤ t.length := by
      have h2 : ('%' :: t).length = ((utf8Bytes c).flatMap percentByte).length + r.length := by
        rw [← ht]
        simp
      have hpos : 0 < ((utf8Bytes c).flatMap percentByte).length := by
        obtain ⟨t', ht'⟩ := utf8_flatMap_head c []
        have h3 : (utf8Bytes c).flatMap percentByte = '%' :: t' := by simpa using ht'
        simp [h3]
      simp only [List.length_cons] at h2
      omega
    rw [decodeAux_mono r.length r rfl t.length hrl]
    rfl

theorem decodeChars_encodeChars (cs : List Char) :
    decodeURIComponentChars (encodeURIComponentChars cs) = some cs := by
  induction cs with
  | nil => rfl
  | cons c cs' ih =>
      have hb : encodeURIComponentChars (c :: cs') =
          encodeChar c ++ encodeURIComponentChars cs' := by
        simp [encodeURIComponentChars]
      rw [hb, decodeChars_encodeChar, ih]
      rfl

theorem decodeCanonicalUriComponent_encode (s : String) :
    decodeCanonicalUriComponent (encodeURIComponent s) = some s := by
  have hdec : decodeURIComponent (encodeURIComponent s) = some s := by
    rw [decodeURIComponent]
    show (decodeURIComponentChars (encodeURIComponentChars s.data)).map String.mk = some s
    rw [decodeChars_encodeChars]
    rfl
  rw [decodeCanonicalUriComponent, hdec]
  simp

/-! ## Canonical decimal integer strings -/

theorem digitChar_toNat {d : Nat} (hd : d ≤ 9) : (digitChar d).toNat = 48 + d := by
  rw [digitChar]
  exact char_toNat_ofNat (by left; omega)

theorem natToDigitsRev_zero (fuel : Nat) : natToDigitsRev fuel 0 = [] := by
  cases fuel <;> rfl

/-- Core shape lemma: for `0 < n ≤ fuel` the reversed digit list is a
most-significant digit in `1..9` followed by digits in `0..9`, and reading it
back through `digitsToNat ∘ map digitChar` recovers `n`. -/
theorem natToDigitsRev_spec :
    ∀ (fuel n : Nat), 0 < n → n ≤ fuel →
      ∃ d ds, (natToDigitsRev fuel n).reverse = d :: ds ∧ 1 ≤ d ∧ d ≤ 9 ∧
        (∀ x ∈ ds, x ≤ 9) ∧
        digitsToNat ((d :: ds).map digitChar) = n := by
  intro fuel
  induction fuel with
  | zero => intro n h1 h2; omega
  | succ fuel ih =>
      intro n h1 h2
      rw [natToDigitsRev, if_neg (by omega)]
      by_cases hsmall : n < 10
      · have hq : n / 10 = 0 := by omega
        rw [hq, natToDigitsRev_zero]
        refine ⟨n % 10, [], by simp, by omega, by omega, by simp, ?_⟩
        simp only [List.map_cons, List.map_nil, digitsToNat, List.foldl_cons, List.foldl_nil]
        rw [digitChar_toNat (by omega)]
        omega
      · obtain ⟨d, ds, hds, hd1, hd9, hall, hval⟩ :=
          ih (n / 10) (by omega) (by omega)
        refine ⟨d, ds ++ [n % 10], ?_, hd1, hd9, ?_, ?_⟩
        · rw [List.reverse_cons, hds]
          rfl
        · intro x hx
          rcases List.mem_append.1 hx with hx | hx
          · exact hall x hx
          · rw [List.mem_singleton] at hx
            omega
        · rw [digitsToNat] at hval ⊢
          simp only [List.map_cons, List.map_append, List.map_nil]
          have hrw : digitChar d :: (List.map digitChar ds ++ [digitChar (n % 10)]) =
              (digitChar d :: List.map digitChar ds) ++ [digitChar (n % 10)] := by simp
          rw [hrw, List.foldl_append]
          simp only [List.map_cons] at hval
          rw [hval]
          simp only [List.foldl_cons, List.foldl_nil]
          rw [digitChar_toNat (by omega)]
          omega

theorem parseCanonicalNonNegativeInt_natCanonString {n : Nat}
    (hn : n ≤ MAX_SAFE_INTEGER) :
    parseCanonicalNonNegativeInt (natCanonString n) = some n := by
  by_cases h0 : n = 0
  · subst h0
    rfl
  · obtain ⟨d, ds, hds, hd1, hd9, hall, hval⟩ := natToDigitsRev_spec n n (by omega) le_rfl
    have hdata : (natCanonString n).data = (d :: ds).map digitChar := by
      rw [natCanonString, if_neg h0, hds]
    rw [parseCanonicalNonNegativeInt, hdata]
    have hcanon : isCanonicalIntChars ((d :: ds).map digitChar) = true := by
      simp only [List.map_cons, isCanonicalIntChars]
      rw [if_neg ?hne]
      case hne =>
        intro hc
        have := congrArg Char.toNat hc
        rw [digitChar_toNat (by omega)] at this
        have h48 : ('0' : Char).toNat = 48 := by decide
        omega
      rw [Bool.and_eq_true]
      constructor
      · rw [decide_eq_true_iff, digitChar_toNat (by omega)]
        omega
      · rw [List.all_eq_true]
        intro x hx
        rw [List.mem_map] at hx
        obtain ⟨y, hy, rfl⟩ := hx
        have hy9 := hall y hy
        rw [isAsciiDigit, decide_eq_true_iff, digitChar_toNat hy9]
        omega
    rw [if_pos hcanon, hval, if_pos hn]

theorem natCanonString_no_colon {n : Nat} {c : Char}
    (hc : c ∈ (natCanonString n).data) : c ≠ ':' := by
  by_cases h0 : n = 0
  · subst h0
    intro he
    subst he
    exact absurd hc (by decide)
  · obtain ⟨d, ds, hds, hd1, hd9, hall, _⟩ := natToDigitsRev_spec n n (by omega) le_rfl
    have hdata : (natCanonString n).data = (d :: ds).map digitChar := by
      rw [natCanonString, if_neg h0, hds]
    rw [hdata, List.mem_map] at hc
    obtain ⟨y, hy, rfl⟩ := hc
    intro he
    have hcn := congrArg Char.toNat he
    have hy9 : y ≤ 9 := by
      rcases List.mem_cons.1 hy with h | h
      · omega
      · exact hall y h
    rw [digitChar_toNat hy9] at hcn
    have h58 : (':' : Char).toNat = 58 := by decide
    omega

/-! ## Colon-freeness of encoded components and split lemmas -/

theorem utf8Bytes_lt_256 (c : Char) : ∀ b ∈ utf8Bytes c, b < 256 := by
  have hv := char_valid_nat c
  intro b hb
  simp only [utf8Bytes] at hb
  by_cases h1 : c.toNat < 0x80
  · rw [if_pos h1] at hb
    simp only [List.mem_singleton] at hb
    omega
  · rw [if_neg h1] at hb
    by_cases h2 : c.toNat < 0x800
    · rw [if_pos h2] at hb
      simp only [List.mem_cons, List.mem_singleton] at hb
      rcases hb with rfl | rfl | h
      · omega
      · omega
      · simp at h
    · rw [if_neg h2] at hb
      by_cases h3 : c.toNat < 0x10000
      · rw [if_pos h3] at hb
        simp only [List.mem_cons, List.mem_singleton] at hb
        rcases hb with rfl | rfl | rfl | h
        · omega
        · omega
        · omega
        · simp at h
      · rw [if_neg h3] at hb
        simp only [List.mem_cons, List.mem_singleton] at hb
        rcases hb with rfl | rfl | rfl | rfl | h
        · omega
        · omega
        · omega
        · omega
        · simp at h

theorem percentByte_no_colon {b : Nat} (hb : b < 256) {c : Char}
    (hc : c ∈ percentByte b) : c ≠ ':' := by
  simp only [percentByte, List.mem_cons, List.not_mem_nil, or_false] at hc
  rcases hc with rfl | rfl | rfl
  · decide
  · rw [hexUpperDigit]
    intro he
    have hcn := congrArg Char.toNat he
    rw [char_toNat_ofNat (by split <;> (left; omega))] at hcn
    have h58 : (':' : Char).toNat = 58 := by decide
    rw [h58] at hcn
    split at hcn <;> omega
  · rw [hexUpperDigit]
    intro he
    have hcn := congrArg Char.toNat he
    rw [char_toNat_ofNat (by split <;> (left; omega))] at hcn
    have h58 : (':' : Char).toNat = 58 := by decide
    rw [h58] at hcn
    split at hcn <;> omega

theorem encodeChars_no_colon {cs : List Char} {c : Char}
    (hc : c ∈ encodeURIComponentChars cs) : c ≠ ':' := by
  rw [encodeURIComponentChars, List.mem_flatMap] at hc
  obtain ⟨x, _, hcx⟩ := hc
  rw [encodeChar] at hcx
  split at hcx
  · rename_i hu
    rw [List.mem_singleton] at hcx
    subst hcx
    intro he
    rw [he] at hu
    exact absurd hu (by decide)
  · rw [List.mem_flatMap] at hcx
    obtain ⟨b, hb, hcb⟩ := hcx
    exact percentByte_no_colon (utf8Bytes_lt_256 x b hb) hcb

theorem splitOnColon_append {a : List Char} (ha : ∀ c ∈ a, c ≠ ':') :
    ∀ rest, splitOnColon (a ++ ':' :: rest) = a :: splitOnColon rest := by
  induction a with
  | nil =>
      intro rest
      simp [splitOnColon]
  | cons c a' ih =>
      intro rest
      have hc : c ≠ ':' := ha c (List.mem_cons_self _ _)
      have ha' : ∀ x ∈ a', x ≠ ':' := fun x hx => ha x (List.mem_cons_of_mem _ hx)
      show splitOnColon (c :: (a' ++ ':' :: rest)) = _
      rw [splitOnColon, if_neg hc, ih ha' rest]

theorem splitOnColon_no_colon {a : List Char} (ha : ∀ c ∈ a, c ≠ ':') :
    splitOnColon a = [a] := by
  induction a with
  | nil => rfl
  | cons c a' ih =>
      have hc : c ≠ ':' := ha c (List.mem_cons_self _ _)
      rw [splitOnColon, if_neg hc, ih (fun x hx => ha x (List.mem_cons_of_mem _ hx))]

/-! ## Identifier string round-trips -/

theorem encodeURIComponent_no_colon {path : String} {c : Char}
    (hc : c ∈ (encodeURIComponent path).data) : c ≠ ':' := by
  have : c ∈ encodeURIComponentChars path.data := hc
  exact encodeChars_no_colon this

theorem splitParts_func (a b c : String) (hA : ∀ x ∈ a.data, x ≠ ':')
    (hB : ∀ x ∈ b.data, x ≠ ':') (hC : ∀ x ∈ c.data, x ≠ ':') :
    splitParts ("f:" ++ a ++ ":" ++ b ++ ":" ++ c) = ["f", a, b, c] := by
  have hdata : ("f:" ++ a ++ ":" ++ b ++ ":" ++ c).data =
      ['f'] ++ ':' :: (a.data ++ ':' :: (b.data ++ ':' :: c.data)) := by
    simp only [String.data_append, show ("f:" : String).data = ['f', ':'] from rfl,
      show (":" : String).data = [':'] from rfl]
    simp
  rw [splitParts, hdata, splitOnColon_append (by decide : ∀ x ∈ ['f'], x ≠ ':'),
    splitOnColon_append hA, splitOnColon_append hB, splitOnColon_no_colon hC]
  rfl

theorem splitParts_stmt (a b c d : String) (hA : ∀ x ∈ a.data, x ≠ ':')
    (hB : ∀ x ∈ b.data, x ≠ ':') (hC : ∀ x ∈ c.data, x ≠ ':')
    (hD : ∀ x ∈ d.data, x ≠ ':') :
    splitParts ("s:" ++ a ++ ":" ++ b ++ ":" ++ c ++ ":" ++ d) = ["s", a, b, c, d] := by
  have hdata : ("s:" ++ a ++ ":" ++ b ++ ":" ++ c ++ ":" ++ d).data =
      ['s'] ++ ':' :: (a.data ++ ':' :: (b.data ++ ':' :: (c.data ++ ':' :: d.data))) := by
    simp only [String.data_append, show ("s:" : String).data = ['s', ':'] from rfl,
      show (":" : String).data = [':'] from rfl]
    simp
  rw [splitParts, hdata, splitOnColon_append (by decide : ∀ x ∈ ['s'], x ≠ ':'),
    splitOnColon_append hA, splitOnColon_append hB, splitOnColon_append hC,
    splitOnColon_no_colon hD]
  rfl

theorem splitParts_heap (a b c d e : String) (hA : ∀ x ∈ a.data, x ≠ ':')
    (hB : ∀ x ∈ b.data, x ≠ ':') (hC : ∀ x ∈ c.data, x ≠ ':')
    (hD : ∀ x ∈ d.data, x ≠ ':') (hE : ∀ x ∈ e.data, x ≠ ':') :
    splitParts ("h:" ++ a ++ ":" ++ b ++ ":" ++ c ++ ":" ++ d ++ ":" ++ e) =
      ["h", a, b, c, d, e] := by
  have hdata : ("h:" ++ a ++ ":" ++ b ++ ":" ++ c ++ ":" ++ d ++ ":" ++ e).data =
      ['h'] ++ ':' :: (a.data ++ ':' ::
        (b.data ++ ':' :: (c.data ++ ':' :: (d.data ++ ':' :: e.data)))) := by
    simp only [String.data_append, show ("h:" : String).data = ['h', ':'] from rfl,
      show (":" : String).data = [':'] from rfl]
    simp
  rw [splitParts, hdata, splitOnColon_append (by decide : ∀ x ∈ ['h'], x ≠ ':'),
    splitOnColon_append hA, splitOnColon_append hB, splitOnColon_append hC,
    splitOnColon_append hD, splitOnColon_no_colon hE]
  rfl

theorem createFuncId_inv {path : String} {so eo : Nat} {t : String}
    (h : createFuncId path so eo = some t) :
    path ≠ "" ∧ so ≤ MAX_SAFE_INTEGER ∧ eo ≤ MAX_SAFE_INTEGER ∧ so ≤ eo ∧
    t = "f:" ++ encodeURIComponent path ++ ":" ++ natCanonString so ++ ":" ++
      natCanonString eo := by
  rw [createFuncId] at h
  split at h
  · exact absurd h (by simp)
  · split at h
    · exact absurd h (by simp)
    · split at h
      · exact absurd h (by simp)
      · split at h
        · exact absurd h (by simp)
        · rename_i h1 h2 h3 h4
          exact ⟨h1, by omega, by omega, by omega, (Option.some.inj h).symm⟩

theorem parseFuncIdParts_create {path : String} {so eo : Nat} {t : String}
    (h : createFuncId path so eo = some t) :
    parseFuncIdParts t = some ⟨path, so, eo⟩ := by
  obtain ⟨hp, hso, heo, hse, ht⟩ := createFuncId_inv h
  rw [ht, parseFuncIdParts, splitParts_func _ _ _
    (fun x hx => encodeURIComponent_no_colon hx)
    (fun x hx => natCanonString_no_colon hx)
    (fun x hx => natCanonString_no_colon hx)]
  simp only [if_true]
  rw [decodeCanonicalUriComponent_encode path]
  simp only [if_true]
  rw [if_neg hp, parseCanonicalNonNegativeInt_natCanonString hso,
    parseCanonicalNonNegativeInt_natCanonString heo]
  simp only [if_true]
  rw [if_neg (by omega : ¬ eo < so)]

theorem parseFuncId_roundtrip {path : String} {so eo : Nat} {t : String}
    (h : createFuncId path so eo = some t) : parseFuncId t = some t := by
  rw [parseFuncId, parseFuncIdParts_create h]
  simp only
  rw [h]
  simp only [if_true]

theorem parseCanonicalNonNegativeInt_le {s : String} {n : Nat}
    (h : parseCanonicalNonNegativeInt s = some n) : n ≤ MAX_SAFE_INTEGER := by
  rw [parseCanonicalNonNegativeInt] at h
  split at h
  · split at h
    · rename_i hle
      exact (Option.some.inj h) ▸ hle
    · exact absurd h (by simp)
  · exact absurd h (by simp)

theorem natCanonString_props {i : Nat} (hi : i ≤ MAX_SAFE_INTEGER) :
    isCanonicalIntChars (natCanonString i).data = true ∧
    digitsToNat (natCanonString i).data = i := by
  have h := parseCanonicalNonNegativeInt_natCanonString hi
  rw [parseCanonicalNonNegativeInt] at h
  split at h
  · split at h
    · rename_i hc _
      exact ⟨hc, Option.some.inj h⟩
    · exact absurd h (by simp)
  · exact absurd h (by simp)

theorem parseFuncIdParts_inv {f : String} {fp : FuncIdP}
    (h : parseFuncIdParts f = some fp) :
    fp.filePath ≠ "" ∧ fp.startOffset ≤ MAX_SAFE_INTEGER ∧
    fp.endOffset ≤ MAX_SAFE_INTEGER ∧ fp.startOffset ≤ fp.endOffset := by
  rw [parseFuncIdParts] at h
  split at h
  · split at h
    · split at h
      · exact absurd h (by simp)
      · rename_i hdec
        split at h
        · exact absurd h (by simp)
        · rename_i hne
          split at h
          · rename_i s e hs he
            split at h
            · exact absurd h (by simp)
            · rename_i hes
              have hfp := (Option.some.inj h).symm
              subst hfp
              exact ⟨hne, parseCanonicalNonNegativeInt_le hs,
                parseCanonicalNonNegativeInt_le he, by show s ≤ e; omega⟩
          · exact absurd h (by simp)
    · exact absurd h (by simp)
  · exact absurd h (by simp)

theorem parseStmtIdParts_inv {f : String} {sp : StmtIdP}
    (h : parseStmtIdParts f = some sp) :
    sp.filePath ≠ "" ∧ sp.startOffset ≤ MAX_SAFE_INTEGER ∧
    sp.endOffset ≤ MAX_SAFE_INTEGER ∧ sp.startOffset ≤ sp.endOffset ∧
    sp.statementIndex ≤ MAX_SAFE_INTEGER := by
  rw [parseStmtIdParts] at h
  split at h
  · split at h
    · split at h
      · exact absurd h (by simp)
      · rename_i hdec
        split at h
        · exact absurd h (by simp)
        · rename_i hne
          split at h
          · rename_i s e i hs he hi
            split at h
            · exact absurd h (by simp)
            · rename_i hes
              have hsp := (Option.some.inj h).symm
              subst hsp
              exact ⟨hne, parseCanonicalNonNegativeInt_le hs,
                parseCanonicalNonNegativeInt_le he, by show s ≤ e; omega,
                parseCanonicalNonNegativeInt_le hi⟩
          · exact absurd h (by simp)
    · exact absurd h (by simp)
  · exact absurd h (by simp)

theorem createFuncId_of_bounds {path : String} {s e : Nat} (hp : path ≠ "")
    (hs : s ≤ MAX_SAFE_INTEGER) (he : e ≤ MAX_SAFE_INTEGER) (hse : s ≤ e) :
    createFuncId path s e = some ("f:" ++ encodeURIComponent path ++ ":" ++
      natCanonString s ++ ":" ++ natCanonString e) := by
  rw [createFuncId, if_neg hp, if_neg (by omega : ¬ s > MAX_SAFE_INTEGER),
    if_neg (by omega : ¬ e > MAX_SAFE_INTEGER), if_neg (by omega : ¬ e < s)]

theorem createStmtId_inv {f : String} {i : Nat} {t : String}
    (h : createStmtId f i = some t) :
    ∃ fp : FuncIdP, parseFuncIdParts f = some fp ∧ i ≤ MAX_SAFE_INTEGER ∧
      t = "s:" ++ encodeURIComponent fp.filePath ++ ":" ++
        natCanonString fp.startOffset ++ ":" ++ natCanonString fp.endOffset ++ ":" ++
        natCanonString i := by
  rw [createStmtId] at h
  split at h
  · exact absurd h (by simp)
  · rename_i fp hfp
    split at h
    · exact absurd h (by simp)
    · rename_i hi
      exact ⟨fp, hfp, by omega, (Option.some.inj h).symm⟩

theorem createStmtId_canonical {fp : FuncIdP} {fc : String} {i : Nat}
    (hfc : parseFuncIdParts fc = some fp) (hi : i ≤ MAX_SAFE_INTEGER) :
    createStmtId fc i = some ("s:" ++ encodeURIComponent fp.filePath ++ ":" ++
      natCanonString fp.startOffset ++ ":" ++ natCanonString fp.endOffset ++ ":" ++
      natCanonString i) := by
  rw [createStmtId, hfc]
  simp only
  rw [if_neg (by omega : ¬ i > MAX_SAFE_INTEGER)]

theorem parseStmtIdParts_create {f : String} {i : Nat} {t : String} {fp : FuncIdP}
    (hf : parseFuncIdParts f = some fp) (h : createStmtId f i = some t) :
    parseStmtIdParts t = some ⟨fp.filePath, fp.startOffset, fp.endOffset, i⟩ := by
  obtain ⟨fp', hfp', hi, ht⟩ := createStmtId_inv h
  rw [hf] at hfp'
  have hfp2 : fp' = fp := (Option.some.inj hfp').symm
  rw [hfp2] at ht
  obtain ⟨hne, hso, heo, hse⟩ := parseFuncIdParts_inv hf
  rw [ht, parseStmtIdParts, splitParts_stmt _ _ _ _
    (fun x hx => encodeURIComponent_no_colon hx)
    (fun x hx => natCanonString_no_colon hx)
    (fun x hx => natCanonString_no_colon hx)
    (fun x hx => natCanonString_no_colon hx)]
  simp only [if_true]
  rw [decodeCanonicalUriComponent_encode fp.filePath]
  simp only [if_true]
  rw [if_neg hne, parseCanonicalNonNegativeInt_natCanonString hso,
    parseCanonicalNonNegativeInt_natCanonString heo,
    parseCanonicalNonNegativeInt_natCanonString hi]
  simp only [if_true]
  rw [if_neg (by omega : ¬ fp.endOffset < fp.startOffset)]

theorem parseStmtId_roundtrip {f : String} {i : Nat} {t : String}
    (h : createStmtId f i = some t) : parseStmtId t = some t := by
  obtain ⟨fp, hfp, hi, ht⟩ := createStmtId_inv h
  obtain ⟨hne, hso, heo, hse⟩ := parseFuncIdParts_inv hfp
  have hparts := parseStmtIdParts_create hfp h
  rw [parseStmtId, hparts]
  simp only
  rw [createFuncId_of_bounds hne hso heo hse]
  simp only
  rw [createStmtId_canonical (parseFuncIdParts_create (createFuncId_of_bounds hne hso heo hse)) hi]
  simp only
  rw [ht]
  simp only [if_true]

theorem createHeapId_inv {sid prop t : String}
    (h : createHeapId sid prop = some t) :
    ∃ sp : StmtIdP, parseStmtIdParts sid = some sp ∧ prop ≠ "" ∧
      t = "h:" ++ encodeURIComponent sp.filePath ++ ":" ++
        natCanonString sp.startOffset ++ ":" ++ natCanonString sp.endOffset ++ ":" ++
        natCanonString sp.statementIndex ++ ":" ++ encodeURIComponent prop := by
  rw [createHeapId] at h
  split at h
  · exact absurd h (by simp)
  · rename_i sp hsp
    split at h
    · exact absurd h (by simp)
    · rename_i hprop
      exact ⟨sp, hsp, hprop, (Option.some.inj h).symm⟩

theorem parseHeapIdParts_create {sid prop t : String} {sp : StmtIdP}
    (hs : parseStmtIdParts sid = some sp) (h : createHeapId sid prop = some t) :
    parseHeapIdParts t = some ⟨sp, prop⟩ := by
  obtain ⟨sp', hsp', hprop, ht⟩ := createHeapId_inv h
  rw [hs] at hsp'
  have hsp2 : sp' = sp := (Option.some.inj hsp').symm
  rw [hsp2] at ht
  obtain ⟨hne, hso, heo, hse, hsi⟩ := parseStmtIdParts_inv hs
  rw [ht, parseHeapIdParts, splitParts_heap _ _ _ _ _
    (fun x hx => encodeURIComponent_no_colon hx)
    (fun x hx => natCanonString_no_colon hx)
    (fun x hx => natCanonString_no_colon hx)
    (fun x hx => natCanonString_no_colon hx)
    (fun x hx => encodeURIComponent_no_colon hx)]
  simp only [if_true]
  rw [decodeCanonicalUriComponent_encode sp.filePath]
  simp only [if_true]
  rw [if_neg hne, parseCanonicalNonNegativeInt_natCanonString hso,
    parseCanonicalNonNegativeInt_natCanonString heo,
    parseCanonicalNonNegativeInt_natCanonString hsi]
  simp only [if_true]
  rw [if_neg (by omega : ¬ sp.endOffset < sp.startOffset),
    decodeCanonicalUriComponent_encode prop]
  simp only [if_true]
  rw [if_neg hprop]

theorem createHeapId_canonical {sp : StmtIdP} {sc : String} {prop : String}
    (hsc : parseStmtIdParts sc = some sp) (hp : prop ≠ "") :
    createHeapId sc prop = some ("h:" ++ encodeURIComponent sp.filePath ++ ":" ++
      natCanonString sp.startOffset ++ ":" ++ natCanonString sp.endOffset ++ ":" ++
      natCanonString sp.statementIndex ++ ":" ++ encodeURIComponent prop) := by
  rw [createHeapId, hsc]
  simp only
  rw [if_neg hp]

theorem parseHeapId_roundtrip {sid prop t : String}
    (h : createHeapId sid prop = some t) : parseHeapId t = some t := by
  obtain ⟨sp, hsp, hprop, ht⟩ := createHeapId_inv h
  obtain ⟨hne, hso, heo, hse, hsi⟩ := parseStmtIdParts_inv hsp
  have hparts := parseHeapIdParts_create hsp h
  rw [parseHeapId, hparts]
  simp only
  rw [createFuncId_of_bounds hne hso heo hse]
  simp only
  have hfc := parseFuncIdParts_create (createFuncId_of_bounds hne hso heo hse)
  rw [createStmtId_canonical hfc hsi]
  simp only
  have hsc := parseStmtIdParts_create hfc (createStmtId_canonical hfc hsi)
  rw [createHeapId_canonical hsc hprop]
  simp only
  rw [ht]
  simp only [if_true]

theorem parseParamVarId_roundtrip {i : Nat} {t : String}
    (h : createParamVarId i = some t) : parseVarId t = some t := by
  rw [createParamVarId] at h
  split at h
  · exact absurd h (by simp)
  · rename_i hi
    have hi' : i ≤ MAX_SAFE_INTEGER := by omega
    obtain ⟨hcanon, hval⟩ := natCanonString_props hi'
    have ht : t = "p" ++ natCanonString i := (Option.some.inj h).symm
    have hdata : ("p" ++ natCanonString i).data = 'p' :: (natCanonString i).data := by
      simp [String.data_append, show ("p" : String).data = ['p'] from rfl]
    rw [ht, parseVarId, hdata]
    simp only
    rw [if_pos ⟨Or.inl trivial, hcanon⟩, if_pos (by rw [hval]; exact hi')]

theorem parseLocalVarId_roundtrip {i : Nat} {t : String}
    (h : createLocalVarId i = some t) : parseVarId t = some t := by
  rw [createLocalVarId] at h
  split at h
  · exact absurd h (by simp)
  · rename_i hi
    have hi' : i ≤ MAX_SAFE_INTEGER := by omega
    obtain ⟨hcanon, hval⟩ := natCanonString_props hi'
    have ht : t = "v" ++ natCanonString i := (Option.some.inj h).symm
    have hdata : ("v" ++ natCanonString i).data = 'v' :: (natCanonString i).data := by
      simp [String.data_append, show ("v" : String).data = ['v'] from rfl]
    rw [ht, parseVarId, hdata]
    simp only
    rw [if_pos ⟨Or.inr trivial, hcanon⟩, if_pos (by rw [hval]; exact hi')]

theorem natToDigitsRev_eq_digits :
    ∀ (fuel n : Nat), n ≤ fuel → natToDigitsRev fuel n = Nat.digits 10 n := by
  intro fuel
  induction fuel with
  | zero =>
      intro n h
      have h0 : n = 0 := by omega
      subst h0
      rw [natToDigitsRev_zero, Nat.digits_zero]
  | succ fuel ih =>
      intro n h
      by_cases h0 : n = 0
      · subst h0
        rw [natToDigitsRev_zero, Nat.digits_zero]
      · rw [natToDigitsRev, if_neg h0, ih (n / 10) (by omega),
          Nat.digits_def' (by norm_num : (1:ℕ) < 10) (by omega : 0 < n)]

theorem digitsToNat_foldl_ofDigits :
    ∀ (cs : List Char) (a : Nat),
      cs.foldl (fun acc c => acc * 10 + (c.toNat - 48)) a =
        a * 10 ^ cs.length + Nat.ofDigits 10 ((cs.map (fun c => c.toNat - 48)).reverse) := by
  intro cs
  induction cs with
  | nil => intro a; simp [Nat.ofDigits_nil]
  | cons c cs ih =>
      intro a
      rw [List.foldl_cons, ih (a * 10 + (c.toNat - 48)), List.map_cons,
        List.reverse_cons, Nat.ofDigits_append, Nat.ofDigits_singleton]
      simp only [List.length_cons, List.length_reverse, List.length_map]
      ring

theorem digitsToNat_eq_ofDigits (cs : List Char) :
    digitsToNat cs = Nat.ofDigits 10 ((cs.map (fun c => c.toNat - 48)).reverse) := by
  rw [digitsToNat, digitsToNat_foldl_ofDigits]
  simp

theorem natCanonString_of_canonical {cs : List Char}
    (hc : isCanonicalIntChars cs = true) :
    (natCanonString (digitsToNat cs)).data = cs := by
  cases cs with
  | nil => exact absurd hc (by rw [isCanonicalIntChars]; simp)
  | cons c rest =>
      rw [isCanonicalIntChars] at hc
      by_cases h0 : c = '0'
      · rw [if_pos h0, decide_eq_true_iff] at hc
        subst hc
        subst h0
        rfl
      · rw [if_neg h0, Bool.and_eq_true, decide_eq_true_iff] at hc
        obtain ⟨⟨hc1, hc9⟩, hall⟩ := hc
        have hall' : ∀ x ∈ rest, 48 ≤ x.toNat ∧ x.toNat ≤ 57 := by
          intro x hx
          have h1 := List.all_eq_true.1 hall x hx
          rw [isAsciiDigit, decide_eq_true_iff] at h1
          exact h1
        have hrev : ((c :: rest).map (fun x => x.toNat - 48)).reverse
            = ((rest.map (fun x => x.toNat - 48)).reverse) ++ [c.toNat - 48] := by
          simp
        have hLd : ∀ l ∈ ((c :: rest).map (fun x => x.toNat - 48)).reverse, l < 10 := by
          intro l hl
          rw [List.mem_reverse, List.mem_map] at hl
          obtain ⟨x, hx, rfl⟩ := hl
          rcases List.mem_cons.1 hx with rfl | hx'
          · omega
          · have := hall' x hx'
            omega
        have hlast : ∀ (h : ((c :: rest).map (fun x => x.toNat - 48)).reverse ≠ []),
            (((c :: rest).map (fun x => x.toNat - 48)).reverse).getLast h ≠ 0 := by
          intro h
          have h1 : (((c :: rest).map (fun x => x.toNat - 48)).reverse).getLast? =
              some (c.toNat - 48) := by
            rw [hrev]
            exact List.getLast?_concat _
          rw [List.getLast?_eq_getLast _ h] at h1
          have h2 := Option.some.inj h1
          omega
        have hofd := Nat.digits_ofDigits 10 (by norm_num) _ hLd hlast
        have hdval := digitsToNat_eq_ofDigits (c :: rest)
        have hpos : digitsToNat (c :: rest) ≠ 0 := by
          intro hz
          rw [hdval] at hz
          rw [hz, Nat.digits_zero] at hofd
          rw [hrev] at hofd
          exact absurd hofd.symm (by simp)
        rw [natCanonString, if_neg hpos]
        show ((natToDigitsRev (digitsToNat (c :: rest))
          (digitsToNat (c :: rest))).reverse).map digitChar = c :: rest
        rw [natToDigitsRev_eq_digits _ _ le_rfl, hdval, hofd, List.reverse_reverse,
          List.map_map]
        have hmap : ∀ x ∈ c :: rest,
            (digitChar ∘ (fun x => x.toNat - 48)) x = id x := by
          intro x hx
          simp only [Function.comp, id]
          have hxb : 48 ≤ x.toNat ∧ x.toNat ≤ 57 := by
            rcases List.mem_cons.1 hx with rfl | hx'
            · omega
            · exact hall' x hx'
          rw [digitChar, show 48 + (x.toNat - 48) = x.toNat from by omega,
            Char.ofNat_toNat]
        rw [List.map_congr_left hmap, List.map_id]

theorem parseFuncId_accepted {t r : String} (h : parseFuncId t = some r) :
    r = t ∧ ∃ p s e, createFuncId p s e = some t := by
  rw [parseFuncId] at h
  split at h
  · exact absurd h (by simp)
  · rename_i p hp
    split at h
    · exact absurd h (by simp)
    · rename_i canonical hcan
      split at h
      · rename_i heq
        refine ⟨(Option.some.inj h).symm, p.filePath, p.startOffset, p.endOffset, ?_⟩
        rw [hcan, heq]
      · exact absurd h (by simp)

theorem parseStmtId_accepted {t r : String} (h : parseStmtId t = some r) :
    r = t ∧ ∃ f i, createStmtId f i = some t := by
  rw [parseStmtId] at h
  split at h
  · exact absurd h (by simp)
  · rename_i p hp
    split at h
    · exact absurd h (by simp)
    · rename_i f hf
      split at h
      · exact absurd h (by simp)
      · rename_i canonical hcan
        split at h
        · rename_i heq
          refine ⟨(Option.some.inj h).symm, f, p.statementIndex, ?_⟩
          rw [hcan, heq]
        · exact absurd h (by simp)

theorem parseHeapId_accepted {t r : String} (h : parseHeapId t = some r) :
    r = t ∧ ∃ sid prop, createHeapId sid prop = some t := by
  rw [parseHeapId] at h
  split at h
  · exact absurd h (by simp)
  · rename_i p hp
    split at h
    · exact absurd h (by simp)
    · rename_i f hf
      split at h
      · exact absurd h (by simp)
      · rename_i s hs
        split at h
        · exact absurd h (by simp)
        · rename_i canonical hcan
          split at h
          · rename_i heq
            refine ⟨(Option.some.inj h).symm, s, p.propertyName, ?_⟩
            rw [hcan, heq]
          · exact absurd h (by simp)

theorem parseVarId_accepted {t r : String} (h : parseVarId t = some r) :
    r = t ∧ ∃ i, createParamVarId i = some t ∨ createLocalVarId i = some t := by
  rw [parseVarId] at h
  split at h
  · rename_i c rest hdata
    split at h
    · rename_i hcond
      obtain ⟨hcv, hcanon⟩ := hcond
      split at h
      · rename_i hle
        refine ⟨(Option.some.inj h).symm, digitsToNat rest, ?_⟩
        have hns := natCanonString_of_canonical hcanon
        rcases hcv with rfl | rfl
        · left
          rw [createParamVarId, if_neg (by omega : ¬ digitsToNat rest > MAX_SAFE_INTEGER)]
          have hd : ("p" ++ natCanonString (digitsToNat rest)).data = t.data := by
            rw [String.data_append, hns, hdata]
            rfl
          exact congrArg some (congrArg String.mk hd)
        · right
          rw [createLocalVarId, if_neg (by omega : ¬ digitsToNat rest > MAX_SAFE_INTEGER)]
          have hd : ("v" ++ natCanonString (digitsToNat rest)).data = t.data := by
            rw [String.data_append, hns, hdata]
            rfl
          exact congrArg some (congrArg String.mk hd)
      · exact absurd h (by simp)
    · exact absurd h (by simp)
  · exact absurd h (by simp)

/-- **C6.** Identifier algebra: for every identifier kind (FuncId, StmtId,
CallsiteId, VarId, HeapId), parsing the canonical string produced by the
constructor succeeds and returns that very string
(`parse (stringify x) = x`); conversely every string any parser accepts is
returned unchanged and is byte-identical to a canonical constructor output;
and concretely, a non-canonical URI encoding (`%2f` in lowercase), a leading
zero in a numeric field, and a leading zero in a variable index are all
rejected. -/
theorem id_parse_stringify_roundtrip :
    (∀ path s e t, createFuncId path s e = some t → parseFuncId t = some t) ∧
    (∀ f i t, createStmtId f i = some t →
      parseStmtId t = some t ∧ parseCallsiteId t = some t) ∧
    (∀ sid prop t, createHeapId sid prop = some t → parseHeapId t = some t) ∧
    (∀ i t, createParamVarId i = some t → parseVarId t = some t) ∧
    (∀ i t, createLocalVarId i = some t → parseVarId t = some t) ∧
    (∀ t r, parseFuncId t = some r → r = t ∧ ∃ p s e, createFuncId p s e = some t) ∧
    (∀ t r, parseStmtId t = some r → r = t ∧ ∃ f i, createStmtId f i = some t) ∧
    (∀ t r, parseHeapId t = some r → r = t ∧ ∃ sid prop, createHeapId sid prop = some t) ∧
    (∀ t r, parseVarId t = some r →
      r = t ∧ ∃ i, createParamVarId i = some t ∨ createLocalVarId i = some t) ∧
    parseFuncId "f:a%2f:0:1" = none ∧
    parseFuncId "f:a:00:1" = none ∧
    parseVarId "p01" = none :=
  ⟨fun _ _ _ _ h => parseFuncId_roundtrip h,
   fun _ _ _ h => ⟨parseStmtId_roundtrip h, parseStmtId_roundtrip h⟩,
   fun _ _ _ h => parseHeapId_roundtrip h,
   fun _ _ h => parseParamVarId_roundtrip h,
   fun _ _ h => parseLocalVarId_roundtrip h,
   fun _ _ h => parseFuncId_accepted h,
   fun _ _ h => parseStmtId_accepted h,
   fun _ _ h => parseHeapId_accepted h,
   fun _ _ h => parseVarId_accepted h,
   by decide, by decide, by decide⟩

/-- Witness for C6 at concrete inputs: the FuncId round-trip and the
accepted-is-canonical direction, instantiated on `"f:a:0:1"`. -/
theorem id_parse_stringify_roundtrip_witness :
    parseFuncId "f:a:0:1" = some "f:a:0:1" ∧
    ("f:a:0:1" : String) = "f:a:0:1" ∧
    (∃ p s e, createFuncId p s e = some "f:a:0:1") ∧
    parseVarId "p0" = some "p0" :=
  ⟨id_parse_stringify_roundtrip.1 "a" 0 1 "f:a:0:1" (by decide),
   (id_parse_stringify_roundtrip.2.2.2.2.2.1 "f:a:0:1" "f:a:0:1" (by decide)).1,
   (id_parse_stringify_roundtrip.2.2.2.2.2.1 "f:a:0:1" "f:a:0:1" (by decide)).2,
   id_parse_stringify_roundtrip.2.2.2.1 0 "p0" (by decide)⟩

/-- **C7 (corrected).** The spec claims `createFuncId`/`parseFuncId` reject
paths with alternative separators (`\`) or `.`/`..` segments.  They do not:
the only path validation is non-emptiness (plus safe-integer offsets and
`start ≤ end`).  A path containing a backslash, a `.` segment, or a `..`
segment is constructed and parsed successfully, as witnessed concretely; and
acceptance of `createFuncId` is exactly characterised by the non-emptiness
and offset conditions, with the parser enforcing nothing further about the
path than the constructor does. -/
theorem funcId_path_constraints_not_enforced :
    (createFuncId "a\\b" 0 0).isSome = true ∧
    (parseFuncId "f:a%5Cb:0:0").isSome = true ∧
    (parseFuncId "f:..:0:0").isSome = true ∧
    (parseFuncId "f:.:0:0").isSome = true ∧
    (createFuncId ".." 0 0).isSome = true ∧
    createFuncId "" 0 0 = none ∧
    (∀ p s e, (createFuncId p s e).isSome = true ↔
      (p ≠ "" ∧ s ≤ MAX_SAFE_INTEGER ∧ e ≤ MAX_SAFE_INTEGER ∧ s ≤ e)) ∧
    (∀ t r, parseFuncId t = some r →
      ∃ p s e, p ≠ "" ∧ s ≤ e ∧ createFuncId p s e = some t) := by
  refine ⟨by decide, by decide, by decide, by decide, by decide, by decide, ?_, ?_⟩
  · intro p s e
    constructor
    · intro hs
      rw [Option.isSome_iff_exists] at hs
      obtain ⟨t, ht⟩ := hs
      obtain ⟨h1, h2, h3, h4, _⟩ := createFuncId_inv ht
      exact ⟨h1, h2, h3, h4⟩
    · rintro ⟨h1, h2, h3, h4⟩
      rw [createFuncId_of_bounds h1 h2 h3 h4]
      rfl
  · intro t r h
    obtain ⟨_, p, s, e, hc⟩ := parseFuncId_accepted h
    obtain ⟨h1, _, _, h4, _⟩ := createFuncId_inv hc
    exact ⟨p, s, e, h1, h4, hc⟩

/-- Witness for C7 at concrete inputs: the acceptance characterisation and
the parser direction applied to the dot-segment path `".."`. -/
theorem funcId_path_constraints_not_enforced_witness :
    (createFuncId ".." 3 7).isSome = true ∧
    (∃ p s e, p ≠ "" ∧ s ≤ e ∧ createFuncId p s e = some "f:..:0:0") :=
  ⟨(funcId_path_constraints_not_enforced.2.2.2.2.2.2.1 ".." 3 7).2
      ⟨by decide, by decide, by decide, by decide⟩,
   funcId_path_constraints_not_enforced.2.2.2.2.2.2.2 "f:..:0:0" "f:..:0:0" (by decide)⟩

/-- Counterexample to C7 as stated: a path containing a backslash separator
and a path that is a bare `..` segment are both constructed and parsed
successfully, contradicting the claimed rejection. -/
theorem funcId_dot_segment_accepted :
    (createFuncId "a\\b" 0 0).isSome = true ∧
    (parseFuncId "f:a%5Cb:0:0").isSome = true ∧
    (createFuncId ".." 0 0).isSome = true ∧
    (parseFuncId "f:..:0:0").isSome = true :=
  ⟨by decide, by decide, by decide, by decide⟩

/-! ## Canonical JSON lemmas -/

theorem jsStringifyElems_cons_elided {a : Js} {es : List Js} (ha : jsElided a = true) :
    jsStringifyElems (a :: es) =
      (jsStringifyElems es).map (fun parts => "null" :: parts) := by
  cases a <;> first | rfl | exact Bool.noConfusion ha

theorem jsStringifyElems_cons_keep {a : Js} {es : List Js} (ha : jsElided a = false) :
    jsStringifyElems (a :: es) =
      match jsStringify a, jsStringifyElems es with
      | some s, some parts => some (s :: parts)
      | _, _ => none := by
  cases a <;> first | rfl | exact Bool.noConfusion ha

theorem jsStringifyFields_cons_elided {k : String} {v : Js} {f : List (String × Js)}
    (hv : jsElided v = true) :
    jsStringifyFields ((k, v) :: f) = jsStringifyFields f := by
  cases v <;> first | rfl | exact Bool.noConfusion hv

theorem jsStringifyFields_cons_keep {k : String} {v : Js} {f : List (String × Js)}
    (hv : jsElided v = false) :
    jsStringifyFields ((k, v) :: f) =
      match jsStringify v, jsStringifyFields f with
      | some s, some ps => some ((k, s) :: ps)
      | _, _ => none := by
  cases v <;> first | rfl | exact Bool.noConfusion hv

theorem jsStringifyFields_eq :
    ∀ f : List (String × Js), jsStringifyFields f =
      optMapM (fun p => (jsStringify p.2).map (fun s => (p.1, s)))
        (f.filter (fun p => !jsElided p.2)) := by
  intro f
  induction f with
  | nil => rfl
  | cons p rest ih =>
      obtain ⟨k, v⟩ := p
      by_cases hv : jsElided v = true
      · rw [jsStringifyFields_cons_elided hv, ih, List.filter_cons,
          if_neg (by simp [hv])]
      · rw [Bool.not_eq_true] at hv
        rw [jsStringifyFields_cons_keep hv, ih, List.filter_cons,
          if_pos (by simp [hv]), optMapM]
        rcases hv2 : jsStringify v with _ | s <;>
          rcases hm : optMapM (fun p => (jsStringify p.2).map (fun s => (p.1, s)))
            (rest.filter (fun p => !jsElided p.2)) with _ | ps <;>
          simp [hv2, hm]

theorem optMapM_isSome {α β : Type} (g : α → Option β) :
    ∀ l : List α, (optMapM g l).isSome = true ↔ ∀ x ∈ l, (g x).isSome = true := by
  intro l
  induction l with
  | nil => simp [optMapM]
  | cons a l ih =>
      rw [optMapM]
      constructor
      · intro h x hx
        rcases hg : g a with _ | y <;> rw [hg] at h
        · exact absurd h (by simp)
        · rcases hm : optMapM g l with _ | ys <;> rw [hm] at h
          · exact absurd h (by simp)
          · rcases List.mem_cons.1 hx with rfl | hx'
            · rw [hg]; rfl
            · exact (ih.1 (by rw [hm]; rfl)) x hx'
      · intro h
        rcases hg : g a with _ | y
        · exact absurd (h a (List.mem_cons_self a l)) (by rw [hg]; simp)
        · rcases hm : optMapM g l with _ | ys
          · have := ih.2 (fun x hx => h x (List.mem_cons_of_mem a hx))
            rw [hm] at this
            exact absurd this (by simp)
          · rfl

theorem optMapM_perm {α β : Type} (g : α → Option β) {l1 l2 : List α}
    (hp : l1.Perm l2) :
    ∀ {r1 r2 : List β}, optMapM g l1 = some r1 → optMapM g l2 = some r2 →
      r1.Perm r2 := by
  induction hp with
  | nil =>
      intro r1 r2 h1 h2
      rw [optMapM] at h1 h2
      rw [← Option.some.inj h1, ← Option.some.inj h2]
  | cons x hp ih =>
      rename_i t1 t2
      intro r1 r2 h1 h2
      rw [optMapM] at h1 h2
      rcases hg : g x with _ | y <;> rw [hg] at h1 h2
      · exact absurd h1 (by simp)
      · rcases hm1 : optMapM g t1 with _ | ys1 <;> rw [hm1] at h1
        · exact absurd h1 (by simp)
        · rcases hm2 : optMapM g t2 with _ | ys2 <;> rw [hm2] at h2
          · exact absurd h2 (by simp)
          · rw [← Option.some.inj h1, ← Option.some.inj h2]
            exact List.Perm.cons y (ih hm1 hm2)
  | swap a b l =>
      intro r1 r2 h1 h2
      rw [optMapM, optMapM] at h1 h2
      rcases hga : g a with _ | ya <;> rw [hga] at h1 h2
      · rcases hgb : g b with _ | yb <;> rw [hgb] at h1 h2
        · exact absurd h1 (by simp)
        · exact absurd h2 (by simp)
      · rcases hgb : g b with _ | yb <;> rw [hgb] at h1 h2
        · exact absurd h1 (by simp)
        · rcases hm : optMapM g l with _ | ys <;> rw [hm] at h1 h2
          · exact absurd h1 (by simp)
          · rw [← Option.some.inj h1, ← Option.some.inj h2]
            exact List.Perm.swap ya yb ys
  | trans hp1 hp2 ih1 ih2 =>
      intro r1 r2 h1 h2
      rename_i la lb lc
      have hbsome : (optMapM g lb).isSome = true := by
        rw [optMapM_isSome]
        intro x hx
        have := (optMapM_isSome g la).1 (by rw [h1]; rfl)
        exact this x (hp1.mem_iff.2 hx)
      rcases hb : optMapM g lb with _ | rb
      · rw [hb] at hbsome
        exact absurd hbsome (by simp)
      · exact (ih1 h1 hb).trans (ih2 hb h2)

theorem optMapM_fst {β : Type} (render : Js → Option β) :
    ∀ (l : List (String × Js)) (r : List (String × β)),
      optMapM (fun p => (render p.2).map (fun s => (p.1, s))) l = some r →
      r.map Prod.fst = l.map Prod.fst := by
  intro l
  induction l with
  | nil =>
      intro r h
      rw [optMapM] at h
      rw [← Option.some.inj h]
      rfl
  | cons p rest ih =>
      intro r h
      rw [optMapM] at h
      rcases hg : (render p.2).map (fun s => (p.1, s)) with _ | y <;> rw [hg] at h
      · exact absurd h (by simp)
      · rcases hm : optMapM (fun p => (render p.2).map (fun s => (p.1, s))) rest
            with _ | ys <;> rw [hm] at h
        · exact absurd h (by simp)
        · have hy : y.1 = p.1 := by
            rcases hr : render p.2 with _ | s <;> rw [hr] at hg
            · exact absurd hg (by simp)
            · rw [← Option.some.inj hg]
          rw [← Option.some.inj h, List.map_cons, List.map_cons, hy, ih ys hm]

/-- On pair lists with pairwise-distinct keys, being sorted by key in the
non-strict order upgrades to the strict-or-equal relation, which is a
partial order, so two sorted permutations coincide. -/
theorem sorted_pairs_eq_of_perm {β : Type} {l1 l2 : List (String × β)}
    (hp : l1.Perm l2) (hn : (l1.map Prod.fst).Nodup)
    (h1 : List.Sorted (fun a b : String × β => cmpString a.1 b.1 ≠ Ordering.gt) l1)
    (h2 : List.Sorted (fun a b : String × β => cmpString a.1 b.1 ≠ Ordering.gt) l2) :
    l1 = l2 := by
  have hlaw := lawful_cmpString
  have hn2 : (l2.map Prod.fst).Nodup := ((hp.map Prod.fst).nodup_iff).1 hn
  have hne1 : l1.Pairwise (fun a b : String × β => a.1 ≠ b.1) :=
    (List.pairwise_map).1 hn
  have hne2 : l2.Pairwise (fun a b : String × β => a.1 ≠ b.1) :=
    (List.pairwise_map).1 hn2
  have hstrict : ∀ {a b : String × β}, cmpString a.1 b.1 ≠ Ordering.gt → a.1 ≠ b.1 →
      cmpString a.1 b.1 = Ordering.lt := by
    intro a b hle hne
    rcases hab : cmpString a.1 b.1 with _ | _ | _
    · rfl
    · exact absurd ((hlaw.eq_iff _ _).1 hab) hne
    · exact absurd hab hle
  have hs1 : l1.Pairwise (fun a b : String × β => cmpString a.1 b.1 = Ordering.lt) :=
    (h1.and hne1).imp (fun h => hstrict h.1 h.2)
  have hs2 : l2.Pairwise (fun a b : String × β => cmpString a.1 b.1 = Ordering.lt) :=
    (h2.and hne2).imp (fun h => hstrict h.1 h.2)
  haveI : IsTrans (String × β) (fun a b => cmpString a.1 b.1 = Ordering.lt) :=
    ⟨fun _ _ _ hab hbc => hlaw.lt_trans hab hbc⟩
  haveI : IsAntisymm (String × β) (fun a b => cmpString a.1 b.1 = Ordering.lt) :=
    ⟨fun a b hab hba => by
      have := hlaw.swap a.1 b.1
      rw [hab, hba] at this
      exact absurd this (by decide)⟩
  exact List.eq_of_perm_of_sorted hp hs1 hs2

theorem stableSortBy_fieldKey_sorted (l : List (String × String)) :
    List.Sorted (fun a b : String × String => cmpString a.1 b.1 ≠ Ordering.gt)
      (stableSortBy cmpFieldKey l) := by
  have hlaw := lawful_cmpString
  haveI : IsTotal (String × String)
      (fun a b : String × String => cmpString a.1 b.1 ≠ Ordering.gt) :=
    ⟨fun a b => hlaw.total a.1 b.1⟩
  haveI : IsTrans (String × String)
      (fun a b : String × String => cmpString a.1 b.1 ≠ Ordering.gt) :=
    ⟨fun _ _ _ hab hbc => hlaw.le_trans hab hbc⟩
  exact List.sorted_insertionSort _ l

theorem stableSortBy_fieldKey_congr {l1 l2 : List (String × String)}
    (hn : (l1.map Prod.fst).Nodup) (hp : l1.Perm l2) :
    stableSortBy cmpFieldKey l1 = stableSortBy cmpFieldKey l2 := by
  have hperm : (stableSortBy cmpFieldKey l1).Perm (stableSortBy cmpFieldKey l2) :=
    (stableSortBy_perm _ l1).trans (hp.trans (stableSortBy_perm _ l2).symm)
  have hn1 : ((stableSortBy cmpFieldKey l1).map Prod.fst).Nodup :=
    (((stableSortBy_perm cmpFieldKey l1).map Prod.fst).nodup_iff).2 hn
  exact sorted_pairs_eq_of_perm hperm hn1
    (stableSortBy_fieldKey_sorted l1) (stableSortBy_fieldKey_sorted l2)

theorem jsStringify_obj (fields : List (String × Js)) :
    jsStringify (Js.obj fields) =
      match jsStringifyFields fields with
      | none => none
      | some ps => some ("\x7b" ++ joinComma ((stableSortBy cmpFieldKey ps).map
          (fun p => jsonQuote p.1 ++ ":" ++ p.2)) ++ "\x7d") := rfl

theorem canonicalJson_obj_perm {f1 f2 : List (String × Js)} (hp : f1.Perm f2)
    (hn : (f1.map Prod.fst).Nodup) :
    canonicalJsonStringify (Js.obj f1) = canonicalJsonStringify (Js.obj f2) := by
  have hkp : (f1.filter (fun p => !jsElided p.2)).Perm
      (f2.filter (fun p => !jsElided p.2)) := hp.filter _
  rw [canonicalJsonStringify, canonicalJsonStringify, jsStringify_obj, jsStringify_obj]
  rcases h1 : jsStringifyFields f1 with _ | ps1
  · rcases h2 : jsStringifyFields f2 with _ | ps2
    · rfl
    · exfalso
      have hs2 : (optMapM (fun p => (jsStringify p.2).map (fun s => (p.1, s)))
          (f2.filter (fun p => !jsElided p.2))).isSome = true := by
        rw [← jsStringifyFields_eq, h2]
        rfl
      have hs1 : (optMapM (fun p => (jsStringify p.2).map (fun s => (p.1, s)))
          (f1.filter (fun p => !jsElided p.2))).isSome = true := by
        rw [optMapM_isSome]
        intro x hx
        exact (optMapM_isSome _ _).1 hs2 x (hkp.mem_iff.1 hx)
      rw [← jsStringifyFields_eq, h1] at hs1
      exact absurd hs1 (by simp)
  · rcases h2 : jsStringifyFields f2 with _ | ps2
    · exfalso
      have hs1 : (optMapM (fun p => (jsStringify p.2).map (fun s => (p.1, s)))
          (f1.filter (fun p => !jsElided p.2))).isSome = true := by
        rw [← jsStringifyFields_eq, h1]
        rfl
      have hs2 : (optMapM (fun p => (jsStringify p.2).map (fun s => (p.1, s)))
          (f2.filter (fun p => !jsElided p.2))).isSome = true := by
        rw [optMapM_isSome]
        intro x hx
        exact (optMapM_isSome _ _).1 hs1 x (hkp.mem_iff.2 hx)
      rw [← jsStringifyFields_eq, h2] at hs2
      exact absurd hs2 (by simp)
    · have hm1 : optMapM (fun p => (jsStringify p.2).map (fun s => (p.1, s)))
          (f1.filter (fun p => !jsElided p.2)) = some ps1 := by
        rw [← jsStringifyFields_eq]
        exact h1
      have hm2 : optMapM (fun p => (jsStringify p.2).map (fun s => (p.1, s)))
          (f2.filter (fun p => !jsElided p.2)) = some ps2 := by
        rw [← jsStringifyFields_eq]
        exact h2
      have hpp : ps1.Perm ps2 := optMapM_perm _ hkp hm1 hm2
      have hfst : ps1.map Prod.fst = (f1.filter (fun p => !jsElided p.2)).map Prod.fst :=
        optMapM_fst jsStringify _ _ hm1
      have hn1 : (ps1.map Prod.fst).Nodup := by
        rw [hfst]
        exact ((List.filter_sublist _).map Prod.fst).nodup hn
      simp only
      rw [stableSortBy_fieldKey_congr hn1 hpp]

theorem jsStringify_arr (es : List Js) :
    jsStringify (Js.arr es) =
      match jsStringifyElems es with
      | none => none
      | some parts => some ("[" ++ joinComma parts ++ "]") := rfl

theorem jsStringifyElems_none_of_mem {e : Js} :
    ∀ {es : List Js}, e ∈ es → jsElided e = false → jsStringify e = none →
      jsStringifyElems es = none := by
  intro es
  induction es with
  | nil => intro he; exact absurd he (List.not_mem_nil e)
  | cons a es ih =>
      intro he hne hnone
      by_cases ha : jsElided a = true
      · rw [jsStringifyElems_cons_elided ha]
        have he' : e ∈ es := by
          rcases List.mem_cons.1 he with rfl | h
          · rw [hne] at ha
            exact Bool.noConfusion ha
          · exact h
        rw [ih he' hne hnone]
        rfl
      · rw [Bool.not_eq_true] at ha
        rw [jsStringifyElems_cons_keep ha]
        rcases List.mem_cons.1 he with rfl | h
        · rcases hm : jsStringifyElems es with _ | ps <;> rw [hnone]
        · rcases hv : jsStringify a with _ | s <;> rw [ih h hne hnone]

theorem jsStringifyFields_none_of_mem {k : String} {v : Js} :
    ∀ {f : List (String × Js)}, (k, v) ∈ f → jsElided v = false →
      jsStringify v = none → jsStringifyFields f = none := by
  intro f
  induction f with
  | nil => intro hf; exact absurd hf (List.not_mem_nil _)
  | cons p f ih =>
      obtain ⟨k', v'⟩ := p
      intro hf hne hnone
      by_cases hv' : jsElided v' = true
      · rw [jsStringifyFields_cons_elided hv']
        rcases List.mem_cons.1 hf with heq | h
        · obtain ⟨rfl, rfl⟩ := Prod.mk.injEq .. ▸ And.intro (congrArg Prod.fst heq) (congrArg Prod.snd heq)
          rw [hne] at hv'
          exact Bool.noConfusion hv'
        · exact ih h hne hnone
      · rw [Bool.not_eq_true] at hv'
        rw [jsStringifyFields_cons_keep hv']
        rcases List.mem_cons.1 hf with heq | h
        · have hv2 : v' = v := congrArg Prod.snd heq.symm
          subst hv2
          rcases hm : jsStringifyFields f with _ | ps <;> rw [hnone]
        · rcases hv : jsStringify v' with _ | s <;> rw [ih h hne hnone]

/-- **C8 (corrected).** What `canonicalJsonStringify` actually does: object
keys are emitted in `cmpString` order, which is UTF-16 code-unit order —
not code-point order (see the counterexample); object output is invariant
under re-ordering of the (distinct-keyed) fields; `undefined`-, function-
and symbol-valued properties are elided from objects and `undefined`,
function and symbol array elements are rendered as `null` rather than
raising; non-finite numbers, bigints, top-level `undefined`/functions/
symbols and non-plain objects raise, and a raising value inside an array
or object makes the whole serialization raise.  (Cyclic values do not
exist in the tree-shaped value model, so the source's cycle check cannot
fire here.) -/
theorem canonicalJson_behaviour :
    (∀ (fields : List (String × Js)) (ps : List (String × String)),
      jsStringifyFields fields = some ps →
      ∃ qs : List (String × String), qs.Perm ps ∧
        (qs.map Prod.fst).Pairwise (fun a b => cmpString a b ≠ Ordering.gt) ∧
        canonicalJsonStringify (Js.obj fields) =
          some ("\x7b" ++ joinComma (qs.map (fun p => jsonQuote p.1 ++ ":" ++ p.2)) ++ "\x7d")) ∧
    (∀ f1 f2 : List (String × Js), f1.Perm f2 → (f1.map Prod.fst).Nodup →
      canonicalJsonStringify (Js.obj f1) = canonicalJsonStringify (Js.obj f2)) ∧
    (∀ (k : String) (f : List (String × Js)),
      canonicalJsonStringify (Js.obj ((k, Js.undef) :: f)) =
        canonicalJsonStringify (Js.obj f) ∧
      canonicalJsonStringify (Js.obj ((k, Js.fn) :: f)) =
        canonicalJsonStringify (Js.obj f) ∧
      canonicalJsonStringify (Js.obj ((k, Js.sym) :: f)) =
        canonicalJsonStringify (Js.obj f)) ∧
    (∀ es : List Js,
      canonicalJsonStringify (Js.arr (Js.undef :: es)) =
        canonicalJsonStringify (Js.arr (Js.null :: es)) ∧
      canonicalJsonStringify (Js.arr (Js.fn :: es)) =
        canonicalJsonStringify (Js.arr (Js.null :: es)) ∧
      canonicalJsonStringify (Js.arr (Js.sym :: es)) =
        canonicalJsonStringify (Js.arr (Js.null :: es))) ∧
    (canonicalJsonStringify Js.nonFinite = none ∧
     canonicalJsonStringify Js.big = none ∧
     canonicalJsonStringify Js.exotic = none ∧
     canonicalJsonStringify Js.undef = none ∧
     canonicalJsonStringify Js.fn = none ∧
     canonicalJsonStringify Js.sym = none) ∧
    (∀ (e : Js) (es : List Js), e ∈ es → jsElided e = false → jsStringify e = none →
      canonicalJsonStringify (Js.arr es) = none) ∧
    (∀ (k : String) (v : Js) (f : List (String × Js)), (k, v) ∈ f →
      jsElided v = false → jsStringify v = none →
      canonicalJsonStringify (Js.obj f) = none) := by
  refine ⟨?_, ?_, ?_, ?_, ⟨rfl, rfl, rfl, rfl, rfl, rfl⟩, ?_, ?_⟩
  · intro fields ps h
    refine ⟨stableSortBy cmpFieldKey ps, stableSortBy_perm _ _,
      (List.pairwise_map).2 (stableSortBy_fieldKey_sorted ps), ?_⟩
    rw [canonicalJsonStringify, jsStringify_obj, h]
  · exact fun f1 f2 hp hn => canonicalJson_obj_perm hp hn
  · intro k f
    exact ⟨rfl, rfl, rfl⟩
  · intro es
    refine ⟨?_, ?_, ?_⟩
    · rw [canonicalJsonStringify, canonicalJsonStringify, jsStringify_arr,
        jsStringify_arr, @jsStringifyElems_cons_elided Js.undef es rfl,
        @jsStringifyElems_cons_keep Js.null es rfl]
      rcases hm : jsStringifyElems es with _ | ps <;> rfl
    · rw [canonicalJsonStringify, canonicalJsonStringify, jsStringify_arr,
        jsStringify_arr, @jsStringifyElems_cons_elided Js.fn es rfl,
        @jsStringifyElems_cons_keep Js.null es rfl]
      rcases hm : jsStringifyElems es with _ | ps <;> rfl
    · rw [canonicalJsonStringify, canonicalJsonStringify, jsStringify_arr,
        jsStringify_arr, @jsStringifyElems_cons_elided Js.sym es rfl,
        @jsStringifyElems_cons_keep Js.null es rfl]
      rcases hm : jsStringifyElems es with _ | ps <;> rfl
  · intro e es he hne hnone
    rw [canonicalJsonStringify, jsStringify_arr, jsStringifyElems_none_of_mem he hne hnone]
  · intro k v f hf hne hnone
    rw [canonicalJsonStringify, jsStringify_obj, jsStringifyFields_none_of_mem hf hne hnone]

/-- Witness for C8 at concrete inputs: permutation invariance and the
sorted-output shape on the two-field object `{b: 1, a: 2}`. -/
theorem canonicalJson_behaviour_witness :
    canonicalJsonStringify (Js.obj [("b", Js.num 1), ("a", Js.num 2)]) =
      canonicalJsonStringify (Js.obj [("a", Js.num 2), ("b", Js.num 1)]) ∧
    (∃ qs : List (String × String), qs.Perm [("b", "1"), ("a", "2")] ∧
      (qs.map Prod.fst).Pairwise (fun a b => cmpString a b ≠ Ordering.gt) ∧
      canonicalJsonStringify (Js.obj [("b", Js.num 1), ("a", Js.num 2)]) =
        some ("\x7b" ++ joinComma (qs.map (fun p => jsonQuote p.1 ++ ":" ++ p.2)) ++ "\x7d")) :=
  ⟨canonicalJson_behaviour.2.1 _ _ (List.Perm.swap ("a", Js.num 2) ("b", Js.num 1) [])
      (by decide),
   canonicalJson_behaviour.1 [("b", Js.num 1), ("a", Js.num 2)] [("b", "1"), ("a", "2")]
      rfl⟩

/-- Counterexample to C8 as stated: the key U+FFFF precedes the key U+10000
in code-point order, yet the serializer emits U+10000 first (UTF-16
code-unit order); and a function array element or symbol property value is
silently rendered as `null`/elided rather than raising an error. -/
theorem canonicalJson_not_codepoint_order :
    canonicalJsonStringify (Js.obj [(String.mk [Char.ofNat 65535], Js.num 1),
        (String.mk [Char.ofNat 65536], Js.num 2)]) =
      some (String.mk ['{', '"', Char.ofNat 65536, '"', ':', '2', ',',
        '"', Char.ofNat 65535, '"', ':', '1', '}']) ∧
    (Char.ofNat 65535).toNat < (Char.ofNat 65536).toNat ∧
    canonicalJsonStringify (Js.arr [Js.fn]) = some "[null]" ∧
    canonicalJsonStringify (Js.obj [("a", Js.sym)]) = some "{}" :=
  ⟨by decide, by decide, by decide, by decide⟩

/-! ## Flow-fact normalization lemmas -/

theorem allKeys_bool_of_prop {fields : List (String × Js)} {allowed : List String}
    (h : ∀ k ∈ fields.map Prod.fst, k ∈ allowed) :
    fields.all (fun p => decide (p.1 ∈ allowed)) = true := by
  rw [List.all_eq_true]
  intro p hp
  exact decide_eq_true (h p.1 (List.mem_map.2 ⟨p, hp, rfl⟩))

theorem allKeys_prop_of_bool {fields : List (String × Js)} {allowed : List String}
    (h : fields.all (fun p => decide (p.1 ∈ allowed)) = true) :
    ∀ k ∈ fields.map Prod.fst, k ∈ allowed := by
  intro k hk
  rw [List.mem_map] at hk
  obtain ⟨p, hp, rfl⟩ := hk
  exact of_decide_eq_true (List.all_eq_true.1 h p hp)

theorem normalizeFlowNode_isSome_iff (v : Js) :
    (normalizeFlowNode v).isSome = true ↔ FlowNodeWellShaped v := by
  constructor
  · intro h
    cases v with
    | obj fields =>
        rw [normalizeFlowNode] at h
        split at h
        · rename_i kind hkind
          split at h
          · rename_i hvar
            subst hvar
            split at h
            · rename_i hkeys
              split at h
              · rename_i fs hfs
                split at h
                · rename_i funcId hpf
                  split at h
                  · rename_i vs hvs
                    split at h
                    · rename_i vid hpv
                      exact FlowNodeWellShaped.varNode fields fs vs
                        (allKeys_prop_of_bool hkeys) hkind hfs (by rw [hpf]; rfl)
                        hvs (by rw [hpv]; rfl)
                    · exact Bool.noConfusion h
                  · exact Bool.noConfusion h
                · exact Bool.noConfusion h
              · exact Bool.noConfusion h
            · exact Bool.noConfusion h
          · split at h
            · rename_i hca
              subst hca
              split at h
              · rename_i hkeys
                split at h
                · rename_i cs hcs
                  split at h
                  · rename_i cid hpc
                    split at h
                    · rename_i n hn
                      split at h
                      · rename_i hrange
                        exact FlowNodeWellShaped.callArgNode fields cs n
                          (allKeys_prop_of_bool hkeys) hkind hcs (by rw [hpc]; rfl)
                          hn hrange.1 hrange.2
                      · exact Bool.noConfusion h
                    · exact Bool.noConfusion h
                  · exact Bool.noConfusion h
                · exact Bool.noConfusion h
              · exact Bool.noConfusion h
            · split at h
              · rename_i hhr
                subst hhr
                split at h
                · rename_i hkeys
                  split at h
                  · rename_i hs hhs
                    split at h
                    · rename_i hid hph
                      exact FlowNodeWellShaped.heapReadNode fields hs
                        (allKeys_prop_of_bool hkeys) hkind hhs (by rw [hph]; rfl)
                    · exact Bool.noConfusion h
                  · exact Bool.noConfusion h
                · exact Bool.noConfusion h
              · split at h
                · rename_i hhw
                  subst hhw
                  split at h
                  · rename_i hkeys
                    split at h
                    · rename_i hs hhs
                      split at h
                      · rename_i hid hph
                        exact FlowNodeWellShaped.heapWriteNode fields hs
                          (allKeys_prop_of_bool hkeys) hkind hhs (by rw [hph]; rfl)
                      · exact Bool.noConfusion h
                    · exact Bool.noConfusion h
                  · exact Bool.noConfusion h
                · split at h
                  · rename_i hret
                    subst hret
                    split at h
                    · rename_i hkeys
                      split at h
                      · rename_i fs hfs
                        split at h
                        · rename_i fid hpf
                          exact FlowNodeWellShaped.returnNode fields fs
                            (allKeys_prop_of_bool hkeys) hkind hfs (by rw [hpf]; rfl)
                        · exact Bool.noConfusion h
                      · exact Bool.noConfusion h
                    · exact Bool.noConfusion h
                  · exact Bool.noConfusion h
        · exact Bool.noConfusion h
    | null => exact Bool.noConfusion h
    | undef => exact Bool.noConfusion h
    | bool b => exact Bool.noConfusion h
    | num n => exact Bool.noConfusion h
    | nonFinite => exact Bool.noConfusion h
    | str s => exact Bool.noConfusion h
    | big => exact Bool.noConfusion h
    | fn => exact Bool.noConfusion h
    | sym => exact Bool.noConfusion h
    | exotic => exact Bool.noConfusion h
    | arr es => exact Bool.noConfusion h
  · intro hws
    cases hws with
    | varNode fields fs vs hkeys hkind hfs hpf hvs hpv =>
        obtain ⟨fid, hfid⟩ := Option.isSome_iff_exists.1 hpf
        obtain ⟨vid, hvid⟩ := Option.isSome_iff_exists.1 hpv
        rw [normalizeFlowNode, hkind]
        simp [hfs, hfid, hvs, hvid, allKeys_bool_of_prop hkeys]
        intro a b hab
        have hmem := hkeys a (List.mem_map.2 ⟨(a, b), hab, rfl⟩)
        simpa using hmem
    | callArgNode fields cs n hkeys hkind hcs hpc hn hge hle =>
        obtain ⟨cid, hcid⟩ := Option.isSome_iff_exists.1 hpc
        rw [normalizeFlowNode, hkind]
        simp [hcs, hcid, hn, hge, hle, allKeys_bool_of_prop hkeys]
        intro a b hab
        have hmem := hkeys a (List.mem_map.2 ⟨(a, b), hab, rfl⟩)
        simpa using hmem
    | heapReadNode fields hs hkeys hkind hhs hph =>
        obtain ⟨hid, hhid⟩ := Option.isSome_iff_exists.1 hph
        rw [normalizeFlowNode, hkind]
        simp [hhs, hhid, allKeys_bool_of_prop hkeys]
        intro a b hab
        have hmem := hkeys a (List.mem_map.2 ⟨(a, b), hab, rfl⟩)
        simpa using hmem
    | heapWriteNode fields hs hkeys hkind hhs hph =>
        obtain ⟨hid, hhid⟩ := Option.isSome_iff_exists.1 hph
        rw [normalizeFlowNode, hkind]
        simp [hhs, hhid, allKeys_bool_of_prop hkeys]
        intro a b hab
        have hmem := hkeys a (List.mem_map.2 ⟨(a, b), hab, rfl⟩)
        simpa using hmem
    | returnNode fields fs hkeys hkind hfs hpf =>
        obtain ⟨fid, hfid⟩ := Option.isSome_iff_exists.1 hpf
        rw [normalizeFlowNode, hkind]
        simp [hfs, hfid, allKeys_bool_of_prop hkeys]
        intro a b hab
        have hmem := hkeys a (List.mem_map.2 ⟨(a, b), hab, rfl⟩)
        simpa using hmem

theorem normalizeFlowFact_isSome_iff (v : Js) :
    (normalizeFlowFact v).isSome = true ↔ FlowFactWellShaped v := by
  constructor
  · intro h
    cases v with
    | obj fields =>
        rw [normalizeFlowFact] at h
        split at h
        · rename_i hkeys
          split at h
          · rename_i n hn
            split at h
            · rename_i h1
              subst h1
              split at h
              · rename_i f t hf ht
                exact FlowFactWellShaped.mk fields (allKeys_prop_of_bool hkeys) hn
                  ((normalizeFlowNode_isSome_iff _).1 (by rw [hf]; rfl))
                  ((normalizeFlowNode_isSome_iff _).1 (by rw [ht]; rfl))
              · exact Bool.noConfusion h
            · exact Bool.noConfusion h
          · exact Bool.noConfusion h
        · exact Bool.noConfusion h
    | null => exact Bool.noConfusion h
    | undef => exact Bool.noConfusion h
    | bool b => exact Bool.noConfusion h
    | num n => exact Bool.noConfusion h
    | nonFinite => exact Bool.noConfusion h
    | str s => exact Bool.noConfusion h
    | big => exact Bool.noConfusion h
    | fn => exact Bool.noConfusion h
    | sym => exact Bool.noConfusion h
    | exotic => exact Bool.noConfusion h
    | arr es => exact Bool.noConfusion h
  · intro hws
    cases hws with
    | mk fields hkeys h1 hf ht =>
        obtain ⟨f, hf'⟩ :=
          Option.isSome_iff_exists.1 ((normalizeFlowNode_isSome_iff _).2 hf)
        obtain ⟨t, ht'⟩ :=
          Option.isSome_iff_exists.1 ((normalizeFlowNode_isSome_iff _).2 ht)
        rw [normalizeFlowFact, if_pos (allKeys_bool_of_prop hkeys), h1]
        simp [hf', ht']

/-- **C10.** `normalizeFlowFact` accepts exactly the flow facts whose shape
and identifier strings are individually well-formed — correct schema
version, known node kinds, no extra keys, parseable identifier strings,
non-negative safe-integer index — and performs no cross-reference
validation: concretely, a `call_arg` with index 999 (no callsite has 999
arguments) and a `heap_write` whose HeapId lives in an unrelated file both
pass, because the normalizer takes no IR or callsite context at all. -/
theorem flowFact_no_cross_validation :
    (∀ v : Js, (normalizeFlowFact v).isSome = true ↔ FlowFactWellShaped v) ∧
    (normalizeFlowFact (Js.obj [("schemaVersion", Js.num 1),
      ("from", Js.obj [("kind", Js.str "call_arg"),
        ("callsiteId", Js.str "s:a:0:1:7"), ("index", Js.num 999)]),
      ("to", Js.obj [("kind", Js.str "heap_write"),
        ("id", Js.str "h:zzz:5:6:7:x")])])).isSome = true :=
  ⟨normalizeFlowFact_isSome_iff, by decide⟩

/-- Witness for C10: the characterisation applied to a concrete
well-shaped fact built through the spec-side predicate. -/
theorem flowFact_no_cross_validation_witness :
    (normalizeFlowFact (Js.obj [("schemaVersion", Js.num 1),
      ("from", Js.obj [("kind", Js.str "var"), ("funcId", Js.str "f:a:0:1"),
        ("id", Js.str "p0")]),
      ("to", Js.obj [("kind", Js.str "return"),
        ("funcId", Js.str "f:a:0:1")])])).isSome = true :=
  (flowFact_no_cross_validation.1 _).2
    (FlowFactWellShaped.mk _ (by decide) rfl
      (FlowNodeWellShaped.varNode _ "f:a:0:1" "p0" (by decide) rfl rfl (by decide)
        rfl (by decide))
      (FlowNodeWellShaped.returnNode _ "f:a:0:1" (by decide) rfl rfl (by decide)))

/-! ## Function-summary lemmas -/

theorem finishSummary_baseline {funcId : String} {es baselineEdges : List FuncSummaryEdgeS}
    {maxEdges maxFanout : Nat} {s : NormalizedFuncSummaryS}
    (h : finishSummary funcId es baselineEdges maxEdges maxFanout = some s) :
    ∀ be ∈ baselineEdges, edgeKey be ∈ s.edges.map edgeKey := by
  rw [finishSummary] at h
  split at h
  · exact absurd h (by simp)
  · split at h
    · split at h
      · rename_i hempty
        intro be hbe
        have hs := Option.some.inj h
        rw [← hs]
        by_contra hc
        have hmem : be ∈ baselineEdges.filter (fun be =>
            !(decide (edgeKey be ∈ (summaryEdgesOf es).map edgeKey))) :=
          List.mem_filter.2 ⟨hbe, by simp [hc]⟩
        rw [List.isEmpty_iff] at hempty
        rw [hempty] at hmem
        exact List.not_mem_nil _ hmem
      · exact absurd h (by simp)
    · exact absurd h (by simp)

/-- **C1.** Baseline coverage: whenever `normalizeFuncSummary` accepts a
candidate summary, every baseline (cheap-pass) edge is present in the
normalized edge set — by edge key, the identity the normalizer itself
uses for de-duplication — so an accepted summary's edge set is a superset
of the cheap-pass edges; a candidate missing any baseline edge is
rejected. -/
theorem funcSummary_baseline_coverage :
    ∀ (v : Js) (ir : FuncSummaryIrS) (baselineEdges : List FuncSummaryEdgeS)
      (bME bMF : Option Int) (s : NormalizedFuncSummaryS),
      normalizeFuncSummary v ir baselineEdges bME bMF = some s →
      ∀ be ∈ baselineEdges, edgeKey be ∈ s.edges.map edgeKey := by
  intro v ir baselineEdges bME bMF s h
  rw [normalizeFuncSummary] at h
  split at h
  · split at h
    · split at h
      · split at h
        · split at h
          · split at h
            · split at h
              · split at h
                · split at h
                  · split at h
                    · exact finishSummary_baseline h
                    · exact absurd h (by simp)
                  · exact absurd h (by simp)
                · exact absurd h (by simp)
              · exact absurd h (by simp)
            · exact absurd h (by simp)
          · exact absurd h (by simp)
        · exact absurd h (by simp)
      · exact absurd h (by simp)
    · exact absurd h (by simp)
  · exact absurd h (by simp)

/-- Witness for C1: the coverage theorem applied to a one-edge summary
over a one-parameter function whose baseline has that same edge. -/
theorem funcSummary_baseline_coverage_witness :
    edgeKey ⟨FuncSummaryNodeS.var "p0", FuncSummaryNodeS.ret⟩ ∈
      (NormalizedFuncSummaryS.mk 1 "f:a:0:9"
        [⟨FuncSummaryNodeS.var "p0", FuncSummaryNodeS.ret⟩]).edges.map edgeKey :=
  funcSummary_baseline_coverage
    (Js.obj [("schemaVersion", Js.num 1), ("funcId", Js.str "f:a:0:9"),
      ("edges", Js.arr [Js.obj [
        ("from", Js.obj [("kind", Js.str "var"), ("id", Js.str "p0")]),
        ("to", Js.obj [("kind", Js.str "return")])]])])
    ⟨"f:a:0:9", ["p0"], [], [SummaryIrStmtS.call "s:a:0:9:0" ["p0"]]⟩
    [⟨FuncSummaryNodeS.var "p0", FuncSummaryNodeS.ret⟩] none none
    (NormalizedFuncSummaryS.mk 1 "f:a:0:9"
      [⟨FuncSummaryNodeS.var "p0", FuncSummaryNodeS.ret⟩])
    (by decide)
    ⟨FuncSummaryNodeS.var "p0", FuncSummaryNodeS.ret⟩ (by decide)

/-! ## Interproc lifting lemmas -/

theorem alistAppend_get_self {α β : Type} [DecidableEq α]
    (m : List (α × List β)) (k : α) (v : β) :
    v ∈ ((alistGet (alistAppend m k v) k).getD []) := by
  rw [alistAppend]
  rcases h : alistGet m k with _ | arr <;>
    rw [alistGet_alistSet_self] <;> simp

theorem alistAppend_get_mono {α β : Type} [DecidableEq α]
    (m : List (α × List β)) (k k' : α) (v : β) (x : β)
    (h : x ∈ ((alistGet m k').getD [])) :
    x ∈ ((alistGet (alistAppend m k v) k').getD []) := by
  by_cases hk : k' = k
  · subst hk
    rw [alistAppend]
    rcases hg : alistGet m k' with _ | arr <;> rw [hg] at h
    · exact absurd h (by simp)
    · rw [alistGet_alistSet_self]
      simp only [Option.getD_some] at h ⊢
      exact List.mem_append.2 (Or.inl h)
  · rw [alistAppend]
    rcases hg : alistGet m k with _ | arr <;>
      rw [alistGet_alistSet_ne _ _ _ _ hk]
    · exact h
    · exact h

theorem foldl_alistGetD_mono {α β γ : Type} [DecidableEq α]
    (g : List (α × List β) → γ → List (α × List β))
    (hg : ∀ m b k x, x ∈ ((alistGet m k).getD []) →
      x ∈ ((alistGet (g m b) k).getD [])) :
    ∀ (l : List γ) (m : List (α × List β)) (k : α) (x : β),
      x ∈ ((alistGet m k).getD []) → x ∈ ((alistGet (l.foldl g m) k).getD []) := by
  intro l
  induction l with
  | nil => intro m k x h; exact h
  | cons b l ih =>
      intro m k x h
      exact ih _ _ _ (hg m b k x h)

theorem setInsert_self {α : Type} [DecidableEq α] (l : List α) (x : α) :
    x ∈ setInsert l x := by
  rw [setInsert]
  split
  · assumption
  · simp

theorem setInsert_mono {α : Type} [DecidableEq α] (l : List α) (x y : α)
    (h : x ∈ l) : x ∈ setInsert l y := by
  rw [setInsert]
  split
  · exact h
  · exact List.mem_append.2 (Or.inl h)

theorem foldl_setInsert_mono {α γ : Type} [DecidableEq α]
    (g : List α → γ → List α)
    (hg : ∀ l b x, x ∈ l → x ∈ g l b) :
    ∀ (bs : List γ) (l : List α) (x : α), x ∈ l → x ∈ bs.foldl g l := by
  intro bs
  induction bs with
  | nil => intro l x h; exact h
  | cons b bs ih => intro l x h; exact ih _ _ (hg l b x h)

theorem calleeEffects_mem {σ ε : Type} [DecidableEq ε] (proj : σ → List ε)
    (keep : ε → Bool) {callees : List FuncIdP} {stateByFuncId : List (FuncIdP × σ)}
    {G : FuncIdP} {st : σ} {e : ε} (hG : G ∈ callees)
    (hst : alistGet stateByFuncId G = some st) (he : e ∈ proj st)
    (hkeep : keep e = true) :
    e ∈ calleeEffects proj keep callees stateByFuncId := by
  rw [calleeEffects]
  obtain ⟨l1, l2, rfl⟩ := List.append_of_mem hG
  rw [List.foldl_append, List.foldl_cons]
  have hinner : ∀ (es0 : List ε), e ∈ (proj st).foldl
      (fun es e => if keep e then setInsert es e else es) es0 := by
    intro es0
    obtain ⟨p1, p2, hsplit⟩ := List.append_of_mem he
    rw [hsplit, List.foldl_append, List.foldl_cons, if_pos hkeep]
    exact foldl_setInsert_mono _
      (fun l b x hx => by
        split
        · exact setInsert_mono l x b hx
        · exact hx) p2 _ e
      (setInsert_self _ e)
  have hmid : e ∈ (fun es calleeId =>
      match alistGet stateByFuncId calleeId with
      | none => es
      | some st => (proj st).foldl
          (fun es e => if keep e then setInsert es e else es) es)
      (l1.foldl (fun es calleeId =>
        match alistGet stateByFuncId calleeId with
        | none => es
        | some st => (proj st).foldl
            (fun es e => if keep e then setInsert es e else es) es) []) G := by
    dsimp only
    rw [hst]
    exact hinner _
  exact foldl_setInsert_mono _
    (fun l b x hx => by
      rcases alistGet stateByFuncId b with _ | st2
      · exact hx
      · exact foldl_setInsert_mono _
          (fun l2 b2 x2 hx2 => by
            split
            · exact setInsert_mono l2 x2 b2 hx2
            · exact hx2) _ _ _ hx) l2 _ e hmid

theorem extraV2ForCallsite_mono (func : FuncInputV2P)
    (cbc : List (CallsiteIdP × List FuncIdP)) (sbf : List (FuncIdP × FuncStateV2P))
    (m : List (LNodeP × List LNodeP)) (p : CallsiteIdP × CallsiteInfoV2P)
    (k : LNodeP) (x : LNodeP) (h : x ∈ ((alistGet m k).getD [])) :
    x ∈ ((alistGet (extraV2ForCallsite func cbc sbf m p) k).getD []) := by
  simp only [extraV2ForCallsite]
  have hg1 : ∀ (m' : List (LNodeP × List LNodeP)) (b : Nat) (k' : LNodeP)
      (x' : LNodeP) (d : VarIdP), x' ∈ ((alistGet m' k').getD []) →
      x' ∈ ((alistGet (alistAppend m' (LNodeP.callArg p.1 b) (LNodeP.var d)) k').getD []) :=
    fun m' b k' x' d h' => alistAppend_get_mono m' _ k' _ x' h'
  have hg2 : ∀ (m' : List (LNodeP × List LNodeP)) (b : ParamHeapWriteEff) (k' : LNodeP)
      (x' : LNodeP), x' ∈ ((alistGet m' k').getD []) →
      x' ∈ ((alistGet
        (match mapHeapBucketToCaller func p.2 b.objectParamIndex b.propertyName with
          | none => m'
          | some heapId =>
              alistAppend m' (LNodeP.callArg p.1 b.valueParamIndex)
                (LNodeP.heapWrite heapId)) k').getD []) := by
    intro m' b k' x' h'
    rcases mapHeapBucketToCaller func p.2 b.objectParamIndex b.propertyName with _ | hid
    · exact h'
    · exact alistAppend_get_mono m' _ k' _ x' h'
  have hg4 : ∀ (m' : List (LNodeP × List LNodeP)) (b : HeapReadHeapWriteEff) (k' : LNodeP)
      (x' : LNodeP), x' ∈ ((alistGet m' k').getD []) →
      x' ∈ ((alistGet
        (match mapHeapBucketToCaller func p.2 b.readObjectParamIndex b.readPropertyName,
            mapHeapBucketToCaller func p.2 b.writeObjectParamIndex b.writePropertyName with
          | some rh, some wh =>
              alistAppend m' (LNodeP.heapRead rh) (LNodeP.heapWrite wh)
          | _, _ => m') k').getD []) := by
    intro m' b k' x' h'
    rcases mapHeapBucketToCaller func p.2 b.readObjectParamIndex b.readPropertyName
        with _ | rh <;>
      rcases mapHeapBucketToCaller func p.2 b.writeObjectParamIndex b.writePropertyName
        with _ | wh
    · exact h'
    · exact h'
    · exact h'
    · exact alistAppend_get_mono m' _ k' _ x' h'
  rcases hdst : p.2.dst with _ | dst
  · exact foldl_alistGetD_mono _ (fun m' b k' x' h' => hg4 m' b k' x' h') _ _ _ _
      (foldl_alistGetD_mono _ (fun m' b k' x' h' => hg2 m' b k' x' h') _ _ _ _ h)
  · refine foldl_alistGetD_mono _ (fun m' b k' x' h' => hg4 m' b k' x' h') _ _ _ _ ?_
    refine foldl_alistGetD_mono _ (fun m' b k' x' h' => by
        rcases mapHeapBucketToCaller func p.2 b.objectParamIndex b.propertyName
            with _ | hid
        · exact h'
        · exact alistAppend_get_mono m' _ k' _ x' h') _ _ _ _ ?_
    refine foldl_alistGetD_mono _ (fun m' b k' x' h' => hg2 m' b k' x' h') _ _ _ _ ?_
    exact foldl_alistGetD_mono _ (fun m' b k' x' h' => hg1 m' b k' x' dst h') _ _ _ _ h

theorem extraV2ForCallsite_adds_phw (func : FuncInputV2P)
    (cbc : List (CallsiteIdP × List FuncIdP)) (sbf : List (FuncIdP × FuncStateV2P))
    (m : List (LNodeP × List LNodeP)) {c : CallsiteIdP} {info : CallsiteInfoV2P}
    {G : FuncIdP} {s : FuncStateV2P} {eff : ParamHeapWriteEff} {a : VarIdP}
    (hG : G ∈ ((alistGet cbc c).getD []))
    (hs : alistGet sbf G = some s)
    (heff : eff ∈ s.paramHeapWriteEffects)
    (hv : eff.valueParamIndex < info.argCount)
    (ho : eff.objectParamIndex < info.argCount)
    (ha : info.argVars.getD eff.objectParamIndex none = some a) :
    LNodeP.heapWrite (createHeapIdP
        (heapAnchorForVar func.heapAnchorByVar func.funcId a) eff.propertyName) ∈
      ((alistGet (extraV2ForCallsite func cbc sbf m (c, info))
        (LNodeP.callArg c eff.valueParamIndex)).getD []) := by
  have hmap : mapHeapBucketToCaller func info eff.objectParamIndex eff.propertyName =
      some (createHeapIdP (heapAnchorForVar func.heapAnchorByVar func.funcId a)
        eff.propertyName) := by
    rw [mapHeapBucketToCaller,
      if_neg (by omega : ¬ eff.objectParamIndex ≥ info.argCount), ha]
  have heffmem : eff ∈ stableSortBy cmpParamHeapWriteEff (calleeEffects
      (fun st => st.paramHeapWriteEffects)
      (fun e => decide (e.valueParamIndex < info.argCount) &&
        decide (e.objectParamIndex < info.argCount))
      ((alistGet cbc c).getD []) sbf) := by
    rw [stableSortBy_mem]
    exact calleeEffects_mem _ _ hG hs heff (by simp [hv, ho])
  obtain ⟨l1, l2, hsplit⟩ := List.append_of_mem heffmem
  simp only [extraV2ForCallsite]
  rw [hsplit, List.foldl_append, List.foldl_cons]
  rw [hmap]
  have hg2 : ∀ (m' : List (LNodeP × List LNodeP)) (b : ParamHeapWriteEff) (k' : LNodeP)
      (x' : LNodeP), x' ∈ ((alistGet m' k').getD []) →
      x' ∈ ((alistGet
        (match mapHeapBucketToCaller func info b.objectParamIndex b.propertyName with
          | none => m'
          | some heapId =>
              alistAppend m' (LNodeP.callArg c b.valueParamIndex)
                (LNodeP.heapWrite heapId)) k').getD []) := by
    intro m' b k' x' h'
    rcases mapHeapBucketToCaller func info b.objectParamIndex b.propertyName with _ | hid
    · exact h'
    · exact alistAppend_get_mono m' _ k' _ x' h'
  have hg4 : ∀ (m' : List (LNodeP × List LNodeP)) (b : HeapReadHeapWriteEff) (k' : LNodeP)
      (x' : LNodeP), x' ∈ ((alistGet m' k').getD []) →
      x' ∈ ((alistGet
        (match mapHeapBucketToCaller func info b.readObjectParamIndex b.readPropertyName,
            mapHeapBucketToCaller func info b.writeObjectParamIndex b.writePropertyName with
          | some rh, some wh =>
              alistAppend m' (LNodeP.heapRead rh) (LNodeP.heapWrite wh)
          | _, _ => m') k').getD []) := by
    intro m' b k' x' h'
    rcases mapHeapBucketToCaller func info b.readObjectParamIndex b.readPropertyName
        with _ | rh <;>
      rcases mapHeapBucketToCaller func info b.writeObjectParamIndex b.writePropertyName
        with _ | wh
    · exact h'
    · exact h'
    · exact h'
    · exact alistAppend_get_mono m' _ k' _ x' h'
  rcases hdst : info.dst with _ | dst
  · refine foldl_alistGetD_mono _ (fun m' b k' x' h' => hg4 m' b k' x' h') _ _ _ _ ?_
    refine foldl_alistGetD_mono _ (fun m' b k' x' h' => hg2 m' b k' x' h') _ _ _ _ ?_
    exact alistAppend_get_self _ _ _
  · refine foldl_alistGetD_mono _ (fun m' b k' x' h' => hg4 m' b k' x' h') _ _ _ _ ?_
    refine foldl_alistGetD_mono _ (fun m' b k' x' h' => by
        rcases mapHeapBucketToCaller func info b.objectParamIndex b.propertyName
            with _ | hid
        · exact h'
        · exact alistAppend_get_mono m' _ k' _ x' h') _ _ _ _ ?_
    refine foldl_alistGetD_mono _ (fun m' b k' x' h' => hg2 m' b k' x' h') _ _ _ _ ?_
    exact alistAppend_get_self _ _ _

/-- **C4.** V2 heap-write lifting across a callsite: whenever callsite `c`
of caller `F` is linked to a callee `G` whose state has the liftable effect
`p_j → heap_write(bucket(param k, prop))` with `j`, `k` both below the
argument count at `c`, and the `k`-th argument at `c` is a caller variable
`a`, then the edge `call_arg(c, j) → heap_write(HeapId(anchor_F(a), prop))`
is in `F`'s extra local adjacency; and concretely, for caller
`a(x,y){ setX(x,y); }` and callee `setX(obj,val){ obj.x = val; }` (cheap
summaries, one linked callsite), the computed state of `a` contains the
fact `var(a.p1) → heap_write(HeapId(synth(a,0), "x"))`. -/
theorem interproc_v2_heap_write_lifting :
    (∀ (func : FuncInputV2P) (cbc : List (CallsiteIdP × List FuncIdP))
      (sbf : List (FuncIdP × FuncStateV2P)) (c : CallsiteIdP) (info : CallsiteInfoV2P)
      (G : FuncIdP) (s : FuncStateV2P) (eff : ParamHeapWriteEff) (a : VarIdP),
      (c, info) ∈ func.callsites →
      G ∈ ((alistGet cbc c).getD []) →
      alistGet sbf G = some s →
      eff ∈ s.paramHeapWriteEffects →
      eff.valueParamIndex < info.argCount →
      eff.objectParamIndex < info.argCount →
      info.argVars.getD eff.objectParamIndex none = some a →
      LNodeP.heapWrite (createHeapIdP
          (heapAnchorForVar func.heapAnchorByVar func.funcId a) eff.propertyName) ∈
        ((alistGet (buildExtraAdjV2 func cbc sbf)
          (LNodeP.callArg c eff.valueParamIndex)).getD [])) ∧
    (∀ aIr bIr : NormalizedFuncIRP,
      aIr = ⟨⟨"t", 0, 10⟩, [⟨.p, 0⟩, ⟨.p, 1⟩], [],
        [.call ⟨"t", 0, 10, 0⟩ none .unknown [.var ⟨.p, 0⟩, .var ⟨.p, 1⟩]]⟩ →
      bIr = ⟨⟨"t", 20, 30⟩, [⟨.p, 0⟩, ⟨.p, 1⟩], [],
        [.member_write ⟨"t", 20, 30, 0⟩ ⟨.p, 0⟩ (.named "x") (.var ⟨.p, 1⟩) false]⟩ →
      FlowFactP.mk (.var ⟨"t", 0, 10⟩ ⟨.p, 1⟩)
          (.heap_write ⟨⟨"t", 0, 10, 1000000000⟩, "x"⟩) ∈
        (computeFuncStateV2
          ⟨⟨"t", 0, 10⟩, aIr, buildBaseAdjV2 (runCheapStaticPassV2 aIr).edges,
            callsitesOfIrV2 aIr.stmts, computeHeapAnchorByVar aIr⟩
          [(⟨"t", 0, 10, 0⟩, [⟨"t", 20, 30⟩])]
          [(⟨"t", 20, 30⟩, computeFuncStateV2
            ⟨⟨"t", 20, 30⟩, bIr, buildBaseAdjV2 (runCheapStaticPassV2 bIr).edges,
              callsitesOfIrV2 bIr.stmts, computeHeapAnchorByVar bIr⟩ [] [])]).facts) := by
  constructor
  · intro func cbc sbf c info G s eff a hcs hG hs heff hv ho ha
    rw [buildExtraAdjV2]
    obtain ⟨l1, l2, hsplit⟩ := List.append_of_mem hcs
    rw [hsplit, List.foldl_append, List.foldl_cons]
    exact foldl_alistGetD_mono _
      (fun m' b k' x' h' => extraV2ForCallsite_mono func cbc sbf m' b k' x' h') l2 _ _ _
      (extraV2ForCallsite_adds_phw func cbc sbf _ hG hs heff hv ho ha)
  · intro aIr bIr ha hb
    subst ha
    subst hb
    decide

/-- Witness for C4: the lifting theorem applied to the concrete
`a`/`setX` scenario, with every hypothesis discharged by evaluation. -/
theorem interproc_v2_heap_write_lifting_witness :
    (LNodeP.heapWrite (createHeapIdP
        (heapAnchorForVar
          (computeHeapAnchorByVar ⟨⟨"t", 0, 10⟩, [⟨.p, 0⟩, ⟨.p, 1⟩], [],
            [.call ⟨"t", 0, 10, 0⟩ none .unknown [.var ⟨.p, 0⟩, .var ⟨.p, 1⟩]]⟩)
          ⟨"t", 0, 10⟩ ⟨.p, 0⟩) "x") ∈
      ((alistGet (buildExtraAdjV2
        ⟨⟨"t", 0, 10⟩,
          ⟨⟨"t", 0, 10⟩, [⟨.p, 0⟩, ⟨.p, 1⟩], [],
            [.call ⟨"t", 0, 10, 0⟩ none .unknown [.var ⟨.p, 0⟩, .var ⟨.p, 1⟩]]⟩,
          buildBaseAdjV2 (runCheapStaticPassV2
            ⟨⟨"t", 0, 10⟩, [⟨.p, 0⟩, ⟨.p, 1⟩], [],
              [.call ⟨"t", 0, 10, 0⟩ none .unknown [.var ⟨.p, 0⟩, .var ⟨.p, 1⟩]]⟩).edges,
          callsitesOfIrV2 [.call ⟨"t", 0, 10, 0⟩ none .unknown
            [.var ⟨.p, 0⟩, .var ⟨.p, 1⟩]],
          computeHeapAnchorByVar ⟨⟨"t", 0, 10⟩, [⟨.p, 0⟩, ⟨.p, 1⟩], [],
            [.call ⟨"t", 0, 10, 0⟩ none .unknown [.var ⟨.p, 0⟩, .var ⟨.p, 1⟩]]⟩⟩
        [(⟨"t", 0, 10, 0⟩, [⟨"t", 20, 30⟩])]
        [(⟨"t", 20, 30⟩, computeFuncStateV2
          ⟨⟨"t", 20, 30⟩,
            ⟨⟨"t", 20, 30⟩, [⟨.p, 0⟩, ⟨.p, 1⟩], [],
              [.member_write ⟨"t", 20, 30, 0⟩ ⟨.p, 0⟩ (.named "x") (.var ⟨.p, 1⟩) false]⟩,
            buildBaseAdjV2 (runCheapStaticPassV2
              ⟨⟨"t", 20, 30⟩, [⟨.p, 0⟩, ⟨.p, 1⟩], [],
                [.member_write ⟨"t", 20, 30, 0⟩ ⟨.p, 0⟩ (.named "x")
                  (.var ⟨.p, 1⟩) false]⟩).edges,
            callsitesOfIrV2 [.member_write ⟨"t", 20, 30, 0⟩ ⟨.p, 0⟩ (.named "x")
              (.var ⟨.p, 1⟩) false],
            computeHeapAnchorByVar ⟨⟨"t", 20, 30⟩, [⟨.p, 0⟩, ⟨.p, 1⟩], [],
              [.member_write ⟨"t", 20, 30, 0⟩ ⟨.p, 0⟩ (.named "x")
                (.var ⟨.p, 1⟩) false]⟩⟩ [] [])])
        (LNodeP.callArg ⟨"t", 0, 10, 0⟩ 1)).getD [])) ∧
    FlowFactP.mk (.var ⟨"t", 0, 10⟩ ⟨.p, 1⟩)
        (.heap_write ⟨⟨"t", 0, 10, 1000000000⟩, "x"⟩) ∈
      (computeFuncStateV2
        ⟨⟨"t", 0, 10⟩,
          ⟨⟨"t", 0, 10⟩, [⟨.p, 0⟩, ⟨.p, 1⟩], [],
            [.call ⟨"t", 0, 10, 0⟩ none .unknown [.var ⟨.p, 0⟩, .var ⟨.p, 1⟩]]⟩,
          buildBaseAdjV2 (runCheapStaticPassV2
            ⟨⟨"t", 0, 10⟩, [⟨.p, 0⟩, ⟨.p, 1⟩], [],
              [.call ⟨"t", 0, 10, 0⟩ none .unknown [.var ⟨.p, 0⟩, .var ⟨.p, 1⟩]]⟩).edges,
          callsitesOfIrV2 [.call ⟨"t", 0, 10, 0⟩ none .unknown
            [.var ⟨.p, 0⟩, .var ⟨.p, 1⟩]],
          computeHeapAnchorByVar ⟨⟨"t", 0, 10⟩, [⟨.p, 0⟩, ⟨.p, 1⟩], [],
            [.call ⟨"t", 0, 10, 0⟩ none .unknown [.var ⟨.p, 0⟩, .var ⟨.p, 1⟩]]⟩⟩
        [(⟨"t", 0, 10, 0⟩, [⟨"t", 20, 30⟩])]
        [(⟨"t", 20, 30⟩, computeFuncStateV2
          ⟨⟨"t", 20, 30⟩,
            ⟨⟨"t", 20, 30⟩, [⟨.p, 0⟩, ⟨.p, 1⟩], [],
              [.member_write ⟨"t", 20, 30, 0⟩ ⟨.p, 0⟩ (.named "x") (.var ⟨.p, 1⟩) false]⟩,
            buildBaseAdjV2 (runCheapStaticPassV2
              ⟨⟨"t", 20, 30⟩, [⟨.p, 0⟩, ⟨.p, 1⟩], [],
                [.member_write ⟨"t", 20, 30, 0⟩ ⟨.p, 0⟩ (.named "x")
                  (.var ⟨.p, 1⟩) false]⟩).edges,
            callsitesOfIrV2 [.member_write ⟨"t", 20, 30, 0⟩ ⟨.p, 0⟩ (.named "x")
              (.var ⟨.p, 1⟩) false],
            computeHeapAnchorByVar ⟨⟨"t", 20, 30⟩, [⟨.p, 0⟩, ⟨.p, 1⟩], [],
              [.member_write ⟨"t", 20, 30, 0⟩ ⟨.p, 0⟩ (.named "x")
                (.var ⟨.p, 1⟩) false]⟩⟩ [] [])]).facts :=
  ⟨interproc_v2_heap_write_lifting.1 _ _ _ (⟨"t", 0, 10, 0⟩ : CallsiteIdP)
      ⟨none, 2, [some ⟨.p, 0⟩, some ⟨.p, 1⟩]⟩ ⟨"t", 20, 30⟩
      (computeFuncStateV2
        ⟨⟨"t", 20, 30⟩,
          ⟨⟨"t", 20, 30⟩, [⟨.p, 0⟩, ⟨.p, 1⟩], [],
            [.member_write ⟨"t", 20, 30, 0⟩ ⟨.p, 0⟩ (.named "x") (.var ⟨.p, 1⟩) false]⟩,
          buildBaseAdjV2 (runCheapStaticPassV2
            ⟨⟨"t", 20, 30⟩, [⟨.p, 0⟩, ⟨.p, 1⟩], [],
              [.member_write ⟨"t", 20, 30, 0⟩ ⟨.p, 0⟩ (.named "x")
                (.var ⟨.p, 1⟩) false]⟩).edges,
          callsitesOfIrV2 [.member_write ⟨"t", 20, 30, 0⟩ ⟨.p, 0⟩ (.named "x")
            (.var ⟨.p, 1⟩) false],
          computeHeapAnchorByVar ⟨⟨"t", 20, 30⟩, [⟨.p, 0⟩, ⟨.p, 1⟩], [],
            [.member_write ⟨"t", 20, 30, 0⟩ ⟨.p, 0⟩ (.named "x")
              (.var ⟨.p, 1⟩) false]⟩⟩ [] []) ⟨1, 0, "x"⟩ ⟨.p, 0⟩
      (by decide) (by decide) (by decide) (by decide) (by decide) (by decide)
      (by decide),
    interproc_v2_heap_write_lifting.2 _ _ rfl rfl⟩

/-! ## V1/V2 equivalence lemmas (heap-free summaries) -/

theorem alistGet_map {α β γ : Type} [DecidableEq α] (g : β → γ) :
    ∀ (m : List (α × β)) (k : α),
      alistGet (m.map (fun p => (p.1, g p.2))) k = (alistGet m k).map g := by
  intro m
  induction m with
  | nil => intro k; rfl
  | cons p rest ih =>
      intro k
      rw [List.map_cons]
      show (if p.1 = k then some (g p.2) else alistGet (rest.map _) k) = _
      by_cases h : p.1 = k
      · rw [if_pos h]
        show _ = (if p.1 = k then some p.2 else alistGet rest k).map g
        rw [if_pos h]
        rfl
      · rw [if_neg h, ih k]
        show _ = (if p.1 = k then some p.2 else alistGet rest k).map g
        rw [if_neg h]

theorem alistSet_map {α β γ : Type} [DecidableEq α] (g : β → γ) :
    ∀ (m : List (α × β)) (k : α) (v : β),
      alistSet (m.map (fun p => (p.1, g p.2))) k (g v) =
        (alistSet m k v).map (fun p => (p.1, g p.2)) := by
  intro m
  induction m with
  | nil => intro k v; rfl
  | cons p rest ih =>
      intro k v
      rw [List.map_cons]
      show (if p.1 = k then _ else _) = _
      by_cases h : p.1 = k
      · rw [if_pos h]
        show _ = ((if p.1 = k then (p.1, v) :: rest else p :: alistSet rest k v).map _)
        rw [if_pos h]
        rfl
      · rw [if_neg h, ih k v]
        show _ = ((if p.1 = k then (p.1, v) :: rest else p :: alistSet rest k v).map _)
        rw [if_neg h]
        rfl

theorem buildBaseAdjV2_heapFree {edges : List CheapDepEdgeP}
    (h : ∀ e ∈ edges, heapFreeEdge e = true) :
    buildBaseAdjV2 edges = buildBaseAdj edges := by
  rw [buildBaseAdjV2, buildBaseAdj]
  have hstep : ∀ (out : List (LNodeP × List LNodeP)) (e : CheapDepEdgeP),
      heapFreeEdge e = true →
      (match
        (match e.from' with
          | .var vid => some (LNodeP.var vid)
          | .heap_read h => some (LNodeP.heapRead h)
          | _ => none) with
      | some fromN =>
          match
            (match e.to' with
              | .var d => some (LNodeP.var d)
              | .call_arg c i => some (LNodeP.callArg c i)
              | .ret => some LNodeP.ret
              | .heap_write h => some (LNodeP.heapWrite h)
              | _ => none) with
          | some toN => alistAppend out fromN toN
          | none => out
      | none => out) =
      (match e.from' with
      | .var vid =>
          match
            (match e.to' with
              | .var d => some (LNodeP.var d)
              | .call_arg c i => some (LNodeP.callArg c i)
              | .ret => some LNodeP.ret
              | _ => none) with
          | some toN => alistAppend out (LNodeP.var vid) toN
          | none => out
      | _ => out) := by
    intro out e he
    obtain ⟨f, t⟩ := e
    rw [heapFreeEdge, Bool.and_eq_true] at he
    cases f <;> cases t <;>
      first
        | rfl
        | exact Bool.noConfusion he.1
        | exact Bool.noConfusion he.2
  exact List.foldl_ext _ _ _ (fun out e he => hstep out e (h e he))

theorem foldl_const {α γ : Type} (l : List γ) (init : α) :
    l.foldl (fun a _ => a) init = init := by
  induction l with
  | nil => rfl
  | cons b l ih => exact ih

theorem callsitesOfIr_eq (stmts : List IrStmtP) :
    callsitesOfIr stmts =
      (callsitesOfIrV2 stmts).map (fun p => (p.1, callsiteProj p.2)) := by
  rw [callsitesOfIr, callsitesOfIrV2]
  suffices h : ∀ (stmts : List IrStmtP) (m2 : List (CallsiteIdP × CallsiteInfoV2P)),
      stmts.foldl
        (fun m st =>
          match st with
          | .call cs dst _ args => alistSet m cs ⟨dst, args.length⟩
          | _ => m)
        (m2.map (fun p => (p.1, callsiteProj p.2))) =
      (stmts.foldl
        (fun m st =>
          match st with
          | .call cs dst _ args => alistSet m cs ⟨dst, args.length, args.map rvalueToVarId⟩
          | _ => m) m2).map (fun p => (p.1, callsiteProj p.2)) by
    exact h stmts []
  intro stmts2
  induction stmts2 with
  | nil => intro m2; rfl
  | cons st rest ih =>
      intro m2
      rw [List.foldl_cons, List.foldl_cons]
      cases st
      case call cs dst callee args =>
        simp only
        rw [show alistSet (m2.map (fun p => (p.1, callsiteProj p.2))) cs
              ⟨dst, args.length⟩ =
            (alistSet m2 cs ⟨dst, args.length, args.map rvalueToVarId⟩).map
              (fun p => (p.1, callsiteProj p.2)) from
          alistSet_map callsiteProj m2 cs ⟨dst, args.length, args.map rvalueToVarId⟩]
        exact ih _
      all_goals exact ih m2

theorem alistGet_liftMapV2 (m : List (FuncIdP × FuncStateP)) (k : FuncIdP) :
    alistGet (liftMapV2 m) k = (alistGet m k).map liftStateV2 :=
  alistGet_map liftStateV2 m k

theorem calleeEffects_lift_nil {ε : Type} [DecidableEq ε]
    (proj : FuncStateV2P → List ε) (hproj : ∀ s, proj (liftStateV2 s) = [])
    (keep : ε → Bool) (callees : List FuncIdP) (m : List (FuncIdP × FuncStateP)) :
    calleeEffects proj keep callees (liftMapV2 m) = [] := by
  rw [calleeEffects]
  refine (List.foldl_ext _ (fun es _ => es) [] ?_).trans (foldl_const callees [])
  intro es c _
  rw [alistGet_liftMapV2]
  rcases alistGet m c with _ | s
  · rfl
  · show (proj (liftStateV2 s)).foldl _ es = es
    rw [hproj s]
    rfl

theorem calleeIdxSet_lift (argCount : Nat) (callees : List FuncIdP)
    (m : List (FuncIdP × FuncStateP)) :
    calleeIdxSet (fun st => st.paramReturnIndices) argCount callees (liftMapV2 m) =
      calleeIdxSet (fun st => st.paramReturnIndices) argCount callees m := by
  rw [calleeIdxSet, calleeIdxSet]
  apply List.foldl_ext
  intro s c _
  rw [alistGet_liftMapV2]
  rcases alistGet m c with _ | st
  · rfl
  · rfl

theorem extraForCallsite_lift (func : FuncInputV2P)
    (cbc : List (CallsiteIdP × List FuncIdP)) (m : List (FuncIdP × FuncStateP))
    (extra : List (LNodeP × List LNodeP)) (p : CallsiteIdP × CallsiteInfoV2P) :
    extraV2ForCallsite func cbc (liftMapV2 m) extra p =
      extraV1ForCallsite cbc m extra (p.1, callsiteProj p.2) := by
  obtain ⟨cs, dstOpt, argCount, argVars⟩ := p
  rcases dstOpt with _ | dst
  · simp only [extraV2ForCallsite, extraV1ForCallsite, callsiteProj]
    rw [calleeEffects_lift_nil (fun st => st.paramHeapWriteEffects) (fun s => rfl),
        calleeEffects_lift_nil (fun st => st.heapReadHeapWriteEffects) (fun s => rfl)]
    rfl
  · simp only [extraV2ForCallsite, extraV1ForCallsite, callsiteProj]
    rw [calleeEffects_lift_nil (fun st => st.paramHeapWriteEffects) (fun s => rfl),
        calleeEffects_lift_nil (fun st => st.heapReadReturnEffects) (fun s => rfl),
        calleeEffects_lift_nil (fun st => st.heapReadHeapWriteEffects) (fun s => rfl),
        calleeIdxSet_lift]
    by_cases hS : (calleeIdxSet (fun st => st.paramReturnIndices) argCount
        ((alistGet cbc cs).getD []) m).isEmpty = true
    · rw [if_pos hS, List.isEmpty_iff.mp hS]
      rfl
    · rw [if_neg hS]
      rfl

theorem buildExtraAdjV2_lift (func2 : FuncInputV2P) (func1 : FuncInputP)
    (hcs : func1.callsites = func2.callsites.map (fun q => (q.1, callsiteProj q.2)))
    (cbc : List (CallsiteIdP × List FuncIdP)) (m : List (FuncIdP × FuncStateP)) :
    buildExtraAdjV2 func2 cbc (liftMapV2 m) = buildExtraAdj func1 cbc m := by
  rw [buildExtraAdjV2, buildExtraAdj, hcs, List.foldl_map]
  exact List.foldl_ext _ _ _ (fun extra q _ => extraForCallsite_lift func2 cbc m extra q)

theorem foldl_invariant {α β : Type} (P : α → Prop) (f : α → β → α)
    (hstep : ∀ a b, P a → P (f a b)) :
    ∀ (l : List β) (init : α), P init → P (l.foldl f init) := by
  intro l
  induction l with
  | nil => intro init h; exact h
  | cons b l ih => intro init h; exact ih _ (hstep init b h)

theorem mem_alistSet {α β : Type} [DecidableEq α] (m : List (α × β)) (k : α) (v : β) :
    ∀ q ∈ alistSet m k v, q ∈ m ∨ q = (k, v) := by
  induction m with
  | nil =>
      intro q hq
      right
      simpa [alistSet] using hq
  | cons p rest ih =>
      intro q hq
      obtain ⟨k', v'⟩ := p
      by_cases h : k' = k
      · rw [alistSet, if_pos h] at hq
        rcases List.mem_cons.mp hq with hq | hq
        · right
          rw [hq, h]
        · exact Or.inl (List.mem_cons_of_mem _ hq)
      · rw [alistSet, if_neg h] at hq
        rcases List.mem_cons.mp hq with hq | hq
        · exact Or.inl (hq ▸ List.mem_cons_self _ _)
        · rcases ih q hq with h2 | h2
          · exact Or.inl (List.mem_cons_of_mem _ h2)
          · exact Or.inr h2

theorem alistAppend_key_pred {α β : Type} [DecidableEq α] (P : α → Prop)
    (m : List (α × List β)) (k : α) (v : β)
    (hm : ∀ q ∈ m, P q.1) (hk : P k) :
    ∀ q ∈ alistAppend m k v, P q.1 := by
  intro q hq
  rw [alistAppend] at hq
  rcases hget : alistGet m k with _ | arr <;> rw [hget] at hq
  · rcases mem_alistSet m k [v] q hq with h | h
    · exact hm q h
    · rw [h]
      exact hk
  · rcases mem_alistSet m k (arr ++ [v]) q hq with h | h
    · exact hm q h
    · rw [h]
      exact hk

theorem alistAppend_val_pred {α β : Type} [DecidableEq α] (P : β → Prop)
    (m : List (α × List β)) (k : α) (v : β)
    (hm : ∀ q ∈ m, ∀ x ∈ q.2, P x) (hv : P v) :
    ∀ q ∈ alistAppend m k v, ∀ x ∈ q.2, P x := by
  intro q hq
  rw [alistAppend] at hq
  rcases hget : alistGet m k with _ | arr <;> rw [hget] at hq
  · rcases mem_alistSet m k [v] q hq with h | h
    · exact hm q h
    · intro x hx
      rw [h] at hx
      rw [List.mem_singleton.mp hx]
      exact hv
  · rcases mem_alistSet m k (arr ++ [v]) q hq with h | h
    · exact hm q h
    · intro x hx
      rw [h] at hx
      rcases List.mem_append.mp hx with h2 | h2
      · exact hm (k, arr) (alistGet_mem m k arr hget) x h2
      · rw [List.mem_singleton.mp h2]
        exact hv

/-- Shape of the v1 base adjacency: `var` keys, heap-free values. -/
theorem buildBaseAdj_shape (edges : List CheapDepEdgeP) :
    ∀ q ∈ buildBaseAdj edges,
      isVarNode q.1 = true ∧ ∀ x ∈ q.2, lnodeNoHeap x = true := by
  rw [buildBaseAdj]
  refine foldl_invariant
    (fun (out : List (LNodeP × List LNodeP)) =>
      ∀ q ∈ out, isVarNode q.1 = true ∧ ∀ x ∈ q.2, lnodeNoHeap x = true)
    _ ?_ edges [] (by intro q hq; exact absurd hq (by simp))
  intro out e hout
  obtain ⟨f, t⟩ := e
  cases f <;> cases t <;>
    first
      | exact hout
      | · intro q hq
          constructor
          · refine alistAppend_key_pred (fun k => isVarNode k = true) out _ _
              (fun r hr => (hout r hr).1) ?_ q hq
            rfl
          · refine alistAppend_val_pred (fun x => lnodeNoHeap x = true) out _ _
              (fun r hr => (hout r hr).2) ?_ q hq
            rfl

/-- Shape of the v1 extra adjacency: `call_arg` keys, `var` values. -/
theorem buildExtraAdj_shape (func : FuncInputP)
    (cbc : List (CallsiteIdP × List FuncIdP)) (m : List (FuncIdP × FuncStateP)) :
    ∀ q ∈ buildExtraAdj func cbc m,
      isCallArgNodeP q.1 = true ∧ ∀ x ∈ q.2, isVarNode x = true := by
  rw [buildExtraAdj]
  refine foldl_invariant
    (fun (out : List (LNodeP × List LNodeP)) =>
      ∀ q ∈ out, isCallArgNodeP q.1 = true ∧ ∀ x ∈ q.2, isVarNode x = true)
    _ ?_ func.callsites [] (by intro q hq; exact absurd hq (by simp))
  intro out p hout q hq
  rw [extraV1ForCallsite] at hq
  rcases hdst : p.2.dst with _ | dst
  · rw [hdst] at hq
    exact hout q hq
  · rw [hdst] at hq
    replace hq : q ∈
        (if (calleeIdxSet (fun st => st.paramReturnIndices) p.2.argCount
              ((alistGet cbc p.1).getD []) m).isEmpty = true then out
          else
            List.foldl
              (fun extra idx => alistAppend extra (LNodeP.callArg p.1 idx) (LNodeP.var dst))
              out
              (stableSortBy cmpNumber (calleeIdxSet (fun st => st.paramReturnIndices)
                p.2.argCount ((alistGet cbc p.1).getD []) m))) := hq
    by_cases hS : (calleeIdxSet (fun st => st.paramReturnIndices) p.2.argCount
        ((alistGet cbc p.1).getD []) m).isEmpty = true
    · rw [if_pos hS] at hq
      exact hout q hq
    · rw [if_neg hS] at hq
      refine foldl_invariant
        (fun (out : List (LNodeP × List LNodeP)) =>
          ∀ q ∈ out, isCallArgNodeP q.1 = true ∧ ∀ x ∈ q.2, isVarNode x = true)
        _ ?_ _ out hout q hq
      intro out2 idx hout2 q2 hq2
      constructor
      · refine alistAppend_key_pred (fun k => isCallArgNodeP k = true) out2 _ _
          (fun r hr => (hout2 r hr).1) ?_ q2 hq2
        rfl
      · refine alistAppend_val_pred (fun x => isVarNode x = true) out2 _ _
          (fun r hr => (hout2 r hr).2) ?_ q2 hq2
        rfl

/-- Every neighbour returned by `getNeighbors` is a stored adjacency value. -/
theorem getNeighbors_pred (base extra : List (LNodeP × List LNodeP))
    (P : LNodeP → Bool)
    (hb : ∀ q ∈ base, ∀ x ∈ q.2, P x = true)
    (he : ∀ q ∈ extra, ∀ x ∈ q.2, P x = true) :
    ∀ n, ∀ x ∈ getNeighbors base extra n, P x = true := by
  intro n x hx
  rw [getNeighbors] at hx
  rcases hgb : alistGet base n with _ | a <;> rw [hgb] at hx
  · rcases hge : alistGet extra n with _ | b <;> rw [hge] at hx
    · exact absurd hx (by simp)
    · exact he (n, b) (alistGet_mem extra n b hge) x hx
  · rcases hge : alistGet extra n with _ | b <;> rw [hge] at hx
    · exact hb (n, a) (alistGet_mem base n a hgb) x hx
    · rcases List.mem_append.mp hx with h | h
      · exact hb (n, a) (alistGet_mem base n a hgb) x h
      · exact he (n, b) (alistGet_mem extra n b hge) x h

theorem bfs_enqueue_pred (P : LNodeP → Bool) :
    ∀ (l : List LNodeP) (p : List LNodeP × List LNodeP),
      (∀ x ∈ p.2, P x = true) → (∀ x ∈ l, P x = true) →
      ∀ x ∈ (l.foldl bfsEnqueue p).2,
        P x = true := by
  intro l
  induction l with
  | nil => intro p hp _ x hx; exact hp x hx
  | cons nxt rest ih =>
      intro p hp hl x hx
      rw [List.foldl_cons, bfsEnqueue] at hx
      by_cases hmem : nxt ∈ p.2
      · rw [if_pos hmem] at hx
        exact ih p hp (fun y hy => hl y (List.mem_cons_of_mem _ hy)) x hx
      · rw [if_neg hmem] at hx
        refine ih (p.1 ++ [nxt], p.2 ++ [nxt]) ?_
          (fun y hy => hl y (List.mem_cons_of_mem _ hy)) x hx
        intro y hy
        rcases List.mem_append.mp hy with h | h
        · exact hp y h
        · rw [List.mem_singleton.mp h]
          exact hl nxt (List.mem_cons_self _ _)

/-- Every node the BFS visits satisfies any predicate that holds of the
start set and is preserved by the adjacency function. -/
theorem bfsReach_pred (adj : LNodeP → List LNodeP) (P : LNodeP → Bool)
    (hadj : ∀ n, ∀ v ∈ adj n, P v = true) :
    ∀ (fuel : Nat) (queue visited : List LNodeP),
      (∀ x ∈ visited, P x = true) →
      ∀ x ∈ bfsReach adj fuel queue visited, P x = true := by
  intro fuel
  induction fuel with
  | zero => intro queue visited hv x hx; exact hv x hx
  | succ fuel ih =>
      intro queue visited hv x hx
      rcases queue with _ | ⟨cur, rest⟩
      · exact hv x hx
      · rw [bfsReach] at hx
        exact ih _ _ (bfs_enqueue_pred P (adj cur) (rest, visited) hv (hadj cur)) x hx

theorem mem_setInsert {α : Type} [DecidableEq α] (l : List α) (x y : α)
    (h : y ∈ setInsert l x) : y ∈ l ∨ y = x := by
  rw [setInsert] at h
  split at h
  · exact Or.inl h
  · rcases List.mem_append.mp h with h2 | h2
    · exact Or.inl h2
    · exact Or.inr (List.mem_singleton.mp h2)

theorem mem_stableSortBy {α : Type} (cmp : α → α → Ordering) (l : List α) (x : α) :
    x ∈ stableSortBy cmp l ↔ x ∈ l :=
  (List.perm_insertionSort _ l).mem_iff

/-- On a heap-free adjacency the v2 per-parameter BFS step coincides with
the v1 step: the walk never reaches a `heap_write` node. -/
theorem presStepV2_eq (funcId : FuncIdP) (adj : LNodeP → List LNodeP) (fuel : Nat)
    (hadj : ∀ n, ∀ v ∈ adj n, lnodeNoHeap v = true)
    (acc : List FlowFactP × List Nat) (paramId : VarIdP) :
    presStepV2 funcId adj fuel acc paramId = presStepV1 funcId adj fuel acc paramId := by
  rw [presStepV1, presStepV2]
  refine List.foldl_ext _ _ _ ?_
  intro a cur hcur
  have hnh : lnodeNoHeap cur = true :=
    bfsReach_pred adj lnodeNoHeap hadj fuel [LNodeP.var paramId] [LNodeP.var paramId]
      (by
        intro x hx
        rw [List.mem_singleton.mp hx]
        rfl) cur hcur
  cases cur <;> first | rfl | exact Bool.noConfusion hnh

theorem presStepV1_shape (funcId : FuncIdP) (adj : LNodeP → List LNodeP) (fuel : Nat)
    (acc : List FlowFactP × List Nat) (paramId : VarIdP)
    (hacc : ∀ f ∈ acc.1, flowNodeIsVar f.from' = true ∧ flowNodeIsHeapWrite f.to' = false) :
    ∀ f ∈ (presStepV1 funcId adj fuel acc paramId).1,
      flowNodeIsVar f.from' = true ∧ flowNodeIsHeapWrite f.to' = false := by
  rw [presStepV1]
  refine foldl_invariant
    (fun (acc : List FlowFactP × List Nat) =>
      ∀ f ∈ acc.1, flowNodeIsVar f.from' = true ∧ flowNodeIsHeapWrite f.to' = false)
    _ ?_ _ acc hacc
  intro a cur ha f hf
  cases cur
  case ret =>
    rcases mem_setInsert _ _ f hf with h | h
    · exact ha f h
    · rw [h]
      exact ⟨rfl, rfl⟩
  case callArg c i =>
    rcases mem_setInsert _ _ f hf with h | h
    · exact ha f h
    · rw [h]
      exact ⟨rfl, rfl⟩
  case var id => exact ha f hf
  case heapRead id => exact ha f hf
  case heapWrite id => exact ha f hf

theorem presFold_shape (funcId : FuncIdP) (adj : LNodeP → List LNodeP) (fuel : Nat)
    (params : List VarIdP) :
    ∀ f ∈ (params.foldl (presStepV1 funcId adj fuel) ([], [])).1,
      flowNodeIsVar f.from' = true ∧ flowNodeIsHeapWrite f.to' = false := by
  refine foldl_invariant
    (fun (acc : List FlowFactP × List Nat) =>
      ∀ f ∈ acc.1, flowNodeIsVar f.from' = true ∧ flowNodeIsHeapWrite f.to' = false)
    _ ?_ params ([], []) ?_
  · intro a p ha
    exact presStepV1_shape funcId adj fuel a p ha
  · intro f hf
    exact absurd hf (by simp)

/-- Effect extraction ignores every fact whose source is a `var` node and
whose target is not a `heap_write` node. -/
theorem effsStep_id (n : Nat)
    (acc : List ParamHeapWriteEff × List HeapReadReturnEff × List HeapReadHeapWriteEff)
    (f : FlowFactP)
    (h1 : flowNodeIsVar f.from' = true) (h2 : flowNodeIsHeapWrite f.to' = false) :
    effsStep n acc f = acc := by
  obtain ⟨fr, t⟩ := f
  cases fr <;> cases t <;>
    first
      | rfl
      | exact Bool.noConfusion h1
      | exact Bool.noConfusion h2

theorem isVarNode_not_heapRead (n : LNodeP) (h : isVarNode n = true) :
    isHeapReadNode n = false := by
  cases n <;> first | rfl | exact Bool.noConfusion h

theorem isCallArg_not_heapRead (n : LNodeP) (h : isCallArgNodeP n = true) :
    isHeapReadNode n = false := by
  cases n <;> first | rfl | exact Bool.noConfusion h

theorem isVarNode_noHeap (n : LNodeP) (h : isVarNode n = true) :
    lnodeNoHeap n = true := by
  cases n <;> first | rfl | exact Bool.noConfusion h

/-- On a heap-free summary, `computeFuncStateV2` run on lifted v1 states is
exactly the lifted `computeFuncState`: the extra adjacency coincides, no
`heap_read` sources exist, and effect extraction is empty. -/
theorem computeFuncState_lift (funcId : FuncIdP) (ir : NormalizedFuncIRP)
    (se : List CheapDepEdgeP) (anchors : List (VarIdP × StmtIdP))
    (hse : ∀ e ∈ se, heapFreeEdge e = true)
    (cbc : List (CallsiteIdP × List FuncIdP)) (m : List (FuncIdP × FuncStateP)) :
    computeFuncStateV2 ⟨funcId, ir, buildBaseAdjV2 se, callsitesOfIrV2 ir.stmts, anchors⟩
        cbc (liftMapV2 m) =
      liftStateV2 (computeFuncState ⟨funcId, ir, buildBaseAdj se, callsitesOfIr ir.stmts⟩
        cbc m) := by
  have hbb : buildBaseAdjV2 se = buildBaseAdj se := buildBaseAdjV2_heapFree hse
  have hextra : buildExtraAdjV2
      ⟨funcId, ir, buildBaseAdjV2 se, callsitesOfIrV2 ir.stmts, anchors⟩ cbc (liftMapV2 m) =
      buildExtraAdj ⟨funcId, ir, buildBaseAdj se, callsitesOfIr ir.stmts⟩ cbc m :=
    buildExtraAdjV2_lift _ _ (callsitesOfIr_eq ir.stmts) cbc m
  simp only [computeFuncStateV2, computeFuncState, liftStateV2]
  rw [hextra, hbb]
  set E := buildExtraAdj ⟨funcId, ir, buildBaseAdj se, callsitesOfIr ir.stmts⟩ cbc m with hEdef
  set A := getNeighbors (buildBaseAdj se) E with hAdef
  set F := bfsFuel (buildBaseAdj se) E with hFdef
  have hadj : ∀ n, ∀ v ∈ A n, lnodeNoHeap v = true := by
    rw [hAdef]
    refine getNeighbors_pred _ _ _ (fun q hq => (buildBaseAdj_shape se q hq).2) ?_
    intro q hq x hx
    exact isVarNode_noHeap x
      ((buildExtraAdj_shape ⟨funcId, ir, buildBaseAdj se, callsitesOfIr ir.stmts⟩ cbc m
        q hq).2 x hx)
  have hpres : presStepV2 funcId A F = presStepV1 funcId A F :=
    funext fun acc => funext fun p => presStepV2_eq funcId A F hadj acc p
  have hfb : ((buildBaseAdj se).map Prod.fst).filter isHeapReadNode = [] := by
    rw [List.filter_eq_nil_iff]
    intro a ha
    rcases List.mem_map.mp ha with ⟨q, hq, rfl⟩
    rw [isVarNode_not_heapRead q.1 (buildBaseAdj_shape se q hq).1]
    exact Bool.false_ne_true
  have hfe : (E.map Prod.fst).filter isHeapReadNode = [] := by
    rw [List.filter_eq_nil_iff]
    intro a ha
    rcases List.mem_map.mp ha with ⟨q, hq, rfl⟩
    rw [isCallArg_not_heapRead q.1
      ((buildExtraAdj_shape ⟨funcId, ir, buildBaseAdj se, callsitesOfIr ir.stmts⟩ cbc m
        q hq).1)]
    exact Bool.false_ne_true
  have hnil : stableSortBy (fun a b => cmpString (lnodeKeyString a) (lnodeKeyString b))
      (dedupKeepFirst (([] : List LNodeP) ++ [])) = [] := rfl
  have heffs : List.foldl (effsStep ir.params.length)
      (([], [], []) : List ParamHeapWriteEff × List HeapReadReturnEff ×
        List HeapReadHeapWriteEff)
      (stableSortBy cmpFlowFact
        (ir.params.foldl (presStepV1 funcId A F)
          (([], []) : List FlowFactP × List Nat)).1) = ([], [], []) := by
    refine (List.foldl_ext _ (fun a _ => a) _ ?_).trans (foldl_const _ _)
    intro a f hf
    have hsh := presFold_shape funcId A F ir.params f ((mem_stableSortBy _ _ f).mp hf)
    exact effsStep_id _ a f hsh.1 hsh.2
  rw [hpres, hfb, hfe, hnil, List.foldl_nil, heffs]
  rfl

theorem alistSet_liftMapV2 (m : List (FuncIdP × FuncStateP)) (k : FuncIdP)
    (v : FuncStateP) :
    alistSet (liftMapV2 m) k (liftStateV2 v) = liftMapV2 (alistSet m k v) := by
  simp only [liftMapV2]
  exact alistSet_map liftStateV2 m k v

theorem storeIfChanged_lift (m : List (FuncIdP × FuncStateP)) (f : FuncIdP)
    (next1 : FuncStateP) :
    storeIfChanged (fun st => st.facts) (liftMapV2 m) f (liftStateV2 next1) =
      (storeIfChanged (fun st => st.facts) m f next1).map
        (fun p => (liftMapV2 p.1, p.2)) := by
  rw [storeIfChanged, storeIfChanged, alistGet_liftMapV2]
  rcases alistGet m f with _ | prev
  · show some (alistSet (liftMapV2 m) f (liftStateV2 next1), true) =
      (some (alistSet m f next1, true)).map (fun p => (liftMapV2 p.1, p.2))
    rw [alistSet_liftMapV2]
    rfl
  · show (if (liftStateV2 prev).facts = (liftStateV2 next1).facts
        then some (liftMapV2 m, false)
        else some (alistSet (liftMapV2 m) f (liftStateV2 next1), true)) =
      (if prev.facts = next1.facts then some (m, false)
        else some (alistSet m f next1, true)).map (fun p => (liftMapV2 p.1, p.2))
    have c1 : (liftStateV2 prev).facts = prev.facts := rfl
    have c2 : (liftStateV2 next1).facts = next1.facts := rfl
    rw [c1, c2]
    by_cases h2 : prev.facts = next1.facts
    · rw [if_pos h2, if_pos h2]
      rfl
    · rw [if_neg h2, if_neg h2, alistSet_liftMapV2]
      rfl

theorem optMapM_map_eq {α β γ : Type} (f : α → Option β) (g : α → Option γ)
    (h : β → γ) (l : List α) (hfg : ∀ a ∈ l, g a = (f a).map h) :
    optMapM g l = (optMapM f l).map (List.map h) := by
  induction l with
  | nil => rfl
  | cons x rest ih =>
      rw [optMapM, optMapM, hfg x (List.mem_cons_self _ _),
        ih (fun a ha => hfg a (List.mem_cons_of_mem _ ha))]
      rcases f x with _ | y <;> rcases optMapM f rest with _ | ys <;> rfl

/-- On heap-free summaries the v2 inputs are exactly the v2 view of the v1
inputs (the v1 and v2 base adjacencies coincide). -/
theorem funcInputsOfV2_lift (graph : MappedCallGraphP)
    (irByFuncId : List (FuncIdP × NormalizedFuncIRP))
    (summaryByFuncId : List (FuncIdP × List CheapDepEdgeP))
    (hsumm : ∀ p ∈ summaryByFuncId, ∀ e ∈ p.2, heapFreeEdge e = true) :
    funcInputsOfV2 graph irByFuncId summaryByFuncId =
      (funcInputsOf graph irByFuncId summaryByFuncId).map
        (List.map (fun p => (p.1, inputV2OfV1 p.2))) := by
  rw [funcInputsOf, funcInputsOfV2]
  refine optMapM_map_eq _ _ _ graph.nodes ?_
  intro funcId _
  rcases hir : alistGet irByFuncId funcId with _ | ir <;>
    rcases hsm : alistGet summaryByFuncId funcId with _ | se
  · rfl
  · rfl
  · rfl
  · have hb : buildBaseAdjV2 se = buildBaseAdj se :=
      buildBaseAdjV2_heapFree
        (hsumm (funcId, se) (alistGet_mem summaryByFuncId funcId se hsm))
    show some (funcId, ⟨funcId, ir, buildBaseAdjV2 se, callsitesOfIrV2 ir.stmts,
        computeHeapAnchorByVar ir⟩) =
      (some (((funcId, ⟨funcId, ir, buildBaseAdj se, callsitesOfIr ir.stmts⟩)) :
        FuncIdP × FuncInputP)).map (fun p => (p.1, inputV2OfV1 p.2))
    rw [hb]
    rfl

/-- On heap-free inputs the v2 driver step on lifted state is the lifted v1
driver step. -/
theorem interprocStep_lift (graph : MappedCallGraphP)
    (fi1 : List (FuncIdP × FuncInputP))
    (hfi : ∀ q ∈ fi1, ∃ se, (∀ e ∈ se, heapFreeEdge e = true) ∧
      q.2.baseAdj = buildBaseAdj se ∧ q.2.callsites = callsitesOfIr q.2.ir.stmts)
    (m : List (FuncIdP × FuncStateP)) (f : FuncIdP) :
    interprocStepV2 graph (fi1.map (fun q => (q.1, inputV2OfV1 q.2))) (liftMapV2 m) f =
      (interprocStepV1 graph fi1 m f).map (fun p => (liftMapV2 p.1, p.2)) := by
  rw [interprocStepV1, interprocStepV2, alistGet_map inputV2OfV1 fi1 f]
  rcases hget : alistGet fi1 f with _ | func
  · rfl
  · show storeIfChanged (fun st => st.facts) (liftMapV2 m) f
        (computeFuncStateV2 (inputV2OfV1 func) (calleesByCallsiteFor graph f)
          (liftMapV2 m)) =
      (storeIfChanged (fun st => st.facts) m f
        (computeFuncState func (calleesByCallsiteFor graph f) m)).map
        (fun p => (liftMapV2 p.1, p.2))
    obtain ⟨se, hse, hb, hc⟩ := hfi (f, func) (alistGet_mem fi1 f func hget)
    obtain ⟨ffid, fir, fbase, fcs⟩ := func
    simp only at hb hc
    subst hb
    subst hc
    have key := computeFuncState_lift ffid fir se (computeHeapAnchorByVar fir) hse
      (calleesByCallsiteFor graph f) m
    rw [buildBaseAdjV2_heapFree hse] at key
    have hinp : inputV2OfV1 ⟨ffid, fir, buildBaseAdj se, callsitesOfIr fir.stmts⟩ =
        ⟨ffid, fir, buildBaseAdj se, callsitesOfIrV2 fir.stmts,
          computeHeapAnchorByVar fir⟩ := rfl
    rw [hinp, key]
    exact storeIfChanged_lift m f
      (computeFuncState ⟨ffid, fir, buildBaseAdj se, callsitesOfIr fir.stmts⟩
        (calleesByCallsiteFor graph f) m)

/-- The driver loop commutes with a state mapping that commutes with the
step callback (same dependents and step bound). -/
theorem runFixpointLoop_map {σ1 σ2 : Type} (graph : MappedCallGraphP)
    (o1 : FixpointOptsP σ1) (o2 : FixpointOptsP σ2) (φ : σ1 → σ2)
    (hmax : o2.maxSteps = o1.maxSteps)
    (hdeps : ∀ n, fixpointDependents graph o2 n = fixpointDependents graph o1 n)
    (hstep : ∀ s f, o2.step (φ s) f = (o1.step s f).map (fun p => (φ p.1, p.2))) :
    ∀ (fuel : Nat) (st : σ1) (queue inQ : List FuncIdP) (steps changed : Nat),
      runFixpointLoop graph o2 fuel ⟨φ st, queue, inQ, steps, changed⟩ =
        (runFixpointLoop graph o1 fuel ⟨st, queue, inQ, steps, changed⟩).map
          (Except.map (fun p => (φ p.1, p.2))) := by
  intro fuel
  induction fuel with
  | zero =>
      intro st queue inQ steps changed
      rcases queue with _ | ⟨n, rest⟩
      · rfl
      · rfl
  | succ fuel ih =>
      intro st queue inQ steps changed
      rcases queue with _ | ⟨n, rest⟩
      · rfl
      · simp only [runFixpointLoop]
        rw [hmax, hstep st n]
        by_cases hov : (match o1.maxSteps with
          | some mx => decide (steps + 1 > mx)
          | none => false) = true
        · rw [if_pos hov, if_pos hov]
          rfl
        · rw [if_neg hov, if_neg hov]
          rcases hs1 : o1.step st n with _ | ⟨st', ch⟩
          · rfl
          · have hred : (some (st', ch)).map (fun (p : σ1 × Bool) => (φ p.1, p.2)) =
                some (φ st', ch) := rfl
            rw [hred, hdeps n]
            cases ch
            · exact ih st' rest (inQ.erase n) (steps + 1) changed
            · rcases henq : enqueueDeps graph.nodes
                  (stableSortBy cmpFuncId (fixpointDependents graph o1 n))
                  (inQ.erase n) rest with _ | ⟨inQ', q'⟩
              · rfl
              · exact ih st' q' inQ' (steps + 1) (changed + 1)

theorem runDeterministicFixpoint_map {σ1 σ2 : Type} (graph : MappedCallGraphP)
    (o1 : FixpointOptsP σ1) (o2 : FixpointOptsP σ2) (φ : σ1 → σ2)
    (hinit : o2.initial = o1.initial)
    (hmax : o2.maxSteps = o1.maxSteps)
    (hdeps : ∀ n, fixpointDependents graph o2 n = fixpointDependents graph o1 n)
    (hstep : ∀ s f, o2.step (φ s) f = (o1.step s f).map (fun p => (φ p.1, p.2)))
    (st0 : σ1) (fuel : Nat) :
    runDeterministicFixpoint graph o2 (φ st0) fuel =
      (runDeterministicFixpoint graph o1 st0 fuel).map
        (Except.map (fun p => (φ p.1, p.2))) := by
  have hq : fixpointInitialQueue graph o2 = fixpointInitialQueue graph o1 := by
    rw [fixpointInitialQueue, fixpointInitialQueue, hinit]
  simp only [runDeterministicFixpoint]
  rw [hmax, hq]
  by_cases hbad : (match o1.maxSteps with
    | some mx => decide (mx = 0 ∨ mx > MAX_SAFE_INTEGER)
    | none => false) = true
  · rw [if_pos hbad, if_pos hbad]
    rfl
  · rw [if_neg hbad, if_neg hbad]
    by_cases hin : (fixpointInitialQueue graph o1).all
        (fun n => decide (n ∈ graph.nodes)) = true
    · rw [if_pos hin, if_pos hin]
      exact runFixpointLoop_map graph o1 o2 φ hmax hdeps hstep fuel st0
        (fixpointInitialQueue graph o1) (fixpointInitialQueue graph o1) 0 0
    · rw [if_neg hin, if_neg hin]
      rfl

theorem optMapM_mem {α β : Type} (g : α → Option β) :
    ∀ (l : List α) (ys : List β), optMapM g l = some ys →
      ∀ y ∈ ys, ∃ a ∈ l, g a = some y := by
  intro l
  induction l with
  | nil =>
      intro ys h y hy
      rw [optMapM] at h
      rw [← Option.some.inj h] at hy
      exact absurd hy (by simp)
  | cons x rest ih =>
      intro ys h y hy
      rw [optMapM] at h
      rcases hx : g x with _ | z <;> rw [hx] at h
      · exact absurd h (by simp)
      · rcases hrest : optMapM g rest with _ | zs <;> rw [hrest] at h
        · exact absurd h (by simp)
        · rw [← Option.some.inj h] at hy
          rcases List.mem_cons.mp hy with hy | hy
          · exact ⟨x, List.mem_cons_self _ _, hy ▸ hx⟩
          · rcases ih zs hrest y hy with ⟨a, ha, hga⟩
            exact ⟨a, List.mem_cons_of_mem _ ha, hga⟩

theorem interprocFinish_lift (graph : MappedCallGraphP)
    (r : Option (Except FixpointErr (List (FuncIdP × FuncStateP) × FixpointResultP))) :
    interprocFinish graph ⟨[], [], [], [], []⟩ (fun st => st.facts)
        (r.map (Except.map (fun p => (liftMapV2 p.1, p.2)))) =
      interprocFinish graph ⟨[], []⟩ (fun st => st.facts) r := by
  rcases r with _ | r
  · rfl
  · rcases r with e | ⟨s1, fx⟩
    · rfl
    · show (some (.ok (interprocAssemble graph
          (fun funcId => ((alistGet (liftMapV2 s1) funcId).getD
            ⟨[], [], [], [], []⟩).facts) fx)) :
            Option (Except InterprocErr InterprocResultP)) =
        some (.ok (interprocAssemble graph
          (fun funcId => ((alistGet s1 funcId).getD ⟨[], []⟩).facts) fx))
      have hfacts : (fun funcId => ((alistGet (liftMapV2 s1) funcId).getD
            ⟨[], [], [], [], []⟩).facts) =
          (fun funcId => (((alistGet s1 funcId).getD ⟨[], []⟩).facts : List FlowFactP)) := by
        funext fid
        rw [alistGet_liftMapV2]
        rcases alistGet s1 fid with _ | st
        · rfl
        · rfl
      rw [hfacts]

/-- **C9.** For every input (mapped call graph, IR map, summary map) in which
no summary edge contains a `heap_read` or `heap_write` node,
`runInterprocPropagationV2` returns exactly `runInterprocPropagationV1`'s
result — the same global fact list, the same per-function fact lists and the
same fixpoint counters — so V2 is a conservative extension of V1 that only
adds behavior for heap nodes. -/
theorem interproc_v1_v2_heapfree_equiv (graph : MappedCallGraphP)
    (irByFuncId : List (FuncIdP × NormalizedFuncIRP))
    (summaryByFuncId : List (FuncIdP × List CheapDepEdgeP))
    (maxSteps : Option Nat) (fuel : Nat)
    (hsumm : ∀ p ∈ summaryByFuncId, ∀ e ∈ p.2, heapFreeEdge e = true) :
    runInterprocPropagationV2 graph irByFuncId summaryByFuncId maxSteps fuel =
      runInterprocPropagationV1 graph irByFuncId summaryByFuncId maxSteps fuel := by
  rw [runInterprocPropagationV1, runInterprocPropagationV2,
    funcInputsOfV2_lift graph irByFuncId summaryByFuncId hsumm]
  rcases hfi : funcInputsOf graph irByFuncId summaryByFuncId with _ | fi1
  · rfl
  · show interprocFinish graph ⟨[], [], [], [], []⟩ (fun st => st.facts)
        (runDeterministicFixpoint graph
          ⟨none, interprocStepV2 graph (fi1.map (fun p => (p.1, inputV2OfV1 p.2))),
            none, maxSteps⟩ [] fuel) =
      interprocFinish graph ⟨[], []⟩ (fun st => st.facts)
        (runDeterministicFixpoint graph
          ⟨none, interprocStepV1 graph fi1, none, maxSteps⟩ [] fuel)
    have hfi' := hfi
    rw [funcInputsOf] at hfi'
    have hshape : ∀ q ∈ fi1, ∃ se, (∀ e ∈ se, heapFreeEdge e = true) ∧
        q.2.baseAdj = buildBaseAdj se ∧ q.2.callsites = callsitesOfIr q.2.ir.stmts := by
      intro q hq
      rcases optMapM_mem _ graph.nodes fi1 hfi' q hq with ⟨a, _, hga⟩
      rcases hir : alistGet irByFuncId a with _ | ir <;> rw [hir] at hga
      · exact Option.noConfusion hga
      · rcases hsm : alistGet summaryByFuncId a with _ | se <;> rw [hsm] at hga
        · exact Option.noConfusion hga
        · have hq2 := Option.some.inj hga
          refine ⟨se, hsumm (a, se) (alistGet_mem summaryByFuncId a se hsm), ?_, ?_⟩
          · rw [← hq2]
          · rw [← hq2]
    have hdrv := runDeterministicFixpoint_map graph
      ⟨none, interprocStepV1 graph fi1, none, maxSteps⟩
      ⟨none, interprocStepV2 graph (fi1.map (fun p => (p.1, inputV2OfV1 p.2))),
        none, maxSteps⟩
      liftMapV2 rfl rfl (fun n => rfl)
      (fun s f => interprocStep_lift graph fi1 hshape s f) [] fuel
    rw [show liftMapV2 [] = ([] : List (FuncIdP × FuncStateV2P)) from rfl] at hdrv
    rw [hdrv]
    exact interprocFinish_lift graph _

theorem interproc_v1_v2_heapfree_equiv_witness :
    (∀ p ∈ [((⟨"t", 0, 10⟩ : FuncIdP),
        [(⟨.var ⟨.p, 0⟩, .ret⟩ : CheapDepEdgeP)])], ∀ e ∈ p.2, heapFreeEdge e = true) ∧
    runInterprocPropagationV2 ⟨[⟨"t", 0, 10⟩], [], [], [], [], []⟩
        [(⟨"t", 0, 10⟩, ⟨⟨"t", 0, 10⟩, [⟨.p, 0⟩], [],
          [.ret ⟨"t", 0, 10, 0⟩ (some (.var ⟨.p, 0⟩))]⟩)]
        [(⟨"t", 0, 10⟩, [⟨.var ⟨.p, 0⟩, .ret⟩])] none 10 =
      runInterprocPropagationV1 ⟨[⟨"t", 0, 10⟩], [], [], [], [], []⟩
        [(⟨"t", 0, 10⟩, ⟨⟨"t", 0, 10⟩, [⟨.p, 0⟩], [],
          [.ret ⟨"t", 0, 10, 0⟩ (some (.var ⟨.p, 0⟩))]⟩)]
        [(⟨"t", 0, 10⟩, [⟨.var ⟨.p, 0⟩, .ret⟩])] none 10 :=
  ⟨by decide,
    interproc_v1_v2_heapfree_equiv ⟨[⟨"t", 0, 10⟩], [], [], [], [], []⟩
      [(⟨"t", 0, 10⟩, ⟨⟨"t", 0, 10⟩, [⟨.p, 0⟩], [],
        [.ret ⟨"t", 0, 10, 0⟩ (some (.var ⟨.p, 0⟩))]⟩)]
      [(⟨"t", 0, 10⟩, [⟨.var ⟨.p, 0⟩, .ret⟩])] none 10 (by decide)⟩

/-! ## Generic fold-membership lemmas -/

theorem foldl_pred_extract {σ β : Type} (step : σ → β → σ) (P : σ → Prop)
    (Gen : β → Prop) (h : ∀ s b, P (step s b) → P s ∨ Gen b) :
    ∀ (l : List β) (s : σ), P (l.foldl step s) → P s ∨ ∃ b ∈ l, Gen b := by
  intro l
  induction l with
  | nil => intro s hp; exact Or.inl hp
  | cons b l ih =>
      intro s hp
      rcases ih (step s b) hp with h2 | ⟨c, hc, hg⟩
      · rcases h s b h2 with h3 | h3
        · exact Or.inl h3
        · exact Or.inr ⟨b, List.mem_cons_self _ _, h3⟩
      · exact Or.inr ⟨c, List.mem_cons_of_mem _ hc, hg⟩

theorem foldl_pred_intro {σ β : Type} (step : σ → β → σ) (P : σ → Prop)
    (Gen : β → Prop) (hmono : ∀ s b, P s → P (step s b))
    (hgen : ∀ s b, Gen b → P (step s b)) :
    ∀ (l : List β) (s : σ) (b : β), b ∈ l → Gen b → P (l.foldl step s) := by
  intro l
  induction l with
  | nil =>
      intro s b hb
      exact absurd hb (by simp)
  | cons c l ih =>
      intro s b hb hg
      rcases List.mem_cons.mp hb with h | h
      · subst h
        exact foldl_invariant P step hmono l _ (hgen s b hg)
      · exact ih _ b h hg

theorem alistAppend_getD_extract {α β : Type} [DecidableEq α]
    (m : List (α × List β)) (k0 : α) (v0 : β) (k : α) (x : β)
    (h : x ∈ (alistGet (alistAppend m k0 v0) k).getD []) :
    x ∈ (alistGet m k).getD [] ∨ (k = k0 ∧ x = v0) := by
  by_cases hk : k = k0
  · subst hk
    rw [alistAppend] at h
    rcases hg : alistGet m k with _ | arr <;> rw [hg] at h <;>
      rw [alistGet_alistSet_self] at h
    · exact Or.inr ⟨rfl, by simpa using h⟩
    · simp only [Option.getD_some] at h
      rcases List.mem_append.mp h with h2 | h2
      · exact Or.inl (by simpa using h2)
      · exact Or.inr ⟨rfl, List.mem_singleton.mp h2⟩
  · rw [alistAppend] at h
    rcases hg : alistGet m k0 with _ | arr <;> rw [hg] at h <;>
      rw [alistGet_alistSet_ne _ _ _ _ hk] at h <;> exact Or.inl h

theorem mem_keys_alistSet {α β : Type} [DecidableEq α]
    (m : List (α × β)) (k1 : α) (v : β) (k : α) :
    k ∈ (alistSet m k1 v).map Prod.fst ↔ k ∈ m.map Prod.fst ∨ k = k1 := by
  induction m with
  | nil => simp [alistSet]
  | cons p rest ih =>
      by_cases h1 : p.1 = k1
      · show k ∈ ((if p.1 = k1 then (p.1, v) :: rest else
            p :: alistSet rest k1 v).map Prod.fst) ↔ _
        rw [if_pos h1, h1]
        constructor
        · intro h
          rcases List.mem_map.mp h with ⟨q, hq, hqk⟩
          rcases List.mem_cons.mp hq with h2 | h2
          · exact Or.inr (by rw [← hqk, h2])
          · exact Or.inl (List.mem_map.mpr ⟨q, List.mem_cons_of_mem _ h2, hqk⟩)
        · intro h
          rcases h with h | h
          · rcases List.mem_map.mp h with ⟨q, hq, hqk⟩
            rcases List.mem_cons.mp hq with h2 | h2
            · exact List.mem_map.mpr ⟨(k1, v), List.mem_cons_self _ _,
                by rw [← hqk, h2, h1]⟩
            · exact List.mem_map.mpr ⟨q, List.mem_cons_of_mem _ h2, hqk⟩
          · exact List.mem_map.mpr ⟨(k1, v), List.mem_cons_self _ _, h.symm⟩
      · show k ∈ ((if p.1 = k1 then (p.1, v) :: rest else
            p :: alistSet rest k1 v).map Prod.fst) ↔ _
        rw [if_neg h1]
        simp only [List.map_cons, List.mem_cons]
        rw [ih]
        constructor
        · intro h
          rcases h with h | h | h
          · exact Or.inl (Or.inl h)
          · exact Or.inl (Or.inr h)
          · exact Or.inr h
        · intro h
          rcases h with (h | h) | h
          · exact Or.inl h
          · exact Or.inr (Or.inl h)
          · exact Or.inr (Or.inr h)

theorem mem_keys_alistAppend {α β : Type} [DecidableEq α]
    (m : List (α × List β)) (k0 : α) (v0 : β) (k : α) :
    k ∈ (alistAppend m k0 v0).map Prod.fst ↔ k ∈ m.map Prod.fst ∨ k = k0 := by
  rw [alistAppend]
  rcases hg : alistGet m k0 with _ | arr
  · exact mem_keys_alistSet m k0 [v0] k
  · exact mem_keys_alistSet m k0 (arr ++ [v0]) k

/-! ## BFS enqueue-fold lemmas -/

theorem bfsFold_grow : ∀ (l : List LNodeP) (p : List LNodeP × List LNodeP),
    p.1 ⊆ (l.foldl bfsEnqueue p).1 ∧ p.2 ⊆ (l.foldl bfsEnqueue p).2 := by
  intro l
  induction l with
  | nil => intro p; exact ⟨fun _ h => h, fun _ h => h⟩
  | cons nxt l ih =>
      intro p
      rw [List.foldl_cons]
      refine ⟨fun x hx => ?_, fun x hx => ?_⟩
      · refine (ih (bfsEnqueue p nxt)).1 ?_
        rw [bfsEnqueue]
        split
        · exact hx
        · exact List.mem_append.mpr (Or.inl hx)
      · refine (ih (bfsEnqueue p nxt)).2 ?_
        rw [bfsEnqueue]
        split
        · exact hx
        · exact List.mem_append.mpr (Or.inl hx)

theorem bfsFold_extract : ∀ (l : List LNodeP) (p : List LNodeP × List LNodeP)
    (x : LNodeP),
    (x ∈ (l.foldl bfsEnqueue p).1 → x ∈ p.1 ∨ x ∈ l) ∧
    (x ∈ (l.foldl bfsEnqueue p).2 → x ∈ p.2 ∨ x ∈ l) := by
  intro l
  induction l with
  | nil => intro p x; exact ⟨fun h => Or.inl h, fun h => Or.inl h⟩
  | cons nxt l ih =>
      intro p x
      rw [List.foldl_cons]
      constructor
      · intro hx
        rcases (ih (bfsEnqueue p nxt) x).1 hx with h | h
        · rw [bfsEnqueue] at h
          split at h
          · exact Or.inl h
          · rcases List.mem_append.mp h with h2 | h2
            · exact Or.inl h2
            · exact Or.inr (by
                rw [List.mem_singleton.mp h2]
                exact List.mem_cons_self _ _)
        · exact Or.inr (List.mem_cons_of_mem _ h)
      · intro hx
        rcases (ih (bfsEnqueue p nxt) x).2 hx with h | h
        · rw [bfsEnqueue] at h
          split at h
          · exact Or.inl h
          · rcases List.mem_append.mp h with h2 | h2
            · exact Or.inl h2
            · exact Or.inr (by
                rw [List.mem_singleton.mp h2]
                exact List.mem_cons_self _ _)
        · exact Or.inr (List.mem_cons_of_mem _ h)

theorem bfsFold_q_sub_v : ∀ (l : List LNodeP) (p : List LNodeP × List LNodeP),
    p.1 ⊆ p.2 → (l.foldl bfsEnqueue p).1 ⊆ (l.foldl bfsEnqueue p).2 := by
  intro l
  refine fun p h => (foldl_invariant
    (fun (p : List LNodeP × List LNodeP) => p.1 ⊆ p.2) bfsEnqueue ?_ l p h)
  intro p nxt hp x hx
  rw [bfsEnqueue] at hx ⊢
  split at hx
  · rw [if_pos (by assumption)]
    exact hp hx
  · rw [if_neg (by assumption)]
    rcases List.mem_append.mp hx with h2 | h2
    · exact List.mem_append.mpr (Or.inl (hp h2))
    · exact List.mem_append.mpr (Or.inr h2)

theorem bfsFold_nodup : ∀ (l : List LNodeP) (p : List LNodeP × List LNodeP),
    p.2.Nodup → (l.foldl bfsEnqueue p).2.Nodup := by
  intro l
  refine fun p h => (foldl_invariant
    (fun (p : List LNodeP × List LNodeP) => p.2.Nodup) bfsEnqueue ?_ l p h)
  intro p nxt hp
  rw [bfsEnqueue]
  split
  · exact hp
  · exact List.Nodup.append hp (List.nodup_singleton _)
      (by
        intro a ha hb
        rw [List.mem_singleton.mp hb] at ha
        exact absurd ha (by assumption))

theorem bfsFold_all_visited : ∀ (l : List LNodeP) (p : List LNodeP × List LNodeP),
    ∀ x ∈ l, x ∈ (l.foldl bfsEnqueue p).2 := by
  intro l
  induction l with
  | nil =>
      intro p x hx
      exact absurd hx (by simp)
  | cons nxt l ih =>
      intro p x hx
      rw [List.foldl_cons]
      rcases List.mem_cons.mp hx with h | h
      · subst h
        refine (bfsFold_grow l (bfsEnqueue p x)).2 ?_
        rw [bfsEnqueue]
        split
        · assumption
        · exact List.mem_append.mpr (Or.inr (List.mem_singleton.mpr rfl))
      · exact ih (bfsEnqueue p nxt) x h

theorem bfsFold_new_in_queue (v0 : List LNodeP) :
    ∀ (l : List LNodeP) (p : List LNodeP × List LNodeP),
      (∀ x ∈ p.2, x ∈ v0 ∨ x ∈ p.1) →
      ∀ x ∈ (l.foldl bfsEnqueue p).2, x ∈ v0 ∨ x ∈ (l.foldl bfsEnqueue p).1 := by
  intro l p h
  refine foldl_invariant
    (fun (p : List LNodeP × List LNodeP) => ∀ x ∈ p.2, x ∈ v0 ∨ x ∈ p.1)
    bfsEnqueue ?_ l p h
  intro p nxt hp x hx
  rw [bfsEnqueue] at hx ⊢
  split at hx
  · rw [if_pos (by assumption)]
    exact hp x hx
  · rw [if_neg (by assumption)]
    rcases List.mem_append.mp hx with h2 | h2
    · rcases hp x h2 with h3 | h3
      · exact Or.inl h3
      · exact Or.inr (List.mem_append.mpr (Or.inl h3))
    · exact Or.inr (List.mem_append.mpr (Or.inr h2))

theorem bfsFold_length : ∀ (l : List LNodeP) (p : List LNodeP × List LNodeP),
    (l.foldl bfsEnqueue p).1.length + p.2.length =
      p.1.length + (l.foldl bfsEnqueue p).2.length := by
  intro l
  induction l with
  | nil =>
      intro p
      simp
  | cons nxt l ih =>
      intro p
      rw [List.foldl_cons, bfsEnqueue]
      by_cases hmem : nxt ∈ p.2
      · rw [if_pos hmem]
        exact ih p
      · rw [if_neg hmem]
        have h := ih (p.1 ++ [nxt], p.2 ++ [nxt])
        simp only [List.length_append, List.length_singleton] at h ⊢
        omega

/-! ## BFS reachability characterization -/

theorem bfs_visited_subset (adj : LNodeP → List LNodeP) :
    ∀ (fuel : Nat) (queue visited : List LNodeP),
      visited ⊆ bfsReach adj fuel queue visited := by
  intro fuel
  induction fuel with
  | zero => intro queue visited x hx; exact hx
  | succ fuel ih =>
      intro queue visited x hx
      rcases queue with _ | ⟨cur, rest⟩
      · exact hx
      · rw [bfsReach]
        exact ih _ _ ((bfsFold_grow (adj cur) (rest, visited)).2 hx)

theorem bfs_complete (adj : LNodeP → List LNodeP) (univ : List LNodeP)
    (hadj : ∀ n, ∀ x ∈ adj n, x ∈ univ) :
    ∀ (fuel : Nat) (queue visited : List LNodeP),
      queue ⊆ visited → visited.Nodup → visited ⊆ univ →
      (∀ n ∈ visited, n ∈ queue ∨ ∀ v ∈ adj n, v ∈ visited) →
      queue.length + univ.length ≤ fuel + visited.length →
      ∀ n ∈ bfsReach adj fuel queue visited, ∀ v ∈ adj n,
        v ∈ bfsReach adj fuel queue visited := by
  intro fuel
  induction fuel with
  | zero =>
      intro queue visited hqv hnd huniv hcl hfuel n hn v hv
      have hlen : visited.length ≤ univ.length :=
        (hnd.subperm huniv).length_le
      rcases queue with _ | ⟨c, r⟩
      · rcases hcl n hn with h | h
        · exact absurd h (by simp)
        · exact h v hv
      · exact absurd hfuel (by
          simp only [List.length_cons]
          omega)
  | succ fuel ih =>
      intro queue visited hqv hnd huniv hcl hfuel n hn v hv
      rcases queue with _ | ⟨cur, rest⟩
      · rcases hcl n hn with h | h
        · exact absurd h (by simp)
        · exact h v hv
      · rw [bfsReach] at hn ⊢
        refine ih ((adj cur).foldl bfsEnqueue (rest, visited)).1
          ((adj cur).foldl bfsEnqueue (rest, visited)).2 ?_ ?_ ?_ ?_ ?_ n hn v hv
        · exact bfsFold_q_sub_v (adj cur) (rest, visited)
            (fun x hx => hqv (List.mem_cons_of_mem _ hx))
        · exact bfsFold_nodup (adj cur) (rest, visited) hnd
        · intro x hx
          rcases (bfsFold_extract (adj cur) (rest, visited) x).2 hx with h | h
          · exact huniv h
          · exact hadj cur x h
        · intro n2 hn2
          rcases bfsFold_new_in_queue visited (adj cur) (rest, visited)
              (fun x hx => Or.inl hx) n2 hn2 with h | h
          · rcases hcl n2 h with h2 | h2
            · rcases List.mem_cons.mp h2 with h3 | h3
              · subst h3
                exact Or.inr (fun v2 hv2 =>
                  bfsFold_all_visited (adj n2) (rest, visited) v2 hv2)
              · exact Or.inl ((bfsFold_grow (adj cur) (rest, visited)).1 h3)
            · exact Or.inr (fun v2 hv2 =>
                (bfsFold_grow (adj cur) (rest, visited)).2 (h2 v2 hv2))
          · exact Or.inl h
        · have hlen := bfsFold_length (adj cur) (rest, visited)
          dsimp only at hlen
          simp only [List.length_cons] at hfuel
          omega

theorem bfs_sound (adj : LNodeP → List LNodeP) (s : LNodeP) :
    ∀ (fuel : Nat) (queue visited : List LNodeP),
      (∀ n ∈ queue, Relation.ReflTransGen (fun a b => b ∈ adj a) s n) →
      (∀ n ∈ visited, Relation.ReflTransGen (fun a b => b ∈ adj a) s n) →
      ∀ x ∈ bfsReach adj fuel queue visited,
        Relation.ReflTransGen (fun a b => b ∈ adj a) s x := by
  intro fuel
  induction fuel with
  | zero => intro queue visited _ hv x hx; exact hv x hx
  | succ fuel ih =>
      intro queue visited hq hv x hx
      rcases queue with _ | ⟨cur, rest⟩
      · exact hv x hx
      · rw [bfsReach] at hx
        refine ih ((adj cur).foldl bfsEnqueue (rest, visited)).1
          ((adj cur).foldl bfsEnqueue (rest, visited)).2 ?_ ?_ x hx
        · intro n hn
          rcases (bfsFold_extract (adj cur) (rest, visited) n).1 hn with h | h
          · exact hq n (List.mem_cons_of_mem _ h)
          · exact Relation.ReflTransGen.tail (hq cur (List.mem_cons_self _ _)) h
        · intro n hn
          rcases (bfsFold_extract (adj cur) (rest, visited) n).2 hn with h | h
          · exact hv n h
          · exact Relation.ReflTransGen.tail (hq cur (List.mem_cons_self _ _)) h

theorem closed_reach_mem (adj : LNodeP → List LNodeP) (R : List LNodeP)
    (hclosed : ∀ n ∈ R, ∀ v ∈ adj n, v ∈ R) (s : LNodeP) (hs : s ∈ R) :
    ∀ x, Relation.ReflTransGen (fun a b => b ∈ adj a) s x → x ∈ R := by
  intro x hx
  induction hx with
  | refl => exact hs
  | tail hab hbc ih => exact hclosed _ ih _ hbc

theorem adjWeight_init (m : List (LNodeP × List LNodeP)) :
    ∀ (init : Nat), m.foldl (fun n p => n + 1 + p.2.length) init = init + adjWeight m := by
  induction m with
  | nil => intro init; simp [adjWeight]
  | cons p m ih =>
      intro init
      rw [adjWeight, List.foldl_cons, List.foldl_cons, ih, ih]
      omega

theorem adjValues_length_le (m : List (LNodeP × List LNodeP)) :
    (m.flatMap Prod.snd).length ≤ adjWeight m := by
  induction m with
  | nil => simp [adjWeight]
  | cons p m ih =>
      rw [adjWeight, List.foldl_cons, adjWeight_init]
      simp only [List.flatMap_cons, List.length_append]
      have : adjWeight m = (m.foldl (fun n p => n + 1 + p.2.length) 0) := rfl
      omega

theorem getNeighbors_subset_values (base extra : List (LNodeP × List LNodeP))
    (n : LNodeP) :
    ∀ x ∈ getNeighbors base extra n,
      x ∈ base.flatMap Prod.snd ++ extra.flatMap Prod.snd := by
  intro x hx
  rw [getNeighbors] at hx
  rcases hgb : alistGet base n with _ | a <;> rw [hgb] at hx
  · rcases hge : alistGet extra n with _ | b <;> rw [hge] at hx
    · exact absurd hx (by simp)
    · exact List.mem_append.mpr (Or.inr
        (List.mem_flatMap.mpr ⟨(n, b), alistGet_mem extra n b hge, hx⟩))
  · rcases hge : alistGet extra n with _ | b <;> rw [hge] at hx
    · exact List.mem_append.mpr (Or.inl
        (List.mem_flatMap.mpr ⟨(n, a), alistGet_mem base n a hgb, hx⟩))
    · rcases List.mem_append.mp hx with h | h
      · exact List.mem_append.mpr (Or.inl
          (List.mem_flatMap.mpr ⟨(n, a), alistGet_mem base n a hgb, h⟩))
      · exact List.mem_append.mpr (Or.inr
          (List.mem_flatMap.mpr ⟨(n, b), alistGet_mem extra n b hge, h⟩))

theorem bfsReach_start_sound (base extra : List (LNodeP × List LNodeP))
    (s x : LNodeP)
    (h : x ∈ bfsReach (getNeighbors base extra) (bfsFuel base extra) [s] [s]) :
    Relation.ReflTransGen (fun a b => b ∈ getNeighbors base extra a) s x :=
  bfs_sound _ s _ [s] [s]
    (by
      intro n hn
      rw [List.mem_singleton.mp hn])
    (by
      intro n hn
      rw [List.mem_singleton.mp hn]) x h

theorem bfsReach_start_complete (base extra : List (LNodeP × List LNodeP))
    (s x : LNodeP)
    (h : Relation.ReflTransGen (fun a b => b ∈ getNeighbors base extra a) s x) :
    x ∈ bfsReach (getNeighbors base extra) (bfsFuel base extra) [s] [s] := by
  refine closed_reach_mem _ _ ?_ s ?_ x h
  · refine bfs_complete _ (s :: (base.flatMap Prod.snd ++ extra.flatMap Prod.snd))
      ?_ (bfsFuel base extra) [s] [s] ?_ ?_ ?_ ?_ ?_
    · intro n x2 hx2
      exact List.mem_cons_of_mem _ (getNeighbors_subset_values base extra n x2 hx2)
    · exact fun a ha => ha
    · exact List.nodup_singleton s
    · intro a ha
      rw [List.mem_singleton.mp ha]
      exact List.mem_cons_self _ _
    · intro n hn
      exact Or.inl hn
    · have h1 := adjValues_length_le base
      have h2 := adjValues_length_le extra
      rw [bfsFuel]
      simp only [List.length_singleton, List.length_cons, List.length_append]
      omega
  · exact bfs_visited_subset _ _ _ _ (List.mem_singleton.mpr rfl)

/-! ## Monotonicity machinery -/

theorem reach_mono {adj adj' : LNodeP → List LNodeP}
    (h : ∀ n, ∀ x ∈ adj n, x ∈ adj' n) (s x : LNodeP)
    (hr : Relation.ReflTransGen (fun a b => b ∈ adj a) s x) :
    Relation.ReflTransGen (fun a b => b ∈ adj' a) s x := by
  induction hr with
  | refl => exact Relation.ReflTransGen.refl
  | tail hab hbc ih => exact ih.tail (h _ _ hbc)

theorem mem_getNeighbors_iff (base extra : List (LNodeP × List LNodeP))
    (n x : LNodeP) :
    x ∈ getNeighbors base extra n ↔
      x ∈ (alistGet base n).getD [] ∨ x ∈ (alistGet extra n).getD [] := by
  rw [getNeighbors]
  rcases alistGet base n with _ | a <;> rcases alistGet extra n with _ | b <;> simp

/-- Transfer membership across a possibly different fold on a larger list
with a larger accumulator. -/
theorem foldl_le_master2 {σ σ2 β : Type} (step : σ → β → σ) (step' : σ2 → β → σ2)
    (P : σ → Prop) (P' : σ2 → Prop) (Gen Gen' : β → Prop)
    (hext : ∀ s b, P (step s b) → P s ∨ Gen b)
    (hmono : ∀ s b, P' s → P' (step' s b))
    (hgen : ∀ s b, Gen' b → P' (step' s b))
    (hGG : ∀ b, Gen b → Gen' b)
    (l l' : List β) (hl : l ⊆ l') (s : σ) (s' : σ2) (hacc : P s → P' s')
    (h : P (l.foldl step s)) : P' (l'.foldl step' s') := by
  rcases foldl_pred_extract step P Gen hext l s h with h2 | ⟨b, hb, hg⟩
  · exact foldl_invariant P' step' hmono l' s' (hacc h2)
  · exact foldl_pred_intro step' P' Gen' hmono hgen l' s' b (hl hb) (hGG b hg)

theorem calleeIdxSet_mono2 (argc : Nat) (callees : List FuncIdP)
    (m m' : List (FuncIdP × FuncStateV2P)) (hle : mapLeV2 m m') (z : Nat)
    (hz : z ∈ calleeIdxSet (fun st => st.paramReturnIndices) argc callees m) :
    z ∈ calleeIdxSet (fun st => st.paramReturnIndices) argc callees m' := by
  rw [calleeIdxSet] at hz ⊢
  refine foldl_le_master2 _ _ (fun s => z ∈ s) (fun s => z ∈ s)
    (fun G => ∃ st, alistGet m G = some st ∧ z ∈ st.paramReturnIndices ∧ z < argc)
    (fun G => ∃ st, alistGet m' G = some st ∧ z ∈ st.paramReturnIndices ∧ z < argc)
    ?_ ?_ ?_ ?_ callees callees (fun a ha => ha) [] [] (fun h => h) hz
  · intro s G h
    rcases hG : alistGet m G with _ | st <;> rw [hG] at h
    · exact Or.inl h
    · have hinner : ∀ (s2 : List Nat) (idx : Nat),
          z ∈ (if idx ≥ argc then s2 else setInsert s2 idx) →
          z ∈ s2 ∨ (idx = z ∧ z < argc) := by
        intro s2 idx h2
        by_cases hge : idx ≥ argc
        · rw [if_pos hge] at h2
          exact Or.inl h2
        · rw [if_neg hge] at h2
          rcases mem_setInsert s2 idx z h2 with h3 | h3
          · exact Or.inl h3
          · exact Or.inr ⟨h3.symm, by omega⟩
      rcases foldl_pred_extract _ (fun s => z ∈ s) (fun idx => idx = z ∧ z < argc)
        hinner st.paramReturnIndices s h with h2 | ⟨idx, hidx, h3, h4⟩
      · exact Or.inl h2
      · exact Or.inr ⟨st, hG, h3 ▸ hidx, h4⟩
  · intro s G h
    rcases alistGet m' G with _ | st
    · exact h
    · refine foldl_invariant (fun s => z ∈ s) _ ?_ st.paramReturnIndices s h
      intro s2 idx h2
      by_cases hge : idx ≥ argc
      · rw [if_pos hge]
        exact h2
      · rw [if_neg hge]
        exact setInsert_mono s2 z idx h2
  · intro s G hg
    rcases hg with ⟨st, hG, hzin, hlt⟩
    rw [hG]
    refine foldl_pred_intro _ (fun s => z ∈ s) (fun idx => idx = z) ?_ ?_
      st.paramReturnIndices s z hzin rfl
    · intro s2 idx h2
      by_cases hge : idx ≥ argc
      · rw [if_pos hge]
        exact h2
      · rw [if_neg hge]
        exact setInsert_mono s2 z idx h2
    · intro s2 idx h2
      subst h2
      rw [if_neg (by omega)]
      exact setInsert_self s2 idx
  · intro G hg
    rcases hg with ⟨st, hG, hzin, hlt⟩
    rcases hle G st hG with ⟨st', hG', hsle⟩
    exact ⟨st', hG', hsle.2.1 hzin, hlt⟩

theorem calleeEffects_mono2 {ε : Type} [DecidableEq ε] (proj : FuncStateV2P → List ε)
    (keep : ε → Bool) (callees : List FuncIdP)
    (m m' : List (FuncIdP × FuncStateV2P)) (hle : mapLeV2 m m')
    (hproj : ∀ a b, stateLeV2 a b → proj a ⊆ proj b) (x : ε)
    (hx : x ∈ calleeEffects proj keep callees m) :
    x ∈ calleeEffects proj keep callees m' := by
  rw [calleeEffects] at hx ⊢
  refine foldl_le_master2 _ _ (fun s => x ∈ s) (fun s => x ∈ s)
    (fun G => ∃ st, alistGet m G = some st ∧ x ∈ proj st ∧ keep x = true)
    (fun G => ∃ st, alistGet m' G = some st ∧ x ∈ proj st ∧ keep x = true)
    ?_ ?_ ?_ ?_ callees callees (fun a ha => ha) [] [] (fun h => h) hx
  · intro s G h
    rcases hG : alistGet m G with _ | st <;> rw [hG] at h
    · exact Or.inl h
    · have hinner : ∀ (s2 : List ε) (e : ε),
          x ∈ (if keep e = true then setInsert s2 e else s2) →
          x ∈ s2 ∨ (e = x ∧ keep x = true) := by
        intro s2 e h2
        by_cases hk : keep e = true
        · rw [if_pos hk] at h2
          rcases mem_setInsert s2 e x h2 with h3 | h3
          · exact Or.inl h3
          · exact Or.inr ⟨h3.symm, h3 ▸ hk⟩
        · rw [if_neg hk] at h2
          exact Or.inl h2
      rcases foldl_pred_extract _ (fun s => x ∈ s) (fun e => e = x ∧ keep x = true)
        hinner (proj st) s h with h2 | ⟨e, he, h3, h4⟩
      · exact Or.inl h2
      · exact Or.inr ⟨st, hG, h3 ▸ he, h4⟩
  · intro s G h
    rcases alistGet m' G with _ | st
    · exact h
    · refine foldl_invariant (fun s => x ∈ s) _ ?_ (proj st) s h
      intro s2 e h2
      by_cases hk : keep e = true
      · rw [if_pos hk]
        exact setInsert_mono s2 x e h2
      · rw [if_neg hk]
        exact h2
  · intro s G hg
    rcases hg with ⟨st, hG, hxin, hk⟩
    rw [hG]
    refine foldl_pred_intro _ (fun s => x ∈ s) (fun e => e = x) ?_ ?_
      (proj st) s x hxin rfl
    · intro s2 e h2
      by_cases hke : keep e = true
      · rw [if_pos hke]
        exact setInsert_mono s2 x e h2
      · rw [if_neg hke]
        exact h2
    · intro s2 e h2
      subst h2
      rw [if_pos hk]
      exact setInsert_self s2 e
  · intro G hg
    rcases hg with ⟨st, hG, hxin, hk⟩
    rcases hle G st hG with ⟨st', hG', hsle⟩
    exact ⟨st', hG', hproj st st' hsle hxin, hk⟩

theorem extraV2ForCallsite_mono2 (func : FuncInputV2P)
    (cbc : List (CallsiteIdP × List FuncIdP))
    (m m' : List (FuncIdP × FuncStateV2P)) (hle : mapLeV2 m m')
    (p : CallsiteIdP × CallsiteInfoV2P) (extra extra' : List (LNodeP × List LNodeP))
    (hacc : adjMapLe extra extra') :
    adjMapLe (extraV2ForCallsite func cbc m extra p)
      (extraV2ForCallsite func cbc m' extra' p) := by
  obtain ⟨cs, dstOpt, argc, argVars⟩ := p
  intro k x
  rcases dstOpt with _ | d <;> intro hx <;> simp only [extraV2ForCallsite] at hx ⊢
  · refine foldl_le_master2 _ _
      (fun e => x ∈ (alistGet e k).getD []) (fun e => x ∈ (alistGet e k).getD [])
      (fun b => ∃ rh wh,
        mapHeapBucketToCaller func ⟨none, argc, argVars⟩ b.readObjectParamIndex
          b.readPropertyName = some rh ∧
        mapHeapBucketToCaller func ⟨none, argc, argVars⟩ b.writeObjectParamIndex
          b.writePropertyName = some wh ∧
        k = LNodeP.heapRead rh ∧ x = LNodeP.heapWrite wh)
      (fun b => ∃ rh wh,
        mapHeapBucketToCaller func ⟨none, argc, argVars⟩ b.readObjectParamIndex
          b.readPropertyName = some rh ∧
        mapHeapBucketToCaller func ⟨none, argc, argVars⟩ b.writeObjectParamIndex
          b.writePropertyName = some wh ∧
        k = LNodeP.heapRead rh ∧ x = LNodeP.heapWrite wh)
      ?_ ?_ ?_ (fun b h => h) _ _ ?_ _ _ ?_ hx
    · intro s b h
      rcases hm1 : mapHeapBucketToCaller func ⟨none, argc, argVars⟩
          b.readObjectParamIndex b.readPropertyName with _ | rh <;> rw [hm1] at h <;>
        rcases hm2 : mapHeapBucketToCaller func ⟨none, argc, argVars⟩
          b.writeObjectParamIndex b.writePropertyName with _ | wh <;> rw [hm2] at h
      · exact Or.inl h
      · exact Or.inl h
      · exact Or.inl h
      · rcases alistAppend_getD_extract s _ _ k x h with h2 | ⟨hk, hx2⟩
        · exact Or.inl h2
        · exact Or.inr ⟨rh, wh, hm1, hm2, hk, hx2⟩
    · intro s b h
      rcases mapHeapBucketToCaller func ⟨none, argc, argVars⟩
          b.readObjectParamIndex b.readPropertyName with _ | rh <;>
        rcases mapHeapBucketToCaller func ⟨none, argc, argVars⟩
          b.writeObjectParamIndex b.writePropertyName with _ | wh
      · exact h
      · exact h
      · exact h
      · exact alistAppend_get_mono s _ k _ x h
    · intro s b hg
      obtain ⟨rh, wh, hm1, hm2, hk, hx2⟩ := hg
      rw [hm1, hm2]
      subst hk
      subst hx2
      exact alistAppend_get_self s _ _
    · intro b hb
      exact (stableSortBy_mem _ _ b).mpr
        (calleeEffects_mono2 _ _ _ m m' hle (fun a c hac => hac.2.2.2.2) b
          ((stableSortBy_mem _ _ b).mp hb))
    · intro h2
      refine foldl_le_master2 _ _
        (fun e => x ∈ (alistGet e k).getD []) (fun e => x ∈ (alistGet e k).getD [])
        (fun b => ∃ hid,
          mapHeapBucketToCaller func ⟨none, argc, argVars⟩ b.objectParamIndex
            b.propertyName = some hid ∧
          k = LNodeP.callArg cs b.valueParamIndex ∧ x = LNodeP.heapWrite hid)
        (fun b => ∃ hid,
          mapHeapBucketToCaller func ⟨none, argc, argVars⟩ b.objectParamIndex
            b.propertyName = some hid ∧
          k = LNodeP.callArg cs b.valueParamIndex ∧ x = LNodeP.heapWrite hid)
        ?_ ?_ ?_ (fun b h => h) _ _ ?_ _ _ ?_ h2
      · intro s b h
        rcases hm1 : mapHeapBucketToCaller func ⟨none, argc, argVars⟩
            b.objectParamIndex b.propertyName with _ | hid <;> rw [hm1] at h
        · exact Or.inl h
        · rcases alistAppend_getD_extract s _ _ k x h with h3 | ⟨hk, hx2⟩
          · exact Or.inl h3
          · exact Or.inr ⟨hid, hm1, hk, hx2⟩
      · intro s b h
        rcases mapHeapBucketToCaller func ⟨none, argc, argVars⟩
            b.objectParamIndex b.propertyName with _ | hid
        · exact h
        · exact alistAppend_get_mono s _ k _ x h
      · intro s b hg
        obtain ⟨hid, hm1, hk, hx2⟩ := hg
        rw [hm1]
        subst hk
        subst hx2
        exact alistAppend_get_self s _ _
      · intro b hb
        exact (stableSortBy_mem _ _ b).mpr
          (calleeEffects_mono2 _ _ _ m m' hle (fun a c hac => hac.2.2.1) b
            ((stableSortBy_mem _ _ b).mp hb))
      · intro h3
        exact hacc k x h3
  · refine foldl_le_master2 _ _
      (fun e => x ∈ (alistGet e k).getD []) (fun e => x ∈ (alistGet e k).getD [])
      (fun b => ∃ rh wh,
        mapHeapBucketToCaller func ⟨some d, argc, argVars⟩ b.readObjectParamIndex
          b.readPropertyName = some rh ∧
        mapHeapBucketToCaller func ⟨some d, argc, argVars⟩ b.writeObjectParamIndex
          b.writePropertyName = some wh ∧
        k = LNodeP.heapRead rh ∧ x = LNodeP.heapWrite wh)
      (fun b => ∃ rh wh,
        mapHeapBucketToCaller func ⟨some d, argc, argVars⟩ b.readObjectParamIndex
          b.readPropertyName = some rh ∧
        mapHeapBucketToCaller func ⟨some d, argc, argVars⟩ b.writeObjectParamIndex
          b.writePropertyName = some wh ∧
        k = LNodeP.heapRead rh ∧ x = LNodeP.heapWrite wh)
      ?_ ?_ ?_ (fun b h => h) _ _ ?_ _ _ ?_ hx
    · intro s b h
      rcases hm1 : mapHeapBucketToCaller func ⟨some d, argc, argVars⟩
          b.readObjectParamIndex b.readPropertyName with _ | rh <;> rw [hm1] at h <;>
        rcases hm2 : mapHeapBucketToCaller func ⟨some d, argc, argVars⟩
          b.writeObjectParamIndex b.writePropertyName with _ | wh <;> rw [hm2] at h
      · exact Or.inl h
      · exact Or.inl h
      · exact Or.inl h
      · rcases alistAppend_getD_extract s _ _ k x h with h2 | ⟨hk, hx2⟩
        · exact Or.inl h2
        · exact Or.inr ⟨rh, wh, hm1, hm2, hk, hx2⟩
    · intro s b h
      rcases mapHeapBucketToCaller func ⟨some d, argc, argVars⟩
          b.readObjectParamIndex b.readPropertyName with _ | rh <;>
        rcases mapHeapBucketToCaller func ⟨some d, argc, argVars⟩
          b.writeObjectParamIndex b.writePropertyName with _ | wh
      · exact h
      · exact h
      · exact h
      · exact alistAppend_get_mono s _ k _ x h
    · intro s b hg
      obtain ⟨rh, wh, hm1, hm2, hk, hx2⟩ := hg
      rw [hm1, hm2]
      subst hk
      subst hx2
      exact alistAppend_get_self s _ _
    · intro b hb
      exact (stableSortBy_mem _ _ b).mpr
        (calleeEffects_mono2 _ _ _ m m' hle (fun a c hac => hac.2.2.2.2) b
          ((stableSortBy_mem _ _ b).mp hb))
    · intro h2
      refine foldl_le_master2 _ _
        (fun e => x ∈ (alistGet e k).getD []) (fun e => x ∈ (alistGet e k).getD [])
        (fun b => ∃ hid,
          mapHeapBucketToCaller func ⟨some d, argc, argVars⟩ b.objectParamIndex
            b.propertyName = some hid ∧
          k = LNodeP.heapRead hid ∧ x = LNodeP.var d)
        (fun b => ∃ hid,
          mapHeapBucketToCaller func ⟨some d, argc, argVars⟩ b.objectParamIndex
            b.propertyName = some hid ∧
          k = LNodeP.heapRead hid ∧ x = LNodeP.var d)
        ?_ ?_ ?_ (fun b h => h) _ _ ?_ _ _ ?_ h2
      · intro s b h
        rcases hm1 : mapHeapBucketToCaller func ⟨some d, argc, argVars⟩
            b.objectParamIndex b.propertyName with _ | hid <;> rw [hm1] at h
        · exact Or.inl h
        · rcases alistAppend_getD_extract s _ _ k x h with h3 | ⟨hk, hx2⟩
          · exact Or.inl h3
          · exact Or.inr ⟨hid, hm1, hk, hx2⟩
      · intro s b h
        rcases mapHeapBucketToCaller func ⟨some d, argc, argVars⟩
            b.objectParamIndex b.propertyName with _ | hid
        · exact h
        · exact alistAppend_get_mono s _ k _ x h
      · intro s b hg
        obtain ⟨hid, hm1, hk, hx2⟩ := hg
        rw [hm1]
        subst hk
        subst hx2
        exact alistAppend_get_self s _ _
      · intro b hb
        exact (stableSortBy_mem _ _ b).mpr
          (calleeEffects_mono2 _ _ _ m m' hle (fun a c hac => hac.2.2.2.1) b
            ((stableSortBy_mem _ _ b).mp hb))
      · intro h3
        refine foldl_le_master2 _ _
          (fun e => x ∈ (alistGet e k).getD []) (fun e => x ∈ (alistGet e k).getD [])
          (fun b => ∃ hid,
            mapHeapBucketToCaller func ⟨some d, argc, argVars⟩ b.objectParamIndex
              b.propertyName = some hid ∧
            k = LNodeP.callArg cs b.valueParamIndex ∧ x = LNodeP.heapWrite hid)
          (fun b => ∃ hid,
            mapHeapBucketToCaller func ⟨some d, argc, argVars⟩ b.objectParamIndex
              b.propertyName = some hid ∧
            k = LNodeP.callArg cs b.valueParamIndex ∧ x = LNodeP.heapWrite hid)
          ?_ ?_ ?_ (fun b h => h) _ _ ?_ _ _ ?_ h3
        · intro s b h
          rcases hm1 : mapHeapBucketToCaller func ⟨some d, argc, argVars⟩
              b.objectParamIndex b.propertyName with _ | hid <;> rw [hm1] at h
          · exact Or.inl h
          · rcases alistAppend_getD_extract s _ _ k x h with h4 | ⟨hk, hx2⟩
            · exact Or.inl h4
            · exact Or.inr ⟨hid, hm1, hk, hx2⟩
        · intro s b h
          rcases mapHeapBucketToCaller func ⟨some d, argc, argVars⟩
              b.objectParamIndex b.propertyName with _ | hid
          · exact h
          · exact alistAppend_get_mono s _ k _ x h
        · intro s b hg
          obtain ⟨hid, hm1, hk, hx2⟩ := hg
          rw [hm1]
          subst hk
          subst hx2
          exact alistAppend_get_self s _ _
        · intro b hb
          exact (stableSortBy_mem _ _ b).mpr
            (calleeEffects_mono2 _ _ _ m m' hle (fun a c hac => hac.2.2.1) b
              ((stableSortBy_mem _ _ b).mp hb))
        · intro h4
          refine foldl_le_master2 _ _
            (fun e => x ∈ (alistGet e k).getD []) (fun e => x ∈ (alistGet e k).getD [])
            (fun idx => k = LNodeP.callArg cs idx ∧ x = LNodeP.var d)
            (fun idx => k = LNodeP.callArg cs idx ∧ x = LNodeP.var d)
            ?_ ?_ ?_ (fun b h => h) _ _ ?_ _ _ ?_ h4
          · intro s b h
            rcases alistAppend_getD_extract s _ _ k x h with h5 | ⟨hk, hx2⟩
            · exact Or.inl h5
            · exact Or.inr ⟨hk, hx2⟩
          · intro s b h
            exact alistAppend_get_mono s _ k _ x h
          · intro s b hg
            obtain ⟨hk, hx2⟩ := hg
            subst hk
            subst hx2
            exact alistAppend_get_self s _ _
          · intro b hb
            exact (stableSortBy_mem _ _ b).mpr
              (calleeIdxSet_mono2 argc _ m m' hle b ((stableSortBy_mem _ _ b).mp hb))
          · intro h5
            exact hacc k x h5

theorem foldl_rel {σ σ2 β : Type} (R : σ → σ2 → Prop) (step : σ → β → σ)
    (step' : σ2 → β → σ2) (h : ∀ s s' b, R s s' → R (step s b) (step' s' b)) :
    ∀ (l : List β) (s : σ) (s' : σ2), R s s' → R (l.foldl step s) (l.foldl step' s') := by
  intro l
  induction l with
  | nil => intro s s' hr; exact hr
  | cons b l ih => intro s s' hr; exact ih _ _ (h s s' b hr)

theorem buildExtraAdjV2_mono2 (func : FuncInputV2P)
    (cbc : List (CallsiteIdP × List FuncIdP))
    (m m' : List (FuncIdP × FuncStateV2P)) (hle : mapLeV2 m m') :
    adjMapLe (buildExtraAdjV2 func cbc m) (buildExtraAdjV2 func cbc m') := by
  rw [buildExtraAdjV2, buildExtraAdjV2]
  refine foldl_rel adjMapLe _ _ ?_ func.callsites [] [] (fun k x h => h)
  intro e e' p hr
  exact extraV2ForCallsite_mono2 func cbc m m' hle p e e' hr

theorem alistGet_isSome_of_key_mem {α β : Type} [DecidableEq α]
    (m : List (α × β)) (k : α) (h : k ∈ m.map Prod.fst) :
    ∃ v, alistGet m k = some v := by
  induction m with
  | nil => exact absurd h (by simp)
  | cons p rest ih =>
      by_cases hk : p.1 = k
      · exact ⟨p.2, by
          show (if p.1 = k then some p.2 else alistGet rest k) = some p.2
          rw [if_pos hk]⟩
      · rcases List.mem_map.mp h with ⟨q, hq, hqk⟩
        rcases List.mem_cons.mp hq with h2 | h2
        · exact absurd (by rw [← hqk, h2]) hk
        · rcases ih (List.mem_map.mpr ⟨q, h2, hqk⟩) with ⟨v, hv⟩
          exact ⟨v, by
            show (if p.1 = k then some p.2 else alistGet rest k) = some v
            rw [if_neg hk]
            exact hv⟩

theorem key_mem_of_alistGet_some {α β : Type} [DecidableEq α]
    (m : List (α × β)) (k : α) (v : β) (h : alistGet m k = some v) :
    k ∈ m.map Prod.fst :=
  List.mem_map.mpr ⟨(k, v), alistGet_mem m k v h, rfl⟩

theorem alistAppend_vals_ne_nil {α β : Type} [DecidableEq α]
    (m : List (α × List β)) (k0 : α) (v0 : β)
    (h : ∀ pr ∈ m, pr.2 ≠ []) :
    ∀ pr ∈ alistAppend m k0 v0, pr.2 ≠ [] := by
  intro pr hpr
  rw [alistAppend] at hpr
  rcases hg : alistGet m k0 with _ | arr <;> rw [hg] at hpr
  · rcases mem_alistSet m k0 [v0] pr hpr with h2 | h2
    · exact h pr h2
    · rw [h2]
      simp
  · rcases mem_alistSet m k0 (arr ++ [v0]) pr hpr with h2 | h2
    · exact h pr h2
    · rw [h2]
      simp

theorem extraV2ForCallsite_vals_ne_nil (func : FuncInputV2P)
    (cbc : List (CallsiteIdP × List FuncIdP))
    (m : List (FuncIdP × FuncStateV2P)) (p : CallsiteIdP × CallsiteInfoV2P)
    (extra : List (LNodeP × List LNodeP)) (h : ∀ pr ∈ extra, pr.2 ≠ []) :
    ∀ pr ∈ extraV2ForCallsite func cbc m extra p, pr.2 ≠ [] := by
  obtain ⟨cs, dstOpt, argc, argVars⟩ := p
  rcases dstOpt with _ | d <;> simp only [extraV2ForCallsite]
  · refine foldl_invariant (fun (e : List (LNodeP × List LNodeP)) => ∀ pr ∈ e, pr.2 ≠ []) _ ?_ _ _
      (foldl_invariant (fun (e : List (LNodeP × List LNodeP)) => ∀ pr ∈ e, pr.2 ≠ []) _ ?_ _ _ h)
    · intro e b he
      rcases mapHeapBucketToCaller func ⟨none, argc, argVars⟩
          b.readObjectParamIndex b.readPropertyName with _ | rh <;>
        rcases mapHeapBucketToCaller func ⟨none, argc, argVars⟩
          b.writeObjectParamIndex b.writePropertyName with _ | wh
      · exact he
      · exact he
      · exact he
      · exact alistAppend_vals_ne_nil e _ _ he
    · intro e b he
      rcases mapHeapBucketToCaller func ⟨none, argc, argVars⟩
          b.objectParamIndex b.propertyName with _ | hid
      · exact he
      · exact alistAppend_vals_ne_nil e _ _ he
  · refine foldl_invariant (fun (e : List (LNodeP × List LNodeP)) => ∀ pr ∈ e, pr.2 ≠ []) _ ?_ _ _
      (foldl_invariant (fun (e : List (LNodeP × List LNodeP)) => ∀ pr ∈ e, pr.2 ≠ []) _ ?_ _ _
        (foldl_invariant (fun (e : List (LNodeP × List LNodeP)) => ∀ pr ∈ e, pr.2 ≠ []) _ ?_ _ _
          (foldl_invariant (fun (e : List (LNodeP × List LNodeP)) => ∀ pr ∈ e, pr.2 ≠ []) _ ?_ _ _ h)))
    · intro e b he
      rcases mapHeapBucketToCaller func ⟨some d, argc, argVars⟩
          b.readObjectParamIndex b.readPropertyName with _ | rh <;>
        rcases mapHeapBucketToCaller func ⟨some d, argc, argVars⟩
          b.writeObjectParamIndex b.writePropertyName with _ | wh
      · exact he
      · exact he
      · exact he
      · exact alistAppend_vals_ne_nil e _ _ he
    · intro e b he
      rcases mapHeapBucketToCaller func ⟨some d, argc, argVars⟩
          b.objectParamIndex b.propertyName with _ | hid
      · exact he
      · exact alistAppend_vals_ne_nil e _ _ he
    · intro e b he
      rcases mapHeapBucketToCaller func ⟨some d, argc, argVars⟩
          b.objectParamIndex b.propertyName with _ | hid
      · exact he
      · exact alistAppend_vals_ne_nil e _ _ he
    · intro e b he
      exact alistAppend_vals_ne_nil e _ _ he

theorem buildExtraAdjV2_vals_ne_nil (func : FuncInputV2P)
    (cbc : List (CallsiteIdP × List FuncIdP))
    (m : List (FuncIdP × FuncStateV2P)) :
    ∀ pr ∈ buildExtraAdjV2 func cbc m, pr.2 ≠ [] := by
  rw [buildExtraAdjV2]
  refine foldl_invariant (fun (e : List (LNodeP × List LNodeP)) => ∀ pr ∈ e, pr.2 ≠ []) _ ?_ func.callsites []
    (by intro pr hpr; exact absurd hpr (by simp))
  intro e p he
  exact extraV2ForCallsite_vals_ne_nil func cbc m p e he

theorem buildExtraAdjV2_keys_mono2 (func : FuncInputV2P)
    (cbc : List (CallsiteIdP × List FuncIdP))
    (m m' : List (FuncIdP × FuncStateV2P)) (hle : mapLeV2 m m') (k : LNodeP)
    (hk : k ∈ (buildExtraAdjV2 func cbc m).map Prod.fst) :
    k ∈ (buildExtraAdjV2 func cbc m').map Prod.fst := by
  rcases alistGet_isSome_of_key_mem _ k hk with ⟨l, hl⟩
  have hne : l ≠ [] :=
    buildExtraAdjV2_vals_ne_nil func cbc m (k, l) (alistGet_mem _ k l hl)
  rcases l with _ | ⟨x, l⟩
  · exact absurd rfl hne
  · have hx : x ∈ (alistGet (buildExtraAdjV2 func cbc m) k).getD [] := by
      rw [hl]
      exact List.mem_cons_self _ _
    have hx' := buildExtraAdjV2_mono2 func cbc m m' hle k x hx
    rcases hg : alistGet (buildExtraAdjV2 func cbc m') k with _ | l'
    · rw [hg] at hx'
      exact absurd hx' (by simp)
    · exact key_mem_of_alistGet_some _ k l' hg

theorem bfs_visited_mono (base extra extra' : List (LNodeP × List LNodeP))
    (hextra : adjMapLe extra extra') (s x : LNodeP)
    (h : x ∈ bfsReach (getNeighbors base extra) (bfsFuel base extra) [s] [s]) :
    x ∈ bfsReach (getNeighbors base extra') (bfsFuel base extra') [s] [s] := by
  refine bfsReach_start_complete base extra' s x ?_
  refine reach_mono ?_ s x (bfsReach_start_sound base extra s x h)
  intro n y hy
  rw [mem_getNeighbors_iff] at hy ⊢
  rcases hy with h2 | h2
  · exact Or.inl h2
  · exact Or.inr (hextra n y h2)

theorem presStepV2_facts_extract (fid : FuncIdP) (adj : LNodeP → List LNodeP)
    (fuel : Nat) (acc : List FlowFactP × List Nat) (p : VarIdP) (f : FlowFactP)
    (h : f ∈ (presStepV2 fid adj fuel acc p).1) :
    f ∈ acc.1 ∨ ∃ cur ∈ bfsReach adj fuel [LNodeP.var p] [LNodeP.var p],
      presFactOf fid p cur = some f := by
  rw [presStepV2] at h
  refine foldl_pred_extract _ (fun (a : List FlowFactP × List Nat) => f ∈ a.1)
    (fun cur => presFactOf fid p cur = some f) ?_ _ acc h
  intro a cur h2
  cases cur
  case ret =>
    rcases mem_setInsert _ _ f h2 with h3 | h3
    · exact Or.inl h3
    · exact Or.inr (by rw [h3]; rfl)
  case callArg c i =>
    rcases mem_setInsert _ _ f h2 with h3 | h3
    · exact Or.inl h3
    · exact Or.inr (by rw [h3]; rfl)
  case heapWrite hw =>
    rcases mem_setInsert _ _ f h2 with h3 | h3
    · exact Or.inl h3
    · exact Or.inr (by rw [h3]; rfl)
  case var v => exact Or.inl h2
  case heapRead hr => exact Or.inl h2

theorem presStepV2_idx_extract (fid : FuncIdP) (adj : LNodeP → List LNodeP)
    (fuel : Nat) (acc : List FlowFactP × List Nat) (p : VarIdP) (z : Nat)
    (h : z ∈ (presStepV2 fid adj fuel acc p).2) :
    z ∈ acc.2 ∨ (LNodeP.ret ∈ bfsReach adj fuel [LNodeP.var p] [LNodeP.var p] ∧
      z = p.index) := by
  rw [presStepV2] at h
  refine foldl_pred_extract _ (fun (a : List FlowFactP × List Nat) => z ∈ a.2)
    (fun cur => cur = LNodeP.ret ∧ z = p.index) ?_ _ acc h |>.imp id ?_
  · intro a cur h2
    cases cur
    case ret =>
      rcases mem_setInsert _ _ z h2 with h3 | h3
      · exact Or.inl h3
      · exact Or.inr ⟨rfl, h3⟩
    case callArg c i => exact Or.inl h2
    case heapWrite hw => exact Or.inl h2
    case var v => exact Or.inl h2
    case heapRead hr => exact Or.inl h2
  · intro h2
    rcases h2 with ⟨cur, hcur, hc, hz⟩
    exact ⟨hc ▸ hcur, hz⟩

theorem presStepV2_facts_mono (fid : FuncIdP) (adj : LNodeP → List LNodeP)
    (fuel : Nat) (acc : List FlowFactP × List Nat) (p : VarIdP) (f : FlowFactP)
    (h : f ∈ acc.1) : f ∈ (presStepV2 fid adj fuel acc p).1 := by
  rw [presStepV2]
  refine foldl_invariant (fun (a : List FlowFactP × List Nat) => f ∈ a.1) _ ?_ _ acc h
  intro a cur h2
  cases cur
  case ret => exact setInsert_mono _ _ _ h2
  case callArg c i => exact setInsert_mono _ _ _ h2
  case heapWrite hw => exact setInsert_mono _ _ _ h2
  case var v => exact h2
  case heapRead hr => exact h2

theorem presStepV2_idx_mono (fid : FuncIdP) (adj : LNodeP → List LNodeP)
    (fuel : Nat) (acc : List FlowFactP × List Nat) (p : VarIdP) (z : Nat)
    (h : z ∈ acc.2) : z ∈ (presStepV2 fid adj fuel acc p).2 := by
  rw [presStepV2]
  refine foldl_invariant (fun (a : List FlowFactP × List Nat) => z ∈ a.2) _ ?_ _ acc h
  intro a cur h2
  cases cur
  case ret => exact setInsert_mono _ _ _ h2
  case callArg c i => exact h2
  case heapWrite hw => exact h2
  case var v => exact h2
  case heapRead hr => exact h2

theorem presStepV2_facts_intro (fid : FuncIdP) (adj : LNodeP → List LNodeP)
    (fuel : Nat) (acc : List FlowFactP × List Nat) (p : VarIdP) (f : FlowFactP)
    (cur : LNodeP) (hcur : cur ∈ bfsReach adj fuel [LNodeP.var p] [LNodeP.var p])
    (hf : presFactOf fid p cur = some f) : f ∈ (presStepV2 fid adj fuel acc p).1 := by
  rw [presStepV2]
  refine foldl_pred_intro _ (fun (a : List FlowFactP × List Nat) => f ∈ a.1)
    (fun c => c = cur) ?_ ?_ _ acc cur hcur rfl
  · intro a c h2
    cases c
    case ret => exact setInsert_mono _ _ _ h2
    case callArg c i => exact setInsert_mono _ _ _ h2
    case heapWrite hw => exact setInsert_mono _ _ _ h2
    case var v => exact h2
    case heapRead hr => exact h2
  · intro a c h2
    subst h2
    cases c
    case ret =>
      rw [show f = (⟨.var fid p, .ret fid⟩ : FlowFactP) from (Option.some.inj hf).symm]
      exact setInsert_self _ _
    case callArg c i =>
      rw [show f = (⟨.var fid p, .call_arg c i⟩ : FlowFactP) from (Option.some.inj hf).symm]
      exact setInsert_self _ _
    case heapWrite hw =>
      rw [show f = (⟨.var fid p, .heap_write hw⟩ : FlowFactP) from (Option.some.inj hf).symm]
      exact setInsert_self _ _
    case var v => exact Option.noConfusion hf
    case heapRead hr => exact Option.noConfusion hf

theorem presStepV2_idx_intro (fid : FuncIdP) (adj : LNodeP → List LNodeP)
    (fuel : Nat) (acc : List FlowFactP × List Nat) (p : VarIdP)
    (hret : LNodeP.ret ∈ bfsReach adj fuel [LNodeP.var p] [LNodeP.var p]) :
    p.index ∈ (presStepV2 fid adj fuel acc p).2 := by
  rw [presStepV2]
  refine foldl_pred_intro _ (fun (a : List FlowFactP × List Nat) => p.index ∈ a.2)
    (fun c => c = LNodeP.ret) ?_ ?_ _ acc LNodeP.ret hret rfl
  · intro a c h2
    cases c
    case ret => exact setInsert_mono _ _ _ h2
    case callArg c i => exact h2
    case heapWrite hw => exact h2
    case var v => exact h2
    case heapRead hr => exact h2
  · intro a c h2
    subst h2
    exact setInsert_self _ _

theorem heapFactsStep_extract (fid : FuncIdP) (adj : LNodeP → List LNodeP)
    (fuel : Nat) (fs : List FlowFactP) (src : LNodeP) (f : FlowFactP)
    (h : f ∈ heapFactsStep fid adj fuel fs src) :
    f ∈ fs ∨ ∃ hid, src = LNodeP.heapRead hid ∧
      ∃ cur ∈ bfsReach adj fuel [src] [src], heapFactOf fid hid cur = some f := by
  cases src
  case heapRead hid =>
    refine (foldl_pred_extract _ (fun fs => f ∈ fs)
      (fun cur => heapFactOf fid hid cur = some f) ?_ _ fs h).imp id ?_
    · intro a cur h2
      cases cur
      case ret =>
        rcases mem_setInsert _ _ f h2 with h3 | h3
        · exact Or.inl h3
        · exact Or.inr (by rw [h3]; rfl)
      case callArg c i =>
        rcases mem_setInsert _ _ f h2 with h3 | h3
        · exact Or.inl h3
        · exact Or.inr (by rw [h3]; rfl)
      case heapWrite hw =>
        rcases mem_setInsert _ _ f h2 with h3 | h3
        · exact Or.inl h3
        · exact Or.inr (by rw [h3]; rfl)
      case var v => exact Or.inl h2
      case heapRead hr => exact Or.inl h2
    · intro h2
      exact ⟨hid, rfl, h2⟩
  case ret => exact Or.inl h
  case var v => exact Or.inl h
  case callArg c i => exact Or.inl h
  case heapWrite hw => exact Or.inl h

theorem heapFactsStep_mono (fid : FuncIdP) (adj : LNodeP → List LNodeP)
    (fuel : Nat) (fs : List FlowFactP) (src : LNodeP) (f : FlowFactP)
    (h : f ∈ fs) : f ∈ heapFactsStep fid adj fuel fs src := by
  cases src
  case heapRead hid =>
    refine foldl_invariant (fun fs => f ∈ fs) _ ?_ _ fs h
    intro a cur h2
    cases cur
    case ret => exact setInsert_mono _ _ _ h2
    case callArg c i => exact setInsert_mono _ _ _ h2
    case heapWrite hw => exact setInsert_mono _ _ _ h2
    case var v => exact h2
    case heapRead hr => exact h2
  case ret => exact h
  case var v => exact h
  case callArg c i => exact h
  case heapWrite hw => exact h

theorem heapFactsStep_intro (fid : FuncIdP) (adj : LNodeP → List LNodeP)
    (fuel : Nat) (fs : List FlowFactP) (hid : HeapIdP) (f : FlowFactP)
    (cur : LNodeP)
    (hcur : cur ∈ bfsReach adj fuel [LNodeP.heapRead hid] [LNodeP.heapRead hid])
    (hf : heapFactOf fid hid cur = some f) :
    f ∈ heapFactsStep fid adj fuel fs (LNodeP.heapRead hid) := by
  show f ∈ (bfsReach adj fuel [LNodeP.heapRead hid] [LNodeP.heapRead hid]).foldl
    (fun fs cur =>
      match cur with
      | .ret => setInsert fs ⟨.heap_read hid, .ret fid⟩
      | .callArg c i => setInsert fs ⟨.heap_read hid, .call_arg c i⟩
      | .heapWrite h => setInsert fs ⟨.heap_read hid, .heap_write h⟩
      | _ => fs) fs
  refine foldl_pred_intro _ (fun fs => f ∈ fs) (fun c => c = cur) ?_ ?_ _ fs cur hcur rfl
  · intro a c h2
    cases c
    case ret => exact setInsert_mono _ _ _ h2
    case callArg c i => exact setInsert_mono _ _ _ h2
    case heapWrite hw => exact setInsert_mono _ _ _ h2
    case var v => exact h2
    case heapRead hr => exact h2
  · intro a c h2
    subst h2
    cases c
    case ret =>
      rw [show f = (⟨.heap_read hid, .ret fid⟩ : FlowFactP) from (Option.some.inj hf).symm]
      exact setInsert_self _ _
    case callArg c i =>
      rw [show f = (⟨.heap_read hid, .call_arg c i⟩ : FlowFactP) from
        (Option.some.inj hf).symm]
      exact setInsert_self _ _
    case heapWrite hw =>
      rw [show f = (⟨.heap_read hid, .heap_write hw⟩ : FlowFactP) from
        (Option.some.inj hf).symm]
      exact setInsert_self _ _
    case var v => exact Option.noConfusion hf
    case heapRead hr => exact Option.noConfusion hf

theorem effsStep_cases (n : Nat) (f : FlowFactP) :
    (∀ acc, effsStep n acc f = acc) ∨
    (∃ e, ∀ acc, effsStep n acc f = (setInsert acc.1 e, acc.2.1, acc.2.2)) ∨
    (∃ e, ∀ acc, effsStep n acc f = (acc.1, setInsert acc.2.1 e, acc.2.2)) ∨
    (∃ e, ∀ acc, effsStep n acc f = (acc.1, acc.2.1, setInsert acc.2.2 e)) := by
  obtain ⟨fr, t⟩ := f
  cases fr <;> cases t <;>
    first
      | exact Or.inl (fun acc => rfl)
      | skip
  case var.heap_write fk vid h =>
    obtain ⟨vk, vi⟩ := vid
    cases vk
    case v => exact Or.inl (fun acc => rfl)
    case p =>
      rcases hsy : heapIdToSyntheticParamIndex h with _ | oi
      · refine Or.inl (fun acc => ?_)
        simp only [effsStep, hsy]
      · by_cases hge : oi ≥ n
        · refine Or.inl (fun acc => ?_)
          simp only [effsStep, hsy]
          rw [if_pos hge]
        · refine Or.inr (Or.inl ⟨⟨vi, oi, h.propertyName⟩, fun acc => ?_⟩)
          simp only [effsStep, hsy]
          rw [if_neg hge]
  case heap_read.ret h fk =>
    rcases hsy : heapIdToSyntheticParamIndex h with _ | oi
    · refine Or.inl (fun acc => ?_)
      simp only [effsStep, hsy]
    · by_cases hge : oi ≥ n
      · refine Or.inl (fun acc => ?_)
        simp only [effsStep, hsy]
        rw [if_pos hge]
      · refine Or.inr (Or.inr (Or.inl ⟨⟨oi, h.propertyName⟩, fun acc => ?_⟩))
        simp only [effsStep, hsy]
        rw [if_neg hge]
  case heap_read.heap_write hr hw =>
    rcases hsy1 : heapIdToSyntheticParamIndex hr with _ | ri
    · refine Or.inl (fun acc => ?_)
      simp only [effsStep, hsy1]
    · rcases hsy2 : heapIdToSyntheticParamIndex hw with _ | wi
      · refine Or.inl (fun acc => ?_)
        simp only [effsStep, hsy1, hsy2]
      · by_cases hge1 : ri ≥ n
        · refine Or.inl (fun acc => ?_)
          simp only [effsStep, hsy1, hsy2]
          rw [if_pos hge1]
        · by_cases hge2 : wi ≥ n
          · refine Or.inl (fun acc => ?_)
            simp only [effsStep, hsy1, hsy2]
            rw [if_neg hge1, if_pos hge2]
          · refine Or.inr (Or.inr (Or.inr
              ⟨⟨ri, hr.propertyName, wi, hw.propertyName⟩, fun acc => ?_⟩))
            simp only [effsStep, hsy1, hsy2]
            rw [if_neg hge1, if_neg hge2]

theorem computeFuncStateV2_facts_mono (func : FuncInputV2P)
    (cbc : List (CallsiteIdP × List FuncIdP))
    (m m' : List (FuncIdP × FuncStateV2P)) (hle : mapLeV2 m m') :
    (computeFuncStateV2 func cbc m).facts ⊆ (computeFuncStateV2 func cbc m').facts := by
  intro f hf
  simp only [computeFuncStateV2] at hf ⊢
  rw [stableSortBy_mem] at hf ⊢
  refine foldl_le_master2 _ _ (fun fs => f ∈ fs) (fun fs => f ∈ fs)
    (fun src => ∃ hid, src = LNodeP.heapRead hid ∧
      ∃ cur ∈ bfsReach
        (getNeighbors func.baseAdj (buildExtraAdjV2 func cbc m))
        (bfsFuel func.baseAdj (buildExtraAdjV2 func cbc m)) [src] [src],
        heapFactOf func.funcId hid cur = some f)
    (fun src => ∃ hid, src = LNodeP.heapRead hid ∧
      ∃ cur ∈ bfsReach
        (getNeighbors func.baseAdj (buildExtraAdjV2 func cbc m'))
        (bfsFuel func.baseAdj (buildExtraAdjV2 func cbc m')) [src] [src],
        heapFactOf func.funcId hid cur = some f)
    ?_ ?_ ?_ ?_ _ _ ?_ _ _ ?_ hf
  · exact fun s b h => heapFactsStep_extract func.funcId _ _ s b f h
  · exact fun s b h => heapFactsStep_mono func.funcId _ _ s b f h
  · intro s b hg
    obtain ⟨hid, hsrc, cur, hcur, hfo⟩ := hg
    subst hsrc
    exact heapFactsStep_intro func.funcId _ _ s hid f cur hcur hfo
  · intro b hg
    obtain ⟨hid, hsrc, cur, hcur, hfo⟩ := hg
    exact ⟨hid, hsrc, cur,
      bfs_visited_mono func.baseAdj _ _ (buildExtraAdjV2_mono2 func cbc m m' hle)
        b cur hcur, hfo⟩
  · intro src hsrc
    rw [stableSortBy_mem, mem_dedupKeepFirst] at hsrc ⊢
    rcases List.mem_append.mp hsrc with h2 | h2
    · exact List.mem_append.mpr (Or.inl h2)
    · rw [List.mem_filter] at h2
      exact List.mem_append.mpr (Or.inr (List.mem_filter.mpr
        ⟨buildExtraAdjV2_keys_mono2 func cbc m m' hle src h2.1, h2.2⟩))
  · intro h2
    refine foldl_le_master2 _ _
      (fun (a : List FlowFactP × List Nat) => f ∈ a.1)
      (fun (a : List FlowFactP × List Nat) => f ∈ a.1)
      (fun p => ∃ cur ∈ bfsReach
          (getNeighbors func.baseAdj (buildExtraAdjV2 func cbc m))
          (bfsFuel func.baseAdj (buildExtraAdjV2 func cbc m))
          [LNodeP.var p] [LNodeP.var p], presFactOf func.funcId p cur = some f)
      (fun p => ∃ cur ∈ bfsReach
          (getNeighbors func.baseAdj (buildExtraAdjV2 func cbc m'))
          (bfsFuel func.baseAdj (buildExtraAdjV2 func cbc m'))
          [LNodeP.var p] [LNodeP.var p], presFactOf func.funcId p cur = some f)
      ?_ ?_ ?_ ?_ _ _ (fun a ha => ha) _ _ (fun h => h) h2
    · exact fun a p h => presStepV2_facts_extract func.funcId _ _ a p f h
    · exact fun a p h => presStepV2_facts_mono func.funcId _ _ a p f h
    · intro a p hg
      obtain ⟨cur, hcur, hfo⟩ := hg
      exact presStepV2_facts_intro func.funcId _ _ a p f cur hcur hfo
    · intro p hg
      obtain ⟨cur, hcur, hfo⟩ := hg
      exact ⟨cur, bfs_visited_mono func.baseAdj _ _
        (buildExtraAdjV2_mono2 func cbc m m' hle) (LNodeP.var p) cur hcur, hfo⟩

theorem computeFuncStateV2_pri_mono (func : FuncInputV2P)
    (cbc : List (CallsiteIdP × List FuncIdP))
    (m m' : List (FuncIdP × FuncStateV2P)) (hle : mapLeV2 m m') :
    (computeFuncStateV2 func cbc m).paramReturnIndices ⊆
      (computeFuncStateV2 func cbc m').paramReturnIndices := by
  intro z hz
  simp only [computeFuncStateV2] at hz ⊢
  rw [stableSortBy_mem] at hz ⊢
  refine foldl_le_master2 _ _
    (fun (a : List FlowFactP × List Nat) => z ∈ a.2)
    (fun (a : List FlowFactP × List Nat) => z ∈ a.2)
    (fun p => LNodeP.ret ∈ bfsReach
        (getNeighbors func.baseAdj (buildExtraAdjV2 func cbc m))
        (bfsFuel func.baseAdj (buildExtraAdjV2 func cbc m))
        [LNodeP.var p] [LNodeP.var p] ∧ z = p.index)
    (fun p => LNodeP.ret ∈ bfsReach
        (getNeighbors func.baseAdj (buildExtraAdjV2 func cbc m'))
        (bfsFuel func.baseAdj (buildExtraAdjV2 func cbc m'))
        [LNodeP.var p] [LNodeP.var p] ∧ z = p.index)
    ?_ ?_ ?_ ?_ _ _ (fun a ha => ha) _ _ (fun h => h) hz
  · exact fun a p h => presStepV2_idx_extract func.funcId _ _ a p z h
  · exact fun a p h => presStepV2_idx_mono func.funcId _ _ a p z h
  · intro a p hg
    rw [hg.2]
    exact presStepV2_idx_intro func.funcId _ _ a p hg.1
  · intro p hg
    exact ⟨bfs_visited_mono func.baseAdj _ _
      (buildExtraAdjV2_mono2 func cbc m m' hle) (LNodeP.var p) LNodeP.ret hg.1, hg.2⟩

theorem effsStep_ext1 (n : Nat)
    (acc : List ParamHeapWriteEff × List HeapReadReturnEff × List HeapReadHeapWriteEff)
    (f : FlowFactP) (e : ParamHeapWriteEff) (h : e ∈ (effsStep n acc f).1) :
    e ∈ acc.1 ∨ e ∈ (effsStep n ([], [], []) f).1 := by
  rcases effsStep_cases n f with hc | ⟨e2, hc⟩ | ⟨e2, hc⟩ | ⟨e2, hc⟩
  · rw [hc acc] at h
    exact Or.inl h
  · rw [hc acc] at h
    rcases mem_setInsert _ _ e h with h2 | h2
    · exact Or.inl h2
    · refine Or.inr ?_
      rw [hc (([], [], []) : List ParamHeapWriteEff × List HeapReadReturnEff × List HeapReadHeapWriteEff)]
      dsimp only
      rw [h2]
      exact setInsert_self _ _
  · rw [hc acc] at h
    exact Or.inl h
  · rw [hc acc] at h
    exact Or.inl h

theorem effsStep_mono1 (n : Nat)
    (acc : List ParamHeapWriteEff × List HeapReadReturnEff × List HeapReadHeapWriteEff)
    (f : FlowFactP) (e : ParamHeapWriteEff) (h : e ∈ acc.1) :
    e ∈ (effsStep n acc f).1 := by
  rcases effsStep_cases n f with hc | ⟨e2, hc⟩ | ⟨e2, hc⟩ | ⟨e2, hc⟩ <;> rw [hc acc]
  · exact h
  · exact setInsert_mono _ _ _ h
  · exact h
  · exact h

theorem effsStep_gen1 (n : Nat)
    (acc : List ParamHeapWriteEff × List HeapReadReturnEff × List HeapReadHeapWriteEff)
    (f : FlowFactP) (e : ParamHeapWriteEff) (h : e ∈ (effsStep n ([], [], []) f).1) :
    e ∈ (effsStep n acc f).1 := by
  rcases effsStep_cases n f with hc | ⟨e2, hc⟩ | ⟨e2, hc⟩ | ⟨e2, hc⟩ <;>
    rw [hc (([], [], []) : List ParamHeapWriteEff × List HeapReadReturnEff × List HeapReadHeapWriteEff)] at h <;> rw [hc acc] <;> dsimp only at h
  · exact absurd h (by simp)
  · rcases mem_setInsert _ _ e h with h2 | h2
    · exact absurd h2 (by simp)
    · rw [h2]
      exact setInsert_self _ _
  · exact absurd h (by simp)
  · exact absurd h (by simp)

theorem effsStep_ext2 (n : Nat)
    (acc : List ParamHeapWriteEff × List HeapReadReturnEff × List HeapReadHeapWriteEff)
    (f : FlowFactP) (e : HeapReadReturnEff) (h : e ∈ (effsStep n acc f).2.1) :
    e ∈ acc.2.1 ∨ e ∈ (effsStep n ([], [], []) f).2.1 := by
  rcases effsStep_cases n f with hc | ⟨e2, hc⟩ | ⟨e2, hc⟩ | ⟨e2, hc⟩
  · rw [hc acc] at h
    exact Or.inl h
  · rw [hc acc] at h
    exact Or.inl h
  · rw [hc acc] at h
    rcases mem_setInsert _ _ e h with h2 | h2
    · exact Or.inl h2
    · refine Or.inr ?_
      rw [hc (([], [], []) : List ParamHeapWriteEff × List HeapReadReturnEff × List HeapReadHeapWriteEff)]
      dsimp only
      rw [h2]
      exact setInsert_self _ _
  · rw [hc acc] at h
    exact Or.inl h

theorem effsStep_mono2 (n : Nat)
    (acc : List ParamHeapWriteEff × List HeapReadReturnEff × List HeapReadHeapWriteEff)
    (f : FlowFactP) (e : HeapReadReturnEff) (h : e ∈ acc.2.1) :
    e ∈ (effsStep n acc f).2.1 := by
  rcases effsStep_cases n f with hc | ⟨e2, hc⟩ | ⟨e2, hc⟩ | ⟨e2, hc⟩ <;> rw [hc acc]
  · exact h
  · exact h
  · exact setInsert_mono _ _ _ h
  · exact h

theorem effsStep_gen2 (n : Nat)
    (acc : List ParamHeapWriteEff × List HeapReadReturnEff × List HeapReadHeapWriteEff)
    (f : FlowFactP) (e : HeapReadReturnEff) (h : e ∈ (effsStep n ([], [], []) f).2.1) :
    e ∈ (effsStep n acc f).2.1 := by
  rcases effsStep_cases n f with hc | ⟨e2, hc⟩ | ⟨e2, hc⟩ | ⟨e2, hc⟩ <;>
    rw [hc (([], [], []) : List ParamHeapWriteEff × List HeapReadReturnEff × List HeapReadHeapWriteEff)] at h <;> rw [hc acc] <;> dsimp only at h
  · exact absurd h (by simp)
  · exact absurd h (by simp)
  · rcases mem_setInsert _ _ e h with h2 | h2
    · exact absurd h2 (by simp)
    · rw [h2]
      exact setInsert_self _ _
  · exact absurd h (by simp)

theorem effsStep_ext3 (n : Nat)
    (acc : List ParamHeapWriteEff × List HeapReadReturnEff × List HeapReadHeapWriteEff)
    (f : FlowFactP) (e : HeapReadHeapWriteEff) (h : e ∈ (effsStep n acc f).2.2) :
    e ∈ acc.2.2 ∨ e ∈ (effsStep n ([], [], []) f).2.2 := by
  rcases effsStep_cases n f with hc | ⟨e2, hc⟩ | ⟨e2, hc⟩ | ⟨e2, hc⟩
  · rw [hc acc] at h
    exact Or.inl h
  · rw [hc acc] at h
    exact Or.inl h
  · rw [hc acc] at h
    exact Or.inl h
  · rw [hc acc] at h
    rcases mem_setInsert _ _ e h with h2 | h2
    · exact Or.inl h2
    · refine Or.inr ?_
      rw [hc (([], [], []) : List ParamHeapWriteEff × List HeapReadReturnEff × List HeapReadHeapWriteEff)]
      dsimp only
      rw [h2]
      exact setInsert_self _ _

theorem effsStep_mono3 (n : Nat)
    (acc : List ParamHeapWriteEff × List HeapReadReturnEff × List HeapReadHeapWriteEff)
    (f : FlowFactP) (e : HeapReadHeapWriteEff) (h : e ∈ acc.2.2) :
    e ∈ (effsStep n acc f).2.2 := by
  rcases effsStep_cases n f with hc | ⟨e2, hc⟩ | ⟨e2, hc⟩ | ⟨e2, hc⟩ <;> rw [hc acc]
  · exact h
  · exact h
  · exact h
  · exact setInsert_mono _ _ _ h

theorem effsStep_gen3 (n : Nat)
    (acc : List ParamHeapWriteEff × List HeapReadReturnEff × List HeapReadHeapWriteEff)
    (f : FlowFactP) (e : HeapReadHeapWriteEff) (h : e ∈ (effsStep n ([], [], []) f).2.2) :
    e ∈ (effsStep n acc f).2.2 := by
  rcases effsStep_cases n f with hc | ⟨e2, hc⟩ | ⟨e2, hc⟩ | ⟨e2, hc⟩ <;>
    rw [hc (([], [], []) : List ParamHeapWriteEff × List HeapReadReturnEff × List HeapReadHeapWriteEff)] at h <;> rw [hc acc] <;> dsimp only at h
  · exact absurd h (by simp)
  · exact absurd h (by simp)
  · exact absurd h (by simp)
  · rcases mem_setInsert _ _ e h with h2 | h2
    · exact absurd h2 (by simp)
    · rw [h2]
      exact setInsert_self _ _

theorem computeFuncStateV2_effs_mono (func : FuncInputV2P)
    (cbc : List (CallsiteIdP × List FuncIdP))
    (m m' : List (FuncIdP × FuncStateV2P)) (hle : mapLeV2 m m') :
    (computeFuncStateV2 func cbc m).paramHeapWriteEffects ⊆
      (computeFuncStateV2 func cbc m').paramHeapWriteEffects ∧
    (computeFuncStateV2 func cbc m).heapReadReturnEffects ⊆
      (computeFuncStateV2 func cbc m').heapReadReturnEffects ∧
    (computeFuncStateV2 func cbc m).heapReadHeapWriteEffects ⊆
      (computeFuncStateV2 func cbc m').heapReadHeapWriteEffects := by
  refine ⟨?_, ?_, ?_⟩
  · intro e he
    simp only [computeFuncStateV2] at he ⊢
    rw [stableSortBy_mem] at he ⊢
    refine foldl_le_master2 _ _
      (fun (a : List ParamHeapWriteEff × List HeapReadReturnEff × List HeapReadHeapWriteEff) => e ∈ a.1)
      (fun (a : List ParamHeapWriteEff × List HeapReadReturnEff × List HeapReadHeapWriteEff) => e ∈ a.1)
      (fun f => e ∈ (effsStep func.ir.params.length ([], [], []) f).1)
      (fun f => e ∈ (effsStep func.ir.params.length ([], [], []) f).1)
      ?_ ?_ ?_ (fun b h => h) _ _ ?_ _ _ (fun h => h) he
    · exact fun a f h => effsStep_ext1 _ a f e h
    · exact fun a f h => effsStep_mono1 _ a f e h
    · exact fun a f h => effsStep_gen1 _ a f e h
    · exact fun b hb => computeFuncStateV2_facts_mono func cbc m m' hle hb
  · intro e he
    simp only [computeFuncStateV2] at he ⊢
    rw [stableSortBy_mem] at he ⊢
    refine foldl_le_master2 _ _
      (fun (a : List ParamHeapWriteEff × List HeapReadReturnEff × List HeapReadHeapWriteEff) => e ∈ a.2.1)
      (fun (a : List ParamHeapWriteEff × List HeapReadReturnEff × List HeapReadHeapWriteEff) => e ∈ a.2.1)
      (fun f => e ∈ (effsStep func.ir.params.length ([], [], []) f).2.1)
      (fun f => e ∈ (effsStep func.ir.params.length ([], [], []) f).2.1)
      ?_ ?_ ?_ (fun b h => h) _ _ ?_ _ _ (fun h => h) he
    · exact fun a f h => effsStep_ext2 _ a f e h
    · exact fun a f h => effsStep_mono2 _ a f e h
    · exact fun a f h => effsStep_gen2 _ a f e h
    · exact fun b hb => computeFuncStateV2_facts_mono func cbc m m' hle hb
  · intro e he
    simp only [computeFuncStateV2] at he ⊢
    rw [stableSortBy_mem] at he ⊢
    refine foldl_le_master2 _ _
      (fun (a : List ParamHeapWriteEff × List HeapReadReturnEff × List HeapReadHeapWriteEff) => e ∈ a.2.2)
      (fun (a : List ParamHeapWriteEff × List HeapReadReturnEff × List HeapReadHeapWriteEff) => e ∈ a.2.2)
      (fun f => e ∈ (effsStep func.ir.params.length ([], [], []) f).2.2)
      (fun f => e ∈ (effsStep func.ir.params.length ([], [], []) f).2.2)
      ?_ ?_ ?_ (fun b h => h) _ _ ?_ _ _ (fun h => h) he
    · exact fun a f h => effsStep_ext3 _ a f e h
    · exact fun a f h => effsStep_mono3 _ a f e h
    · exact fun a f h => effsStep_gen3 _ a f e h
    · exact fun b hb => computeFuncStateV2_facts_mono func cbc m m' hle hb

/-- `computeFuncStateV2` is monotone in the state map. -/
theorem computeFuncStateV2_mono (func : FuncInputV2P)
    (cbc : List (CallsiteIdP × List FuncIdP))
    (m m' : List (FuncIdP × FuncStateV2P)) (hle : mapLeV2 m m') :
    stateLeV2 (computeFuncStateV2 func cbc m) (computeFuncStateV2 func cbc m') :=
  ⟨computeFuncStateV2_facts_mono func cbc m m' hle,
    computeFuncStateV2_pri_mono func cbc m m' hle,
    (computeFuncStateV2_effs_mono func cbc m m' hle).1,
    (computeFuncStateV2_effs_mono func cbc m m' hle).2.1,
    (computeFuncStateV2_effs_mono func cbc m m' hle).2.2⟩

/-! ## Termination machinery -/

theorem foldl_invariant_mem {α β : Type} (P : α → Prop) (f : α → β → α) :
    ∀ (l : List β), (∀ a b, b ∈ l → P a → P (f a b)) →
      ∀ (init : α), P init → P (l.foldl f init) := by
  intro l
  induction l with
  | nil => intro _ init h; exact h
  | cons b l ih =>
      intro hstep init h
      exact ih (fun a c hc ha => hstep a c (List.mem_cons_of_mem _ hc) ha) _
        (hstep init b (List.mem_cons_self _ _) h)

theorem getD_mem_of_ne {α : Type} :
    ∀ (l : List α) (n : Nat) (d x : α), l.getD n d = x → x ≠ d → x ∈ l := by
  intro l
  induction l with
  | nil =>
      intro n d x h hne
      exact absurd h.symm hne
  | cons a l ih =>
      intro n d x h hne
      rcases n with _ | n
      · exact h ▸ List.mem_cons_self _ _
      · exact List.mem_cons_of_mem _ (ih n d x h hne)

theorem setInsert_nodup {α : Type} [DecidableEq α] (l : List α) (x : α)
    (h : l.Nodup) : (setInsert l x).Nodup := by
  rw [setInsert]
  split
  · exact h
  · exact List.Nodup.append h (List.nodup_singleton _)
      (by
        intro a ha hb
        rw [List.mem_singleton.mp hb] at ha
        exact absurd ha (by assumption))

theorem calleeEffects_extract {ε : Type} [DecidableEq ε]
    (proj : FuncStateV2P → List ε) (keep : ε → Bool) (callees : List FuncIdP)
    (m : List (FuncIdP × FuncStateV2P)) (x : ε)
    (hx : x ∈ calleeEffects proj keep callees m) :
    ∃ G st, alistGet m G = some st ∧ x ∈ proj st ∧ keep x = true := by
  rw [calleeEffects] at hx
  refine (foldl_pred_extract _ (fun s => x ∈ s)
    (fun G => ∃ st, alistGet m G = some st ∧ x ∈ proj st ∧ keep x = true)
    ?_ callees [] hx).elim (fun h => absurd h (by simp))
    (fun ⟨G, _, hg⟩ => ⟨G, hg⟩)
  intro s G h
  rcases hG : alistGet m G with _ | st <;> rw [hG] at h
  · exact Or.inl h
  · have hinner : ∀ (s2 : List ε) (e : ε),
        x ∈ (if keep e = true then setInsert s2 e else s2) →
        x ∈ s2 ∨ (e = x ∧ keep x = true) := by
      intro s2 e h2
      by_cases hk : keep e = true
      · rw [if_pos hk] at h2
        rcases mem_setInsert s2 e x h2 with h3 | h3
        · exact Or.inl h3
        · exact Or.inr ⟨h3.symm, h3 ▸ hk⟩
      · rw [if_neg hk] at h2
        exact Or.inl h2
    rcases foldl_pred_extract _ (fun s => x ∈ s) (fun e => e = x ∧ keep x = true)
      hinner (proj st) s h with h2 | ⟨e, he, h3, h4⟩
    · exact Or.inl h2
    · exact Or.inr ⟨st, hG, h3 ▸ he, h4⟩

theorem mhb_mem_mapped (func : FuncInputV2P) (p : CallsiteIdP × CallsiteInfoV2P)
    (hp : p ∈ func.callsites) (obj : Nat) (prop : String)
    (props : List String) (hprop : prop ∈ props) (h : HeapIdP)
    (hm : mapHeapBucketToCaller func p.2 obj prop = some h) :
    h ∈ mappedHeapIds func props := by
  rw [mapHeapBucketToCaller] at hm
  split at hm
  · exact Option.noConfusion hm
  · rcases hav : p.2.argVars.getD obj none with _ | v <;> rw [hav] at hm
    · exact Option.noConfusion hm
    · have hv : some v ∈ p.2.argVars :=
        getD_mem_of_ne _ obj none (some v) hav (by simp)
      rw [mappedHeapIds]
      refine List.mem_flatMap.mpr ⟨p, hp, ?_⟩
      refine List.mem_flatMap.mpr ⟨some v, hv, ?_⟩
      rw [← Option.some.inj hm]
      exact List.mem_map.mpr ⟨prop, hprop, rfl⟩

theorem bfsReach_subset (adj : LNodeP → List LNodeP) (univ : List LNodeP)
    (hadj : ∀ n, ∀ x ∈ adj n, x ∈ univ) :
    ∀ (fuel : Nat) (queue visited : List LNodeP), visited ⊆ univ →
      ∀ x ∈ bfsReach adj fuel queue visited, x ∈ univ := by
  intro fuel
  induction fuel with
  | zero => intro queue visited hv x hx; exact hv hx
  | succ fuel ih =>
      intro queue visited hv x hx
      rcases queue with _ | ⟨cur, rest⟩
      · exact hv hx
      · rw [bfsReach] at hx
        refine ih _ _ ?_ x hx
        intro y hy
        rcases (bfsFold_extract (adj cur) (rest, visited) y).2 hy with h | h
        · exact hv h
        · exact hadj cur y h

theorem extraShapeOK_append (func : FuncInputV2P) (props : List String)
    (extra : List (LNodeP × List LNodeP)) (k0 v0 : LNodeP)
    (hk0 : isCallArgNodeP k0 = true ∨
      ∃ h ∈ mappedHeapIds func props, k0 = LNodeP.heapRead h)
    (hv0 : isVarNode v0 = true ∨
      ∃ h ∈ mappedHeapIds func props, v0 = LNodeP.heapWrite h)
    (he : extraShapeOK func props extra) :
    extraShapeOK func props (alistAppend extra k0 v0) := by
  intro pr hpr
  constructor
  · refine alistAppend_key_pred
      (fun k => isCallArgNodeP k = true ∨
        ∃ h ∈ mappedHeapIds func props, k = LNodeP.heapRead h)
      extra k0 v0 (fun q hq => (he q hq).1) hk0 pr hpr
  · refine alistAppend_val_pred
      (fun x => isVarNode x = true ∨
        ∃ h ∈ mappedHeapIds func props, x = LNodeP.heapWrite h)
      extra k0 v0 (fun q hq => (he q hq).2) hv0 pr hpr

theorem buildExtraAdjV2_shape2 (func : FuncInputV2P)
    (cbc : List (CallsiteIdP × List FuncIdP)) (m : List (FuncIdP × FuncStateV2P))
    (props : List String) (hm : mapPropsOK props m) :
    extraShapeOK func props (buildExtraAdjV2 func cbc m) := by
  rw [buildExtraAdjV2]
  refine foldl_invariant_mem (extraShapeOK func props) _ func.callsites ?_ []
    (by intro pr hpr; exact absurd hpr (by simp))
  intro e p hp he
  obtain ⟨cs, dstOpt, argc, argVars⟩ := p
  rcases dstOpt with _ | d <;> simp only [extraV2ForCallsite]
  · refine foldl_invariant_mem (extraShapeOK func props) _ _ ?_ _
      (foldl_invariant_mem (extraShapeOK func props) _ _ ?_ _ he)
    · intro e2 b hb he2
      rcases hm1 : mapHeapBucketToCaller func ⟨none, argc, argVars⟩
          b.readObjectParamIndex b.readPropertyName with _ | rh <;>
        rcases hm2 : mapHeapBucketToCaller func ⟨none, argc, argVars⟩
          b.writeObjectParamIndex b.writePropertyName with _ | wh
      · exact he2
      · exact he2
      · exact he2
      · have hbmem := calleeEffects_extract _ _ _ m b ((stableSortBy_mem _ _ b).mp hb)
        obtain ⟨G, st, hG, hbe, _⟩ := hbmem
        have hprops := (hm G st hG).2.2 b hbe
        refine extraShapeOK_append func props e2 _ _ ?_ ?_ he2
        · exact Or.inr ⟨rh, mhb_mem_mapped func (cs, ⟨none, argc, argVars⟩) hp _ _
            props hprops.1 rh hm1, rfl⟩
        · exact Or.inr ⟨wh, mhb_mem_mapped func (cs, ⟨none, argc, argVars⟩) hp _ _
            props hprops.2 wh hm2, rfl⟩
    · intro e2 b hb he2
      rcases hm1 : mapHeapBucketToCaller func ⟨none, argc, argVars⟩
          b.objectParamIndex b.propertyName with _ | hid
      · exact he2
      · have hbmem := calleeEffects_extract _ _ _ m b ((stableSortBy_mem _ _ b).mp hb)
        obtain ⟨G, st, hG, hbe, _⟩ := hbmem
        have hprops := (hm G st hG).1 b hbe
        refine extraShapeOK_append func props e2 _ _ ?_ ?_ he2
        · exact Or.inl rfl
        · exact Or.inr ⟨hid, mhb_mem_mapped func (cs, ⟨none, argc, argVars⟩) hp _ _
            props hprops hid hm1, rfl⟩
  · refine foldl_invariant_mem (extraShapeOK func props) _ _ ?_ _
      (foldl_invariant_mem (extraShapeOK func props) _ _ ?_ _
        (foldl_invariant_mem (extraShapeOK func props) _ _ ?_ _
          (foldl_invariant_mem (extraShapeOK func props) _ _ ?_ _ he)))
    · intro e2 b hb he2
      rcases hm1 : mapHeapBucketToCaller func ⟨some d, argc, argVars⟩
          b.readObjectParamIndex b.readPropertyName with _ | rh <;>
        rcases hm2 : mapHeapBucketToCaller func ⟨some d, argc, argVars⟩
          b.writeObjectParamIndex b.writePropertyName with _ | wh
      · exact he2
      · exact he2
      · exact he2
      · have hbmem := calleeEffects_extract _ _ _ m b ((stableSortBy_mem _ _ b).mp hb)
        obtain ⟨G, st, hG, hbe, _⟩ := hbmem
        have hprops := (hm G st hG).2.2 b hbe
        refine extraShapeOK_append func props e2 _ _ ?_ ?_ he2
        · exact Or.inr ⟨rh, mhb_mem_mapped func (cs, ⟨some d, argc, argVars⟩) hp _ _
            props hprops.1 rh hm1, rfl⟩
        · exact Or.inr ⟨wh, mhb_mem_mapped func (cs, ⟨some d, argc, argVars⟩) hp _ _
            props hprops.2 wh hm2, rfl⟩
    · intro e2 b hb he2
      rcases hm1 : mapHeapBucketToCaller func ⟨some d, argc, argVars⟩
          b.objectParamIndex b.propertyName with _ | hid
      · exact he2
      · have hbmem := calleeEffects_extract _ _ _ m b ((stableSortBy_mem _ _ b).mp hb)
        obtain ⟨G, st, hG, hbe, _⟩ := hbmem
        have hprops := (hm G st hG).2.1 b hbe
        refine extraShapeOK_append func props e2 _ _ ?_ ?_ he2
        · exact Or.inr ⟨hid, mhb_mem_mapped func (cs, ⟨some d, argc, argVars⟩) hp _ _
            props hprops hid hm1, rfl⟩
        · exact Or.inl rfl
    · intro e2 b hb he2
      rcases hm1 : mapHeapBucketToCaller func ⟨some d, argc, argVars⟩
          b.objectParamIndex b.propertyName with _ | hid
      · exact he2
      · have hbmem := calleeEffects_extract _ _ _ m b ((stableSortBy_mem _ _ b).mp hb)
        obtain ⟨G, st, hG, hbe, _⟩ := hbmem
        have hprops := (hm G st hG).1 b hbe
        refine extraShapeOK_append func props e2 _ _ ?_ ?_ he2
        · exact Or.inl rfl
        · exact Or.inr ⟨hid, mhb_mem_mapped func (cs, ⟨some d, argc, argVars⟩) hp _ _
            props hprops hid hm1, rfl⟩
    · intro e2 b hb he2
      refine extraShapeOK_append func props e2 _ _ ?_ ?_ he2
      · exact Or.inl rfl
      · exact Or.inl rfl

theorem heapFactsStep_nodup (fid : FuncIdP) (adj : LNodeP → List LNodeP)
    (fuel : Nat) (fs : List FlowFactP) (src : LNodeP) (h : fs.Nodup) :
    (heapFactsStep fid adj fuel fs src).Nodup := by
  cases src
  case heapRead hid =>
    refine foldl_invariant (fun fs => fs.Nodup) _ ?_ _ fs h
    intro a cur h2
    cases cur
    case ret => exact setInsert_nodup _ _ h2
    case callArg c i => exact setInsert_nodup _ _ h2
    case heapWrite hw => exact setInsert_nodup _ _ h2
    case var v => exact h2
    case heapRead hr => exact h2
  case ret => exact h
  case var v => exact h
  case callArg c i => exact h
  case heapWrite hw => exact h

theorem presStepV2_nodup (fid : FuncIdP) (adj : LNodeP → List LNodeP)
    (fuel : Nat) (acc : List FlowFactP × List Nat) (p : VarIdP) (h : acc.1.Nodup) :
    (presStepV2 fid adj fuel acc p).1.Nodup := by
  rw [presStepV2]
  refine foldl_invariant (fun (a : List FlowFactP × List Nat) => a.1.Nodup) _ ?_ _ acc h
  intro a cur h2
  cases cur
  case ret => exact setInsert_nodup _ _ h2
  case callArg c i => exact setInsert_nodup _ _ h2
  case heapWrite hw => exact setInsert_nodup _ _ h2
  case var v => exact h2
  case heapRead hr => exact h2

theorem computeFuncStateV2_facts_nodup (func : FuncInputV2P)
    (cbc : List (CallsiteIdP × List FuncIdP))
    (m : List (FuncIdP × FuncStateV2P)) :
    (computeFuncStateV2 func cbc m).facts.Nodup := by
  simp only [computeFuncStateV2]
  refine nodup_stableSortBy _ _ ?_
  refine foldl_invariant (fun (fs : List FlowFactP) => fs.Nodup) _ ?_ _ _ ?_
  · intro fs src h
    exact heapFactsStep_nodup func.funcId _ _ fs src h
  · exact foldl_invariant (fun (a : List FlowFactP × List Nat) => a.1.Nodup) _
      (fun a p h => presStepV2_nodup func.funcId _ _ a p h) func.ir.params ([], [])
      List.nodup_nil

theorem toNode_of_visited (func : FuncInputV2P) (props : List String)
    (extra : List (LNodeP × List LNodeP)) (hshape : extraShapeOK func props extra)
    (s cur : LNodeP)
    (hcur : cur ∈ bfsReach (getNeighbors func.baseAdj extra)
      (bfsFuel func.baseAdj extra) [s] [s]) :
    cur = s ∨ cur ∈ func.baseAdj.flatMap Prod.snd ∨
      (∃ d, cur = LNodeP.var d) ∨
      (∃ h ∈ mappedHeapIds func props, cur = LNodeP.heapWrite h) := by
  have huniv := bfsReach_subset (getNeighbors func.baseAdj extra)
    (s :: (func.baseAdj.flatMap Prod.snd ++ extra.flatMap Prod.snd))
    (fun n x hx => List.mem_cons_of_mem _
      (getNeighbors_subset_values func.baseAdj extra n x hx))
    (bfsFuel func.baseAdj extra) [s] [s]
    (by
      intro a ha
      rw [List.mem_singleton.mp ha]
      exact List.mem_cons_self _ _) cur hcur
  rcases List.mem_cons.mp huniv with h | h
  · exact Or.inl h
  · rcases List.mem_append.mp h with h2 | h2
    · exact Or.inr (Or.inl h2)
    · rcases List.mem_flatMap.mp h2 with ⟨pr, hpr, hcx⟩
      rcases (hshape pr hpr).2 cur hcx with h3 | ⟨hh, hmem, heq⟩
      · refine Or.inr (Or.inr (Or.inl ?_))
        cases cur <;> first | exact ⟨_, rfl⟩ | exact Bool.noConfusion h3
      · exact Or.inr (Or.inr (Or.inr ⟨hh, hmem, heq⟩))

theorem factUniverse_mem (func : FuncInputV2P) (props : List String)
    (a b : FlowNodeP)
    (ha : a ∈ func.ir.params.map (fun p => FlowNodeP.var func.funcId p) ++
      (baseHeapReadIds func.baseAdj ++ mappedHeapIds func props).map
        FlowNodeP.heap_read)
    (hb : b ∈ FlowNodeP.ret func.funcId :: baseCallArgNodes func.baseAdj ++
      (baseHeapWriteIds func.baseAdj ++ mappedHeapIds func props).map
        FlowNodeP.heap_write) :
    (⟨a, b⟩ : FlowFactP) ∈ factUniverseV2 func props := by
  rw [factUniverseV2]
  exact List.mem_flatMap.mpr ⟨a, ha, List.mem_map.mpr ⟨b, hb, rfl⟩⟩

theorem callArg_visited_mem (func : FuncInputV2P) (props : List String)
    (extra : List (LNodeP × List LNodeP)) (hshape : extraShapeOK func props extra)
    (s cur : LNodeP) (c : CallsiteIdP) (i : Nat)
    (hcur : cur ∈ bfsReach (getNeighbors func.baseAdj extra)
      (bfsFuel func.baseAdj extra) [s] [s])
    (hs : isVarNode s = true ∨ isHeapReadNode s = true)
    (hcx : cur = LNodeP.callArg c i) :
    FlowNodeP.call_arg c i ∈ baseCallArgNodes func.baseAdj := by
  rcases toNode_of_visited func props extra hshape s cur hcur with
    h | h | ⟨d, hd⟩ | ⟨hh, _, heq⟩
  · rw [hcx] at h
    rw [← h] at hs
    rcases hs with h2 | h2 <;> exact Bool.noConfusion h2
  · rw [baseCallArgNodes]
    exact List.mem_filterMap.mpr ⟨LNodeP.callArg c i, hcx ▸ h, rfl⟩
  · rw [hcx] at hd
    exact LNodeP.noConfusion hd
  · rw [hcx] at heq
    exact LNodeP.noConfusion heq

theorem heapWrite_visited_mem (func : FuncInputV2P) (props : List String)
    (extra : List (LNodeP × List LNodeP)) (hshape : extraShapeOK func props extra)
    (s cur : LNodeP) (hw : HeapIdP)
    (hcur : cur ∈ bfsReach (getNeighbors func.baseAdj extra)
      (bfsFuel func.baseAdj extra) [s] [s])
    (hs : isVarNode s = true ∨ isHeapReadNode s = true)
    (hcx : cur = LNodeP.heapWrite hw) :
    hw ∈ baseHeapWriteIds func.baseAdj ∨ hw ∈ mappedHeapIds func props := by
  rcases toNode_of_visited func props extra hshape s cur hcur with
    h | h | ⟨d, hd⟩ | ⟨hh, hmem, heq⟩
  · rw [hcx] at h
    rw [← h] at hs
    rcases hs with h2 | h2 <;> exact Bool.noConfusion h2
  · refine Or.inl ?_
    rw [baseHeapWriteIds]
    exact List.mem_filterMap.mpr ⟨LNodeP.heapWrite hw, hcx ▸ h, rfl⟩
  · rw [hcx] at hd
    exact LNodeP.noConfusion hd
  · rw [hcx] at heq
    have : hw = hh := by
      cases heq
      rfl
    exact Or.inr (this ▸ hmem)

theorem heapReadSource_mem (func : FuncInputV2P) (props : List String)
    (extra : List (LNodeP × List LNodeP)) (hshape : extraShapeOK func props extra)
    (src : LNodeP) (hid : HeapIdP)
    (hsrc : src ∈ (func.baseAdj.map Prod.fst).filter isHeapReadNode ++
      (extra.map Prod.fst).filter isHeapReadNode)
    (heq : src = LNodeP.heapRead hid) :
    hid ∈ baseHeapReadIds func.baseAdj ∨ hid ∈ mappedHeapIds func props := by
  rcases List.mem_append.mp hsrc with h | h
  · refine Or.inl ?_
    rw [baseHeapReadIds]
    exact List.mem_filterMap.mpr ⟨LNodeP.heapRead hid,
      heq ▸ (List.mem_filter.mp h).1, rfl⟩
  · rcases List.mem_map.mp (List.mem_filter.mp h).1 with ⟨pr, hpr, hfst⟩
    rcases (hshape pr hpr).1 with h2 | ⟨hh, hmem, heq2⟩
    · rw [hfst, heq] at h2
      exact Bool.noConfusion h2
    · rw [heq2, heq] at hfst
      have : hid = hh := by
        cases hfst
        rfl
      exact Or.inr (this ▸ hmem)

theorem computeFuncStateV2_facts_bound (func : FuncInputV2P)
    (cbc : List (CallsiteIdP × List FuncIdP))
    (m : List (FuncIdP × FuncStateV2P)) (props : List String)
    (hm : mapPropsOK props m) (f : FlowFactP)
    (hf : f ∈ (computeFuncStateV2 func cbc m).facts) :
    f ∈ factUniverseV2 func props := by
  have hshape := buildExtraAdjV2_shape2 func cbc m props hm
  simp only [computeFuncStateV2] at hf
  rw [stableSortBy_mem] at hf
  rcases foldl_pred_extract _ (fun (fs : List FlowFactP) => f ∈ fs)
    (fun src => ∃ hid, src = LNodeP.heapRead hid ∧
      ∃ cur ∈ bfsReach
        (getNeighbors func.baseAdj (buildExtraAdjV2 func cbc m))
        (bfsFuel func.baseAdj (buildExtraAdjV2 func cbc m)) [src] [src],
      heapFactOf func.funcId hid cur = some f)
    (fun fs src h => heapFactsStep_extract func.funcId _ _ fs src f h)
    _ _ hf with hpres | ⟨src, hsrc, hid, hsrceq, cur, hcur, hfo⟩
  · rcases foldl_pred_extract _
      (fun (a : List FlowFactP × List Nat) => f ∈ a.1)
      (fun p => p ∈ func.ir.params →
        ∃ cur ∈ bfsReach
          (getNeighbors func.baseAdj (buildExtraAdjV2 func cbc m))
          (bfsFuel func.baseAdj (buildExtraAdjV2 func cbc m))
          [LNodeP.var p] [LNodeP.var p],
        presFactOf func.funcId p cur = some f)
      (fun a p h => (presStepV2_facts_extract func.funcId _ _ a p f h).imp
        id (fun h2 _ => h2))
      _ _ hpres with h0 | ⟨p, hp, hgen⟩
    · exact absurd h0 (by simp)
    · rcases hgen hp with ⟨cur, hcur, hfo⟩
      cases cur
      case var v => exact Option.noConfusion hfo
      case heapRead hr => exact Option.noConfusion hfo
      case ret =>
        cases hfo
        exact factUniverse_mem func props _ _
          (List.mem_append_left _ (List.mem_map.mpr ⟨p, hp, rfl⟩))
          (List.mem_cons_self _ _)
      case callArg c i =>
        cases hfo
        refine factUniverse_mem func props _ _
          (List.mem_append_left _ (List.mem_map.mpr ⟨p, hp, rfl⟩))
          (List.mem_cons_of_mem _ (List.mem_append_left _ ?_))
        exact callArg_visited_mem func props _ hshape (LNodeP.var p)
          (LNodeP.callArg c i) c i hcur (Or.inl rfl) rfl
      case heapWrite hw =>
        cases hfo
        refine factUniverse_mem func props _ _
          (List.mem_append_left _ (List.mem_map.mpr ⟨p, hp, rfl⟩))
          (List.mem_cons_of_mem _ (List.mem_append_right _
            (List.mem_map.mpr ⟨hw, List.mem_append.mpr ?_, rfl⟩)))
        exact heapWrite_visited_mem func props _ hshape (LNodeP.var p)
          (LNodeP.heapWrite hw) hw hcur (Or.inl rfl) rfl
  · rw [stableSortBy_mem, mem_dedupKeepFirst] at hsrc
    have hidmem : hid ∈ baseHeapReadIds func.baseAdj ∨
        hid ∈ mappedHeapIds func props :=
      heapReadSource_mem func props _ hshape src hid hsrc hsrceq
    subst hsrceq
    have ha : FlowNodeP.heap_read hid ∈
        func.ir.params.map (fun p => FlowNodeP.var func.funcId p) ++
          (baseHeapReadIds func.baseAdj ++ mappedHeapIds func props).map
            FlowNodeP.heap_read :=
      List.mem_append_right _
        (List.mem_map.mpr ⟨hid, List.mem_append.mpr hidmem, rfl⟩)
    cases cur
    case var v => exact Option.noConfusion hfo
    case heapRead hr => exact Option.noConfusion hfo
    case ret =>
      cases hfo
      exact factUniverse_mem func props _ _ ha (List.mem_cons_self _ _)
    case callArg c i =>
      cases hfo
      refine factUniverse_mem func props _ _ ha
        (List.mem_cons_of_mem _ (List.mem_append_left _ ?_))
      exact callArg_visited_mem func props _ hshape (LNodeP.heapRead hid)
        (LNodeP.callArg c i) c i hcur (Or.inr rfl) rfl
    case heapWrite hw =>
      cases hfo
      refine factUniverse_mem func props _ _ ha
        (List.mem_cons_of_mem _ (List.mem_append_right _
          (List.mem_map.mpr ⟨hw, List.mem_append.mpr ?_, rfl⟩)))
      exact heapWrite_visited_mem func props _ hshape (LNodeP.heapRead hid)
        (LNodeP.heapWrite hw) hw hcur (Or.inr rfl) rfl

theorem effsStep_prop1 (n : Nat)
    (acc : List ParamHeapWriteEff × List HeapReadReturnEff ×
      List HeapReadHeapWriteEff) (f : FlowFactP) (e : ParamHeapWriteEff)
    (h : e ∈ (effsStep n acc f).1) :
    e ∈ acc.1 ∨ e.propertyName ∈ flowNodeProps f.to' := by
  obtain ⟨fr, t⟩ := f
  cases fr <;> cases t <;>
    first
      | exact Or.inl h
      | skip
  case var.heap_write fk vid hw =>
    obtain ⟨vk, vi⟩ := vid
    cases vk
    case v => exact Or.inl h
    case p =>
      rcases hsy : heapIdToSyntheticParamIndex hw with _ | oi
      · simp only [effsStep, hsy] at h
        exact Or.inl h
      · by_cases hge : oi ≥ n
        · simp only [effsStep, hsy] at h
          rw [if_pos hge] at h
          exact Or.inl h
        · simp only [effsStep, hsy] at h
          rw [if_neg hge] at h
          dsimp only at h
          rcases mem_setInsert _ _ _ h with h2 | h2
          · exact Or.inl h2
          · refine Or.inr ?_
            rw [h2]
            simp [flowNodeProps]
  case heap_read.ret hr fk =>
    rcases hsy : heapIdToSyntheticParamIndex hr with _ | oi
    · simp only [effsStep, hsy] at h
      exact Or.inl h
    · by_cases hge : oi ≥ n
      · simp only [effsStep, hsy] at h
        rw [if_pos hge] at h
        exact Or.inl h
      · simp only [effsStep, hsy] at h
        rw [if_neg hge] at h
        exact Or.inl h
  case heap_read.heap_write hr hw =>
    rcases hsy1 : heapIdToSyntheticParamIndex hr with _ | ri
    · simp only [effsStep, hsy1] at h
      exact Or.inl h
    · rcases hsy2 : heapIdToSyntheticParamIndex hw with _ | wi
      · simp only [effsStep, hsy1, hsy2] at h
        exact Or.inl h
      · by_cases hge1 : ri ≥ n
        · simp only [effsStep, hsy1, hsy2] at h
          rw [if_pos hge1] at h
          exact Or.inl h
        · by_cases hge2 : wi ≥ n
          · simp only [effsStep, hsy1, hsy2] at h
            rw [if_neg hge1, if_pos hge2] at h
            exact Or.inl h
          · simp only [effsStep, hsy1, hsy2] at h
            rw [if_neg hge1, if_neg hge2] at h
            exact Or.inl h

theorem effsStep_prop2 (n : Nat)
    (acc : List ParamHeapWriteEff × List HeapReadReturnEff ×
      List HeapReadHeapWriteEff) (f : FlowFactP) (e : HeapReadReturnEff)
    (h : e ∈ (effsStep n acc f).2.1) :
    e ∈ acc.2.1 ∨ e.propertyName ∈ flowNodeProps f.from' := by
  obtain ⟨fr, t⟩ := f
  cases fr <;> cases t <;>
    first
      | exact Or.inl h
      | skip
  case var.heap_write fk vid hw =>
    obtain ⟨vk, vi⟩ := vid
    cases vk
    case v => exact Or.inl h
    case p =>
      rcases hsy : heapIdToSyntheticParamIndex hw with _ | oi
      · simp only [effsStep, hsy] at h
        exact Or.inl h
      · by_cases hge : oi ≥ n
        · simp only [effsStep, hsy] at h
          rw [if_pos hge] at h
          exact Or.inl h
        · simp only [effsStep, hsy] at h
          rw [if_neg hge] at h
          exact Or.inl h
  case heap_read.ret hr fk =>
    rcases hsy : heapIdToSyntheticParamIndex hr with _ | oi
    · simp only [effsStep, hsy] at h
      exact Or.inl h
    · by_cases hge : oi ≥ n
      · simp only [effsStep, hsy] at h
        rw [if_pos hge] at h
        exact Or.inl h
      · simp only [effsStep, hsy] at h
        rw [if_neg hge] at h
        dsimp only at h
        rcases mem_setInsert _ _ _ h with h2 | h2
        · exact Or.inl h2
        · refine Or.inr ?_
          rw [h2]
          simp [flowNodeProps]
  case heap_read.heap_write hr hw =>
    rcases hsy1 : heapIdToSyntheticParamIndex hr with _ | ri
    · simp only [effsStep, hsy1] at h
      exact Or.inl h
    · rcases hsy2 : heapIdToSyntheticParamIndex hw with _ | wi
      · simp only [effsStep, hsy1, hsy2] at h
        exact Or.inl h
      · by_cases hge1 : ri ≥ n
        · simp only [effsStep, hsy1, hsy2] at h
          rw [if_pos hge1] at h
          exact Or.inl h
        · by_cases hge2 : wi ≥ n
          · simp only [effsStep, hsy1, hsy2] at h
            rw [if_neg hge1, if_pos hge2] at h
            exact Or.inl h
          · simp only [effsStep, hsy1, hsy2] at h
            rw [if_neg hge1, if_neg hge2] at h
            exact Or.inl h

theorem effsStep_prop3 (n : Nat)
    (acc : List ParamHeapWriteEff × List HeapReadReturnEff ×
      List HeapReadHeapWriteEff) (f : FlowFactP) (e : HeapReadHeapWriteEff)
    (h : e ∈ (effsStep n acc f).2.2) :
    e ∈ acc.2.2 ∨ (e.readPropertyName ∈ flowNodeProps f.from' ∧
      e.writePropertyName ∈ flowNodeProps f.to') := by
  obtain ⟨fr, t⟩ := f
  cases fr <;> cases t <;>
    first
      | exact Or.inl h
      | skip
  case var.heap_write fk vid hw =>
    obtain ⟨vk, vi⟩ := vid
    cases vk
    case v => exact Or.inl h
    case p =>
      rcases hsy : heapIdToSyntheticParamIndex hw with _ | oi
      · simp only [effsStep, hsy] at h
        exact Or.inl h
      · by_cases hge : oi ≥ n
        · simp only [effsStep, hsy] at h
          rw [if_pos hge] at h
          exact Or.inl h
        · simp only [effsStep, hsy] at h
          rw [if_neg hge] at h
          exact Or.inl h
  case heap_read.ret hr fk =>
    rcases hsy : heapIdToSyntheticParamIndex hr with _ | oi
    · simp only [effsStep, hsy] at h
      exact Or.inl h
    · by_cases hge : oi ≥ n
      · simp only [effsStep, hsy] at h
        rw [if_pos hge] at h
        exact Or.inl h
      · simp only [effsStep, hsy] at h
        rw [if_neg hge] at h
        exact Or.inl h
  case heap_read.heap_write hr hw =>
    rcases hsy1 : heapIdToSyntheticParamIndex hr with _ | ri
    · simp only [effsStep, hsy1] at h
      exact Or.inl h
    · rcases hsy2 : heapIdToSyntheticParamIndex hw with _ | wi
      · simp only [effsStep, hsy1, hsy2] at h
        exact Or.inl h
      · by_cases hge1 : ri ≥ n
        · simp only [effsStep, hsy1, hsy2] at h
          rw [if_pos hge1] at h
          exact Or.inl h
        · by_cases hge2 : wi ≥ n
          · simp only [effsStep, hsy1, hsy2] at h
            rw [if_neg hge1, if_pos hge2] at h
            exact Or.inl h
          · simp only [effsStep, hsy1, hsy2] at h
            rw [if_neg hge1, if_neg hge2] at h
            dsimp only at h
            rcases mem_setInsert _ _ _ h with h2 | h2
            · exact Or.inl h2
            · refine Or.inr ?_
              rw [h2]
              simp [flowNodeProps]

theorem mappedHeapIds_prop (func : FuncInputV2P) (props : List String)
    (h : HeapIdP) (hmem : h ∈ mappedHeapIds func props) :
    h.propertyName ∈ props := by
  rw [mappedHeapIds] at hmem
  rcases List.mem_flatMap.mp hmem with ⟨p, hp, h2⟩
  rcases List.mem_flatMap.mp h2 with ⟨av, hav, h3⟩
  cases av with
  | none => exact absurd h3 (by simp)
  | some v =>
      rcases List.mem_map.mp h3 with ⟨prop, hprop, heq⟩
      rw [← heq]
      exact hprop

theorem baseHeapReadIds_prop (base : List (LNodeP × List LNodeP)) (h : HeapIdP)
    (hmem : h ∈ baseHeapReadIds base) : h.propertyName ∈ adjProps base := by
  rw [baseHeapReadIds] at hmem
  rcases List.mem_filterMap.mp hmem with ⟨n, hn, heq⟩
  cases n
  case heapRead hr =>
    cases heq
    rcases List.mem_map.mp hn with ⟨pr, hpr, hfst⟩
    refine List.mem_flatMap.mpr ⟨pr, hpr, List.mem_append_left _ ?_⟩
    rw [hfst]
    exact List.mem_singleton_self _
  all_goals exact Option.noConfusion heq

theorem baseHeapWriteIds_prop (base : List (LNodeP × List LNodeP)) (h : HeapIdP)
    (hmem : h ∈ baseHeapWriteIds base) : h.propertyName ∈ adjProps base := by
  rw [baseHeapWriteIds] at hmem
  rcases List.mem_filterMap.mp hmem with ⟨n, hn, heq⟩
  cases n
  case heapWrite hw =>
    cases heq
    rcases List.mem_flatMap.mp hn with ⟨pr, hpr, hval⟩
    refine List.mem_flatMap.mpr ⟨pr, hpr, List.mem_append_right _ ?_⟩
    exact List.mem_flatMap.mpr ⟨LNodeP.heapWrite h, hval,
      List.mem_singleton_self _⟩
  all_goals exact Option.noConfusion heq

theorem factUniverse_props (func : FuncInputV2P) (props : List String)
    (hbase : ∀ q ∈ adjProps func.baseAdj, q ∈ props) (f : FlowFactP)
    (hf : f ∈ factUniverseV2 func props) :
    (∀ q ∈ flowNodeProps f.from', q ∈ props) ∧
    (∀ q ∈ flowNodeProps f.to', q ∈ props) := by
  rw [factUniverseV2] at hf
  rcases List.mem_flatMap.mp hf with ⟨a, ha, h2⟩
  rcases List.mem_map.mp h2 with ⟨b, hb, heq⟩
  rw [← heq]
  constructor
  · rcases List.mem_append.mp ha with h3 | h3
    · rcases List.mem_map.mp h3 with ⟨p, _, hpe⟩
      rw [← hpe]
      intro q hq
      exact absurd hq (by simp [flowNodeProps])
    · rcases List.mem_map.mp h3 with ⟨hid, hmem, hpe⟩
      rw [← hpe]
      intro q hq
      rw [List.mem_singleton.mp hq]
      rcases List.mem_append.mp hmem with h4 | h4
      · exact hbase _ (baseHeapReadIds_prop func.baseAdj hid h4)
      · exact mappedHeapIds_prop func props hid h4
  · rcases List.mem_cons.mp hb with h3 | h3
    · rw [h3]
      intro q hq
      exact absurd hq (by simp [flowNodeProps])
    · rcases List.mem_append.mp h3 with h4 | h4
      · rw [baseCallArgNodes] at h4
        rcases List.mem_filterMap.mp h4 with ⟨n, _, hne⟩
        cases n <;> try exact Option.noConfusion hne
        case callArg c i =>
          cases hne
          intro q hq
          exact absurd hq (by simp [flowNodeProps])
      · rcases List.mem_map.mp h4 with ⟨hid, hmem, hpe⟩
        rw [← hpe]
        intro q hq
        rw [List.mem_singleton.mp hq]
        rcases List.mem_append.mp hmem with h5 | h5
        · exact hbase _ (baseHeapWriteIds_prop func.baseAdj hid h5)
        · exact mappedHeapIds_prop func props hid h5

theorem computeFuncStateV2_props (func : FuncInputV2P)
    (cbc : List (CallsiteIdP × List FuncIdP))
    (m : List (FuncIdP × FuncStateV2P)) (props : List String)
    (hm : mapPropsOK props m)
    (hbase : ∀ q ∈ adjProps func.baseAdj, q ∈ props) :
    statePropsOK props (computeFuncStateV2 func cbc m) := by
  refine ⟨?_, ?_, ?_⟩
  · intro e he
    simp only [computeFuncStateV2] at he
    rw [stableSortBy_mem] at he
    rcases foldl_pred_extract _
      (fun (a : List ParamHeapWriteEff × List HeapReadReturnEff ×
        List HeapReadHeapWriteEff) => e ∈ a.1)
      (fun f => e.propertyName ∈ flowNodeProps f.to')
      (fun a f h => effsStep_prop1 func.ir.params.length a f e h)
      _ _ he with h0 | ⟨f, hf, hg⟩
    · dsimp only at h0
      exact absurd h0 (List.not_mem_nil e)
    · have hfmem : f ∈ (computeFuncStateV2 func cbc m).facts := by
        simp only [computeFuncStateV2]
        exact hf
      exact (factUniverse_props func props hbase f
        (computeFuncStateV2_facts_bound func cbc m props hm f hfmem)).2 _ hg
  · intro e he
    simp only [computeFuncStateV2] at he
    rw [stableSortBy_mem] at he
    rcases foldl_pred_extract _
      (fun (a : List ParamHeapWriteEff × List HeapReadReturnEff ×
        List HeapReadHeapWriteEff) => e ∈ a.2.1)
      (fun f => e.propertyName ∈ flowNodeProps f.from')
      (fun a f h => effsStep_prop2 func.ir.params.length a f e h)
      _ _ he with h0 | ⟨f, hf, hg⟩
    · dsimp only at h0
      exact absurd h0 (List.not_mem_nil e)
    · have hfmem : f ∈ (computeFuncStateV2 func cbc m).facts := by
        simp only [computeFuncStateV2]
        exact hf
      exact (factUniverse_props func props hbase f
        (computeFuncStateV2_facts_bound func cbc m props hm f hfmem)).1 _ hg
  · intro e he
    simp only [computeFuncStateV2] at he
    rw [stableSortBy_mem] at he
    rcases foldl_pred_extract _
      (fun (a : List ParamHeapWriteEff × List HeapReadReturnEff ×
        List HeapReadHeapWriteEff) => e ∈ a.2.2)
      (fun f => e.readPropertyName ∈ flowNodeProps f.from' ∧
        e.writePropertyName ∈ flowNodeProps f.to')
      (fun a f h => effsStep_prop3 func.ir.params.length a f e h)
      _ _ he with h0 | ⟨f, hf, hg⟩
    · dsimp only at h0
      exact absurd h0 (List.not_mem_nil e)
    · have hprops := factUniverse_props func props hbase f
        (computeFuncStateV2_facts_bound func cbc m props hm f
          (by simp only [computeFuncStateV2]; exact hf))
      exact ⟨hprops.1 _ hg.1, hprops.2 _ hg.2⟩

theorem then2_lt_trans {α β : Type} (c1 : α → α → Ordering)
    (c2 : β → β → Ordering) (h1l : LawfulCmp c1) (h2l : LawfulCmp c2)
    {a1 b1 d1 : α} {a2 b2 d2 : β}
    (hab : (c1 a1 b1).then (c2 a2 b2) = .lt)
    (hbc : (c1 b1 d1).then (c2 b2 d2) = .lt) :
    (c1 a1 d1).then (c2 a2 d2) = .lt := by
  rw [thenLtIff] at hab hbc ⊢
  rcases hab with h1 | ⟨h1, h1'⟩ <;> rcases hbc with h2 | ⟨h2, h2'⟩
  · exact Or.inl (h1l.lt_trans h1 h2)
  · left
    rw [← (h1l.eq_iff _ _).1 h2]
    exact h1
  · left
    rw [(h1l.eq_iff _ _).1 h1]
    exact h2
  · right
    exact ⟨(h1l.eq_iff _ _).2 (((h1l.eq_iff _ _).1 h1).trans
      ((h1l.eq_iff _ _).1 h2)), h2l.lt_trans h1' h2'⟩

theorem lawful_cmpFlowNode : LawfulCmp cmpFlowNode := by
  constructor
  · intro a b
    cases a <;> cases b <;>
      simp [cmpFlowNode, flowNodeRank, thenEqIff, lawful_cmpFuncId.eq_iff,
        lawful_cmpVarId.eq_iff, lawful_cmpHeapId.eq_iff,
        lawful_cmpCallsiteId.eq_iff, cmpNumber, compare_eq_iff_eq]
  · intro a b
    cases a <;> cases b <;>
      simp only [cmpFlowNode, flowNodeRank] <;>
      first
        | decide
        | rw [thenSwap, lawful_cmpFuncId.swap, lawful_cmpVarId.swap]
        | rw [thenSwap, lawful_cmpCallsiteId.swap, lawful_cmpNumber.swap]
        | exact lawful_cmpHeapId.swap _ _
        | exact lawful_cmpFuncId.swap _ _
  · intro a b c h1 h2
    cases a <;> cases b <;> cases c <;>
      simp only [cmpFlowNode, flowNodeRank] at h1 h2 ⊢ <;>
      first
        | exact absurd h1 (by decide)
        | exact absurd h2 (by decide)
        | decide
        | exact then2_lt_trans _ _ lawful_cmpFuncId lawful_cmpVarId h1 h2
        | exact then2_lt_trans _ _ lawful_cmpCallsiteId lawful_cmpNumber h1 h2
        | exact lawful_cmpHeapId.lt_trans h1 h2
        | exact lawful_cmpFuncId.lt_trans h1 h2

theorem lawful_cmpFlowFact : LawfulCmp cmpFlowFact := by
  have h := lawful_lexOn FlowFactP.from' cmpFlowNode lawful_cmpFlowNode
    (fun a b => cmpFlowNode a.to' b.to')
    (fun a b => lawful_cmpFlowNode.swap _ _)
    (fun a b c h1 h2 => lawful_cmpFlowNode.lt_trans h1 h2)
    (by
      intro a b hf h
      have := (lawful_cmpFlowNode.eq_iff _ _).1 h
      cases a
      cases b
      simp_all)
  exact h

theorem stateLeV2_refl (a : FuncStateV2P) : stateLeV2 a a :=
  ⟨fun _ h => h, fun _ h => h, fun _ h => h, fun _ h => h, fun _ h => h⟩

theorem stateLeV2_trans {a b c : FuncStateV2P} (h1 : stateLeV2 a b)
    (h2 : stateLeV2 b c) : stateLeV2 a c :=
  ⟨fun _ h => h2.1 (h1.1 h), fun _ h => h2.2.1 (h1.2.1 h),
   fun _ h => h2.2.2.1 (h1.2.2.1 h), fun _ h => h2.2.2.2.1 (h1.2.2.2.1 h),
   fun _ h => h2.2.2.2.2 (h1.2.2.2.2 h)⟩

theorem mapLeV2_refl (m : List (FuncIdP × FuncStateV2P)) : mapLeV2 m m :=
  fun _ st h => ⟨st, h, stateLeV2_refl st⟩

theorem mapLeV2_trans {m1 m2 m3 : List (FuncIdP × FuncStateV2P)}
    (h1 : mapLeV2 m1 m2) (h2 : mapLeV2 m2 m3) : mapLeV2 m1 m3 := by
  intro G st h
  rcases h1 G st h with ⟨st2, h2', hle⟩
  rcases h2 G st2 h2' with ⟨st3, h3, hle2⟩
  exact ⟨st3, h3, stateLeV2_trans hle hle2⟩

theorem mapLeV2_set (m : List (FuncIdP × FuncStateV2P)) (G : FuncIdP)
    (st : FuncStateV2P)
    (hprev : ∀ st0, alistGet m G = some st0 → stateLeV2 st0 st) :
    mapLeV2 m (alistSet m G st) := by
  intro G2 st2 h
  by_cases hG : G2 = G
  · subst hG
    exact ⟨st, alistGet_alistSet_self m G2 st, hprev st2 h⟩
  · refine ⟨st2, ?_, stateLeV2_refl st2⟩
    rw [alistGet_alistSet_ne m G G2 st hG]
    exact h

theorem sorted_nodup_ssub_length {α : Type} {cmp : α → α → Ordering}
    (hc : LawfulCmp cmp) (l1 l2 : List α)
    (hsub : l1 ⊆ l2) (hne : l1 ≠ l2) (h1 : l1.Nodup) (_h2 : l2.Nodup)
    (hs1 : List.Sorted (fun a b => cmp a b ≠ Ordering.gt) l1)
    (hs2 : List.Sorted (fun a b => cmp a b ≠ Ordering.gt) l2) :
    l1.length < l2.length := by
  have hsp : l1.Subperm l2 := h1.subperm hsub
  rcases Nat.lt_or_ge l1.length l2.length with h | h
  · exact h
  · exact absurd (sorted_eq_of_perm hc (hsp.perm_of_length_le h) hs1 hs2) hne

theorem storeIfChanged_none {σ : Type} (facts : σ → List FlowFactP)
    (m : List (FuncIdP × σ)) (fid : FuncIdP) (next : σ)
    (h : alistGet m fid = none) :
    storeIfChanged facts m fid next = some (alistSet m fid next, true) := by
  rw [storeIfChanged, h]

theorem storeIfChanged_some {σ : Type} (facts : σ → List FlowFactP)
    (m : List (FuncIdP × σ)) (fid : FuncIdP) (next : σ) (prev : σ)
    (h : alistGet m fid = some prev) :
    storeIfChanged facts m fid next =
      if facts prev = facts next then some (m, false)
      else some (alistSet m fid next, true) := by
  rw [storeIfChanged, h]

theorem interprocStepV2_noInput (graph : MappedCallGraphP)
    (funcInputs : List (FuncIdP × FuncInputV2P))
    (m : List (FuncIdP × FuncStateV2P)) (f : FuncIdP)
    (h : alistGet funcInputs f = none) :
    interprocStepV2 graph funcInputs m f = none := by
  rw [interprocStepV2, h]

theorem interprocStepV2_input (graph : MappedCallGraphP)
    (funcInputs : List (FuncIdP × FuncInputV2P))
    (m : List (FuncIdP × FuncStateV2P)) (f : FuncIdP) (func : FuncInputV2P)
    (h : alistGet funcInputs f = some func) :
    interprocStepV2 graph funcInputs m f = storeIfChanged (fun st => st.facts)
      m f (computeFuncStateV2 func (calleesByCallsiteFor graph f) m) := by
  rw [interprocStepV2, h]

theorem interprocStepV2_mono (graph : MappedCallGraphP)
    (funcInputs : List (FuncIdP × FuncInputV2P))
    (m : List (FuncIdP × FuncStateV2P)) (f : FuncIdP)
    (m' : List (FuncIdP × FuncStateV2P)) (ch : Bool)
    (hinv : InvV2 graph funcInputs m)
    (hstep : interprocStepV2 graph funcInputs m f = some (m', ch)) :
    mapLeV2 m m' ∧ InvV2 graph funcInputs m' := by
  rcases hfi : alistGet funcInputs f with _ | func
  · rw [interprocStepV2_noInput graph funcInputs m f hfi] at hstep
    exact Option.noConfusion hstep
  · rw [interprocStepV2_input graph funcInputs m f func hfi] at hstep
    rcases hprev : alistGet m f with _ | prev
    · rw [storeIfChanged_none _ _ _ _ hprev] at hstep
      rcases Option.some.inj hstep with hm
      rw [Prod.mk.injEq] at hm
      have hle : mapLeV2 m m' := by
        rw [← hm.1]
        refine mapLeV2_set m f _ ?_
        intro st0 h0
        rw [hprev] at h0
        exact Option.noConfusion h0
      refine ⟨hle, ?_⟩
      intro G st hG
      by_cases hgf : G = f
      · subst hgf
        rw [← hm.1, alistGet_alistSet_self] at hG
        exact ⟨func, m, hfi, hle, (Option.some.inj hG).symm⟩
      · rw [← hm.1, alistGet_alistSet_ne m f G _ hgf] at hG
        rcases hinv G st hG with ⟨func2, mp, hfi2, hmp, heq⟩
        exact ⟨func2, mp, hfi2, mapLeV2_trans hmp hle, heq⟩
    · rw [storeIfChanged_some _ _ _ _ prev hprev] at hstep
      by_cases hchg : prev.facts =
          (computeFuncStateV2 func (calleesByCallsiteFor graph f) m).facts
      · rw [if_pos hchg] at hstep
        rcases Option.some.inj hstep with hm
        rw [Prod.mk.injEq] at hm
        rw [← hm.1]
        exact ⟨mapLeV2_refl m, hinv⟩
      · rw [if_neg hchg] at hstep
        rcases Option.some.inj hstep with hm
        rw [Prod.mk.injEq] at hm
        have hple : stateLeV2 prev
            (computeFuncStateV2 func (calleesByCallsiteFor graph f) m) := by
          rcases hinv f prev hprev with ⟨func2, mp, hfi2, hmp, heq⟩
          rw [hfi] at hfi2
          rcases Option.some.inj hfi2 with hfe
          rw [heq, ← hfe]
          exact computeFuncStateV2_mono func _ mp m hmp
        have hle : mapLeV2 m m' := by
          rw [← hm.1]
          refine mapLeV2_set m f _ ?_
          intro st0 h0
          rw [hprev] at h0
          rw [← Option.some.inj h0]
          exact hple
        refine ⟨hle, ?_⟩
        intro G st hG
        by_cases hgf : G = f
        · subst hgf
          rw [← hm.1, alistGet_alistSet_self] at hG
          exact ⟨func, m, hfi, hle, (Option.some.inj hG).symm⟩
        · rw [← hm.1, alistGet_alistSet_ne m f G _ hgf] at hG
          rcases hinv G st hG with ⟨func2, mp, hfi2, hmp, heq⟩
          exact ⟨func2, mp, hfi2, mapLeV2_trans hmp hle, heq⟩

theorem enqueueDeps_subset (nodes : List FuncIdP) :
    ∀ (ds inQ q : List FuncIdP) (inQ' q' : List FuncIdP),
      enqueueDeps nodes ds inQ q = some (inQ', q') →
      ∀ x ∈ q', x ∈ q ∨ x ∈ nodes := by
  intro ds
  induction ds with
  | nil =>
      intro inQ q inQ' q' h x hx
      rcases Option.some.inj h with he
      rw [Prod.mk.injEq] at he
      rw [← he.2] at hx
      exact Or.inl hx
  | cons d ds ih =>
      intro inQ q inQ' q' h x hx
      rw [enqueueDeps] at h
      by_cases hdn : d ∈ nodes
      · rw [if_pos hdn] at h
        by_cases hdq : d ∈ inQ
        · rw [if_pos hdq] at h
          exact ih inQ q inQ' q' h x hx
        · rw [if_neg hdq] at h
          rcases ih (inQ ++ [d]) (q ++ [d]) inQ' q' h x hx with h2 | h2
          · rcases List.mem_append.mp h2 with h3 | h3
            · exact Or.inl h3
            · rw [List.mem_singleton.mp h3]
              exact Or.inr hdn
          · exact Or.inr h2
      · rw [if_neg hdn] at h
        exact Option.noConfusion h

theorem enqueueDeps_length (nodes : List FuncIdP) :
    ∀ (ds inQ q : List FuncIdP) (inQ' q' : List FuncIdP),
      enqueueDeps nodes ds inQ q = some (inQ', q') →
      q'.length ≤ q.length + ds.length := by
  intro ds
  induction ds with
  | nil =>
      intro inQ q inQ' q' h
      rcases Option.some.inj h with he
      rw [Prod.mk.injEq] at he
      rw [← he.2]
      simp
  | cons d ds ih =>
      intro inQ q inQ' q' h
      rw [enqueueDeps] at h
      by_cases hdn : d ∈ nodes
      · rw [if_pos hdn] at h
        by_cases hdq : d ∈ inQ
        · rw [if_pos hdq] at h
          have := ih inQ q inQ' q' h
          simp only [List.length_cons]
          omega
        · rw [if_neg hdq] at h
          have := ih (inQ ++ [d]) (q ++ [d]) inQ' q' h
          simp only [List.length_append, List.length_singleton,
            List.length_cons, List.length_nil] at this ⊢
          omega
      · rw [if_neg hdn] at h
        exact Option.noConfusion h

theorem callersBound_le (graph : MappedCallGraphP) (n : FuncIdP) :
    ((alistGet graph.callersByCallee n).getD []).length ≤ callersBound graph := by
  rcases hg : alistGet graph.callersByCallee n with _ | l
  · simp [callersBound]
  · have hmem : (n, l) ∈ graph.callersByCallee :=
      alistGet_mem graph.callersByCallee n l hg
    have : l.length ∈ graph.callersByCallee.map (fun p => p.2.length) :=
      List.mem_map.mpr ⟨(n, l), hmem, rfl⟩
    calc ((some l).getD []).length = l.length := rfl
      _ ≤ callersBound graph := List.single_le_sum (fun x _ => Nat.zero_le x) _ this

theorem sum_le_of_pointwise {α : Type} (f g : α → Nat) :
    ∀ (l : List α), (∀ x ∈ l, f x ≤ g x) → (l.map f).sum ≤ (l.map g).sum := by
  intro l
  induction l with
  | nil => intro _; exact Nat.le_refl _
  | cons a l ih =>
      intro hle
      simp only [List.map_cons, List.sum_cons]
      have h1 := hle a (List.mem_cons_self _ _)
      have h2 := ih (fun x hx => hle x (List.mem_cons_of_mem _ hx))
      omega

theorem sum_lt_of_pointwise {α : Type} (f g : α → Nat) :
    ∀ (l : List α) (n : α), n ∈ l → (∀ x ∈ l, f x ≤ g x) → f n < g n →
      (l.map f).sum < (l.map g).sum := by
  intro l
  induction l with
  | nil => intro n hn; exact absurd hn (List.not_mem_nil n)
  | cons a l ih =>
      intro n hn hle hlt
      simp only [List.map_cons, List.sum_cons]
      rcases List.mem_cons.mp hn with h | h
      · have hsum : (l.map f).sum ≤ (l.map g).sum :=
          sum_le_of_pointwise f g l (fun x hx => hle x (List.mem_cons_of_mem _ hx))
        rw [h] at hlt
        omega
      · have hfa := hle a (List.mem_cons_self _ _)
        have := ih n h (fun x hx => hle x (List.mem_cons_of_mem _ hx)) hlt
        omega

theorem mapPropsOK_of_BndV2 (funcInputs : List (FuncIdP × FuncInputV2P))
    (m : List (FuncIdP × FuncStateV2P)) (h : BndV2 funcInputs m) :
    mapPropsOK (allBaseProps funcInputs) m := by
  intro G st hg
  rcases h G st hg with ⟨func, _, _, _, hp⟩
  exact hp

theorem adjProps_sub_allBase (funcInputs : List (FuncIdP × FuncInputV2P))
    (f : FuncIdP) (func : FuncInputV2P)
    (h : alistGet funcInputs f = some func) :
    ∀ q ∈ adjProps func.baseAdj, q ∈ allBaseProps funcInputs := by
  intro q hq
  exact List.mem_flatMap.mpr ⟨(f, func), alistGet_mem funcInputs f func h, hq⟩

theorem computeFuncStateV2_facts_sorted (func : FuncInputV2P)
    (cbc : List (CallsiteIdP × List FuncIdP))
    (m : List (FuncIdP × FuncStateV2P)) :
    List.Sorted (fun a b => cmpFlowFact a b ≠ Ordering.gt)
      (computeFuncStateV2 func cbc m).facts := by
  simp only [computeFuncStateV2]
  exact stableSortBy_sorted lawful_cmpFlowFact _

theorem slackOf_noInput (funcInputs : List (FuncIdP × FuncInputV2P))
    (m : List (FuncIdP × FuncStateV2P)) (G : FuncIdP)
    (h : alistGet funcInputs G = none) : slackOfV2 funcInputs m G = 0 := by
  rw [slackOfV2, h]

theorem slackOf_unstored (funcInputs : List (FuncIdP × FuncInputV2P))
    (m : List (FuncIdP × FuncStateV2P)) (G : FuncIdP) (func : FuncInputV2P)
    (hfi : alistGet funcInputs G = some func) (hm : alistGet m G = none) :
    slackOfV2 funcInputs m G =
      2 + (factUniverseV2 func (allBaseProps funcInputs)).length := by
  rw [slackOfV2, hfi, hm]

theorem slackOf_stored (funcInputs : List (FuncIdP × FuncInputV2P))
    (m : List (FuncIdP × FuncStateV2P)) (G : FuncIdP) (func : FuncInputV2P)
    (st : FuncStateV2P) (hfi : alistGet funcInputs G = some func)
    (hm : alistGet m G = some st) :
    slackOfV2 funcInputs m G =
      1 + (factUniverseV2 func (allBaseProps funcInputs)).length -
        st.facts.length := by
  rw [slackOfV2, hfi, hm]

theorem slackOf_set_ne (funcInputs : List (FuncIdP × FuncInputV2P))
    (m : List (FuncIdP × FuncStateV2P)) (n : FuncIdP) (next : FuncStateV2P)
    (G : FuncIdP) (h : G ≠ n) :
    slackOfV2 funcInputs (alistSet m n next) G = slackOfV2 funcInputs m G := by
  rw [slackOfV2, slackOfV2, alistGet_alistSet_ne m n G next h]

theorem slackOf_set_self_lt (funcInputs : List (FuncIdP × FuncInputV2P))
    (m : List (FuncIdP × FuncStateV2P)) (n : FuncIdP) (func : FuncInputV2P)
    (next : FuncStateV2P) (hfi : alistGet funcInputs n = some func)
    (hlen : next.facts.length ≤
      (factUniverseV2 func (allBaseProps funcInputs)).length)
    (hcase : alistGet m n = none ∨ ∃ prev, alistGet m n = some prev ∧
      prev.facts.length < next.facts.length) :
    slackOfV2 funcInputs (alistSet m n next) n < slackOfV2 funcInputs m n := by
  rcases hcase with h | ⟨prev, hp, hlt⟩
  · rw [slackOf_unstored funcInputs m n func hfi h,
      slackOf_stored funcInputs _ n func next hfi (alistGet_alistSet_self m n next)]
    omega
  · rw [slackOf_stored funcInputs m n func prev hfi hp,
      slackOf_stored funcInputs _ n func next hfi (alistGet_alistSet_self m n next)]
    omega

theorem totalSlack_set_lt (funcInputs : List (FuncIdP × FuncInputV2P))
    (m : List (FuncIdP × FuncStateV2P)) (n : FuncIdP) (next : FuncStateV2P)
    (nodes : List FuncIdP) (hn : n ∈ nodes)
    (hstrict : slackOfV2 funcInputs (alistSet m n next) n <
      slackOfV2 funcInputs m n) :
    totalSlackV2 funcInputs (alistSet m n next) nodes <
      totalSlackV2 funcInputs m nodes := by
  rw [totalSlackV2, totalSlackV2]
  refine sum_lt_of_pointwise _ _ _ n ((mem_dedupKeepFirst nodes n).mpr hn) ?_
    hstrict
  intro x hx
  by_cases hxn : x = n
  · rw [hxn]
    exact Nat.le_of_lt hstrict
  · rw [slackOf_set_ne funcInputs m n next x hxn]

theorem interprocStepV2_unchanged (graph : MappedCallGraphP)
    (funcInputs : List (FuncIdP × FuncInputV2P))
    (m : List (FuncIdP × FuncStateV2P)) (f : FuncIdP)
    (m' : List (FuncIdP × FuncStateV2P))
    (hstep : interprocStepV2 graph funcInputs m f = some (m', false)) :
    m' = m := by
  rcases hfi : alistGet funcInputs f with _ | func
  · rw [interprocStepV2_noInput graph funcInputs m f hfi] at hstep
    exact Option.noConfusion hstep
  · rw [interprocStepV2_input graph funcInputs m f func hfi] at hstep
    rcases hprev : alistGet m f with _ | prev
    · rw [storeIfChanged_none _ _ _ _ hprev] at hstep
      rcases Option.some.inj hstep with hm
      rw [Prod.mk.injEq] at hm
      exact absurd hm.2 (by decide)
    · rw [storeIfChanged_some _ _ _ _ prev hprev] at hstep
      by_cases hchg : prev.facts =
          (computeFuncStateV2 func (calleesByCallsiteFor graph f) m).facts
      · rw [if_pos hchg] at hstep
        rcases Option.some.inj hstep with hm
        rw [Prod.mk.injEq] at hm
        exact hm.1.symm
      · rw [if_neg hchg] at hstep
        rcases Option.some.inj hstep with hm
        rw [Prod.mk.injEq] at hm
        exact absurd hm.2 (by decide)

theorem interprocStepV2_changed (graph : MappedCallGraphP)
    (funcInputs : List (FuncIdP × FuncInputV2P))
    (m : List (FuncIdP × FuncStateV2P)) (f : FuncIdP)
    (m' : List (FuncIdP × FuncStateV2P))
    (hstep : interprocStepV2 graph funcInputs m f = some (m', true)) :
    ∃ func, alistGet funcInputs f = some func ∧
      m' = alistSet m f
        (computeFuncStateV2 func (calleesByCallsiteFor graph f) m) ∧
      (alistGet m f = none ∨ ∃ prev, alistGet m f = some prev ∧
        prev.facts ≠
          (computeFuncStateV2 func (calleesByCallsiteFor graph f) m).facts) := by
  rcases hfi : alistGet funcInputs f with _ | func
  · rw [interprocStepV2_noInput graph funcInputs m f hfi] at hstep
    exact Option.noConfusion hstep
  · rw [interprocStepV2_input graph funcInputs m f func hfi] at hstep
    rcases hprev : alistGet m f with _ | prev
    · rw [storeIfChanged_none _ _ _ _ hprev] at hstep
      rcases Option.some.inj hstep with hm
      rw [Prod.mk.injEq] at hm
      exact ⟨func, rfl, hm.1.symm, Or.inl rfl⟩
    · rw [storeIfChanged_some _ _ _ _ prev hprev] at hstep
      by_cases hchg : prev.facts =
          (computeFuncStateV2 func (calleesByCallsiteFor graph f) m).facts
      · rw [if_pos hchg] at hstep
        rcases Option.some.inj hstep with hm
        rw [Prod.mk.injEq] at hm
        exact absurd hm.2 (by decide)
      · rw [if_neg hchg] at hstep
        rcases Option.some.inj hstep with hm
        rw [Prod.mk.injEq] at hm
        exact ⟨func, rfl, hm.1.symm, Or.inr ⟨prev, rfl, hchg⟩⟩

theorem interprocStepV2_bnd (graph : MappedCallGraphP)
    (funcInputs : List (FuncIdP × FuncInputV2P))
    (m : List (FuncIdP × FuncStateV2P)) (f : FuncIdP)
    (m' : List (FuncIdP × FuncStateV2P)) (ch : Bool)
    (hbnd : BndV2 funcInputs m)
    (hstep : interprocStepV2 graph funcInputs m f = some (m', ch)) :
    BndV2 funcInputs m' := by
  cases ch
  · rw [interprocStepV2_unchanged graph funcInputs m f m' hstep]
    exact hbnd
  · rcases interprocStepV2_changed graph funcInputs m f m' hstep with
      ⟨func, hfi, hm, _⟩
    intro G st hG
    by_cases hgf : G = f
    · subst hgf
      rw [hm, alistGet_alistSet_self] at hG
      rcases Option.some.inj hG with hst
      refine ⟨func, hfi, ?_, ?_, ?_⟩
      · rw [← hst]
        exact computeFuncStateV2_facts_nodup func _ m
      · rw [← hst]
        exact fun x hx => computeFuncStateV2_facts_bound func _ m _
          (mapPropsOK_of_BndV2 funcInputs m hbnd) x hx
      · rw [← hst]
        exact computeFuncStateV2_props func _ m _
          (mapPropsOK_of_BndV2 funcInputs m hbnd)
          (adjProps_sub_allBase funcInputs G func hfi)
    · rw [hm, alistGet_alistSet_ne m f G _ hgf] at hG
      exact hbnd G st hG

theorem interprocStepV2_slack_lt (graph : MappedCallGraphP)
    (funcInputs : List (FuncIdP × FuncInputV2P))
    (m : List (FuncIdP × FuncStateV2P)) (f : FuncIdP)
    (m' : List (FuncIdP × FuncStateV2P))
    (hinv : InvV2 graph funcInputs m) (hbnd : BndV2 funcInputs m)
    (hf : f ∈ graph.nodes)
    (hstep : interprocStepV2 graph funcInputs m f = some (m', true)) :
    totalSlackV2 funcInputs m' graph.nodes <
      totalSlackV2 funcInputs m graph.nodes := by
  rcases interprocStepV2_changed graph funcInputs m f m' hstep with
    ⟨func, hfi, hm, hcase⟩
  have hlen : (computeFuncStateV2 func (calleesByCallsiteFor graph f) m).facts.length ≤
      (factUniverseV2 func (allBaseProps funcInputs)).length := by
    have hnodup := computeFuncStateV2_facts_nodup func
      (calleesByCallsiteFor graph f) m
    have hsub := computeFuncStateV2_facts_bound func
      (calleesByCallsiteFor graph f) m _ (mapPropsOK_of_BndV2 funcInputs m hbnd)
    exact (hnodup.subperm (fun x hx => hsub x hx)).length_le
  have hcase2 : alistGet m f = none ∨ ∃ prev, alistGet m f = some prev ∧
      prev.facts.length <
        (computeFuncStateV2 func (calleesByCallsiteFor graph f) m).facts.length := by
    rcases hcase with h | ⟨prev, hp, hne⟩
    · exact Or.inl h
    · refine Or.inr ⟨prev, hp, ?_⟩
      rcases hinv f prev hp with ⟨func2, mp, hfi2, hmp, heq⟩
      rw [hfi] at hfi2
      rcases Option.some.inj hfi2 with hfe
      refine sorted_nodup_ssub_length lawful_cmpFlowFact _ _ ?_ hne ?_ ?_ ?_ ?_
      · rw [heq, ← hfe]
        exact computeFuncStateV2_facts_mono func _ mp m hmp
      · rw [heq]
        exact computeFuncStateV2_facts_nodup func2 _ mp
      · exact computeFuncStateV2_facts_nodup func _ m
      · rw [heq]
        exact computeFuncStateV2_facts_sorted func2 _ mp
      · exact computeFuncStateV2_facts_sorted func _ m
  rw [hm]
  exact totalSlack_set_lt funcInputs m f _ graph.nodes hf
    (slackOf_set_self_lt funcInputs m f func _ hfi hlen hcase2)

theorem loopV2_terminates (graph : MappedCallGraphP)
    (funcInputs : List (FuncIdP × FuncInputV2P)) (maxSteps : Option Nat) :
    ∀ (N : Nat) (st : List (FuncIdP × FuncStateV2P))
      (queue inQ : List FuncIdP) (steps changed : Nat),
      InvV2 graph funcInputs st → BndV2 funcInputs st →
      (∀ n ∈ queue, n ∈ graph.nodes) →
      measureV2 graph funcInputs st queue ≤ N →
      (runFixpointLoop graph
        ⟨none, interprocStepV2 graph funcInputs, none, maxSteps⟩
        (N + 1) ⟨st, queue, inQ, steps, changed⟩).isSome = true := by
  intro N
  induction N with
  | zero =>
      intro st queue inQ steps changed hinv hbnd hq hM
      rcases queue with _ | ⟨n, rest⟩
      · rfl
      · exfalso
        rw [measureV2] at hM
        simp only [List.length_cons] at hM
        omega
  | succ N ih =>
      intro st queue inQ steps changed hinv hbnd hq hM
      rcases queue with _ | ⟨n, rest⟩
      · rfl
      · simp only [runFixpointLoop]
        revert ih
        by_cases hov : (match maxSteps with
          | some mx => decide (steps + 1 > mx)
          | none => false) = true
        · intro ih
          rw [if_pos hov]
          rfl
        · intro ih
          rw [if_neg hov]
          rcases hs : interprocStepV2 graph funcInputs st n with _ | ⟨st', ch⟩
          · rfl
          · cases ch
            · have hst' : st' = st :=
                interprocStepV2_unchanged graph funcInputs st n st' hs
              subst hst'
              refine ih st' rest (inQ.erase n) (steps + 1) changed hinv hbnd
                (fun x hx => hq x (List.mem_cons_of_mem _ hx)) ?_
              rw [measureV2] at hM ⊢
              simp only [List.length_cons] at hM
              omega
            · rcases henq : enqueueDeps graph.nodes
                  (stableSortBy cmpFuncId (fixpointDependents graph
                    ⟨none, interprocStepV2 graph funcInputs, none, maxSteps⟩ n))
                  (inQ.erase n) rest with _ | ⟨inQ2, q2⟩
              · rfl
              · have hmono := interprocStepV2_mono graph funcInputs st n st'
                  true hinv hs
                have hbnd' := interprocStepV2_bnd graph funcInputs st n st'
                  true hbnd hs
                have hslack := interprocStepV2_slack_lt graph funcInputs st n
                  st' hinv hbnd (hq n (List.mem_cons_self _ _)) hs
                refine ih st' q2 inQ2 (steps + 1) (changed + 1) hmono.2 hbnd'
                  ?_ ?_
                · intro x hx
                  rcases enqueueDeps_subset graph.nodes _ _ _ _ _ henq x hx with
                    h2 | h2
                  · exact hq x (List.mem_cons_of_mem _ h2)
                  · exact h2
                · have hdeps : fixpointDependents graph
                      ⟨none, interprocStepV2 graph funcInputs, none, maxSteps⟩ n =
                      (alistGet graph.callersByCallee n).getD [] := rfl
                  have hq2 : q2.length ≤ rest.length + callersBound graph := by
                    have h1 := enqueueDeps_length graph.nodes _ _ _ _ _ henq
                    have h2 : (stableSortBy cmpFuncId (fixpointDependents graph
                        ⟨none, interprocStepV2 graph funcInputs, none, maxSteps⟩
                        n)).length =
                        ((alistGet graph.callersByCallee n).getD []).length := by
                      rw [(stableSortBy_perm cmpFuncId _).length_eq, hdeps]
                    have h3 := callersBound_le graph n
                    omega
                  rw [measureV2] at hM ⊢
                  simp only [List.length_cons] at hM
                  have hmul : (totalSlackV2 funcInputs st' graph.nodes + 1) *
                      (callersBound graph + 1) ≤
                      totalSlackV2 funcInputs st graph.nodes *
                        (callersBound graph + 1) :=
                    Nat.mul_le_mul_right _ hslack
                  have hexp : (totalSlackV2 funcInputs st' graph.nodes + 1) *
                      (callersBound graph + 1) =
                      totalSlackV2 funcInputs st' graph.nodes *
                        (callersBound graph + 1) + (callersBound graph + 1) := by
                    rw [Nat.add_mul, Nat.one_mul]
                  omega

theorem fixpointV2_terminates (graph : MappedCallGraphP)
    (funcInputs : List (FuncIdP × FuncInputV2P)) (maxSteps : Option Nat) :
    ∃ fuel, (runDeterministicFixpoint graph
      ⟨none, interprocStepV2 graph funcInputs, none, maxSteps⟩
      [] fuel).isSome = true := by
  refine ⟨measureV2 graph funcInputs [] graph.nodes + 1, ?_⟩
  simp only [runDeterministicFixpoint]
  by_cases hbad : (match maxSteps with
    | some m => decide (m = 0 ∨ m > MAX_SAFE_INTEGER)
    | none => false) = true
  · rw [if_pos hbad]
    rfl
  · rw [if_neg hbad]
    have hinit : fixpointInitialQueue graph
        ⟨none, interprocStepV2 graph funcInputs, none, maxSteps⟩ =
        graph.nodes := rfl
    rw [hinit]
    have hall : graph.nodes.all (fun n => decide (n ∈ graph.nodes)) = true := by
      rw [List.all_eq_true]
      intro x hx
      exact decide_eq_true hx
    rw [if_pos hall]
    exact loopV2_terminates graph funcInputs maxSteps _ [] graph.nodes
      graph.nodes 0 0 (fun G st h => Option.noConfusion h)
      (fun G st h => Option.noConfusion h) (fun n hn => hn) (Nat.le_refl _)

theorem runInterprocV2_terminates (graph : MappedCallGraphP)
    (irByFuncId : List (FuncIdP × NormalizedFuncIRP))
    (summaryByFuncId : List (FuncIdP × List CheapDepEdgeP))
    (maxSteps : Option Nat) :
    ∃ fuel, (runInterprocPropagationV2 graph irByFuncId summaryByFuncId
      maxSteps fuel).isSome = true := by
  rcases hfi : funcInputsOfV2 graph irByFuncId summaryByFuncId with _ | funcInputs
  · refine ⟨0, ?_⟩
    simp only [runInterprocPropagationV2, hfi]
    rfl
  · rcases fixpointV2_terminates graph funcInputs maxSteps with ⟨fuel, hf⟩
    refine ⟨fuel, ?_⟩
    simp only [runInterprocPropagationV2, hfi]
    rcases hr : runDeterministicFixpoint graph
        ⟨none, interprocStepV2 graph funcInputs, none, maxSteps⟩ [] fuel with
      _ | r
    · rw [hr] at hf
      exact Bool.noConfusion hf
    · rcases r with e | p
      · rfl
      · rfl

/-- C2: in the v2 interprocedural fixpoint, every driver step grows the
per-function state map monotonically — every stored fact (and index and
effect) survives into the recomputed state, so each function's fact set
grows monotonically across successive recomputations — and for every
mapped call graph, IR map, summary map and `maxSteps` option the driver
terminates: some finite fuel makes `runInterprocPropagationV2` return
(a fixpoint result or a reported error) rather than run forever. -/
theorem interproc_v2_monotone_terminating :
    (∀ (graph : MappedCallGraphP)
        (funcInputs : List (FuncIdP × FuncInputV2P))
        (m : List (FuncIdP × FuncStateV2P)) (f : FuncIdP)
        (m' : List (FuncIdP × FuncStateV2P)) (ch : Bool),
      InvV2 graph funcInputs m →
      interprocStepV2 graph funcInputs m f = some (m', ch) →
      mapLeV2 m m' ∧ InvV2 graph funcInputs m') ∧
    (∀ (graph : MappedCallGraphP)
        (irByFuncId : List (FuncIdP × NormalizedFuncIRP))
        (summaryByFuncId : List (FuncIdP × List CheapDepEdgeP))
        (maxSteps : Option Nat),
      ∃ fuel, (runInterprocPropagationV2 graph irByFuncId summaryByFuncId
        maxSteps fuel).isSome = true) :=
  ⟨fun graph funcInputs m f m' ch hinv hstep =>
      interprocStepV2_mono graph funcInputs m f m' ch hinv hstep,
   fun graph irByFuncId summaryByFuncId maxSteps =>
      runInterprocV2_terminates graph irByFuncId summaryByFuncId maxSteps⟩

theorem interproc_v2_monotone_terminating_witness :
    (mapLeV2 [] [((⟨"t", 0, 10⟩ : FuncIdP),
        (⟨[], [], [], [], []⟩ : FuncStateV2P))] ∧
      InvV2 ⟨[⟨"t", 0, 10⟩], [], [], [], [], []⟩
        [(⟨"t", 0, 10⟩, ⟨⟨"t", 0, 10⟩, ⟨⟨"t", 0, 10⟩, [], [], []⟩, [], [], []⟩)]
        [(⟨"t", 0, 10⟩, ⟨[], [], [], [], []⟩)]) ∧
    ∃ fuel, (runInterprocPropagationV2 ⟨[⟨"t", 0, 10⟩], [], [], [], [], []⟩
      [(⟨"t", 0, 10⟩, ⟨⟨"t", 0, 10⟩, [], [], []⟩)]
      [(⟨"t", 0, 10⟩, [])] none fuel).isSome = true :=
  ⟨interproc_v2_monotone_terminating.1
      ⟨[⟨"t", 0, 10⟩], [], [], [], [], []⟩
      [(⟨"t", 0, 10⟩, ⟨⟨"t", 0, 10⟩, ⟨⟨"t", 0, 10⟩, [], [], []⟩, [], [], []⟩)]
      [] ⟨"t", 0, 10⟩
      [(⟨"t", 0, 10⟩, ⟨[], [], [], [], []⟩)] true
      (fun G st h => Option.noConfusion h) (by decide),
   interproc_v2_monotone_terminating.2
      ⟨[⟨"t", 0, 10⟩], [], [], [], [], []⟩
      [(⟨"t", 0, 10⟩, ⟨⟨"t", 0, 10⟩, [], [], []⟩)]
      [(⟨"t", 0, 10⟩, [])] none⟩
